import Mathlib

/-!
# brainfuck-compiler-plus: lexer, parser and code generator

A shallow embedding of the three packages of the repository
(`lexer/lexer.go`, `parser/parser.go`, `compiler/compiler.go`) together with
the properties of the specification that were checked against them.

Conventions of the embedding.

* A Go `string` is the list of its bytes (`List Nat`, every byte below 256).
  A `rune` is a natural number.  A string built rune by rune (a token
  literal) is kept as the list of its runes.
* `strings.Reader` is state: the string, the reading index and `prevRune`.
* A Go `panic` is the result `Outcome.panic`; a loop of the source is a
  recursive function with a fuel argument, and running out of fuel is the
  result `Outcome.timeout`, which is different from every result of the code.
* Line, column and repeat counters are Go `int`s.  Each of them is bounded by
  the byte length of the source, which is below `2 ^ 63`, so they are modelled
  by `Int` without wrap-around.  The code generator receives an arbitrary tree,
  so there `Repeat + 1` is wrapped to 64 bits.
* The `Debug` flag of the lexer only switches a trace print in `Parse`; it is
  left out.
* A tree has two types.  `AST` holds the trees whose pointers are all non-nil,
  as `Parse` builds them.  `GoAST` holds every finite value of type `*AST`: nil
  pointers, nil interfaces and nodes of other dynamic types included; `Compile`
  on such a value is `CompileGo`.
-/

namespace Bf

/-! ## Results of running code -/

/-- Result of running a piece of Go code: a value, a panic, or fuel exhausted. -/
inductive Outcome (α : Type) where
  | ok (a : α)
  | panic (msg : String)
  | timeout
deriving Repr, DecidableEq

/-! ## Package `unicode/utf8` of the Go standard library -/

/-- The constant `utf8.RuneError`, U+FFFD. -/
def RuneError : Nat := 0xFFFD

/-- The table `first` of package utf8 joined with `acceptRanges`: for a leading
byte, the size of the sequence it starts and the accepted range of the second
byte.  Size 1 is ASCII (`as`), size 0 is an invalid leading byte (`xx`). -/
def first (s0 : Nat) : Nat × Nat × Nat :=
  if s0 < 0x80 then (1, 0, 0)
  else if s0 < 0xC2 then (0, 0, 0)
  else if s0 < 0xE0 then (2, 0x80, 0xBF)
  else if s0 = 0xE0 then (3, 0xA0, 0xBF)
  else if s0 < 0xED then (3, 0x80, 0xBF)
  else if s0 = 0xED then (3, 0x80, 0x9F)
  else if s0 < 0xF0 then (3, 0x80, 0xBF)
  else if s0 = 0xF0 then (4, 0x90, 0xBF)
  else if s0 < 0xF4 then (4, 0x80, 0xBF)
  else if s0 = 0xF4 then (4, 0x80, 0x8F)
  else (0, 0, 0)

/-- The function `utf8.DecodeRuneInString`: the first rune of `s` and its width
in bytes; `(RuneError, 1)` for an ill-formed sequence, `(RuneError, 0)` for the
empty string. -/
def DecodeRuneInString (s : List Nat) : Nat × Nat :=
  match s with
  | [] => (RuneError, 0)
  | s0 :: _ =>
    match first s0 with
    | (1, _, _) => (s0, 1)
    | (0, _, _) => (RuneError, 1)
    | (sz, lo, hi) =>
      if s.length < sz then (RuneError, 1)
      else
        let s1 := s.getD 1 0
        if s1 < lo ∨ hi < s1 then (RuneError, 1)
        else if sz ≤ 2 then ((s0 % 32) * 64 + s1 % 64, 2)
        else
          let s2 := s.getD 2 0
          if s2 < 0x80 ∨ 0xBF < s2 then (RuneError, 1)
          else if sz ≤ 3 then ((s0 % 16) * 4096 + (s1 % 64) * 64 + s2 % 64, 3)
          else
            let s3 := s.getD 3 0
            if s3 < 0x80 ∨ 0xBF < s3 then (RuneError, 1)
            else ((s0 % 8) * 262144 + (s1 % 64) * 4096 + (s2 % 64) * 64 + s3 % 64, 4)

/-! ## Package `unicode` of the Go standard library -/

/-- The range tables `unicode.Letter`, `unicode.Digit` and `unicode.White_Space`
above Latin-1.  The tables themselves are data of the Go standard library; they
are a parameter of the embedding.  The replacement character U+FFFD belongs to
none of them (its category is So). -/
structure RangeTables where
  Letter : Nat → Bool
  Digit : Nat → Bool
  White_Space : Nat → Bool
  Letter_RuneError : Letter 0xFFFD = false
  Digit_RuneError : Digit 0xFFFD = false
  White_Space_RuneError : White_Space 0xFFFD = false

/-- Range tables with nothing above Latin-1. -/
def latin1Tables : RangeTables where
  Letter := fun _ => false
  Digit := fun _ => false
  White_Space := fun _ => false
  Letter_RuneError := rfl
  Digit_RuneError := rfl
  White_Space_RuneError := rfl

/-- The constant `unicode.MaxLatin1`. -/
def MaxLatin1 : Nat := 0xFF

/-- The letters of Latin-1: the entries of `unicode.properties` with `pLu` or
`pLl` set. -/
def latin1Letter (r : Nat) : Bool :=
  (0x41 ≤ r ∧ r ≤ 0x5A) ∨ (0x61 ≤ r ∧ r ≤ 0x7A) ∨ r = 0xAA ∨ r = 0xB5 ∨ r = 0xBA ∨
    (0xC0 ≤ r ∧ r ≤ 0xD6) ∨ (0xD8 ≤ r ∧ r ≤ 0xF6) ∨ (0xF8 ≤ r ∧ r ≤ 0xFF)

/-- The function `unicode.IsSpace`. -/
def IsSpace (T : RangeTables) (r : Nat) : Bool :=
  if r ≤ MaxLatin1 then
    r = 0x09 ∨ r = 0x0A ∨ r = 0x0B ∨ r = 0x0C ∨ r = 0x0D ∨ r = 0x20 ∨ r = 0x85 ∨ r = 0xA0
  else T.White_Space r

/-- The function `unicode.IsDigit`. -/
def IsDigit (T : RangeTables) (r : Nat) : Bool :=
  if r ≤ MaxLatin1 then 0x30 ≤ r ∧ r ≤ 0x39 else T.Digit r

/-- The function `unicode.IsLetter`. -/
def IsLetter (T : RangeTables) (r : Nat) : Bool :=
  if r ≤ MaxLatin1 then latin1Letter r else T.Letter r

/-! ## `strings.Reader` -/

/-- Errors of package `io`; `ReadRune` of a `strings.Reader` only ever returns
`io.EOF`. -/
inductive IoError where
  | EOF
  | other (msg : String)
deriving Repr, DecidableEq

/-- The type `strings.Reader`: the string, the current reading index and the
index of the previous rune (negative when the last operation was not
`ReadRune`). -/
structure Reader where
  s : List Nat
  i : Nat
  prevRune : Int
deriving Repr, DecidableEq

/-- The function `strings.NewReader`. -/
def NewReader (s : List Nat) : Reader := { s := s, i := 0, prevRune := -1 }

/-- The method `(*strings.Reader).ReadRune`. -/
def Reader.ReadRune (r : Reader) : Except IoError (Nat × Nat) × Reader :=
  if r.i ≥ r.s.length then (.error .EOF, { r with prevRune := -1 })
  else
    let c := r.s.getD r.i 0
    if c < 0x80 then (.ok (c, 1), { r with prevRune := r.i, i := r.i + 1 })
    else
      let d := DecodeRuneInString (r.s.drop r.i)
      (.ok d, { r with prevRune := r.i, i := r.i + d.2 })

/-- The method `(*strings.Reader).UnreadRune`: the error message, if any, and
the reader afterwards. -/
def Reader.UnreadRune (r : Reader) : Option String × Reader :=
  if r.i ≤ 0 then (some "strings.Reader.UnreadRune: at beginning of string", r)
  else if r.prevRune < 0 then
    (some "strings.Reader.UnreadRune: previous operation was not ReadRune", r)
  else (none, { r with i := r.prevRune.toNat, prevRune := -1 })

/-- The method `(*strings.Reader).Seek` with `whence = io.SeekCurrent`; the
lexer ignores what it returns.  A negative target position is an error and
leaves the index where it was. -/
def Reader.Seek (r : Reader) (offset : Int) : Reader :=
  let abs : Int := (r.i : Int) + offset
  if abs < 0 then { r with prevRune := -1 }
  else { r with prevRune := -1, i := abs.toNat }

/-! ## Package `lexer` -/

/-- The type `Token`, a Go `int`. -/
abbrev Token := Int

def EOF : Token := 0
def NUMBER : Token := 1
def NEXT_CELL : Token := 2
def PREVIOUS_CELL : Token := 3
def INCREMENT_CELL : Token := 4
def DECREMENT_CELL : Token := 5
def OUTPUT_CELL : Token := 6
def INPUT_CELL : Token := 7
def BRACKET_OPEN : Token := 8
def BRACKET_CLOSE : Token := 9

/-- The runes of a string constant of the source. -/
def runesOf (s : String) : List Nat := s.toList.map Char.toNat

/-- The table `tokensName`, as the list of its entries. -/
def tokensName : List (Token × String) :=
  [(EOF, "EOF"), (NUMBER, "NUMBER"), (NEXT_CELL, ">"), (PREVIOUS_CELL, "<"),
   (INCREMENT_CELL, "+"), (DECREMENT_CELL, "-"), (OUTPUT_CELL, "."), (INPUT_CELL, ","),
   (BRACKET_OPEN, "["), (BRACKET_CLOSE, "]")]

/-- The map `tokensIndex`, from a string (given by its runes) to its token. -/
def tokensIndex (symbol : List Nat) : Option Token :=
  (tokensName.find? (fun entry => decide (runesOf entry.2 = symbol))).map Prod.fst

structure Position where
  Line : Int
  Column : Int
deriving Repr, DecidableEq

structure Lexer where
  Position : Position
  Reader : Reader
deriving Repr, DecidableEq

def NewLexer (input : List Nat) : Lexer :=
  { Position := { Line := 0, Column := 0 }, Reader := NewReader input }

/-- Resets the position of the cursor. -/
def resetPosition (lexer : Lexer) : Lexer :=
  { lexer with Position := { Line := lexer.Position.Line + 1, Column := 0 } }

/-- Unreads the last rune read; panics when the reader refuses. -/
def backup (lexer : Lexer) : Outcome Lexer :=
  match lexer.Reader.UnreadRune with
  | (some unreadRuneError, _) =>
    .panic ("Error while trying to unread rune: " ++ unreadRuneError)
  | (none, reader) =>
    .ok { Position := { lexer.Position with Column := lexer.Position.Column - 1 },
          Reader := reader }

/-- The loop of `lexToken`.  The unicode function may use the reader (the one of
word mode does), so it receives the reader and returns it. -/
def lexToken (unicodeFunction : Reader → Nat → Outcome (Bool × Reader)) :
    Nat → Lexer → List Nat → Outcome (List Nat × Lexer)
  | 0, _, _ => .timeout
  | fuel + 1, lexer, literal =>
    match lexer.Reader.ReadRune with
    | (.error .EOF, reader) => .ok (literal, { lexer with Reader := reader })
    | (.error (.other readRuneError), _) =>
      .panic ("Error while trying to read rune: " ++ readRuneError)
    | (.ok (readRune, _), reader) =>
      let lexer : Lexer :=
        { Position := { lexer.Position with Column := lexer.Position.Column + 1 },
          Reader := reader }
      match unicodeFunction lexer.Reader readRune with
      | .panic msg => .panic msg
      | .timeout => .timeout
      | .ok (true, reader) =>
        lexToken unicodeFunction fuel { lexer with Reader := reader } (literal ++ [readRune])
      | .ok (false, reader) =>
        match backup { lexer with Reader := reader } with
        | .ok lexer => .ok (literal, lexer)
        | .panic msg => .panic msg
        | .timeout => .timeout

/-- The function literal given to `lexToken` for a comment: everything but the
newline. -/
def commentFunction (reader : Reader) (readRune : Nat) : Outcome (Bool × Reader) :=
  .ok (decide (readRune ≠ 10), reader)

/-- The function `unicode.IsDigit` given to `lexToken`. -/
def digitFunction (T : RangeTables) (reader : Reader) (readRune : Nat) :
    Outcome (Bool × Reader) :=
  .ok (IsDigit T readRune, reader)

/-- The function literal given to `lexToken` in word mode.  For a command symbol
it seeks two bytes back, reads the rune found there and answers whether that
rune is a letter; the deferred `ReadRune` then runs, its result ignored. -/
def wordFunction (T : RangeTables) (reader : Reader) (readRune : Nat) :
    Outcome (Bool × Reader) :=
  match tokensIndex [readRune] with
  | some _ =>
    let reader := reader.Seek (-2)
    match reader.ReadRune with
    | (.error .EOF, _) => .panic "Error while trying to read rune: EOF"
    | (.error (.other previousReadRuneError), _) =>
      .panic ("Error while trying to read rune: " ++ previousReadRuneError)
    | (.ok (previousReadRune, _), reader) =>
      .ok (IsLetter T previousReadRune, reader.ReadRune.2)
  | none => .ok (decide (readRune ≠ 10), reader)

/-- The loop of `Lex`.  Go leaves open whether `lexer.Position` in
`return lexer.Position, NUMBER, lexer.lexToken(unicode.IsDigit)` is read before
or after the call; the gc compiler reads it after the call, and so does this
definition. -/
def lexLoop (T : RangeTables) :
    Nat → Lexer → Outcome ((Position × Token × List Nat) × Lexer)
  | 0, _ => .timeout
  | fuel + 1, lexer =>
    match lexer.Reader.ReadRune with
    | (.error .EOF, reader) => .ok ((lexer.Position, EOF, [10]), { lexer with Reader := reader })
    | (.error (.other readRuneError), _) =>
      .panic ("Error while trying to read rune: " ++ readRuneError)
    | (.ok (readRune, _), reader) =>
      let lexer : Lexer :=
        { Position := { lexer.Position with Column := lexer.Position.Column + 1 },
          Reader := reader }
      if readRune = 10 then lexLoop T fuel (resetPosition lexer)
      else if readRune = 35 then
        match lexToken commentFunction (lexer.Reader.s.length + 1) lexer [] with
        | .ok (_, lexer) => lexLoop T fuel lexer
        | .panic msg => .panic msg
        | .timeout => .timeout
      else if readRune = 62 ∨ readRune = 60 ∨ readRune = 43 ∨ readRune = 45 ∨
          readRune = 46 ∨ readRune = 44 ∨ readRune = 91 ∨ readRune = 93 then
        .ok ((lexer.Position, (tokensIndex [readRune]).getD 0, [readRune]), lexer)
      else if IsSpace T readRune then lexLoop T fuel lexer
      else if IsDigit T readRune then
        match backup lexer with
        | .panic msg => .panic msg
        | .timeout => .timeout
        | .ok lexer =>
          match lexToken (digitFunction T) (lexer.Reader.s.length + 1) lexer [] with
          | .ok (literal, lexer) => .ok ((lexer.Position, NUMBER, literal), lexer)
          | .panic msg => .panic msg
          | .timeout => .timeout
      else if IsLetter T readRune then
        match lexToken (wordFunction T) (lexer.Reader.s.length + 1) lexer [] with
        | .ok (_, lexer) => lexLoop T fuel lexer
        | .panic msg => .panic msg
        | .timeout => .timeout
      else lexLoop T fuel lexer

/-- Read and scan the input for the next rune, assigning it a token if possible.
Every turn of the loop reads at least one byte, so the length of the input plus
one is fuel enough. -/
def Lex (T : RangeTables) (lexer : Lexer) :
    Outcome ((Position × Token × List Nat) × Lexer) :=
  lexLoop T (lexer.Reader.s.length + 1) lexer

/-- The tokens read by calling `Lex` until it returns `EOF`, the final `EOF`
token included. -/
def lexAll (T : RangeTables) : Nat → Lexer → Outcome (List (Position × Token × List Nat))
  | 0, _ => .timeout
  | fuel + 1, lexer =>
    match Lex T lexer with
    | .panic msg => .panic msg
    | .timeout => .timeout
    | .ok ((position, token, symbol), lexer) =>
      if token = EOF then .ok [(position, token, symbol)]
      else
        match lexAll T fuel lexer with
        | .ok rest => .ok ((position, token, symbol) :: rest)
        | .panic msg => .panic msg
        | .timeout => .timeout

/-- The token stream of a source text. -/
def tokens (T : RangeTables) (input : List Nat) : Outcome (List (Position × Token × List Nat)) :=
  lexAll T (input.length + 1) (NewLexer input)

/-! ## Package `strconv` of the Go standard library -/

/-- The function `strconv.Atoi` on a string given by its runes: an optional
sign, then one or more ASCII digits, and the value has to fit a 64-bit `int`.
A rune that is not ASCII is encoded in bytes above 127, never a digit or a
sign, so the test on runes is the test on bytes. -/
def Atoi (s : List Nat) : Option Int :=
  let neg : Bool := s.head? = some 45
  let digits : List Nat := if s.head? = some 43 ∨ s.head? = some 45 then s.tail else s
  if digits = [] ∨ ¬ digits.all (fun d => decide (48 ≤ d ∧ d ≤ 57)) then none
  else
    let n : Int := ((digits.foldl (fun acc d => acc * 10 + (d - 48)) 0 : Nat) : Int)
    let v : Int := if neg then -n else n
    if -(2 : Int) ^ 63 ≤ v ∧ v < (2 : Int) ^ 63 then some v else none

/-! ## Package `parser` -/

/-- The type `Production`, a Go `int`. -/
abbrev Production := Int

def NODE_INTEGER_LITERAL : Production := 0
def NODE_NEXT_CELL : Production := 1
def NODE_PREVIOUS_CELL : Production := 2
def NODE_INCREMENT_CELL : Production := 3
def NODE_DECREMENT_CELL : Production := 4
def NODE_OUTPUT_CELL : Production := 5
def NODE_INPUT_CELL : Production := 6
def NODE_WHILE : Production := 7

structure Node where
  Repeat : Int
  NodeType : Production
deriving Repr, DecidableEq

mutual
/-- The struct `AST`; its nodes are the pointers to node structs that `Parse`
stores in `Nodes []interface{}`. -/
inductive AST where
  | mk (Nodes : List ASTNode)
/-- A pointer to one of the node structs `IntegerLiteral`, `NextCell`,
`PreviousCell`, `IncrementCell`, `DecrementCell`, `OutputCell`, `InputCell`,
`NodeWhile`.  The embedded struct `Node` is the field `node`; the `Tree` of a
`NodeWhile` is a tree, not nil. -/
inductive ASTNode where
  | IntegerLiteral (Value : Int) (node : Node)
  | NextCell (node : Node)
  | PreviousCell (node : Node)
  | IncrementCell (node : Node)
  | DecrementCell (node : Node)
  | OutputCell (node : Node)
  | InputCell (node : Node)
  | NodeWhile (Tree : AST) (node : Node)
end

def AST.Nodes : AST → List ASTNode
  | .mk nodes => nodes

/-- The values of `reflect.Type` that the parser handles: the pointer types of
the node structs. -/
inductive ReflectType where
  | PtrIntegerLiteral
  | PtrNextCell
  | PtrPreviousCell
  | PtrIncrementCell
  | PtrDecrementCell
  | PtrOutputCell
  | PtrInputCell
  | PtrNodeWhile
deriving Repr, DecidableEq

/-- The function `reflect.TypeOf` on a node. -/
def TypeOf : ASTNode → ReflectType
  | .IntegerLiteral _ _ => .PtrIntegerLiteral
  | .NextCell _ => .PtrNextCell
  | .PreviousCell _ => .PtrPreviousCell
  | .IncrementCell _ => .PtrIncrementCell
  | .DecrementCell _ => .PtrDecrementCell
  | .OutputCell _ => .PtrOutputCell
  | .InputCell _ => .PtrInputCell
  | .NodeWhile _ _ => .PtrNodeWhile

/-- The function returned by `nodeIncrementer`: it adds one to the field
`Node.Repeat` of the node, found by reflection. -/
def nodeIncrementer (_nodeType : ReflectType) (node : ASTNode) : ASTNode :=
  match node with
  | .IntegerLiteral v n => .IntegerLiteral v { n with Repeat := n.Repeat + 1 }
  | .NextCell n => .NextCell { n with Repeat := n.Repeat + 1 }
  | .PreviousCell n => .PreviousCell { n with Repeat := n.Repeat + 1 }
  | .IncrementCell n => .IncrementCell { n with Repeat := n.Repeat + 1 }
  | .DecrementCell n => .DecrementCell { n with Repeat := n.Repeat + 1 }
  | .OutputCell n => .OutputCell { n with Repeat := n.Repeat + 1 }
  | .InputCell n => .InputCell { n with Repeat := n.Repeat + 1 }
  | .NodeWhile t n => .NodeWhile t { n with Repeat := n.Repeat + 1 }

/-- The map `nodesTokensTypes`. -/
def nodesTokensTypes (token : Token) : Option ReflectType :=
  if token = NEXT_CELL then some .PtrNextCell
  else if token = PREVIOUS_CELL then some .PtrPreviousCell
  else if token = INCREMENT_CELL then some .PtrIncrementCell
  else if token = DECREMENT_CELL then some .PtrDecrementCell
  else none

/-- The map `repeatableTokens`. -/
def repeatableTokens (nodeType : ReflectType) : Option (ASTNode → ASTNode) :=
  match nodeType with
  | .PtrNextCell => some (nodeIncrementer .PtrNextCell)
  | .PtrPreviousCell => some (nodeIncrementer .PtrPreviousCell)
  | .PtrIncrementCell => some (nodeIncrementer .PtrIncrementCell)
  | .PtrDecrementCell => some (nodeIncrementer .PtrDecrementCell)
  | _ => none

/-- The errors that `Parse` builds with `fmt.Errorf`, each with the values
given to its format. -/
inductive ParseError where
  | unmatchedOpen (line column : Int)
  | unmatchedClose (line column : Int)
  | invalidNumber (symbol : List Nat) (line column : Int)
  | unhandledToken (token : Token) (line column : Int)
deriving Repr, DecidableEq

/-- The verb `%d` of package fmt on an integer. -/
def formatInt (n : Int) : String :=
  if n < 0 then "-" ++ Nat.repr n.natAbs else Nat.repr n.natAbs

/-- The text of an error of `Parse`. -/
def ParseError.Error : ParseError → String
  | .unmatchedOpen line column =>
    "unmatched [ at " ++ formatInt line ++ ":" ++ formatInt column
  | .unmatchedClose line column =>
    "encountered unmatched ] at " ++ formatInt line ++ ":" ++ formatInt column
  | .invalidNumber symbol line column =>
    "encountered invalid number " ++ String.mk (symbol.map Char.ofNat) ++ " at " ++
      formatInt line ++ ":" ++ formatInt column
  | .unhandledToken token line column =>
    "encountered unhandled token " ++
      ((tokensName.find? (fun entry => decide (entry.1 = token))).map Prod.snd).getD "" ++
      " at " ++ formatInt line ++ ":" ++ formatInt column

/-- The check at the head of the loop of `Parse`: when the last node of the
tree has the type that `nodesTokensTypes` gives for the token, and that type is
repeatable, the repeat count of the last node is incremented and the loop
continues (`some`); otherwise the token goes to the switch (`none`). -/
def foldRepeat (token : Token) (nodes : List ASTNode) : Option (List ASTNode) :=
  if nodes.length > 0 then
    match nodesTokensTypes token with
    | some tokenType =>
      match repeatableTokens tokenType with
      | some tokenIncrementer =>
        match nodes.getLast? with
        | some last =>
          if TypeOf last = tokenType then some (nodes.dropLast ++ [tokenIncrementer last])
          else none
        | none => none
      | none => none
    | none => none
  else none

/-- The loop of `Parse`, with the nodes of `tree` so far as an argument.  A
result with an error is Go's `(nil, -1, err)`; a result without error is the
tree and the last token, which is `BRACKET_CLOSE` or `-1`. -/
def parseLoop (T : RangeTables) :
    Nat → Lexer → Option ReflectType → List ASTNode →
      Outcome (Except ParseError (AST × Token) × Lexer)
  | 0, _, _, _ => .timeout
  | fuel + 1, sourceLexer, blockType, nodes =>
    match Lex T sourceLexer with
    | .panic msg => .panic msg
    | .timeout => .timeout
    | .ok ((position, token, symbol), sourceLexer) =>
      if token = EOF then .ok (.ok (.mk nodes, -1), sourceLexer)
      else
        match foldRepeat token nodes with
        | some nodes => parseLoop T fuel sourceLexer blockType nodes
        | none =>
          if token = BRACKET_OPEN then
            match parseLoop T fuel sourceLexer (some .PtrNodeWhile) [] with
            | .panic msg => .panic msg
            | .timeout => .timeout
            | .ok (.error ok, sourceLexer) => .ok (.error ok, sourceLexer)
            | .ok (.ok (subTree, lastSubTreeToken), sourceLexer) =>
              if lastSubTreeToken ≠ BRACKET_CLOSE then
                .ok (.error (.unmatchedOpen (position.Line + 1) position.Column), sourceLexer)
              else
                parseLoop T fuel sourceLexer blockType
                  (nodes ++ [.NodeWhile subTree { Repeat := 0, NodeType := NODE_WHILE }])
          else if token = BRACKET_CLOSE then
            if blockType = some .PtrNodeWhile then
              .ok (.ok (.mk nodes, BRACKET_CLOSE), sourceLexer)
            else
              .ok (.error (.unmatchedClose (position.Line + 1) position.Column), sourceLexer)
          else if token = NUMBER then
            match Atoi symbol with
            | some number =>
              parseLoop T fuel sourceLexer blockType
                (nodes ++ [.IntegerLiteral number { Repeat := 0, NodeType := NODE_INTEGER_LITERAL }])
            | none =>
              .ok (.error (.invalidNumber symbol (position.Line + 1) position.Column),
                sourceLexer)
          else if token = NEXT_CELL then
            parseLoop T fuel sourceLexer blockType
              (nodes ++ [.NextCell { Repeat := 0, NodeType := NODE_NEXT_CELL }])
          else if token = PREVIOUS_CELL then
            parseLoop T fuel sourceLexer blockType
              (nodes ++ [.PreviousCell { Repeat := 0, NodeType := NODE_PREVIOUS_CELL }])
          else if token = INCREMENT_CELL then
            parseLoop T fuel sourceLexer blockType
              (nodes ++ [.IncrementCell { Repeat := 0, NodeType := NODE_INCREMENT_CELL }])
          else if token = DECREMENT_CELL then
            parseLoop T fuel sourceLexer blockType
              (nodes ++ [.DecrementCell { Repeat := 0, NodeType := NODE_DECREMENT_CELL }])
          else if token = INPUT_CELL then
            parseLoop T fuel sourceLexer blockType
              (nodes ++ [.InputCell { Repeat := 0, NodeType := NODE_INPUT_CELL }])
          else if token = OUTPUT_CELL then
            parseLoop T fuel sourceLexer blockType
              (nodes ++ [.OutputCell { Repeat := 0, NodeType := NODE_OUTPUT_CELL }])
          else
            .ok (.error (.unhandledToken token (position.Line + 1) position.Column),
              sourceLexer)

/-- Parse a sequence of tokens of the current block and produce an abstract
tree.  Every turn of the loop and every nested call reads a token, so the
number of tokens plus one is fuel enough. -/
def Parse (T : RangeTables) (fuel : Nat) (sourceLexer : Lexer)
    (blockType : Option ReflectType) : Outcome (Except ParseError (AST × Token) × Lexer) :=
  parseLoop T fuel sourceLexer blockType []

/-- What `main` does with a source text: `Parse(lexer.NewLexer(source), nil)`,
the lexer afterwards left out. -/
def parseSource (T : RangeTables) (fuel : Nat) (source : List Nat) :
    Outcome (Except ParseError (AST × Token)) :=
  match Parse T fuel (NewLexer source) none with
  | .ok (result, _) => .ok result
  | .panic msg => .panic msg
  | .timeout => .timeout

/-! ## Package `compiler` -/

def programHeader : String :=
  "\nsegment .bss\n\ttape \t\t\tresq 30000\t; Define uninitialized memory for the tape array\n\tcell_pointer \tresq 1\t\t; Assign one byte for the cell pointer\n\tprint_buffer\tresb 1\t\t; 1 byte buffer for the print result\n\tread_buffer\t\tresb 1\t\t; 1 byte buffer for the read syscall output\n\nsection .data\n\tlinefeed \t\tdb 0x0A\t\t; ASCII character 10, a line break\n\nsegment .text\nglobal _start\n\n; Used to print the cell that cell_pointer points to\nprint_cell:\n\tmov rbx, [cell_pointer]\t; Load cell_pointer into rbx\n\tmov rax, [tape+rbx*8]\t; Load the value of tape[cell_pointer] into rax\n\t\n\tsub rax, 48\t\t\t\t; 48 is the code for \"0\", where it was starting at\n\tcmp rax, 10\t\t\t\t; Checks if the entered character code is a linefeed\n\t\n\tje .is_linefeed\n\tjmp .is_not_linefeed\n\n.is_linefeed\n\tmov al, [linefeed]\t\t; Move the linefeed byte representation into al\n\tmov [print_buffer], al \t; Move al into the buffer\n\n.is_not_linefeed\n\tadd al, '0'\t\t\t\t; Convert to ASCII\n\tmov [print_buffer], al\t; Move the result to the buffer\n\n.perform_print\n\t; Perform the syscall\n\tmov rax, 1\n\tmov rdi, 1\n\tmov rsi, print_buffer\n\tmov rdx, 1\n\tsyscall\n\n\tret\n\n; Read the output and saves it to the cell that cell_pointer points to\ninput_cell:\n\t; Perform the syscall\n\tmov rax, 0\n\tmov rdi, 0\n\tmov rsi, read_buffer\n\tmov rdx, 1\n\tsyscall\n\n\t; Save the entered character\n\tmov rbx, [cell_pointer]\t; Load the cell pointer into rbx\n\tmov al, [read_buffer]\t; Load the read result into al\n\tmov [tape+rbx*8], al\t; Move the buffer into the index tape[cell_pointer]\n\n\tret\n\n_start:\n"

/-- A 64-bit two's complement integer from an integer. -/
def wrapInt64 (x : Int) : Int := (x + 2 ^ 63) % 2 ^ 64 - 2 ^ 63

mutual
/-- Internal function used to compile a sequence of nodes into assembly: the
text in the buffer afterwards and the counter `*offset` afterwards. -/
def compile : AST → Nat → String → Except String (String × Nat)
  | .mk nodes, offset, instructions => compileNodes nodes offset instructions
/-- The loop of `compile` over the nodes. -/
def compileNodes : List ASTNode → Nat → String → Except String (String × Nat)
  | [], offset, instructions => .ok (instructions, offset)
  | .NextCell assertedNode :: rest, offset, instructions =>
    compileNodes rest (offset + 1)
      (instructions ++ "    ; -- Next Cell -- ;\n" ++
        "    mov rbx, [cell_pointer]\n" ++
        ("    add rbx, " ++ formatInt (wrapInt64 (assertedNode.Repeat + 1)) ++ "\n") ++
        "    mov [cell_pointer], rbx\n")
  | .PreviousCell assertedNode :: rest, offset, instructions =>
    compileNodes rest (offset + 1)
      (instructions ++ "    ; -- Previous Cell -- ;\n" ++
        "    mov rbx, [cell_pointer]\n" ++
        ("    sub rbx, " ++ formatInt (wrapInt64 (assertedNode.Repeat + 1)) ++ "\n") ++
        "    mov [cell_pointer], rbx\n")
  | .IncrementCell assertedNode :: rest, offset, instructions =>
    compileNodes rest (offset + 1)
      (instructions ++ "    ; -- Increment -- ;\n" ++
        "    mov rbx, [cell_pointer]\n" ++
        "    mov rax, [tape+rbx*8]\n" ++
        ("    add rax, " ++ formatInt (wrapInt64 (assertedNode.Repeat + 1)) ++ "\n") ++
        "    mov [tape+rbx*8], rax\n")
  | .DecrementCell assertedNode :: rest, offset, instructions =>
    compileNodes rest (offset + 1)
      (instructions ++ "    ; -- Decrement -- ;\n" ++
        "    mov rbx, [cell_pointer]\n" ++
        "    mov rax, [tape+rbx*8]\n" ++
        ("    sub rax, " ++ formatInt (wrapInt64 (assertedNode.Repeat + 1)) ++ "\n") ++
        "    mov [tape+rbx*8], rax\n")
  | .OutputCell _ :: rest, offset, instructions =>
    compileNodes rest (offset + 1)
      (instructions ++ "    ; -- Output -- ;\n" ++ "    call print_cell\n")
  | .InputCell _ :: rest, offset, instructions =>
    compileNodes rest (offset + 1)
      (instructions ++ "    ; -- Input -- ;\n" ++ "    call input_cell\n")
  | .NodeWhile tree _ :: rest, offset, instructions =>
    let whileOffset : Int := ((offset + 1 : Nat) : Int)
    let instructions := instructions ++ "    ; -- While -- ;\n" ++
      ("while_" ++ formatInt whileOffset ++ ":\n") ++
      "    mov rbx, [cell_pointer]\n" ++
      "    mov rax, [tape+rbx*8]\n" ++
      "    cmp rax, 0\n" ++
      ("    jnz while_" ++ formatInt whileOffset ++ ".not_zero\n") ++
      ("    jmp while_" ++ formatInt whileOffset ++ ".done\n") ++
      ("while_" ++ formatInt whileOffset ++ ".not_zero\n") ++
      "    ; -- While Begin -- ;\n"
    match compile tree (offset + 1) "" with
    | .ok (bytes, offset) =>
      compileNodes rest offset
        (instructions ++ bytes ++ "    ; -- While End -- ;\n" ++
          ("    jmp while_" ++ formatInt whileOffset ++ "\n") ++
          ("while_" ++ formatInt whileOffset ++ ".done\n"))
    | .error ok => .error ("error while trying to compile while block: " ++ ok)
  | .IntegerLiteral _ _ :: rest, offset, instructions =>
    compileNodes rest (offset + 1) instructions
end

/-- The text written by `Compile` after the nodes. -/
def programFooter : String :=
  "    ; -- New Line -- ;\n" ++
  "    mov rax, 1\n" ++
  "    mov rdi, 1\n" ++
  "    mov rsi, linefeed\n" ++
  "    mov rdx, 1\n" ++
  "    syscall\n" ++
  "    ; -- Exit -- ;\n" ++
  "    mov rax, 60\n" ++
  "    xor rdi, rdi\n" ++
  "    syscall\n"

/-- External function used to compile a sequence of nodes into assembly. -/
def Compile (ast : AST) : Except String String :=
  match compile ast 0 programHeader with
  | .error ok => .error ok
  | .ok (instructions, _) => .ok (instructions ++ programFooter)

/-! ## Definitions used to state and prove the properties of the parser -/

/-- A command character of the language. -/
def isCommand (c : Nat) : Prop :=
  c = 62 ∨ c = 60 ∨ c = 43 ∨ c = 45 ∨ c = 46 ∨ c = 44 ∨ c = 91 ∨ c = 93

instance (c : Nat) : Decidable (isCommand c) := by unfold isCommand; infer_instance

/-- A character of a plain source: a command character, a space or a newline. -/
def isPlain (c : Nat) : Prop := isCommand c ∨ c = 32 ∨ c = 10

instance (c : Nat) : Decidable (isPlain c) := by unfold isPlain; infer_instance

/-- The token of a command character. -/
def commandToken (c : Nat) : Token := (tokensIndex [c]).getD 0

/-- What `Lex` returns on a plain rest of the input, by recursion on that rest. -/
def lexPlain (s : List Nat) :
    List Nat → Nat → Int → Int → Outcome ((Position × Token × List Nat) × Lexer)
  | [], i, line, column =>
    .ok (({ Line := line, Column := column }, EOF, [10]),
      { Position := { Line := line, Column := column },
        Reader := { s := s, i := i, prevRune := -1 } })
  | c :: cs, i, line, column =>
    if c = 10 then lexPlain s cs (i + 1) (line + 1) 0
    else if c = 32 then lexPlain s cs (i + 1) line (column + 1)
    else
      .ok (({ Line := line, Column := column + 1 }, commandToken c, [c]),
        { Position := { Line := line, Column := column + 1 },
          Reader := { s := s, i := i + 1, prevRune := i } })

/-- A token as `Lex` returns it: position, kind, literal. -/
abbrev Tok := Position × Token × List Nat

/-- The tokens that successive calls of `Lex` return from a lexer state, up to
the end of input, the final `EOF` left out. -/
inductive Stream (T : RangeTables) : Lexer → List Tok → Prop where
  | eof {L L1 : Lexer} {p : Position} {sym : List Nat} :
      Lex T L = .ok ((p, EOF, sym), L1) → Stream T L []
  | cons {L L1 : Lexer} {p : Position} {t : Token} {sym : List Nat} {ts : List Tok} :
      Lex T L = .ok ((p, t, sym), L1) → t ≠ EOF → Stream T L1 ts →
      Stream T L ((p, t, sym) :: ts)

/-- What one turn of the loop of `Parse` does with a token that is not `EOF`. -/
inductive Action where
  | goOn (nodes : List ASTNode)
  | enter
  | leave
  | fail (e : ParseError)

/-- The turn of the loop of `Parse` for a token, given the nodes so far. -/
def action (position : Position) (token : Token) (symbol : List Nat) (nodes : List ASTNode) :
    Action :=
  match foldRepeat token nodes with
  | some nodes => .goOn nodes
  | none =>
    if token = BRACKET_OPEN then .enter
    else if token = BRACKET_CLOSE then .leave
    else if token = NUMBER then
      match Atoi symbol with
      | some number =>
        .goOn (nodes ++ [.IntegerLiteral number { Repeat := 0, NodeType := NODE_INTEGER_LITERAL }])
      | none => .fail (.invalidNumber symbol (position.Line + 1) position.Column)
    else if token = NEXT_CELL then
      .goOn (nodes ++ [.NextCell { Repeat := 0, NodeType := NODE_NEXT_CELL }])
    else if token = PREVIOUS_CELL then
      .goOn (nodes ++ [.PreviousCell { Repeat := 0, NodeType := NODE_PREVIOUS_CELL }])
    else if token = INCREMENT_CELL then
      .goOn (nodes ++ [.IncrementCell { Repeat := 0, NodeType := NODE_INCREMENT_CELL }])
    else if token = DECREMENT_CELL then
      .goOn (nodes ++ [.DecrementCell { Repeat := 0, NodeType := NODE_DECREMENT_CELL }])
    else if token = INPUT_CELL then
      .goOn (nodes ++ [.InputCell { Repeat := 0, NodeType := NODE_INPUT_CELL }])
    else if token = OUTPUT_CELL then
      .goOn (nodes ++ [.OutputCell { Repeat := 0, NodeType := NODE_OUTPUT_CELL }])
    else .fail (.unhandledToken token (position.Line + 1) position.Column)

/-- An open bracket waiting for its close: where it stands and the nodes of the
enclosing block read before it. -/
structure Frame where
  position : Position
  nodes : List ASTNode

/-- One call of `Parse` on a list of tokens, the nested calls kept as a stack of
frames (innermost first): the result of the call and the tokens left. -/
def run : List Tok → List Frame → Option ReflectType → List ASTNode →
    Except ParseError (AST × Token) × List Tok
  | [], [], _, nodes => (.ok (.mk nodes, -1), [])
  | [], f :: _, _, _ => (.error (.unmatchedOpen (f.position.Line + 1) f.position.Column), [])
  | (position, token, symbol) :: ts, stack, blockType, nodes =>
    match action position token symbol nodes with
    | .goOn nodes1 => run ts stack blockType nodes1
    | .enter => run ts ({ position := position, nodes := nodes } :: stack) blockType []
    | .leave =>
      match stack with
      | f :: stack =>
        run ts stack blockType
          (f.nodes ++ [.NodeWhile (.mk nodes) { Repeat := 0, NodeType := NODE_WHILE }])
      | [] =>
        if blockType = some .PtrNodeWhile then (.ok (.mk nodes, BRACKET_CLOSE), ts)
        else (.error (.unmatchedClose (position.Line + 1) position.Column), ts)
    | .fail e => (.error e, ts)

/-- What the caller of a nested `Parse` does with its result. -/
def afterNested (f : Frame) (blockType : Option ReflectType)
    (r : Except ParseError (AST × Token) × List Tok) :
    Except ParseError (AST × Token) × List Tok :=
  match r with
  | (.error e, rest) => (.error e, rest)
  | (.ok (subTree, lastSubTreeToken), rest) =>
    if lastSubTreeToken ≠ BRACKET_CLOSE then
      (.error (.unmatchedOpen (f.position.Line + 1) f.position.Column), rest)
    else
      run rest [] blockType
        (f.nodes ++ [.NodeWhile subTree { Repeat := 0, NodeType := NODE_WHILE }])

/-- The tokens of a plain text read from a given line and column. -/
def plainTokens : List Nat → Int → Int → List Tok
  | [], _, _ => []
  | c :: cs, line, column =>
    if c = 10 then plainTokens cs (line + 1) 0
    else if c = 32 then plainTokens cs line (column + 1)
    else ({ Line := line, Column := column + 1 }, commandToken c, [c]) ::
      plainTokens cs line (column + 1)

/-- The node that the switch of `Parse` appends for a command character other
than a bracket. -/
def freshNode (c : Nat) : ASTNode :=
  if c = 62 then .NextCell { Repeat := 0, NodeType := NODE_NEXT_CELL }
  else if c = 60 then .PreviousCell { Repeat := 0, NodeType := NODE_PREVIOUS_CELL }
  else if c = 43 then .IncrementCell { Repeat := 0, NodeType := NODE_INCREMENT_CELL }
  else if c = 45 then .DecrementCell { Repeat := 0, NodeType := NODE_DECREMENT_CELL }
  else if c = 44 then .InputCell { Repeat := 0, NodeType := NODE_INPUT_CELL }
  else .OutputCell { Repeat := 0, NodeType := NODE_OUTPUT_CELL }

/-- The nodes after a command character other than a bracket: folded into the
last node when `foldRepeat` says so, appended as a fresh node otherwise. -/
def pushChar (c : Nat) (nodes : List ASTNode) : List ASTNode :=
  match foldRepeat (commandToken c) nodes with
  | some nodes1 => nodes1
  | none => nodes ++ [freshNode c]

/-- A command character other than a bracket. -/
def isSimple (c : Nat) : Prop := c = 62 ∨ c = 60 ∨ c = 43 ∨ c = 45 ∨ c = 46 ∨ c = 44

/-- The stack machine on the characters of a plain source. -/
def runChars : List Nat → Int → Int → List Frame → Option ReflectType → List ASTNode →
    Except ParseError (AST × Token)
  | [], _, _, [], _, nodes => .ok (.mk nodes, -1)
  | [], _, _, f :: _, _, _ => .error (.unmatchedOpen (f.position.Line + 1) f.position.Column)
  | c :: cs, line, column, stack, blockType, nodes =>
    if c = 10 then runChars cs (line + 1) 0 stack blockType nodes
    else if c = 32 then runChars cs line (column + 1) stack blockType nodes
    else if c = 91 then
      runChars cs line (column + 1)
        ({ position := { Line := line, Column := column + 1 }, nodes := nodes } :: stack)
        blockType []
    else if c = 93 then
      match stack with
      | f :: stack =>
        runChars cs line (column + 1) stack blockType
          (f.nodes ++ [.NodeWhile (.mk nodes) { Repeat := 0, NodeType := NODE_WHILE }])
      | [] =>
        if blockType = some .PtrNodeWhile then .ok (.mk nodes, BRACKET_CLOSE)
        else .error (.unmatchedClose (line + 1) (column + 1))
    else runChars cs line (column + 1) stack blockType (pushChar c nodes)

/-- The embedded struct `Node` of a node. -/
def ASTNode.node : ASTNode → Node
  | .IntegerLiteral _ n => n
  | .NextCell n => n
  | .PreviousCell n => n
  | .IncrementCell n => n
  | .DecrementCell n => n
  | .OutputCell n => n
  | .InputCell n => n
  | .NodeWhile _ n => n

mutual
/-- The source text that a tree stands for: every simple node gives
`Repeat + 1` copies of its character, a while node gives its body between
brackets, an integer literal gives nothing. -/
def expand : AST → List Nat
  | .mk nodes => expandNodes nodes
/-- The source text of one node. -/
def expandNode : ASTNode → List Nat
  | .IntegerLiteral _ _ => []
  | .NextCell n => List.replicate (n.Repeat + 1).toNat 62
  | .PreviousCell n => List.replicate (n.Repeat + 1).toNat 60
  | .IncrementCell n => List.replicate (n.Repeat + 1).toNat 43
  | .DecrementCell n => List.replicate (n.Repeat + 1).toNat 45
  | .OutputCell n => List.replicate (n.Repeat + 1).toNat 46
  | .InputCell n => List.replicate (n.Repeat + 1).toNat 44
  | .NodeWhile tree _ => 91 :: expand tree ++ [93]
/-- The source text of a sequence of nodes. -/
def expandNodes : List ASTNode → List Nat
  | [] => []
  | node :: rest => expandNode node ++ expandNodes rest
end

mutual
/-- The number of while nodes of a tree, at all depths. -/
def countWhile : AST → Nat
  | .mk nodes => countWhileNodes nodes
/-- The number of while nodes in a node. -/
def countWhileNode : ASTNode → Nat
  | .NodeWhile tree _ => 1 + countWhile tree
  | _ => 0
/-- The number of while nodes in a sequence of nodes. -/
def countWhileNodes : List ASTNode → Nat
  | [] => 0
  | node :: rest => countWhileNode node + countWhileNodes rest
end

/-- The last node of a sequence, if any, has a repeat count that is not negative. -/
def lastOk (nodes : List ASTNode) : Prop :=
  ∀ n, nodes.getLast? = some n → 0 ≤ n.node.Repeat

/-- The nesting depth after a text read at depth `d`; none when a `]` comes at
depth zero. -/
def depthAfter : Nat → List Nat → Option Nat
  | d, [] => some d
  | d, c :: cs =>
    if c = 91 then depthAfter (d + 1) cs
    else if c = 93 then (if d = 0 then none else depthAfter (d - 1) cs)
    else depthAfter d cs

/-- The command characters of a plain text. -/
def commandsOf (cs : List Nat) : List Nat := cs.filter (fun c => decide (c ≠ 10 ∧ c ≠ 32))

/-- The text read so far that the frames of a stack stand for. -/
def textStack : List Frame → List Nat
  | [] => []
  | f :: rest => textStack rest ++ expandNodes f.nodes ++ [91]

/-- The while nodes that the frames of a stack will give. -/
def countStack : List Frame → Nat
  | [] => 0
  | f :: rest => countStack rest + countWhileNodes f.nodes + 1

/-- The brackets of a text are balanced: every prefix has at least as many `[`
as `]` and the totals are equal. -/
def balancedBrackets (source : List Nat) : Prop :=
  (∀ p, p <+: source → p.count 93 ≤ p.count 91) ∧ source.count 91 = source.count 93

/-- The number of newlines in a text: the line, counted from zero, of what
follows the text. -/
def lineOf (p : List Nat) : Int := ((p.count 10 : Nat) : Int)

/-- The number of characters of a text after its last newline: the column,
counted from zero, of what follows the text. -/
def columnOf (p : List Nat) : Int :=
  (((p.reverse.takeWhile (fun c => decide (c ≠ 10))).length : Nat) : Int)

/-- The frames of the stack are the open brackets of the text read so far: each
frame stands at a `[` after which the text is balanced up to the next frame. -/
def StackInv : List Nat → List Frame → Prop
  | _, [] => True
  | done, f :: stack =>
    ∃ a b, done = a ++ 91 :: b ∧ depthAfter 0 b = some 0 ∧
      (∀ c ∈ b, isPlain c) ∧
      f.position = { Line := lineOf a, Column := columnOf a + 1 } ∧ StackInv a stack

/-- One of the four characters whose runs are folded: `>`, `<`, `+`, `-`. -/
def isRepeatable (c : Nat) : Prop := c = 62 ∨ c = 60 ∨ c = 43 ∨ c = 45

/-- The node of the kind of a repeatable character, with a given repeat
count. -/
def repeatNode (c : Nat) (r : Int) : ASTNode :=
  if c = 62 then .NextCell { Repeat := r, NodeType := NODE_NEXT_CELL }
  else if c = 60 then .PreviousCell { Repeat := r, NodeType := NODE_PREVIOUS_CELL }
  else if c = 43 then .IncrementCell { Repeat := r, NodeType := NODE_INCREMENT_CELL }
  else .DecrementCell { Repeat := r, NodeType := NODE_DECREMENT_CELL }

/-! ## Definitions used to state and prove the properties of the code generator -/

/-- The lines of a text: the runs of characters ended by a newline, then what
follows the last newline. -/
def splitLines : List Char → List (List Char)
  | [] => [[]]
  | c :: cs =>
    if c = Char.ofNat 10 then [] :: splitLines cs
    else
      match splitLines cs with
      | l :: ls => (c :: l) :: ls
      | [] => [[c]]

/-- A line that defines a loop label: it starts with `while_` and ends with a
colon. -/
def isWhileLabel (l : List Char) : Bool :=
  "while_".data.isPrefixOf l && l.getLast? == some ':'

/-- The label lines `while_<id>:` of a text, in order. -/
def whileLabels (text : String) : List (List Char) :=
  (splitLines text.data).filter isWhileLabel

/-- The label line of the loop with identifier `n`. -/
def labelOf (n : Nat) : List Char := ("while_" ++ Nat.repr n ++ ":").data

/-- The concatenation of a list of strings. -/
def joinChunks : List String → String
  | [] => ""
  | c :: cs => c ++ joinChunks cs

mutual
/-- The strings that `compile` writes for a tree, one per call of
`WriteString`, and the counter afterwards. -/
def chunks : AST → Nat → List String × Nat
  | .mk nodes, offset => chunksNodes nodes offset
/-- The strings that the loop of `compile` writes for a sequence of nodes. -/
def chunksNodes : List ASTNode → Nat → List String × Nat
  | [], offset => ([], offset)
  | .NextCell assertedNode :: rest, offset =>
    (["    ; -- Next Cell -- ;\n", "    mov rbx, [cell_pointer]\n",
      "    add rbx, " ++ formatInt (wrapInt64 (assertedNode.Repeat + 1)) ++ "\n",
      "    mov [cell_pointer], rbx\n"] ++ (chunksNodes rest (offset + 1)).1,
      (chunksNodes rest (offset + 1)).2)
  | .PreviousCell assertedNode :: rest, offset =>
    (["    ; -- Previous Cell -- ;\n", "    mov rbx, [cell_pointer]\n",
      "    sub rbx, " ++ formatInt (wrapInt64 (assertedNode.Repeat + 1)) ++ "\n",
      "    mov [cell_pointer], rbx\n"] ++ (chunksNodes rest (offset + 1)).1,
      (chunksNodes rest (offset + 1)).2)
  | .IncrementCell assertedNode :: rest, offset =>
    (["    ; -- Increment -- ;\n", "    mov rbx, [cell_pointer]\n",
      "    mov rax, [tape+rbx*8]\n",
      "    add rax, " ++ formatInt (wrapInt64 (assertedNode.Repeat + 1)) ++ "\n",
      "    mov [tape+rbx*8], rax\n"] ++ (chunksNodes rest (offset + 1)).1,
      (chunksNodes rest (offset + 1)).2)
  | .DecrementCell assertedNode :: rest, offset =>
    (["    ; -- Decrement -- ;\n", "    mov rbx, [cell_pointer]\n",
      "    mov rax, [tape+rbx*8]\n",
      "    sub rax, " ++ formatInt (wrapInt64 (assertedNode.Repeat + 1)) ++ "\n",
      "    mov [tape+rbx*8], rax\n"] ++ (chunksNodes rest (offset + 1)).1,
      (chunksNodes rest (offset + 1)).2)
  | .OutputCell _ :: rest, offset =>
    (["    ; -- Output -- ;\n", "    call print_cell\n"] ++ (chunksNodes rest (offset + 1)).1,
      (chunksNodes rest (offset + 1)).2)
  | .InputCell _ :: rest, offset =>
    (["    ; -- Input -- ;\n", "    call input_cell\n"] ++ (chunksNodes rest (offset + 1)).1,
      (chunksNodes rest (offset + 1)).2)
  | .NodeWhile tree _ :: rest, offset =>
    (["    ; -- While -- ;\n",
      "while_" ++ formatInt ((offset + 1 : Nat) : Int) ++ ":\n",
      "    mov rbx, [cell_pointer]\n",
      "    mov rax, [tape+rbx*8]\n",
      "    cmp rax, 0\n",
      "    jnz while_" ++ formatInt ((offset + 1 : Nat) : Int) ++ ".not_zero\n",
      "    jmp while_" ++ formatInt ((offset + 1 : Nat) : Int) ++ ".done\n",
      "while_" ++ formatInt ((offset + 1 : Nat) : Int) ++ ".not_zero\n",
      "    ; -- While Begin -- ;\n"] ++ (chunks tree (offset + 1)).1 ++
      ["    ; -- While End -- ;\n",
       "    jmp while_" ++ formatInt ((offset + 1 : Nat) : Int) ++ "\n",
       "while_" ++ formatInt ((offset + 1 : Nat) : Int) ++ ".done\n"] ++
      (chunksNodes rest (chunks tree (offset + 1)).2).1,
      (chunksNodes rest (chunks tree (offset + 1)).2).2)
  | .IntegerLiteral _ _ :: rest, offset => chunksNodes rest (offset + 1)
end

mutual
/-- The identifiers of the loop labels that `compile` writes for a tree, in the
order of the text, and the counter afterwards. -/
def labelIds : AST → Nat → List Nat × Nat
  | .mk nodes, offset => labelIdsNodes nodes offset
/-- The identifiers of the loop labels for a sequence of nodes. -/
def labelIdsNodes : List ASTNode → Nat → List Nat × Nat
  | [], offset => ([], offset)
  | .NodeWhile tree _ :: rest, offset =>
    ((offset + 1) :: (labelIds tree (offset + 1)).1 ++
      (labelIdsNodes rest (labelIds tree (offset + 1)).2).1,
      (labelIdsNodes rest (labelIds tree (offset + 1)).2).2)
  | .IntegerLiteral _ _ :: rest, offset => labelIdsNodes rest (offset + 1)
  | .NextCell _ :: rest, offset => labelIdsNodes rest (offset + 1)
  | .PreviousCell _ :: rest, offset => labelIdsNodes rest (offset + 1)
  | .IncrementCell _ :: rest, offset => labelIdsNodes rest (offset + 1)
  | .DecrementCell _ :: rest, offset => labelIdsNodes rest (offset + 1)
  | .OutputCell _ :: rest, offset => labelIdsNodes rest (offset + 1)
  | .InputCell _ :: rest, offset => labelIdsNodes rest (offset + 1)
end

/-- The line of a chunk: the chunk without its final newline. -/
def lineOfChunk (c : String) : List Char := c.data.dropLast

/-- A chunk is one line: it ends with a newline and has no other newline. -/
def wfChunk (c : String) : Prop :=
  c.data.getLast? = some (Char.ofNat 10) ∧ Char.ofNat 10 ∉ c.data.dropLast

instance (c : String) : Decidable (wfChunk c) := by unfold wfChunk; infer_instance

/-- The number that a list of decimal digit characters denotes. -/
def digitsValue (cs : List Char) : Nat := cs.foldl (fun a c => a * 10 + (c.toNat - 48)) 0

/-- The chunks are lines, and their label lines are those of the identifiers. -/
def Good (cs : List String) (ids : List Nat) : Prop :=
  (∀ c ∈ cs, wfChunk c) ∧ (cs.map lineOfChunk).filter isWhileLabel = ids.map labelOf

/-- The text that the code generator writes for a run of a repeatable character,
with the amount as it is printed. -/
def amountBlock (c : Nat) (amount : String) : String :=
  if c = 43 then
    "    ; -- Increment -- ;\n" ++ "    mov rbx, [cell_pointer]\n" ++
      "    mov rax, [tape+rbx*8]\n" ++ ("    add rax, " ++ amount ++ "\n") ++
      "    mov [tape+rbx*8], rax\n"
  else if c = 45 then
    "    ; -- Decrement -- ;\n" ++ "    mov rbx, [cell_pointer]\n" ++
      "    mov rax, [tape+rbx*8]\n" ++ ("    sub rax, " ++ amount ++ "\n") ++
      "    mov [tape+rbx*8], rax\n"
  else if c = 62 then
    "    ; -- Next Cell -- ;\n" ++ "    mov rbx, [cell_pointer]\n" ++
      ("    add rbx, " ++ amount ++ "\n") ++ "    mov [cell_pointer], rbx\n"
  else
    "    ; -- Previous Cell -- ;\n" ++ "    mov rbx, [cell_pointer]\n" ++
      ("    sub rbx, " ++ amount ++ "\n") ++ "    mov [cell_pointer], rbx\n"

/-! ## Definitions used to prove the properties of the lexer -/

/-- A function given to `lexToken` answers and leaves the reader as it found
it, for every rune read at index `jmin` or later. -/
def Stable (f : Reader → Nat → Outcome (Bool × Reader)) (jmin : Nat) : Prop :=
  ∀ (r0 : Reader) (v sz : Nat) (r1 : Reader), jmin ≤ r0.i → r0.ReadRune = (.ok (v, sz), r1) →
    ∃ b, f r1 v = .ok (b, r1)

/-! ## Definitions used to state the position of a node in the walk of the code generator -/

mutual
/-- The number of nodes of a tree at all depths: integer literals and while
nodes count, and so do the nodes of every loop body. -/
def countNodes : AST → Nat
  | .mk nodes => countNodesList nodes
/-- The number of nodes in a node: itself and, for a loop, those of its body. -/
def countNode : ASTNode → Nat
  | .NodeWhile tree _ => 1 + countNodes tree
  | _ => 1
/-- The number of nodes in a sequence of nodes, at all depths. -/
def countNodesList : List ASTNode → Nat
  | [] => 0
  | node :: rest => countNode node + countNodesList rest
end

mutual
/-- The nodes of a tree in pre-order: a loop comes before the nodes of its body,
which come before the nodes that follow the loop. -/
def preorder : AST → List ASTNode
  | .mk nodes => preorderNodes nodes
/-- The pre-order walk of one node. -/
def preorderNode : ASTNode → List ASTNode
  | .NodeWhile tree n => .NodeWhile tree n :: preorder tree
  | .IntegerLiteral v n => [.IntegerLiteral v n]
  | .NextCell n => [.NextCell n]
  | .PreviousCell n => [.PreviousCell n]
  | .IncrementCell n => [.IncrementCell n]
  | .DecrementCell n => [.DecrementCell n]
  | .OutputCell n => [.OutputCell n]
  | .InputCell n => [.InputCell n]
/-- The pre-order walk of a sequence of nodes. -/
def preorderNodes : List ASTNode → List ASTNode
  | [] => []
  | node :: rest => preorderNode node ++ preorderNodes rest
end

/-- Whether a node is a while node. -/
def isWhileNode : ASTNode → Bool
  | .NodeWhile _ _ => true
  | _ => false

/-- The positions of the while nodes of a list whose first element has position
`k`. -/
def whileAt : Nat → List ASTNode → List Nat
  | _, [] => []
  | k, node :: rest =>
    if isWhileNode node then k :: whileAt (k + 1) rest else whileAt (k + 1) rest

/-- The 1-based positions of the while nodes in the pre-order walk of a tree. -/
def whilePositions (ast : AST) : List Nat := whileAt 1 (preorder ast)

/-! ## Definitions used to state the frame of the text of `Compile` -/

/-- A line that starts like the lines written for the nodes: a `w`, or a blank
with a tenth character that is not `E`. The line `_start:` of the preamble and
the line `    ; -- Exit -- ;` of the epilogue do not start so. -/
def bodyLine (l : List Char) : Prop :=
  l.head? = some 'w' ∨ (l.head? = some ' ' ∧ l.get? 9 ≠ some 'E')

instance (l : List Char) : Decidable (bodyLine l) := by unfold bodyLine; infer_instance

/-- The line that the preamble ends with: the entry label. -/
def entryLine : List Char := "_start:".data

/-- The line that opens the exit sequence of the epilogue. -/
def exitLine : List Char := "    ; -- Exit -- ;".data

/-! ## Definitions used to state the properties of every run of the lexer and the parser -/

/-- A sequence of `n` calls of `Lex`: the tokens returned, in order, and the
lexer afterwards. The calls go on after an `EOF`, as a caller may. -/
def lexCalls (T : RangeTables) : Nat → Lexer → Outcome (List Tok × Lexer)
  | 0, lexer => .ok ([], lexer)
  | n + 1, lexer =>
    match Lex T lexer with
    | .panic msg => .panic msg
    | .timeout => .timeout
    | .ok (tok, lexer) =>
      match lexCalls T n lexer with
      | .panic msg => .panic msg
      | .timeout => .timeout
      | .ok (toks, lexer) => .ok (tok :: toks, lexer)

/-- The errors of `Parse` other than the one of the default branch. -/
def ParseError.handled : ParseError → Prop
  | .unmatchedOpen _ _ => True
  | .unmatchedClose _ _ => True
  | .invalidNumber _ _ _ => True
  | .unhandledToken _ _ _ => False

/-! ## Definitions used to state the run-length form of a tree -/

/-- Two nodes that a fold would have merged: both of the same kind, one of the
four repeatable kinds. -/
def foldable (a b : ASTNode) : Bool :=
  decide (TypeOf a = TypeOf b) && (repeatableTokens (TypeOf a)).isSome

/-- No two adjacent nodes of a sequence are foldable. -/
def noAdjacent : List ASTNode → Bool
  | a :: b :: rest => !foldable a b && noAdjacent (b :: rest)
  | _ => true

mutual
/-- A tree in run-length form: in its sequence and in the body of every loop, at
every depth, no two adjacent nodes are foldable, and every output, input,
integer-literal and while node has the repeat count 0. -/
def canonical : AST → Bool
  | .mk nodes => noAdjacent nodes && canonicalNodes nodes
/-- A node in run-length form. -/
def canonicalNode : ASTNode → Bool
  | .NodeWhile tree n => decide (n.Repeat = 0) && canonical tree
  | .IntegerLiteral _ n => decide (n.Repeat = 0)
  | .OutputCell n => decide (n.Repeat = 0)
  | .InputCell n => decide (n.Repeat = 0)
  | .NextCell _ => true
  | .PreviousCell _ => true
  | .IncrementCell _ => true
  | .DecrementCell _ => true
/-- Every node of a sequence is in run-length form. -/
def canonicalNodes : List ASTNode → Bool
  | [] => true
  | node :: rest => canonicalNode node && canonicalNodes rest
end

/-- The nodes read so far are in run-length form. -/
def Inv (nodes : List ASTNode) : Prop :=
  noAdjacent nodes = true ∧ canonicalNodes nodes = true

/-! ## Definitions used to state the properties of number literals -/

/-- The number that a string of ASCII decimal digits denotes. -/
def decimalValue (ds : List Nat) : Nat := ds.foldl (fun acc d => acc * 10 + (d - 48)) 0

/-! ## The routine `print_cell` of the preamble

The preamble is assembly text.  What follows reads the instructions of the
routine `print_cell` and gives them the meaning they have on x86-64 under Linux,
for the registers, the flag and the memory cells that the routine uses. -/

/-- The instructions that occur in `print_cell`, one constructor per form. -/
inductive Asm where
  | label (name : String)
  | movRbxCellPointer
  | movRaxTape
  | subRax (n : Nat)
  | cmpRax (n : Nat)
  | je (target : String)
  | jmp (target : String)
  | movAlLinefeed
  | movPrintBufferAl
  | addAl (c : Char)
  | movRax (n : Nat)
  | movRdi (n : Nat)
  | movRsiPrintBuffer
  | movRdx (n : Nat)
  | syscall
  | ret
deriving Repr, DecidableEq

/-- The text of an instruction, as it stands in the preamble, without the
indentation and the comment. -/
def Asm.text : Asm → String
  | .label name => name
  | .movRbxCellPointer => "mov rbx, [cell_pointer]"
  | .movRaxTape => "mov rax, [tape+rbx*8]"
  | .subRax n => "sub rax, " ++ Nat.repr n
  | .cmpRax n => "cmp rax, " ++ Nat.repr n
  | .je target => "je " ++ target
  | .jmp target => "jmp " ++ target
  | .movAlLinefeed => "mov al, [linefeed]"
  | .movPrintBufferAl => "mov [print_buffer], al"
  | .addAl c => "add al, '" ++ String.singleton c ++ "'"
  | .movRax n => "mov rax, " ++ Nat.repr n
  | .movRdi n => "mov rdi, " ++ Nat.repr n
  | .movRsiPrintBuffer => "mov rsi, print_buffer"
  | .movRdx n => "mov rdx, " ++ Nat.repr n
  | .syscall => "syscall"
  | .ret => "ret"

/-- The routine `print_cell`, instruction by instruction, labels included. -/
def printCell : List Asm :=
  [.movRbxCellPointer, .movRaxTape, .subRax 48, .cmpRax 10, .je ".is_linefeed",
   .jmp ".is_not_linefeed",
   .label ".is_linefeed", .movAlLinefeed, .movPrintBufferAl,
   .label ".is_not_linefeed", .addAl '0', .movPrintBufferAl,
   .label ".perform_print", .movRax 1, .movRdi 1, .movRsiPrintBuffer, .movRdx 1, .syscall,
   .ret]

/-- Whether a character is a blank or a tab. -/
def isBlank (c : Char) : Bool := c = ' ' || c = Char.ofNat 9

/-- The code of a line of assembly: the comment that a `;` opens is dropped,
and so are the blanks and tabs at both ends. -/
def codeOfLine (l : List Char) : List Char :=
  (((l.takeWhile (fun c => c != ';')).dropWhile isBlank).reverse.dropWhile isBlank).reverse

/-- The lines of a text that hold code, each reduced to its code. -/
def codeLines (text : String) : List (List Char) :=
  ((splitLines text.data).map codeOfLine).filter (fun l => !l.isEmpty)

/-- The code lines of a routine: those after the line of its name, up to the
first `ret`, included. -/
def routineLines (name : String) (lines : List (List Char)) : List (List Char) :=
  (((lines.dropWhile (fun l => l != name.data)).drop 1).takeWhile (fun l => l != "ret".data)) ++
    ["ret".data]

/-- What a register that holds an address points to. -/
inductive Pointer where
  | unknown
  | printBuffer
deriving Repr, DecidableEq

/-- The part of the machine that `print_cell` uses: four 64-bit registers, the
address in `rsi`, the zero flag, the quadword `cell_pointer`, the quadwords of
the tape, the byte `print_buffer`, and the bytes written to standard output so
far.  The byte `linefeed` of the data section is the constant `0x0A`. -/
structure Machine where
  rax : Nat
  rbx : Nat
  rdi : Nat
  rdx : Nat
  rsi : Pointer
  zf : Bool
  cellPointer : Nat
  tape : Nat → Nat
  printBuffer : Nat
  out : List Nat

/-- The value that a 64-bit register or quadword holds. -/
def wrap64 (n : Nat) : Nat := n % 2 ^ 64

/-- The 64-bit difference, as `sub` and `cmp` compute it: the difference when
there is no borrow, and `2 ^ 64` less the borrow otherwise. -/
def sub64 (a b : Nat) : Nat :=
  if b % 2 ^ 64 ≤ a % 2 ^ 64 then a % 2 ^ 64 - b % 2 ^ 64
  else 2 ^ 64 - (b % 2 ^ 64 - a % 2 ^ 64)

/-- A 64-bit register with its low byte `al` replaced. -/
def setAl (rax : Nat) (al : Nat) : Nat := rax - rax % 256 + al % 256

/-- One instruction that is neither a jump nor `ret`.  The system call is the
one of `print_cell`: `write` (`rax = 1`) of one byte (`rdx = 1`) from
`print_buffer` to standard output (`rdi = 1`), which returns the number of
bytes written; any other system call is outside the model. -/
def Asm.apply (i : Asm) (m : Machine) : Option Machine :=
  match i with
  | .label _ => some m
  | .movRbxCellPointer => some { m with rbx := wrap64 m.cellPointer }
  | .movRaxTape => some { m with rax := wrap64 (m.tape m.rbx) }
  | .subRax n => some { m with rax := sub64 m.rax n, zf := Nat.beq (sub64 m.rax n) 0 }
  | .cmpRax n => some { m with zf := Nat.beq (sub64 m.rax n) 0 }
  | .movAlLinefeed => some { m with rax := setAl m.rax 0x0A }
  | .movPrintBufferAl => some { m with printBuffer := m.rax % 256 }
  | .addAl c =>
    some { m with rax := setAl m.rax (m.rax % 256 + c.toNat),
                  zf := Nat.beq ((m.rax % 256 + c.toNat) % 256) 0 }
  | .movRax n => some { m with rax := wrap64 n }
  | .movRdi n => some { m with rdi := wrap64 n }
  | .movRsiPrintBuffer => some { m with rsi := .printBuffer }
  | .movRdx n => some { m with rdx := wrap64 n }
  | .syscall =>
    if m.rax = 1 ∧ m.rdi = 1 ∧ m.rdx = 1 ∧ m.rsi = .printBuffer then
      some { m with rax := 1, out := m.out ++ [m.printBuffer] }
    else none
  | .je _ => none
  | .jmp _ => none
  | .ret => none

/-- The index of a label in a routine. -/
def findLabel (code : List Asm) (name : String) : Option Nat :=
  let k := code.indexOf (.label name)
  if k < code.length then some k else none

/-- The run of a routine from the instruction at index `pc` up to its `ret`:
the machine at the `ret`, or nothing when the run leaves the routine, meets a
system call outside the model or does not end within the fuel. -/
def execAsm (code : List Asm) : Nat → Nat → Machine → Option Machine
  | 0, _, _ => none
  | fuel + 1, pc, m =>
    match code.get? pc with
    | none => none
    | some .ret => some m
    | some (.jmp target) =>
      match findLabel code target with
      | some k => execAsm code fuel k m
      | none => none
    | some (.je target) =>
      if m.zf then
        match findLabel code target with
        | some k => execAsm code fuel k m
        | none => none
      else execAsm code fuel (pc + 1) m
    | some i =>
      match i.apply m with
      | some m1 => execAsm code fuel (pc + 1) m1
      | none => none

/-- The bytes that a call of `print_cell` writes to standard output, the call
made on a machine whose output is empty. -/
def printCellOutput (m : Machine) : Option (List Nat) :=
  (execAsm printCell (printCell.length + 1) 0 { m with out := [] }).map (fun m1 => m1.out)

/-! ## Definitions used to state that skipped characters do not change the parse -/

/-- The runes of a text, decoded one after the other as `ReadRune` does, hold
no letter, no digit and no `#`.  The fuel is a bound on the number of runes:
the length of the text is enough. -/
def noWordsAux (T : RangeTables) : Nat → List Nat → Bool
  | 0, rest => rest.isEmpty
  | _ + 1, [] => true
  | fuel + 1, b :: bs =>
    !IsLetter T (DecodeRuneInString (b :: bs)).1 &&
      !IsDigit T (DecodeRuneInString (b :: bs)).1 &&
      decide ((DecodeRuneInString (b :: bs)).1 ≠ 35) &&
      noWordsAux T fuel ((b :: bs).drop (DecodeRuneInString (b :: bs)).2)

/-- A source with no letter, no digit and no `#`. -/
def noWords (T : RangeTables) (source : List Nat) : Bool :=
  noWordsAux T source.length source

/-- The command characters of a source, the other characters removed. -/
def commandsOnly (source : List Nat) : List Nat :=
  source.filter (fun c => decide (isCommand c))

/-- The kind and the literal of a token, its position left out. -/
def Tok.kind (tok : Tok) : Token × List Nat := tok.2

/-- Two results of `Parse` agree when both are the same tree with the same last
token, or both are errors. -/
def sameParse (r1 r2 : Except ParseError (AST × Token)) : Prop :=
  match r1, r2 with
  | .ok a, .ok b => a = b
  | .error _, .error _ => True
  | _, _ => False

/-! ## Definitions used to state that all the labels of the loops are distinct -/

/-- A line that defines a label of a loop: it starts, in the first column, with
`while_`.  The three labels of a loop are such lines; the jumps to them are
indented. -/
def isLoopLabel (l : List Char) : Bool := "while_".data.isPrefixOf l

/-- The lines of a text that define a label of a loop, in order. -/
def loopLabels (text : String) : List (List Char) :=
  (splitLines text.data).filter isLoopLabel

/-- The line of the label `while_<id>.not_zero` of the loop with identifier `n`. -/
def notZeroOf (n : Nat) : List Char := ("while_" ++ Nat.repr n ++ ".not_zero").data

/-- The line of the label `while_<id>.done` of the loop with identifier `n`. -/
def doneOf (n : Nat) : List Char := ("while_" ++ Nat.repr n ++ ".done").data

mutual
/-- The label lines that `compile` writes for a tree, in the order of the text:
for a loop its entry label and its label `.not_zero`, then the labels of its
body, then its label `.done`. -/
def loopLines : AST → Nat → List (List Char)
  | .mk nodes, offset => loopLinesNodes nodes offset
/-- The label lines for a sequence of nodes. -/
def loopLinesNodes : List ASTNode → Nat → List (List Char)
  | [], _ => []
  | .NodeWhile tree _ :: rest, offset =>
    [labelOf (offset + 1), notZeroOf (offset + 1)] ++ loopLines tree (offset + 1) ++
      [doneOf (offset + 1)] ++ loopLinesNodes rest (labelIds tree (offset + 1)).2
  | .IntegerLiteral _ _ :: rest, offset => loopLinesNodes rest (offset + 1)
  | .NextCell _ :: rest, offset => loopLinesNodes rest (offset + 1)
  | .PreviousCell _ :: rest, offset => loopLinesNodes rest (offset + 1)
  | .IncrementCell _ :: rest, offset => loopLinesNodes rest (offset + 1)
  | .DecrementCell _ :: rest, offset => loopLinesNodes rest (offset + 1)
  | .OutputCell _ :: rest, offset => loopLinesNodes rest (offset + 1)
  | .InputCell _ :: rest, offset => loopLinesNodes rest (offset + 1)
end

/-! ## Trees as Go values: nil pointers and other dynamic types -/

/-- The message of the run-time panic of Go on a read through a nil pointer. -/
def nilDereference : String :=
  "runtime error: invalid memory address or nil pointer dereference"

mutual
/-- A value of type `*parser.AST`: the nil pointer, or a pointer to a struct
with its field `Nodes`.  The values are finite: a structure that reaches itself
through a `Tree` is not a value of this type. -/
inductive GoAST where
  | nil
  | ptr (Nodes : List GoNode)
/-- A value of type `interface{}` as an element of `Nodes`: the nil interface,
a nil pointer of one of the pointer types of the node structs, a value of any
other dynamic type, or a pointer to a node struct.  The `Tree` of a `NodeWhile`
is a value of type `*parser.AST` and may be nil. -/
inductive GoNode where
  | nilInterface
  | nilPtr (t : ReflectType)
  | otherType
  | IntegerLiteral (Value : Int) (node : Node)
  | NextCell (node : Node)
  | PreviousCell (node : Node)
  | IncrementCell (node : Node)
  | DecrementCell (node : Node)
  | OutputCell (node : Node)
  | InputCell (node : Node)
  | NodeWhile (Tree : GoAST) (node : Node)
end

mutual
/-- The function `compile` on Go values: `ast.Nodes` panics on a nil `ast`. -/
def compileGo : GoAST → Nat → String → Outcome (Except String (String × Nat))
  | .nil, _, _ => .panic nilDereference
  | .ptr nodes, offset, instructions => compileGoNodes nodes offset instructions
/-- The loop of `compile` over the nodes, on Go values.  The cases of the type
switch select on the dynamic type, so a nil pointer of a node type enters the
case of its type; there `assertedNode.Node.Repeat` and `assertedNode.Tree` panic,
and the cases of `*OutputCell` and `*InputCell` read no field.  The nil
interface, `*IntegerLiteral` and every other type fall to `default`. -/
def compileGoNodes : List GoNode → Nat → String → Outcome (Except String (String × Nat))
  | [], offset, instructions => .ok (.ok (instructions, offset))
  | .NextCell assertedNode :: rest, offset, instructions =>
    compileGoNodes rest (offset + 1)
      (instructions ++ "    ; -- Next Cell -- ;\n" ++
        "    mov rbx, [cell_pointer]\n" ++
        ("    add rbx, " ++ formatInt (wrapInt64 (assertedNode.Repeat + 1)) ++ "\n") ++
        "    mov [cell_pointer], rbx\n")
  | .PreviousCell assertedNode :: rest, offset, instructions =>
    compileGoNodes rest (offset + 1)
      (instructions ++ "    ; -- Previous Cell -- ;\n" ++
        "    mov rbx, [cell_pointer]\n" ++
        ("    sub rbx, " ++ formatInt (wrapInt64 (assertedNode.Repeat + 1)) ++ "\n") ++
        "    mov [cell_pointer], rbx\n")
  | .IncrementCell assertedNode :: rest, offset, instructions =>
    compileGoNodes rest (offset + 1)
      (instructions ++ "    ; -- Increment -- ;\n" ++
        "    mov rbx, [cell_pointer]\n" ++
        "    mov rax, [tape+rbx*8]\n" ++
        ("    add rax, " ++ formatInt (wrapInt64 (assertedNode.Repeat + 1)) ++ "\n") ++
        "    mov [tape+rbx*8], rax\n")
  | .DecrementCell assertedNode :: rest, offset, instructions =>
    compileGoNodes rest (offset + 1)
      (instructions ++ "    ; -- Decrement -- ;\n" ++
        "    mov rbx, [cell_pointer]\n" ++
        "    mov rax, [tape+rbx*8]\n" ++
        ("    sub rax, " ++ formatInt (wrapInt64 (assertedNode.Repeat + 1)) ++ "\n") ++
        "    mov [tape+rbx*8], rax\n")
  | .OutputCell _ :: rest, offset, instructions =>
    compileGoNodes rest (offset + 1)
      (instructions ++ "    ; -- Output -- ;\n" ++ "    call print_cell\n")
  | .InputCell _ :: rest, offset, instructions =>
    compileGoNodes rest (offset + 1)
      (instructions ++ "    ; -- Input -- ;\n" ++ "    call input_cell\n")
  | .NodeWhile tree _ :: rest, offset, instructions =>
    let whileOffset : Int := ((offset + 1 : Nat) : Int)
    let instructions := instructions ++ "    ; -- While -- ;\n" ++
      ("while_" ++ formatInt whileOffset ++ ":\n") ++
      "    mov rbx, [cell_pointer]\n" ++
      "    mov rax, [tape+rbx*8]\n" ++
      "    cmp rax, 0\n" ++
      ("    jnz while_" ++ formatInt whileOffset ++ ".not_zero\n") ++
      ("    jmp while_" ++ formatInt whileOffset ++ ".done\n") ++
      ("while_" ++ formatInt whileOffset ++ ".not_zero\n") ++
      "    ; -- While Begin -- ;\n"
    match compileGo tree (offset + 1) "" with
    | .ok (.ok (bytes, offset)) =>
      compileGoNodes rest offset
        (instructions ++ bytes ++ "    ; -- While End -- ;\n" ++
          ("    jmp while_" ++ formatInt whileOffset ++ "\n") ++
          ("while_" ++ formatInt whileOffset ++ ".done\n"))
    | .ok (.error ok) => .ok (.error ("error while trying to compile while block: " ++ ok))
    | .panic msg => .panic msg
    | .timeout => .timeout
  | .nilPtr .PtrNextCell :: _, _, _ => .panic nilDereference
  | .nilPtr .PtrPreviousCell :: _, _, _ => .panic nilDereference
  | .nilPtr .PtrIncrementCell :: _, _, _ => .panic nilDereference
  | .nilPtr .PtrDecrementCell :: _, _, _ => .panic nilDereference
  | .nilPtr .PtrNodeWhile :: _, _, _ => .panic nilDereference
  | .nilPtr .PtrOutputCell :: rest, offset, instructions =>
    compileGoNodes rest (offset + 1)
      (instructions ++ "    ; -- Output -- ;\n" ++ "    call print_cell\n")
  | .nilPtr .PtrInputCell :: rest, offset, instructions =>
    compileGoNodes rest (offset + 1)
      (instructions ++ "    ; -- Input -- ;\n" ++ "    call input_cell\n")
  | .nilPtr .PtrIntegerLiteral :: rest, offset, instructions =>
    compileGoNodes rest (offset + 1) instructions
  | .IntegerLiteral _ _ :: rest, offset, instructions =>
    compileGoNodes rest (offset + 1) instructions
  | .nilInterface :: rest, offset, instructions =>
    compileGoNodes rest (offset + 1) instructions
  | .otherType :: rest, offset, instructions =>
    compileGoNodes rest (offset + 1) instructions
end

/-- The function `Compile` on Go values. -/
def CompileGo (ast : GoAST) : Outcome (Except String String) :=
  match compileGo ast 0 programHeader with
  | .ok (.error ok) => .ok (.error ok)
  | .ok (.ok (instructions, _)) => .ok (.ok (instructions ++ programFooter))
  | .panic msg => .panic msg
  | .timeout => .timeout

mutual
/-- Whether `compile` reads through a nil pointer on this value: the value is
nil, or a node before the first such read is a nil pointer of type `*NextCell`,
`*PreviousCell`, `*IncrementCell`, `*DecrementCell` or `*NodeWhile`, or is a
while node whose `Tree` has such a read. -/
def readsNil : GoAST → Bool
  | .nil => true
  | .ptr nodes => readsNilNodes nodes
/-- Whether the loop of `compile` reads through a nil pointer on these nodes. -/
def readsNilNodes : List GoNode → Bool
  | [] => false
  | .nilPtr .PtrNextCell :: _ => true
  | .nilPtr .PtrPreviousCell :: _ => true
  | .nilPtr .PtrIncrementCell :: _ => true
  | .nilPtr .PtrDecrementCell :: _ => true
  | .nilPtr .PtrNodeWhile :: _ => true
  | .nilPtr .PtrOutputCell :: rest => readsNilNodes rest
  | .nilPtr .PtrInputCell :: rest => readsNilNodes rest
  | .nilPtr .PtrIntegerLiteral :: rest => readsNilNodes rest
  | .NodeWhile tree _ :: rest => readsNil tree || readsNilNodes rest
  | .IntegerLiteral _ _ :: rest => readsNilNodes rest
  | .NextCell _ :: rest => readsNilNodes rest
  | .PreviousCell _ :: rest => readsNilNodes rest
  | .IncrementCell _ :: rest => readsNilNodes rest
  | .DecrementCell _ :: rest => readsNilNodes rest
  | .OutputCell _ :: rest => readsNilNodes rest
  | .InputCell _ :: rest => readsNilNodes rest
  | .nilInterface :: rest => readsNilNodes rest
  | .otherType :: rest => readsNilNodes rest
end

mutual
/-- The Go value of a tree whose pointers are all non-nil. -/
def goOfAST : AST → GoAST
  | .mk nodes => .ptr (goOfNodes nodes)
/-- The Go values of nodes whose pointers are all non-nil. -/
def goOfNodes : List ASTNode → List GoNode
  | [] => []
  | .IntegerLiteral v n :: rest => .IntegerLiteral v n :: goOfNodes rest
  | .NextCell n :: rest => .NextCell n :: goOfNodes rest
  | .PreviousCell n :: rest => .PreviousCell n :: goOfNodes rest
  | .IncrementCell n :: rest => .IncrementCell n :: goOfNodes rest
  | .DecrementCell n :: rest => .DecrementCell n :: goOfNodes rest
  | .OutputCell n :: rest => .OutputCell n :: goOfNodes rest
  | .InputCell n :: rest => .InputCell n :: goOfNodes rest
  | .NodeWhile tree n :: rest => .NodeWhile (goOfAST tree) n :: goOfNodes rest
end

/-! ## Definitions used to state where a word ends -/

/-- The rune that word mode reads two bytes back from a command character, when
the byte found there is `p`: below 128 it is the byte itself; a byte of 128 or
more is followed by the command character, so it starts no well-formed sequence
and the rune read is the error rune. -/
def previousRune (p : Nat) : Nat := if p < 128 then p else RuneError

/-- Whether word mode goes on over the byte `c` that follows the byte `p`: over
a command character when the rune read two bytes back is a letter, over a byte
that is no command character when it is not the newline. -/
def wordGoesOn (T : RangeTables) (p c : Nat) : Bool :=
  if isCommand c then IsLetter T (previousRune p) else decide (c ≠ 10)

/-- The number of bytes that word mode reads from a text that follows the byte
`p`: it stops at the end of the text and at the first byte it does not go on
over. -/
def wordBytes (T : RangeTables) : Nat → List Nat → Nat
  | _, [] => 0
  | p, c :: rest => if wordGoesOn T p c then wordBytes T c rest + 1 else 0

/-- The number of bytes of the word at the head of a source that begins with a
letter: the bytes of the letter and the bytes that word mode reads after it. -/
def wordEnd (T : RangeTables) (src : List Nat) : Nat :=
  (DecodeRuneInString src).2 +
    wordBytes T (src.getD ((DecodeRuneInString src).2 - 1) 0)
      (src.drop (DecodeRuneInString src).2)

/-- A byte below 128 that the scanning loop of `Lex` passes over: no newline, no
`#`, no command character, no digit and no letter. -/
def skippedByte (T : RangeTables) (c : Nat) : Bool :=
  decide (c < 128) && decide (c ≠ 10) && decide (c ≠ 35) && !decide (isCommand c) &&
    !IsDigit T c && !IsLetter T c

/-! ## The lexer on plain sources and the parser as a stack machine -/

theorem tokensIndex_singleton (r : Nat) :
    tokensIndex [r] =
      if r = 62 then some NEXT_CELL else if r = 60 then some PREVIOUS_CELL
      else if r = 43 then some INCREMENT_CELL else if r = 45 then some DECREMENT_CELL
      else if r = 46 then some OUTPUT_CELL else if r = 44 then some INPUT_CELL
      else if r = 91 then some BRACKET_OPEN else if r = 93 then some BRACKET_CLOSE
      else none := by
  have e1 : runesOf "EOF" = [69, 79, 70] := by decide
  have e2 : runesOf "NUMBER" = [78, 85, 77, 66, 69, 82] := by decide
  have e3 : runesOf ">" = [62] := by decide
  have e4 : runesOf "<" = [60] := by decide
  have e5 : runesOf "+" = [43] := by decide
  have e6 : runesOf "-" = [45] := by decide
  have e7 : runesOf "." = [46] := by decide
  have e8 : runesOf "," = [44] := by decide
  have e9 : runesOf "[" = [91] := by decide
  have e10 : runesOf "]" = [93] := by decide
  simp only [tokensIndex, tokensName, List.find?, e1, e2, e3, e4, e5, e6, e7, e8, e9, e10]
  by_cases h1 : r = 62
  · subst h1; rfl
  by_cases h2 : r = 60
  · subst h2; rfl
  by_cases h3 : r = 43
  · subst h3; rfl
  by_cases h4 : r = 45
  · subst h4; rfl
  by_cases h5 : r = 46
  · subst h5; rfl
  by_cases h6 : r = 44
  · subst h6; rfl
  by_cases h7 : r = 91
  · subst h7; rfl
  by_cases h8 : r = 93
  · subst h8; rfl
  have d1 : decide (62 = r) = false := decide_eq_false (fun h => h1 h.symm)
  have d2 : decide (60 = r) = false := decide_eq_false (fun h => h2 h.symm)
  have d3 : decide (43 = r) = false := decide_eq_false (fun h => h3 h.symm)
  have d4 : decide (45 = r) = false := decide_eq_false (fun h => h4 h.symm)
  have d5 : decide (46 = r) = false := decide_eq_false (fun h => h5 h.symm)
  have d6 : decide (44 = r) = false := decide_eq_false (fun h => h6 h.symm)
  have d7 : decide (91 = r) = false := decide_eq_false (fun h => h7 h.symm)
  have d8 : decide (93 = r) = false := decide_eq_false (fun h => h8 h.symm)
  simp [h1, h2, h3, h4, h5, h6, h7, h8, d1, d2, d3, d4, d5, d6, d7, d8]

theorem getD_append_cons (pre : List Nat) (c : Nat) (cs : List Nat) :
    (pre ++ c :: cs).getD pre.length 0 = c := by
  rw [List.getD_eq_getElem?_getD, List.getElem?_append_right (le_refl _)]
  simp

theorem ReadRune_ascii (r : Reader) (pre cs : List Nat) (c : Nat)
    (hs : r.s = pre ++ c :: cs) (hi : r.i = pre.length) (hc : c < 128) :
    r.ReadRune = (.ok (c, 1), { s := r.s, i := r.i + 1, prevRune := r.i }) := by
  have hlen : ¬ (r.i ≥ r.s.length) := by rw [hs, hi]; simp
  have hget : r.s.getD r.i 0 = c := by rw [hs, hi]; exact getD_append_cons pre c cs
  unfold Reader.ReadRune
  rw [if_neg hlen]
  simp only [hget, hc, if_true]

theorem ReadRune_eof (r : Reader) (hi : r.s.length ≤ r.i) :
    r.ReadRune = (.error .EOF, { r with prevRune := -1 }) := by
  simp [Reader.ReadRune, hi]

theorem lexLoop_plain (T : RangeTables) :
    ∀ (rest pre : List Nat) (L : Lexer) (fuel : Nat),
      L.Reader.s = pre ++ rest → L.Reader.i = pre.length → (∀ c ∈ rest, isPlain c) →
      rest.length < fuel →
      lexLoop T fuel L = lexPlain L.Reader.s rest L.Reader.i L.Position.Line L.Position.Column := by
  intro rest
  induction rest with
  | nil =>
    intro pre L fuel hs hi _ hf
    obtain ⟨fuel, rfl⟩ : ∃ k, fuel = k + 1 := ⟨fuel - 1, by simp at hf; omega⟩
    have hlen : L.Reader.s.length ≤ L.Reader.i := by rw [hs, hi]; simp
    simp only [lexLoop, ReadRune_eof _ hlen, lexPlain]
  | cons c cs ih =>
    intro pre L fuel hs hi hp hf
    obtain ⟨fuel, rfl⟩ : ∃ k, fuel = k + 1 := ⟨fuel - 1, by simp at hf; omega⟩
    have hc : isPlain c := hp c (List.mem_cons_self _ _)
    have hc128 : c < 128 := by
      rcases hc with h | h | h
      · rcases h with h | h | h | h | h | h | h | h <;> omega
      · omega
      · omega
    have hcs : ∀ d ∈ cs, isPlain d := fun d hd => hp d (List.mem_cons_of_mem _ hd)
    have hf2 : cs.length < fuel := by simp at hf; omega
    simp only [lexLoop, ReadRune_ascii _ pre cs c hs hi hc128, lexPlain]
    by_cases h10 : c = 10
    · simp only [h10, if_true]
      have := ih (pre ++ [c])
        (resetPosition ⟨⟨L.Position.Line, L.Position.Column + 1⟩,
          ⟨L.Reader.s, L.Reader.i + 1, L.Reader.i⟩⟩) fuel
        (by simp [resetPosition, hs]) (by simp [resetPosition, hi]) hcs hf2
      simpa [resetPosition] using this
    · simp only [h10, if_false]
      by_cases h32 : c = 32
      · subst h32
        have hsp : IsSpace T 32 = true := by simp [IsSpace, MaxLatin1]
        simp only [hsp, if_true]
        have := ih (pre ++ [32])
          ⟨⟨L.Position.Line, L.Position.Column + 1⟩, ⟨L.Reader.s, L.Reader.i + 1, L.Reader.i⟩⟩ fuel
          (by simp [hs]) (by simp [hi]) hcs hf2
        simpa using this
      · have hcmd : isCommand c := by
          rcases hc with h | h | h
          · exact h
          · exact absurd h h32
          · exact absurd h h10
        have h35 : c ≠ 35 := by
          rcases hcmd with h | h | h | h | h | h | h | h <;> omega
        unfold isCommand at hcmd
        simp only [h35, h32, if_false, hcmd, if_true, commandToken]

/-- The loop of `Parse` unfolded once, by the action of the token read. -/
theorem parseLoop_succ (T : RangeTables) (fuel : Nat) (L : Lexer) (bt : Option ReflectType)
    (nodes : List ASTNode) :
    parseLoop T (fuel + 1) L bt nodes =
      match Lex T L with
      | .panic msg => .panic msg
      | .timeout => .timeout
      | .ok ((position, token, symbol), L1) =>
        if token = EOF then .ok (.ok (.mk nodes, -1), L1)
        else
          match action position token symbol nodes with
          | .goOn nodes1 => parseLoop T fuel L1 bt nodes1
          | .enter =>
            match parseLoop T fuel L1 (some .PtrNodeWhile) [] with
            | .panic msg => .panic msg
            | .timeout => .timeout
            | .ok (.error ok, L2) => .ok (.error ok, L2)
            | .ok (.ok (subTree, lastSubTreeToken), L2) =>
              if lastSubTreeToken ≠ BRACKET_CLOSE then
                .ok (.error (.unmatchedOpen (position.Line + 1) position.Column), L2)
              else
                parseLoop T fuel L2 bt
                  (nodes ++ [.NodeWhile subTree { Repeat := 0, NodeType := NODE_WHILE }])
          | .leave =>
            if bt = some .PtrNodeWhile then .ok (.ok (.mk nodes, BRACKET_CLOSE), L1)
            else .ok (.error (.unmatchedClose (position.Line + 1) position.Column), L1)
          | .fail e => .ok (.error e, L1) := by
  rw [parseLoop]
  cases hL : Lex T L with
  | panic msg => rfl
  | timeout => rfl
  | ok r =>
    obtain ⟨⟨position, token, symbol⟩, L1⟩ := r
    simp only []
    by_cases h0 : token = EOF
    · simp only [h0, if_true]
    simp only [h0, if_false, action]
    cases hf : foldRepeat token nodes with
    | some n1 => simp only []
    | none =>
      simp only []
      by_cases h1 : token = BRACKET_OPEN
      · simp only [h1, if_true]
      simp only [h1, if_false]
      by_cases h2 : token = BRACKET_CLOSE
      · simp only [h2, if_true]
      simp only [h2, if_false]
      by_cases h3 : token = NUMBER
      · simp only [h3, if_true]
        cases Atoi symbol <;> rfl
      simp only [h3, if_false]
      by_cases h4 : token = NEXT_CELL
      · simp only [h4, if_true]
      simp only [h4, if_false]
      by_cases h5 : token = PREVIOUS_CELL
      · simp only [h5, if_true]
      simp only [h5, if_false]
      by_cases h6 : token = INCREMENT_CELL
      · simp only [h6, if_true]
      simp only [h6, if_false]
      by_cases h7 : token = DECREMENT_CELL
      · simp only [h7, if_true]
      simp only [h7, if_false]
      by_cases h8 : token = INPUT_CELL
      · simp only [h8, if_true]
      simp only [h8, if_false]
      by_cases h9 : token = OUTPUT_CELL
      · simp only [h9, if_true]
      simp only [h9, if_false]

theorem run_rest_length (ts : List Tok) :
    ∀ (stack : List Frame) (bt : Option ReflectType) (nodes : List ASTNode),
      (run ts stack bt nodes).2.length ≤ ts.length := by
  induction ts with
  | nil => intro stack bt nodes; cases stack <;> simp [run]
  | cons tk ts ih =>
    intro stack bt nodes
    obtain ⟨p, t, sym⟩ := tk
    have h := fun s b n => Nat.le_succ_of_le (ih s b n)
    simp only [run]
    cases action p t sym nodes with
    | goOn n1 => exact h _ _ _
    | enter => exact h _ _ _
    | leave =>
      cases stack with
      | nil => simp only []; split_ifs <;> simp
      | cons f stack => exact h _ _ _
    | fail e => simp

theorem run_snoc_frame (ts : List Tok) :
    ∀ (stack : List Frame) (f : Frame) (bt : Option ReflectType) (nodes : List ASTNode),
      run ts (stack ++ [f]) bt nodes =
        afterNested f bt (run ts stack (some .PtrNodeWhile) nodes) := by
  induction ts with
  | nil =>
    intro stack f bt nodes
    cases stack <;> simp [run, afterNested, BRACKET_CLOSE]
  | cons tk ts ih =>
    intro stack f bt nodes
    obtain ⟨p, t, sym⟩ := tk
    simp only [run]
    cases action p t sym nodes with
    | goOn n1 => exact ih _ _ _ _
    | enter => exact ih ({ position := p, nodes := nodes } :: stack) f bt []
    | leave =>
      cases stack with
      | nil => simp [afterNested]
      | cons g stack => exact ih _ _ _ _
    | fail e => simp [afterNested]

/-- The recursive descent of `Parse` computes what the stack machine computes. -/
theorem parseLoop_run (T : RangeTables) :
    ∀ (n : Nat) (ts : List Tok) (L : Lexer) (fuel : Nat) (bt : Option ReflectType)
      (nodes : List ASTNode),
      ts.length ≤ n → Stream T L ts → ts.length < fuel →
      ∃ L1, parseLoop T fuel L bt nodes = .ok ((run ts [] bt nodes).1, L1) ∧
        (∀ tree, (run ts [] bt nodes).1 = .ok (tree, BRACKET_CLOSE) →
          Stream T L1 (run ts [] bt nodes).2) := by
  intro n
  induction n with
  | zero =>
    intro ts L fuel bt nodes hn hs hf
    have : ts = [] := List.length_eq_zero.mp (Nat.le_zero.mp hn)
    subst this
    obtain ⟨fuel, rfl⟩ : ∃ k, fuel = k + 1 := ⟨fuel - 1, by omega⟩
    cases hs with
    | @eof _ L1 p sym hL =>
      refine ⟨L1, ?_, ?_⟩
      · rw [parseLoop_succ, hL]; simp [run]
      · intro tree h; simp [run, BRACKET_CLOSE] at h
  | succ n ih =>
    intro ts L fuel bt nodes hn hs hf
    obtain ⟨fuel, rfl⟩ : ∃ k, fuel = k + 1 := ⟨fuel - 1, by omega⟩
    cases hs with
    | @eof _ L1 p sym hL =>
      refine ⟨L1, ?_, ?_⟩
      · rw [parseLoop_succ, hL]; simp [run]
      · intro tree h; simp [run, BRACKET_CLOSE] at h
    | @cons _ L1 p t sym ts hL ht hs1 =>
      have hlen : ts.length ≤ n := by simp at hn; omega
      have hfu : ts.length < fuel := by simp at hf; omega
      rw [parseLoop_succ, hL]
      simp only [ht, if_false, run]
      cases hact : action p t sym nodes with
      | goOn n1 => exact ih ts L1 fuel bt n1 hlen hs1 hfu
      | fail e => exact ⟨L1, rfl, by intro tree h; simp at h⟩
      | leave =>
        simp only []
        by_cases hb : bt = some .PtrNodeWhile
        · simp only [hb, if_true]
          exact ⟨L1, rfl, fun _ _ => hs1⟩
        · simp only [hb, if_false]
          exact ⟨L1, rfl, by intro tree h; simp at h⟩
      | enter =>
        simp only []
        obtain ⟨L2, h2, hst2⟩ := ih ts L1 fuel (some .PtrNodeWhile) [] hlen hs1 hfu
        have hsn := run_snoc_frame ts [] { position := p, nodes := nodes } bt []
        simp only [List.nil_append] at hsn
        rw [hsn, h2]
        have hrl := run_rest_length ts [] (some .PtrNodeWhile) []
        rcases hr : run ts [] (some .PtrNodeWhile) [] with ⟨res, rest⟩
        rw [hr] at hst2 hrl
        cases res with
        | error e => exact ⟨L2, rfl, by intro tree h; simp [afterNested] at h⟩
        | ok v =>
          obtain ⟨subTree, lastTok⟩ := v
          by_cases hc : lastTok = BRACKET_CLOSE
          · subst hc
            simp only [afterNested, ne_eq, not_true_eq_false, if_false]
            have hst := hst2 subTree rfl
            simp only [] at hst hrl
            exact ih rest L2 fuel bt _ (by omega) hst (by omega)
          · simp only [afterNested, ne_eq, hc, not_false_eq_true, if_true]
            exact ⟨L2, rfl, by intro tree h; simp at h⟩

theorem plainTokens_length (cs : List Nat) :
    ∀ (line column : Int), (plainTokens cs line column).length ≤ cs.length := by
  induction cs with
  | nil => intro line column; simp [plainTokens]
  | cons c cs ih =>
    intro line column
    simp only [plainTokens]
    split_ifs
    · exact Nat.le_succ_of_le (ih _ _)
    · exact Nat.le_succ_of_le (ih _ _)
    · simpa using ih _ _

theorem commandToken_ne_EOF (c : Nat) (h : isCommand c) : commandToken c ≠ EOF := by
  rcases h with h | h | h | h | h | h | h | h <;> subst h <;> decide

theorem Stream.of_Lex_eq {T : RangeTables} {L L1 : Lexer} {ts : List Tok}
    (h : Lex T L = Lex T L1) (hs : Stream T L1 ts) : Stream T L ts := by
  cases hs with
  | eof hL => exact Stream.eof (h.trans hL)
  | cons hL ht hr => exact Stream.cons (h.trans hL) ht hr

theorem Lex_plain (T : RangeTables) (rest pre : List Nat) (L : Lexer)
    (hs : L.Reader.s = pre ++ rest) (hi : L.Reader.i = pre.length)
    (hp : ∀ c ∈ rest, isPlain c) :
    Lex T L = lexPlain L.Reader.s rest L.Reader.i L.Position.Line L.Position.Column := by
  unfold Lex
  exact lexLoop_plain T rest pre L _ hs hi hp (by rw [hs]; simp; omega)

theorem stream_plain (T : RangeTables) :
    ∀ (rest pre : List Nat) (L : Lexer),
      L.Reader.s = pre ++ rest → L.Reader.i = pre.length → (∀ c ∈ rest, isPlain c) →
      Stream T L (plainTokens rest L.Position.Line L.Position.Column) := by
  intro rest
  induction rest with
  | nil =>
    intro pre L hs hi hp
    have h := Lex_plain T [] pre L hs hi hp
    simp only [lexPlain] at h
    simpa [plainTokens] using Stream.eof h
  | cons c cs ih =>
    intro pre L hs hi hp
    have h := Lex_plain T (c :: cs) pre L hs hi hp
    have hcs : ∀ d ∈ cs, isPlain d := fun d hd => hp d (List.mem_cons_of_mem _ hd)
    simp only [lexPlain] at h
    simp only [plainTokens]
    by_cases h10 : c = 10
    · simp only [h10, if_true] at h ⊢
      have hs1 : L.Reader.s = (pre ++ [10]) ++ cs := by simp [hs, h10]
      have := ih (pre ++ [10]) ⟨⟨L.Position.Line + 1, 0⟩, ⟨L.Reader.s, L.Reader.i + 1, -1⟩⟩
        hs1 (by simp [hi]) hcs
      refine Stream.of_Lex_eq ?_ this
      rw [h]
      exact (Lex_plain T cs (pre ++ [10]) ⟨⟨L.Position.Line + 1, 0⟩, ⟨L.Reader.s, L.Reader.i + 1, -1⟩⟩
        hs1 (by simp [hi]) hcs).symm
    · simp only [h10, if_false] at h ⊢
      by_cases h32 : c = 32
      · simp only [h32, if_true] at h ⊢
        have hs1 : L.Reader.s = (pre ++ [32]) ++ cs := by simp [hs, h32]
        have := ih (pre ++ [32])
          ⟨⟨L.Position.Line, L.Position.Column + 1⟩, ⟨L.Reader.s, L.Reader.i + 1, -1⟩⟩
          hs1 (by simp [hi]) hcs
        refine Stream.of_Lex_eq ?_ this
        rw [h]
        exact (Lex_plain T cs (pre ++ [32])
          ⟨⟨L.Position.Line, L.Position.Column + 1⟩, ⟨L.Reader.s, L.Reader.i + 1, -1⟩⟩
          hs1 (by simp [hi]) hcs).symm
      · simp only [h32, if_false] at h ⊢
        have hcmd : isCommand c := by
          rcases hp c (List.mem_cons_self _ _) with h | h | h
          · exact h
          · exact absurd h h32
          · exact absurd h h10
        have hs1 : L.Reader.s = (pre ++ [c]) ++ cs := by simp [hs]
        exact Stream.cons h (commandToken_ne_EOF c hcmd)
          (ih (pre ++ [c])
            ⟨⟨L.Position.Line, L.Position.Column + 1⟩, ⟨L.Reader.s, L.Reader.i + 1, L.Reader.i⟩⟩
            hs1 (by simp [hi]) hcs)

theorem isCommand_cases (c : Nat) (h : isCommand c) : c = 91 ∨ c = 93 ∨ isSimple c := by
  unfold isSimple
  rcases h with h | h | h | h | h | h | h | h <;> simp [h]

theorem foldRepeat_of_types_none (token : Token) (nodes : List ASTNode)
    (h : nodesTokensTypes token = none) : foldRepeat token nodes = none := by
  unfold foldRepeat
  split_ifs
  · simp only [h]
  · rfl

theorem action_open (p : Position) (nodes : List ASTNode) :
    action p (commandToken 91) [91] nodes = .enter := by
  have h : commandToken 91 = BRACKET_OPEN := by decide
  rw [h, action, foldRepeat_of_types_none _ _ (by decide)]
  simp

theorem action_close (p : Position) (nodes : List ASTNode) :
    action p (commandToken 93) [93] nodes = .leave := by
  have h : commandToken 93 = BRACKET_CLOSE := by decide
  rw [h, action, foldRepeat_of_types_none _ _ (by decide)]
  have hne : ¬ BRACKET_CLOSE = BRACKET_OPEN := by decide
  simp [hne]

theorem action_simple (p : Position) (c : Nat) (nodes : List ASTNode) (h : isSimple c) :
    action p (commandToken c) [c] nodes = .goOn (pushChar c nodes) := by
  unfold action pushChar
  cases hf : foldRepeat (commandToken c) nodes with
  | some n1 => rfl
  | none =>
    simp only []
    rcases h with h | h | h | h | h | h <;> subst h <;> rfl

theorem run_plainTokens (cs : List Nat) :
    ∀ (line column : Int) (stack : List Frame) (bt : Option ReflectType)
      (nodes : List ASTNode),
      (∀ c ∈ cs, isPlain c) →
      (run (plainTokens cs line column) stack bt nodes).1 =
        runChars cs line column stack bt nodes := by
  induction cs with
  | nil => intro line column stack bt nodes _; cases stack <;> simp [plainTokens, run, runChars]
  | cons c cs ih =>
    intro line column stack bt nodes hp
    have hcs : ∀ d ∈ cs, isPlain d := fun d hd => hp d (List.mem_cons_of_mem _ hd)
    simp only [plainTokens, runChars]
    by_cases h10 : c = 10
    · simp only [h10, if_true]; exact ih _ _ _ _ _ hcs
    simp only [h10, if_false]
    by_cases h32 : c = 32
    · simp only [h32, if_true]; exact ih _ _ _ _ _ hcs
    simp only [h32, if_false]
    have hcmd : isCommand c := by
      rcases hp c (List.mem_cons_self _ _) with h | h | h
      · exact h
      · exact absurd h h32
      · exact absurd h h10
    rcases isCommand_cases c hcmd with h | h | h
    · subst h
      simp only [run, action_open, if_true]
      exact ih _ _ _ _ _ hcs
    · subst h
      simp only [run, action_close, show ¬ ((93 : Nat) = 91) by decide, if_false, if_true]
      cases stack with
      | nil => by_cases hb : bt = some .PtrNodeWhile <;> simp [hb]
      | cons f stack => exact ih _ _ _ _ _ hcs
    · have h91 : c ≠ 91 := by rcases h with h | h | h | h | h | h <;> omega
      have h93 : c ≠ 93 := by rcases h with h | h | h | h | h | h <;> omega
      simp only [run, action_simple _ c nodes h, h91, h93, if_false]
      exact ih _ _ _ _ _ hcs

/-- On a plain source, a call of `Parse` on a fresh lexer returns what the
machine on characters computes. -/
theorem Parse_runChars (T : RangeTables) (source : List Nat) (fuel : Nat)
    (bt : Option ReflectType) (hp : ∀ c ∈ source, isPlain c) (hf : source.length < fuel) :
    ∃ L1, Parse T fuel (NewLexer source) bt = .ok (runChars source 0 0 [] bt [], L1) := by
  have hst := stream_plain T source [] (NewLexer source) (by simp [NewLexer, NewReader])
    (by simp [NewLexer, NewReader]) hp
  have hl := plainTokens_length source 0 0
  obtain ⟨L1, h1, _⟩ := parseLoop_run T _ _ (NewLexer source) fuel bt [] (le_refl _) hst
    (by simp only [NewLexer]; omega)
  refine ⟨L1, ?_⟩
  simp only [Parse]
  simp only [NewLexer] at h1 ⊢
  rw [h1, run_plainTokens source 0 0 [] bt [] hp]

/-- On a plain source, `Parse` at top level returns what the machine on
characters computes. -/
theorem parseSource_runChars (T : RangeTables) (source : List Nat) (fuel : Nat)
    (hp : ∀ c ∈ source, isPlain c) (hf : source.length < fuel) :
    parseSource T fuel source = .ok (runChars source 0 0 [] none []) := by
  obtain ⟨L1, h⟩ := Parse_runChars T source fuel none hp hf
  simp only [parseSource, h]

theorem expandNodes_append (xs ys : List ASTNode) :
    expandNodes (xs ++ ys) = expandNodes xs ++ expandNodes ys := by
  induction xs with
  | nil => simp [expandNodes]
  | cons x xs ih => simp [expandNodes, ih]

theorem countWhileNodes_append (xs ys : List ASTNode) :
    countWhileNodes (xs ++ ys) = countWhileNodes xs + countWhileNodes ys := by
  induction xs with
  | nil => simp [countWhileNodes]
  | cons x xs ih => simp [countWhileNodes, ih]; omega

theorem foldRepeat_nil (token : Token) : foldRepeat token [] = none := by
  simp [foldRepeat]

theorem foldRepeat_snoc (token : Token) (init : List ASTNode) (last : ASTNode) :
    foldRepeat token (init ++ [last]) =
      match nodesTokensTypes token with
      | some tokenType =>
        match repeatableTokens tokenType with
        | some tokenIncrementer =>
          if TypeOf last = tokenType then some (init ++ [tokenIncrementer last]) else none
        | none => none
      | none => none := by
  unfold foldRepeat
  rw [if_pos (by simp)]
  cases nodesTokensTypes token with
  | none => rfl
  | some ty =>
    simp only []
    cases repeatableTokens ty with
    | none => rfl
    | some f => simp

theorem pushChar_nil (c : Nat) : pushChar c [] = [freshNode c] := by
  simp [pushChar, foldRepeat_nil]

theorem lastOk_snoc (init : List ASTNode) (last : ASTNode) :
    lastOk (init ++ [last]) ↔ 0 ≤ last.node.Repeat := by
  simp [lastOk]

theorem lastOk_snoc_pair (init : List ASTNode) (a last : ASTNode) :
    lastOk (init ++ [a, last]) ↔ 0 ≤ last.node.Repeat := by
  have : init ++ [a, last] = (init ++ [a]) ++ [last] := by simp
  rw [this, lastOk_snoc]

theorem lastOk_nil : lastOk [] := by
  intro n h; simp at h

/-- A command character other than a bracket adds itself to the text of the
nodes and nothing to the count of while nodes. -/
theorem pushChar_spec (c : Nat) (hc : isSimple c) (nodes : List ASTNode) (hl : lastOk nodes) :
    expandNodes (pushChar c nodes) = expandNodes nodes ++ [c] ∧
      countWhileNodes (pushChar c nodes) = countWhileNodes nodes ∧
      lastOk (pushChar c nodes) := by
  rcases List.eq_nil_or_concat nodes with h | ⟨init, last, h⟩
  · subst h
    rw [pushChar_nil]
    rcases hc with h | h | h | h | h | h <;> subst h <;>
      simp [freshNode, expandNodes, expandNode, countWhileNodes, countWhileNode, lastOk,
        ASTNode.node]
  · subst h
    rw [List.concat_eq_append] at hl ⊢
    have h0 := (lastOk_snoc init last).mp hl
    unfold pushChar
    rw [foldRepeat_snoc]
    rcases hc with h | h | h | h | h | h <;> subst h <;> cases last <;>
      simp [commandToken, tokensIndex_singleton, nodesTokensTypes, repeatableTokens, TypeOf,
        NEXT_CELL, PREVIOUS_CELL, INCREMENT_CELL, DECREMENT_CELL, OUTPUT_CELL, INPUT_CELL,
        nodeIncrementer, freshNode, expandNodes_append, expandNodes, expandNode,
        countWhileNodes_append, countWhileNodes, countWhileNode, lastOk_snoc,
        lastOk_snoc_pair, ASTNode.node] at h0 ⊢ <;>
      first
        | omega
        | (refine ⟨?_, by omega⟩
           rw [Int.toNat_add (by omega) (by omega)]
           simp [List.replicate_succ', List.replicate_add])

theorem isPlain_cases (c : Nat) (h : isPlain c) :
    c = 10 ∨ c = 32 ∨ c = 91 ∨ c = 93 ∨ isSimple c := by
  rcases h with h | h | h
  · rcases isCommand_cases c h with h | h | h <;> simp [h]
  · simp [h]
  · simp [h]

theorem isSimple_ne (c : Nat) (h : isSimple c) : c ≠ 10 ∧ c ≠ 32 ∧ c ≠ 91 ∧ c ≠ 93 := by
  rcases h with h | h | h | h | h | h <;> omega

theorem runChars_balanced (cs : List Nat) (bt : Option ReflectType) :
    ∀ (line column : Int) (stack : List Frame) (nodes : List ASTNode),
      (∀ c ∈ cs, isPlain c) → lastOk nodes → depthAfter stack.length cs = some 0 →
      ∃ ast, runChars cs line column stack bt nodes = .ok (ast, -1) ∧
        expand ast = textStack stack ++ expandNodes nodes ++ commandsOf cs ∧
        countWhile ast = countStack stack + countWhileNodes nodes + cs.count 91 := by
  induction cs with
  | nil =>
    intro line column stack nodes _ _ hd
    simp only [depthAfter, Option.some.injEq, List.length_eq_zero] at hd
    subst hd
    exact ⟨.mk nodes, rfl, by simp [expand, textStack, commandsOf],
      by simp [countWhile, countStack]⟩
  | cons c cs ih =>
    intro line column stack nodes hp hl hd
    have hcs : ∀ d ∈ cs, isPlain d := fun d hd => hp d (List.mem_cons_of_mem _ hd)
    rcases isPlain_cases c (hp c (List.mem_cons_self _ _)) with h | h | h | h | h
    · subst h
      obtain ⟨ast, h1, h2, h3⟩ := ih (line + 1) 0 stack nodes hcs hl (by simpa [depthAfter] using hd)
      exact ⟨ast, by simpa [runChars] using h1, by simpa [commandsOf] using h2,
        by simpa using h3⟩
    · subst h
      obtain ⟨ast, h1, h2, h3⟩ := ih line (column + 1) stack nodes hcs hl
        (by simpa [depthAfter] using hd)
      exact ⟨ast, by simpa [runChars] using h1, by simpa [commandsOf] using h2,
        by simpa using h3⟩
    · subst h
      obtain ⟨ast, h1, h2, h3⟩ := ih line (column + 1)
        ({ position := { Line := line, Column := column + 1 }, nodes := nodes } :: stack) []
        hcs lastOk_nil (by simpa [depthAfter] using hd)
      refine ⟨ast, by simpa [runChars] using h1, ?_, ?_⟩
      · rw [h2]; simp [textStack, expandNodes, commandsOf]
      · rw [h3]; simp [countStack, countWhileNodes]; omega
    · subst h
      cases stack with
      | nil => simp [depthAfter] at hd
      | cons f stack =>
        obtain ⟨ast, h1, h2, h3⟩ := ih line (column + 1) stack
          (f.nodes ++ [.NodeWhile (.mk nodes) { Repeat := 0, NodeType := NODE_WHILE }])
          hcs (by rw [lastOk_snoc]; simp [ASTNode.node]) (by simpa [depthAfter] using hd)
        refine ⟨ast, by simpa [runChars] using h1, ?_, ?_⟩
        · rw [h2]
          simp [textStack, expandNodes_append, expandNodes, expandNode, expand, commandsOf]
        · rw [h3]
          simp [countStack, countWhileNodes_append, countWhileNodes, countWhileNode, countWhile]
          omega
    · obtain ⟨n10, n32, n91, n93⟩ := isSimple_ne c h
      obtain ⟨e1, e2, e3⟩ := pushChar_spec c h nodes hl
      obtain ⟨ast, h1, h2, h3⟩ := ih line (column + 1) stack (pushChar c nodes) hcs e3
        (by simpa [depthAfter, n91, n93] using hd)
      refine ⟨ast, by simpa [runChars, n10, n32, n91, n93] using h1, ?_, ?_⟩
      · rw [h2, e1]; simp [commandsOf, n10, n32]
      · rw [h3, e2]; simp [List.count_cons, n91.symm]

theorem runChars_unbalanced (cs : List Nat) :
    ∀ (line column : Int) (stack : List Frame) (nodes : List ASTNode),
      (∀ c ∈ cs, isPlain c) → depthAfter stack.length cs ≠ some 0 →
      ∃ e, runChars cs line column stack none nodes = .error e := by
  induction cs with
  | nil =>
    intro line column stack nodes _ hd
    cases stack with
    | nil => simp [depthAfter] at hd
    | cons f stack => exact ⟨_, rfl⟩
  | cons c cs ih =>
    intro line column stack nodes hp hd
    have hcs : ∀ d ∈ cs, isPlain d := fun d hd => hp d (List.mem_cons_of_mem _ hd)
    rcases isPlain_cases c (hp c (List.mem_cons_self _ _)) with h | h | h | h | h
    · subst h
      obtain ⟨e, h1⟩ := ih (line + 1) 0 stack nodes hcs (by simpa [depthAfter] using hd)
      exact ⟨e, by simpa [runChars] using h1⟩
    · subst h
      obtain ⟨e, h1⟩ := ih line (column + 1) stack nodes hcs (by simpa [depthAfter] using hd)
      exact ⟨e, by simpa [runChars] using h1⟩
    · subst h
      obtain ⟨e, h1⟩ := ih line (column + 1)
        ({ position := { Line := line, Column := column + 1 }, nodes := nodes } :: stack) []
        hcs (by simpa [depthAfter] using hd)
      exact ⟨e, by simpa [runChars] using h1⟩
    · subst h
      cases stack with
      | nil => exact ⟨.unmatchedClose (line + 1) (column + 1), by simp [runChars]⟩
      | cons f stack =>
        obtain ⟨e, h1⟩ := ih line (column + 1) stack
          (f.nodes ++ [.NodeWhile (.mk nodes) { Repeat := 0, NodeType := NODE_WHILE }])
          hcs (by simpa [depthAfter] using hd)
        exact ⟨e, by simpa [runChars] using h1⟩
    · obtain ⟨n10, n32, n91, n93⟩ := isSimple_ne c h
      obtain ⟨e, h1⟩ := ih line (column + 1) stack (pushChar c nodes) hcs
        (by simpa [depthAfter, n91, n93] using hd)
      exact ⟨e, by simpa [runChars, n10, n32, n91, n93] using h1⟩

theorem depthAfter_iff (cs : List Nat) :
    ∀ (d e : Nat), depthAfter d cs = some e ↔
      ((∀ p, p <+: cs → p.count 93 ≤ d + p.count 91) ∧ d + cs.count 91 = e + cs.count 93) := by
  induction cs with
  | nil =>
    intro d e
    simp only [depthAfter, Option.some.injEq, List.prefix_nil, List.count_nil, add_zero]
    constructor
    · intro h; exact ⟨fun p hp => by subst hp; simp, h⟩
    · intro h; exact h.2
  | cons c cs ih =>
    intro d e
    simp only [depthAfter]
    by_cases h91 : c = 91
    · subst h91
      simp only [if_true]
      rw [ih]
      constructor
      · rintro ⟨h1, h2⟩
        refine ⟨fun p hp => ?_, by simp [List.count_cons]; omega⟩
        rcases List.prefix_cons_iff.mp hp with h | ⟨t, h, ht⟩
        · subst h; simp
        · subst h; have := h1 t ht; simp [List.count_cons]; omega
      · rintro ⟨h1, h2⟩
        refine ⟨fun p hp => ?_, by simp [List.count_cons] at h2; omega⟩
        have := h1 (91 :: p) (List.cons_prefix_cons.mpr ⟨rfl, hp⟩)
        simp [List.count_cons] at this; omega
    · simp only [h91, if_false]
      by_cases h93 : c = 93
      · subst h93
        simp only [if_true]
        by_cases hd : d = 0
        · subst hd
          simp only [if_true]
          constructor
          · intro h; cases h
          · rintro ⟨h1, _⟩
            have := h1 [93] (by simp)
            simp at this
        · simp only [hd, if_false]
          rw [ih]
          constructor
          · rintro ⟨h1, h2⟩
            refine ⟨fun p hp => ?_, by simp [List.count_cons]; omega⟩
            rcases List.prefix_cons_iff.mp hp with h | ⟨t, h, ht⟩
            · subst h; simp
            · subst h; have := h1 t ht; simp [List.count_cons]; omega
          · rintro ⟨h1, h2⟩
            refine ⟨fun p hp => ?_, by simp [List.count_cons] at h2; omega⟩
            have := h1 (93 :: p) (List.cons_prefix_cons.mpr ⟨rfl, hp⟩)
            simp [List.count_cons] at this; omega
      · simp only [h93, if_false]
        rw [ih]
        have c91 : ∀ l : List Nat, (c :: l).count 91 = l.count 91 := fun l => by
          simp [List.count_cons, h91]
        have c93 : ∀ l : List Nat, (c :: l).count 93 = l.count 93 := fun l => by
          simp [List.count_cons, h93]
        constructor
        · rintro ⟨h1, h2⟩
          refine ⟨fun p hp => ?_, by rw [c91, c93]; exact h2⟩
          rcases List.prefix_cons_iff.mp hp with h | ⟨t, h, ht⟩
          · subst h; simp
          · subst h; have := h1 t ht; rw [c91, c93]; exact this
        · rintro ⟨h1, h2⟩
          refine ⟨fun p hp => ?_, by rw [c91, c93] at h2; exact h2⟩
          have := h1 (c :: p) (List.cons_prefix_cons.mpr ⟨rfl, hp⟩)
          rw [c91, c93] at this; exact this

theorem balancedBrackets_iff (source : List Nat) :
    balancedBrackets source ↔ depthAfter 0 source = some 0 := by
  rw [depthAfter_iff]
  simp [balancedBrackets]

theorem lineOf_snoc (p : List Nat) (c : Nat) :
    lineOf (p ++ [c]) = if c = 10 then lineOf p + 1 else lineOf p := by
  unfold lineOf
  by_cases h : c = 10
  · subst h; simp
  · have : ¬ (10 = c) := fun e => h e.symm
    simp [h, List.count_cons, this]

theorem columnOf_snoc (p : List Nat) (c : Nat) :
    columnOf (p ++ [c]) = if c = 10 then 0 else columnOf p + 1 := by
  unfold columnOf
  by_cases h : c = 10
  · subst h; simp [List.takeWhile]
  · simp [h, List.takeWhile]

theorem runChars_step_prefix (p : List Nat) :
    ∀ (done rest : List Nat) (stack : List Frame) (bt : Option ReflectType)
      (nodes : List ASTNode) (e : Nat),
      (∀ c ∈ p, isPlain c) → depthAfter stack.length p = some e →
      ∃ stack1 nodes1, stack1.length = e ∧
        runChars (p ++ rest) (lineOf done) (columnOf done) stack bt nodes =
          runChars rest (lineOf (done ++ p)) (columnOf (done ++ p)) stack1 bt nodes1 := by
  induction p with
  | nil =>
    intro done rest stack bt nodes e _ hd
    simp only [depthAfter, Option.some.injEq] at hd
    exact ⟨stack, nodes, hd, by simp⟩
  | cons c cs ih =>
    intro done rest stack bt nodes e hp hd
    have hcs : ∀ d ∈ cs, isPlain d := fun d hd => hp d (List.mem_cons_of_mem _ hd)
    have happ : done ++ c :: cs = (done ++ [c]) ++ cs := by simp
    rw [happ]
    simp only [List.cons_append, runChars]
    rcases isPlain_cases c (hp c (List.mem_cons_self _ _)) with h | h | h | h | h
    · subst h
      obtain ⟨s1, n1, h1, h2⟩ := ih (done ++ [10]) rest stack bt nodes e hcs
        (by simpa [depthAfter] using hd)
      refine ⟨s1, n1, h1, ?_⟩
      rw [← h2]; simp [lineOf_snoc, columnOf_snoc]
    · subst h
      obtain ⟨s1, n1, h1, h2⟩ := ih (done ++ [32]) rest stack bt nodes e hcs
        (by simpa [depthAfter] using hd)
      refine ⟨s1, n1, h1, ?_⟩
      rw [← h2]; simp [lineOf_snoc, columnOf_snoc]
    · subst h
      obtain ⟨s1, n1, h1, h2⟩ := ih (done ++ [91]) rest
        ({ position := { Line := lineOf done, Column := columnOf done + 1 }, nodes := nodes } ::
          stack) bt [] e hcs (by simpa [depthAfter] using hd)
      refine ⟨s1, n1, h1, ?_⟩
      rw [← h2]; simp [lineOf_snoc, columnOf_snoc]
    · subst h
      cases stack with
      | nil => simp [depthAfter] at hd
      | cons f stack =>
        obtain ⟨s1, n1, h1, h2⟩ := ih (done ++ [93]) rest stack bt
          (f.nodes ++ [.NodeWhile (.mk nodes) { Repeat := 0, NodeType := NODE_WHILE }]) e hcs
          (by simpa [depthAfter] using hd)
        refine ⟨s1, n1, h1, ?_⟩
        rw [← h2]; simp [lineOf_snoc, columnOf_snoc]
    · obtain ⟨n10, n32, n91, n93⟩ := isSimple_ne c h
      obtain ⟨s1, n1, h1, h2⟩ := ih (done ++ [c]) rest stack bt (pushChar c nodes) e hcs
        (by simpa [depthAfter, n91, n93] using hd)
      refine ⟨s1, n1, h1, ?_⟩
      rw [← h2]; simp [lineOf_snoc, columnOf_snoc, n10, n32, n91, n93]

theorem depthAfter_append (p q : List Nat) :
    ∀ (d : Nat), depthAfter d (p ++ q) = (depthAfter d p).bind (fun e => depthAfter e q) := by
  induction p with
  | nil => intro d; simp [depthAfter]
  | cons c cs ih =>
    intro d
    simp only [List.cons_append, depthAfter]
    split_ifs <;> simp [ih]

theorem depthAfter_shift (p : List Nat) :
    ∀ (d e k : Nat), depthAfter d p = some e → depthAfter (d + k) p = some (e + k) := by
  induction p with
  | nil => intro d e k h; simp only [depthAfter, Option.some.injEq] at h ⊢; omega
  | cons c cs ih =>
    intro d e k h
    simp only [depthAfter] at h ⊢
    by_cases h91 : c = 91
    · simp only [h91, if_true] at h ⊢
      have := ih (d + 1) e k h
      rwa [show d + 1 + k = d + k + 1 by omega] at this
    · simp only [h91, if_false] at h ⊢
      by_cases h93 : c = 93
      · simp only [h93, if_true] at h ⊢
        by_cases hd : d = 0
        · simp [hd] at h
        · simp only [hd, if_false] at h
          have := ih (d - 1) e k h
          rw [if_neg (by omega)]
          rwa [show d - 1 + k = d + k - 1 by omega] at this
      · simp only [h93, if_false] at h ⊢
        exact ih d e k h

theorem StackInv_snoc_plain (c : Nat) (hc : isPlain c) (h91 : c ≠ 91) (h93 : c ≠ 93)
    (done : List Nat) (stack : List Frame) (h : StackInv done stack) :
    StackInv (done ++ [c]) stack := by
  cases stack with
  | nil => trivial
  | cons f stack =>
    obtain ⟨a, b, h1, h2, h3, h4, h5⟩ := h
    refine ⟨a, b ++ [c], by simp [h1], ?_, ?_, h4, h5⟩
    · rw [depthAfter_append, h2]; simp [depthAfter, h91, h93]
    · intro x hx
      rcases List.mem_append.mp hx with hx | hx
      · exact h3 x hx
      · simp at hx; subst hx; exact hc

theorem runChars_unclosed (rest : List Nat) :
    ∀ (done : List Nat) (stack : List Frame) (nodes : List ASTNode) (e : Nat),
      (∀ c ∈ rest, isPlain c) → StackInv done stack →
      depthAfter stack.length rest = some e → 0 < e →
      ∃ a b, done ++ rest = a ++ 91 :: b ∧ depthAfter 0 b = some 0 ∧
        runChars rest (lineOf done) (columnOf done) stack none nodes =
          .error (.unmatchedOpen (lineOf a + 1) (columnOf a + 1)) := by
  induction rest with
  | nil =>
    intro done stack nodes e _ hinv hd he
    simp only [depthAfter, Option.some.injEq] at hd
    cases stack with
    | nil => simp at hd; omega
    | cons f stack =>
      obtain ⟨a, b, h1, h2, _, h4, _⟩ := hinv
      exact ⟨a, b, by simp [h1], h2, by simp [runChars, h4]⟩
  | cons c cs ih =>
    intro done stack nodes e hp hinv hd he
    have hcs : ∀ d ∈ cs, isPlain d := fun d hd => hp d (List.mem_cons_of_mem _ hd)
    have hc := hp c (List.mem_cons_self _ _)
    have happ : done ++ c :: cs = (done ++ [c]) ++ cs := by simp
    rw [happ]
    simp only [runChars]
    rcases isPlain_cases c hc with h | h | h | h | h
    · subst h
      obtain ⟨a, b, h1, h2, h3⟩ := ih (done ++ [10]) stack nodes e hcs
        (StackInv_snoc_plain 10 hc (by decide) (by decide) done stack hinv)
        (by simpa [depthAfter] using hd) he
      refine ⟨a, b, h1, h2, ?_⟩
      rw [← h3]; simp [lineOf_snoc, columnOf_snoc]
    · subst h
      obtain ⟨a, b, h1, h2, h3⟩ := ih (done ++ [32]) stack nodes e hcs
        (StackInv_snoc_plain 32 hc (by decide) (by decide) done stack hinv)
        (by simpa [depthAfter] using hd) he
      refine ⟨a, b, h1, h2, ?_⟩
      rw [← h3]; simp [lineOf_snoc, columnOf_snoc]
    · subst h
      obtain ⟨a, b, h1, h2, h3⟩ := ih (done ++ [91])
        ({ position := { Line := lineOf done, Column := columnOf done + 1 }, nodes := nodes } ::
          stack) [] e hcs
        ⟨done, [], by simp, by simp [depthAfter], by simp, rfl, hinv⟩
        (by simpa [depthAfter] using hd) he
      refine ⟨a, b, h1, h2, ?_⟩
      rw [← h3]; simp [lineOf_snoc, columnOf_snoc]
    · subst h
      cases stack with
      | nil => simp [depthAfter] at hd
      | cons f stack =>
        obtain ⟨a0, b0, g1, g2, g3, g4, g5⟩ := hinv
        have hinv1 : StackInv (done ++ [93]) stack := by
          cases stack with
          | nil => trivial
          | cons g stack =>
            obtain ⟨a1, b1, k1, k2, k3, k4, k5⟩ := g5
            refine ⟨a1, b1 ++ 91 :: b0 ++ [93], by simp [g1, k1], ?_, ?_, k4, k5⟩
            · have e1 : b1 ++ 91 :: b0 ++ [93] = b1 ++ (91 :: (b0 ++ [93])) := by simp
              have e2 := depthAfter_shift b0 0 0 1 g2
              rw [e1, depthAfter_append, k2]
              simp only [depthAfter, if_true]
              show depthAfter (0 + 1) (b0 ++ [93]) = some 0
              rw [depthAfter_append, e2]
              simp [depthAfter]
            · intro x hx
              simp only [List.append_assoc, List.cons_append, List.mem_append, List.mem_cons,
                List.mem_singleton, List.not_mem_nil, or_false] at hx
              rcases hx with hx | hx | hx | hx
              · exact k3 x hx
              · subst hx; exact Or.inl (by unfold isCommand; simp)
              · exact g3 x hx
              · subst hx; exact hc
        obtain ⟨a, b, h1, h2, h3⟩ := ih (done ++ [93]) stack
          (f.nodes ++ [.NodeWhile (.mk nodes) { Repeat := 0, NodeType := NODE_WHILE }]) e hcs
          hinv1 (by simpa [depthAfter] using hd) he
        refine ⟨a, b, h1, h2, ?_⟩
        rw [← h3]; simp [lineOf_snoc, columnOf_snoc]
    · obtain ⟨n10, n32, n91, n93⟩ := isSimple_ne c h
      obtain ⟨a, b, h1, h2, h3⟩ := ih (done ++ [c]) stack (pushChar c nodes) e hcs
        (StackInv_snoc_plain c hc n91 n93 done stack hinv)
        (by simpa [depthAfter, n91, n93] using hd) he
      refine ⟨a, b, h1, h2, ?_⟩
      rw [← h3]; simp [lineOf_snoc, columnOf_snoc, n10, n32, n91, n93]

theorem pushChar_same (c : Nat) (hc : isRepeatable c) (r : Int) :
    pushChar c [repeatNode c r] = [repeatNode c (r + 1)] := by
  have h := foldRepeat_snoc (commandToken c) [] (repeatNode c r)
  simp only [List.nil_append] at h
  unfold pushChar
  rw [h]
  rcases hc with h | h | h | h <;> subst h <;> rfl

theorem pushChar_other (c d : Nat) (hc : isRepeatable c) (hd : isRepeatable d) (hcd : d ≠ c)
    (r : Int) : pushChar d [repeatNode c r] = [repeatNode c r, repeatNode d 0] := by
  have h := foldRepeat_snoc (commandToken d) [] (repeatNode c r)
  simp only [List.nil_append] at h
  unfold pushChar
  rw [h]
  rcases hc with h | h | h | h <;> subst h <;> rcases hd with h | h | h | h <;> subst h <;>
    first | exact absurd rfl hcd | rfl

theorem isRepeatable_isSimple (c : Nat) (h : isRepeatable c) : isSimple c := by
  unfold isSimple
  rcases h with h | h | h | h <;> simp [h]

theorem isSimple_isPlain (c : Nat) (h : isSimple c) : isPlain c := by
  unfold isPlain isCommand
  rcases h with h | h | h | h | h | h <;> simp [h]

theorem runChars_replicate (c : Nat) (hc : isRepeatable c) (rest : List Nat)
    (bt : Option ReflectType) (line : Int) :
    ∀ (n : Nat) (r column : Int),
      runChars (List.replicate n c ++ rest) line column [] bt [repeatNode c r] =
        runChars rest line (column + n) [] bt [repeatNode c (r + n)] := by
  obtain ⟨n10, n32, n91, n93⟩ := isSimple_ne c (isRepeatable_isSimple c hc)
  intro n
  induction n with
  | zero => intro r column; simp
  | succ n ih =>
    intro r column
    simp only [List.replicate_succ, List.cons_append, runChars, n10, n32, n91, n93, if_false,
      List.append_eq]
    rw [pushChar_same c hc, ih]
    push_cast
    rw [show column + 1 + (n : Int) = column + ((n : Int) + 1) by ring,
      show r + 1 + (n : Int) = r + ((n : Int) + 1) by ring]

theorem isCommand_isPlain (c : Nat) (h : isCommand c) : isPlain c := Or.inl h

theorem commandsOf_commands (cs : List Nat) (h : ∀ c ∈ cs, isCommand c) : commandsOf cs = cs := by
  unfold commandsOf
  rw [List.filter_eq_self]
  intro c hc
  have := h c hc
  unfold isCommand at this
  simp only [decide_eq_true_eq]
  omega

/-! ## Properties of the parser -/

/-- C1 (run-length folding): for every `N ≥ 1` and each of the four characters
`>`, `<`, `+`, `-`, top-level `Parse` on `N` copies of the character returns,
without error, a tree with exactly one node, of the kind of the character, with
`Repeat = N - 1`; and when a different one of the four characters follows, the
tree has exactly two nodes, the second of the kind of the new character with
`Repeat = 0`. -/
theorem run_length_folding (T : RangeTables) (N : Nat) (c d : Nat) (fuel : Nat)
    (hN : 1 ≤ N) (hc : isRepeatable c) (hd : isRepeatable d) (hcd : d ≠ c)
    (hf : N + 1 < fuel) :
    parseSource T fuel (List.replicate N c) =
        .ok (.ok (.mk [repeatNode c ((N : Int) - 1)], -1)) ∧
      parseSource T fuel (List.replicate N c ++ [d]) =
        .ok (.ok (.mk [repeatNode c ((N : Int) - 1), repeatNode d 0], -1)) := by
  obtain ⟨n, rfl⟩ : ∃ n, N = n + 1 := ⟨N - 1, by omega⟩
  have hpc := isSimple_isPlain c (isRepeatable_isSimple c hc)
  have hpd := isSimple_isPlain d (isRepeatable_isSimple d hd)
  obtain ⟨c10, c32, c91, c93⟩ := isSimple_ne c (isRepeatable_isSimple c hc)
  obtain ⟨d10, d32, d91, d93⟩ := isSimple_ne d (isRepeatable_isSimple d hd)
  have hfresh : pushChar c [] = [repeatNode c 0] := by
    rw [pushChar_nil]
    rcases hc with h | h | h | h <;> subst h <;> rfl
  have hr : ((n + 1 : Nat) : Int) - 1 = 0 + (n : Int) := by push_cast; ring
  constructor
  · rw [parseSource_runChars T _ fuel
      (by intro x hx; rw [List.eq_of_mem_replicate hx]; exact hpc) (by simp; omega)]
    have h := runChars_replicate c hc [] none 0 n 0 1
    simp only [List.append_nil] at h
    simp only [List.replicate_succ, runChars, c10, c32, c91, c93, if_false, hfresh]
    simp only [zero_add]
    rw [h, hr]
    rfl
  · rw [parseSource_runChars T _ fuel
      (by
        intro x hx
        rcases List.mem_append.mp hx with hx | hx
        · rw [List.eq_of_mem_replicate hx]; exact hpc
        · simp at hx; subst hx; exact hpd) (by simp; omega)]
    have h := runChars_replicate c hc [d] none 0 n 0 1
    simp only [List.replicate_succ, List.cons_append, runChars, c10, c32, c91, c93, if_false,
      hfresh, List.append_eq]
    simp only [zero_add]
    rw [h, hr]
    simp only [runChars, d10, d32, d91, d93, if_false]
    rw [pushChar_other c d hc hd hcd]

/-- Witness of `run_length_folding`: `+++` and `+++>`. -/
theorem run_length_folding_witness :
    parseSource latin1Tables 5 [43, 43, 43] =
        .ok (.ok (.mk [.IncrementCell { Repeat := 2, NodeType := NODE_INCREMENT_CELL }], -1)) ∧
      parseSource latin1Tables 5 [43, 43, 43, 62] =
        .ok (.ok (.mk [.IncrementCell { Repeat := 2, NodeType := NODE_INCREMENT_CELL },
          .NextCell { Repeat := 0, NodeType := NODE_NEXT_CELL }], -1)) :=
  run_length_folding latin1Tables 3 43 62 5 (by decide) (by unfold isRepeatable; decide)
    (by unfold isRepeatable; decide) (by decide) (by decide)

/-- C2 (loop nesting balance): for every source made only of the eight command
characters, top-level `Parse` returns a tree and no error exactly when the
brackets of the source are balanced, it returns an error when they are not, and
on success the number of while nodes of the tree, at all depths, is the number
of `[` in the source. -/
theorem loop_nesting_balance (T : RangeTables) (source : List Nat) (fuel : Nat)
    (hs : ∀ c ∈ source, isCommand c) (hf : source.length < fuel) :
    ((∃ ast, parseSource T fuel source = .ok (.ok (ast, -1))) ↔ balancedBrackets source) ∧
      (¬ balancedBrackets source → ∃ e, parseSource T fuel source = .ok (.error e)) ∧
      (∀ ast tok, parseSource T fuel source = .ok (.ok (ast, tok)) →
        countWhile ast = source.count 91) := by
  have hp : ∀ c ∈ source, isPlain c := fun c hc => isCommand_isPlain c (hs c hc)
  rw [parseSource_runChars T source fuel hp hf, balancedBrackets_iff]
  by_cases hd : depthAfter 0 source = some 0
  · obtain ⟨ast, h1, _, h3⟩ := runChars_balanced source none 0 0 [] [] hp lastOk_nil hd
    rw [h1]
    refine ⟨⟨fun _ => hd, fun _ => ⟨ast, rfl⟩⟩, fun h => absurd hd h, ?_⟩
    intro ast1 tok h
    simp only [Outcome.ok.injEq, Except.ok.injEq, Prod.mk.injEq] at h
    rw [← h.1, h3]
    simp [countStack, countWhileNodes]
  · obtain ⟨e, h1⟩ := runChars_unbalanced source 0 0 [] [] hp hd
    rw [h1]
    refine ⟨⟨fun h => ?_, fun h => absurd h hd⟩, fun _ => ⟨e, rfl⟩, ?_⟩
    · obtain ⟨ast, h⟩ := h; simp at h
    · intro ast tok h; simp at h

/-- Witness of `loop_nesting_balance`: the source `[[]]`. -/
theorem loop_nesting_balance_witness :
    ((∃ ast, parseSource latin1Tables 5 [91, 91, 93, 93] = .ok (.ok (ast, -1))) ↔
        balancedBrackets [91, 91, 93, 93]) ∧
      (¬ balancedBrackets [91, 91, 93, 93] →
        ∃ e, parseSource latin1Tables 5 [91, 91, 93, 93] = .ok (.error e)) ∧
      (∀ ast tok, parseSource latin1Tables 5 [91, 91, 93, 93] = .ok (.ok (ast, tok)) →
        countWhile ast = ([91, 91, 93, 93] : List Nat).count 91) :=
  loop_nesting_balance latin1Tables [91, 91, 93, 93] 5 (by decide) (by decide)

/-- C3 (Parse loses nothing and reorders nothing): for every source made only
of the eight command characters with balanced brackets, top-level `Parse`
returns a tree, and expanding the tree (every simple node to `Repeat + 1`
copies of its character, every while node to `[`, the expansion of its body,
`]`, in sequence order) gives back exactly the source. -/
theorem parse_expand_source (T : RangeTables) (source : List Nat) (fuel : Nat)
    (hs : ∀ c ∈ source, isCommand c) (hb : balancedBrackets source)
    (hf : source.length < fuel) :
    ∃ ast, parseSource T fuel source = .ok (.ok (ast, -1)) ∧ expand ast = source := by
  have hp : ∀ c ∈ source, isPlain c := fun c hc => isCommand_isPlain c (hs c hc)
  obtain ⟨ast, h1, h2, _⟩ := runChars_balanced source none 0 0 [] [] hp lastOk_nil
    ((balancedBrackets_iff source).mp hb)
  refine ⟨ast, by rw [parseSource_runChars T source fuel hp hf, h1], ?_⟩
  rw [h2, commandsOf_commands source hs]
  simp [textStack, expandNodes]

/-- Witness of `parse_expand_source`: the source `+++[>+<-]`. -/
theorem parse_expand_source_witness :
    ∃ ast, parseSource latin1Tables 10 [43, 43, 43, 91, 62, 43, 60, 45, 93] = .ok (.ok (ast, -1)) ∧
      expand ast = [43, 43, 43, 91, 62, 43, 60, 45, 93] :=
  parse_expand_source latin1Tables [43, 43, 43, 91, 62, 43, 60, 45, 93] 10 (by decide)
    ((balancedBrackets_iff _).mpr (by decide)) (by decide)

/-- C6 (unmatched loop-open): for every source made of command characters,
spaces and newlines in which no `]` stands at nesting depth zero and some `[` is
never closed, top-level `Parse` returns no tree and the error `unmatched [ at
L:C`, where `L:C` is the 1-based line and column of the last `[` that is still
open at the end of input: the source is `a`, that `[`, then a balanced `b`. -/
theorem unmatched_open (T : RangeTables) (source : List Nat) (fuel : Nat)
    (hs : ∀ c ∈ source, isPlain c)
    (h1 : ∀ p, p <+: source → p.count 93 ≤ p.count 91)
    (h2 : source.count 93 < source.count 91) (hf : source.length < fuel) :
    ∃ a b, source = a ++ 91 :: b ∧ balancedBrackets b ∧
      parseSource T fuel source =
        .ok (.error (.unmatchedOpen (lineOf a + 1) (columnOf a + 1))) := by
  have hd : depthAfter 0 source = some (source.count 91 - source.count 93) :=
    (depthAfter_iff source 0 _).mpr ⟨by simpa using h1, by omega⟩
  obtain ⟨a, b, e1, e2, e3⟩ := runChars_unclosed source [] [] [] _ hs trivial hd (by omega)
  simp only [List.nil_append] at e1
  refine ⟨a, b, e1, (balancedBrackets_iff b).mpr e2, ?_⟩
  rw [parseSource_runChars T source fuel hs hf]
  have l0 : lineOf [] = 0 := by simp [lineOf]
  have c0 : columnOf [] = 0 := by simp [columnOf]
  rw [l0, c0] at e3
  rw [e3]

/-- Witness of `unmatched_open`: for the source `[+` the position is 1:1. -/
theorem unmatched_open_witness :
    parseSource latin1Tables 3 [91, 43] = .ok (.error (.unmatchedOpen 1 1)) := by
  have hd := (depthAfter_iff [91, 43] 0 1).mp (by decide)
  obtain ⟨a, b, h1, _, h3⟩ := unmatched_open latin1Tables [91, 43] 3 (by decide)
    (by simpa using hd.1) (by decide) (by decide)
  cases a with
  | nil => simpa [lineOf, columnOf] using h3
  | cons x a =>
    simp only [List.cons_append, List.cons.injEq] at h1
    obtain ⟨_, h1⟩ := h1
    cases a with
    | nil => simp at h1
    | cons y a =>
      simp only [List.cons_append, List.cons.injEq] at h1
      obtain ⟨_, h1⟩ := h1
      simp at h1

/-- C7 (unmatched loop-close): for every source made of command characters,
spaces and newlines with a `]` that no earlier `[` matches, the text `p` before
the first such `]` being balanced, top-level `Parse` returns no tree and the
error `encountered unmatched ] at L:C` with `L:C` the 1-based line and column of
that `]`; the `]` ends a call with the last token `BRACKET_CLOSE` exactly when
the block type of the call is that of the while node. -/
theorem unmatched_close (T : RangeTables) (p r : List Nat) (fuel : Nat)
    (hp : ∀ c ∈ p, isPlain c) (hr : ∀ c ∈ r, isPlain c) (hb : balancedBrackets p)
    (hf : (p ++ 93 :: r).length < fuel) :
    parseSource T fuel (p ++ 93 :: r) =
        .ok (.error (.unmatchedClose (lineOf p + 1) (columnOf p + 1))) ∧
      (∀ bt, (∃ tree L, Parse T fuel (NewLexer (p ++ 93 :: r)) bt =
          .ok (.ok (tree, BRACKET_CLOSE), L)) ↔ bt = some .PtrNodeWhile) := by
  have hall : ∀ c ∈ p ++ 93 :: r, isPlain c := by
    intro c hc
    rcases List.mem_append.mp hc with h | h
    · exact hp c h
    · rcases List.mem_cons.mp h with h | h
      · subst h; exact Or.inl (by unfold isCommand; simp)
      · exact hr c h
  have hd := (balancedBrackets_iff p).mp hb
  have l0 : lineOf [] = 0 := by simp [lineOf]
  have c0 : columnOf [] = 0 := by simp [columnOf]
  have key : ∀ bt, ∃ nodes1, runChars (p ++ 93 :: r) 0 0 [] bt [] =
      if bt = some .PtrNodeWhile then .ok (.mk nodes1, BRACKET_CLOSE)
      else .error (.unmatchedClose (lineOf p + 1) (columnOf p + 1)) := by
    intro bt
    obtain ⟨s1, n1, e1, e2⟩ := runChars_step_prefix p [] (93 :: r) [] bt [] 0 hp hd
    rw [l0, c0] at e2
    have : s1 = [] := List.length_eq_zero.mp e1
    subst this
    refine ⟨n1, ?_⟩
    rw [e2]
    simp [runChars]
  constructor
  · obtain ⟨n1, h⟩ := key none
    rw [parseSource_runChars T _ fuel hall hf, h]
    simp
  · intro bt
    obtain ⟨L1, h⟩ := Parse_runChars T (p ++ 93 :: r) fuel bt hall hf
    obtain ⟨n1, hk⟩ := key bt
    rw [h, hk]
    by_cases hbt : bt = some .PtrNodeWhile
    · simp only [hbt, if_true]
      exact ⟨fun _ => trivial, fun _ => ⟨_, _, rfl⟩⟩
    · simp only [hbt, if_false]
      constructor
      · rintro ⟨tree, L, h⟩; simp at h
      · intro h; exact absurd h id

/-- Witness of `unmatched_close`: the source `[]` newline ` ]`, error at 2:2. -/
theorem unmatched_close_witness :
    parseSource latin1Tables 6 ([91, 93, 10, 32] ++ 93 :: []) =
        .ok (.error (.unmatchedClose 2 2)) ∧
      (∀ bt, (∃ tree L, Parse latin1Tables 6 (NewLexer ([91, 93, 10, 32] ++ 93 :: [])) bt =
          .ok (.ok (tree, BRACKET_CLOSE), L)) ↔ bt = some .PtrNodeWhile) :=
  unmatched_close latin1Tables [91, 93, 10, 32] [] 6 (by decide) (by decide)
    ((balancedBrackets_iff _).mpr (by decide)) (by decide)

/-! ## The text written by the code generator -/

theorem joinChunks_append (xs ys : List String) :
    joinChunks (xs ++ ys) = joinChunks xs ++ joinChunks ys := by
  induction xs with
  | nil => simp [joinChunks]
  | cons x xs ih => simp [joinChunks, ih, String.append_assoc]

mutual
theorem compile_eq : ∀ (ast : AST) (offset : Nat) (instructions : String),
    compile ast offset instructions =
      .ok (instructions ++ joinChunks (chunks ast offset).1, (chunks ast offset).2)
  | .mk nodes, offset, instructions => by
    rw [compile, chunks]; exact compileNodes_eq nodes offset instructions
theorem compileNodes_eq : ∀ (nodes : List ASTNode) (offset : Nat) (instructions : String),
    compileNodes nodes offset instructions =
      .ok (instructions ++ joinChunks (chunksNodes nodes offset).1,
        (chunksNodes nodes offset).2)
  | [], offset, instructions => by simp [compileNodes, chunksNodes, joinChunks]
  | .NextCell n :: rest, offset, instructions => by
    rw [compileNodes, compileNodes_eq rest]
    simp only [chunksNodes, joinChunks, joinChunks_append, String.append_assoc,
      List.cons_append, List.append_eq, List.nil_append, List.append_assoc, String.append_empty,
      String.empty_append]
  | .PreviousCell n :: rest, offset, instructions => by
    rw [compileNodes, compileNodes_eq rest]
    simp only [chunksNodes, joinChunks, joinChunks_append, String.append_assoc,
      List.cons_append, List.append_eq, List.nil_append, List.append_assoc, String.append_empty,
      String.empty_append]
  | .IncrementCell n :: rest, offset, instructions => by
    rw [compileNodes, compileNodes_eq rest]
    simp only [chunksNodes, joinChunks, joinChunks_append, String.append_assoc,
      List.cons_append, List.append_eq, List.nil_append, List.append_assoc, String.append_empty,
      String.empty_append]
  | .DecrementCell n :: rest, offset, instructions => by
    rw [compileNodes, compileNodes_eq rest]
    simp only [chunksNodes, joinChunks, joinChunks_append, String.append_assoc,
      List.cons_append, List.append_eq, List.nil_append, List.append_assoc, String.append_empty,
      String.empty_append]
  | .OutputCell n :: rest, offset, instructions => by
    rw [compileNodes, compileNodes_eq rest]
    simp only [chunksNodes, joinChunks, joinChunks_append, String.append_assoc,
      List.cons_append, List.append_eq, List.nil_append, List.append_assoc, String.append_empty,
      String.empty_append]
  | .InputCell n :: rest, offset, instructions => by
    rw [compileNodes, compileNodes_eq rest]
    simp only [chunksNodes, joinChunks, joinChunks_append, String.append_assoc,
      List.cons_append, List.append_eq, List.nil_append, List.append_assoc, String.append_empty,
      String.empty_append]
  | .IntegerLiteral v n :: rest, offset, instructions => by
    rw [compileNodes, compileNodes_eq rest]
    simp [chunksNodes]
  | .NodeWhile tree n :: rest, offset, instructions => by
    rw [compileNodes]
    simp only [compile_eq tree]
    rw [compileNodes_eq rest]
    simp only [chunksNodes, joinChunks, joinChunks_append, String.append_assoc,
      List.cons_append, List.append_eq, List.nil_append, List.append_assoc, String.append_empty,
      String.empty_append]
end

theorem toDigitsCore_append (fuel : Nat) :
    ∀ (n : Nat) (ds : List Char),
      Nat.toDigitsCore 10 fuel n ds = Nat.toDigitsCore 10 fuel n [] ++ ds := by
  induction fuel with
  | zero => intro n ds; simp [Nat.toDigitsCore]
  | succ f ih =>
    intro n ds
    simp only [Nat.toDigitsCore]
    split_ifs
    · simp
    · rw [ih _ (_ :: ds), ih _ [_]]; simp

theorem digitChar_toNat (d : Nat) (h : d < 10) : (Nat.digitChar d).toNat = 48 + d := by
  interval_cases d <;> rfl

theorem digitChar_ne_newline (d : Nat) (h : d < 10) : Nat.digitChar d ≠ Char.ofNat 10 := by
  interval_cases d <;> decide

theorem digitsValue_toDigitsCore (fuel : Nat) :
    ∀ (n : Nat), n < fuel → digitsValue (Nat.toDigitsCore 10 fuel n []) = n := by
  induction fuel with
  | zero => intro n h; omega
  | succ f ih =>
    intro n h
    simp only [Nat.toDigitsCore]
    split_ifs with h0
    · have h10 : n < 10 := by omega
      have e := digitChar_toNat (n % 10) (Nat.mod_lt n (by decide))
      rw [Nat.mod_eq_of_lt h10] at e ⊢
      simp [digitsValue, e]
    · rw [toDigitsCore_append]
      have hlt : n / 10 < f := by omega
      have := ih (n / 10) hlt
      unfold digitsValue at this ⊢
      rw [List.foldl_append, this]
      simp [digitChar_toNat _ (Nat.mod_lt n (by decide))]
      omega

theorem toDigitsCore_no_newline (fuel : Nat) :
    ∀ (n : Nat), Char.ofNat 10 ∉ Nat.toDigitsCore 10 fuel n [] := by
  induction fuel with
  | zero => intro n; simp [Nat.toDigitsCore]
  | succ f ih =>
    intro n
    simp only [Nat.toDigitsCore]
    have hd := digitChar_ne_newline (n % 10) (Nat.mod_lt n (by decide))
    split_ifs
    · simp only [List.mem_singleton]; exact fun h => hd h.symm
    · rw [toDigitsCore_append]
      simp only [List.mem_append, List.mem_singleton, not_or]
      exact ⟨ih _, fun h => hd h.symm⟩

theorem repr_data (n : Nat) : (Nat.repr n).data = Nat.toDigitsCore 10 (n + 1) n [] := rfl

theorem repr_injective (a b : Nat) (h : Nat.repr a = Nat.repr b) : a = b := by
  have h1 := digitsValue_toDigitsCore (a + 1) a (by omega)
  have h2 := digitsValue_toDigitsCore (b + 1) b (by omega)
  rw [← repr_data] at h1 h2
  rw [h] at h1
  omega

theorem repr_no_newline (n : Nat) : Char.ofNat 10 ∉ (Nat.repr n).data := by
  rw [repr_data]; exact toDigitsCore_no_newline _ _

theorem formatInt_no_newline (x : Int) : Char.ofNat 10 ∉ (formatInt x).data := by
  unfold formatInt
  split_ifs
  · simp only [String.data_append, List.mem_append, not_or]
    exact ⟨by decide, repr_no_newline _⟩
  · exact repr_no_newline _

theorem formatInt_natCast (n : Nat) : formatInt (n : Int) = Nat.repr n := by
  unfold formatInt
  rw [if_neg (by omega)]
  simp

theorem splitLines_line (l : List Char) (hl : Char.ofNat 10 ∉ l) (rest : List Char) :
    splitLines (l ++ Char.ofNat 10 :: rest) = l :: splitLines rest := by
  induction l with
  | nil => simp [splitLines]
  | cons c cs ih =>
    have hc : c ≠ Char.ofNat 10 := fun h => hl (by simp [h])
    have hcs : Char.ofNat 10 ∉ cs := fun h => hl (List.mem_cons_of_mem _ h)
    simp only [List.cons_append, splitLines, hc, if_false, List.append_eq, ih hcs]

theorem wfChunk_data (c : String) (h : wfChunk c) :
    c.data = lineOfChunk c ++ [Char.ofNat 10] :=
  (List.dropLast_append_getLast? _ h.1).symm

theorem splitLines_join (cs : List String) (hcs : ∀ c ∈ cs, wfChunk c) (rest : List Char) :
    splitLines ((joinChunks cs).data ++ rest) = cs.map lineOfChunk ++ splitLines rest := by
  induction cs with
  | nil => simp [joinChunks]
  | cons c cs ih =>
    have hc := hcs c (List.mem_cons_self _ _)
    have := ih (fun d hd => hcs d (List.mem_cons_of_mem _ hd))
    simp only [joinChunks, String.data_append, List.append_assoc, List.map_cons,
      List.cons_append]
    rw [wfChunk_data c hc, List.append_assoc, List.singleton_append,
      splitLines_line _ (show Char.ofNat 10 ∉ lineOfChunk c from hc.2), this]

/-- A chunk made of a text, a formatted number and a chunk is a chunk. -/
theorem wfChunk_format (pre mid post : String) (hpre : Char.ofNat 10 ∉ pre.data)
    (hmid : Char.ofNat 10 ∉ mid.data) (hpost : wfChunk post) :
    wfChunk (pre ++ mid ++ post) ∧
      lineOfChunk (pre ++ mid ++ post) = pre.data ++ mid.data ++ lineOfChunk post := by
  have hd : (pre ++ mid ++ post).data =
      (pre.data ++ mid.data ++ lineOfChunk post) ++ [Char.ofNat 10] := by
    simp only [String.data_append]
    rw [wfChunk_data post hpost]
    simp
  unfold wfChunk lineOfChunk
  rw [hd]
  refine ⟨⟨by simp, ?_⟩, by simp [lineOfChunk]⟩
  rw [List.dropLast_concat]
  simp only [List.mem_append, not_or]
  exact ⟨⟨hpre, hmid⟩, hpost.2⟩

theorem Good_nil : Good [] [] := ⟨by simp, by simp⟩

theorem Good_append {a b : List String} {i j : List Nat} (ha : Good a i) (hb : Good b j) :
    Good (a ++ b) (i ++ j) := by
  refine ⟨fun c hc => ?_, ?_⟩
  · rcases List.mem_append.mp hc with h | h
    · exact ha.1 c h
    · exact hb.1 c h
  · simp [ha.2, hb.2]

theorem Good_cons_plain {c : String} {cs : List String} {ids : List Nat} (hw : wfChunk c)
    (hl : isWhileLabel (lineOfChunk c) = false) (h : Good cs ids) : Good (c :: cs) ids := by
  refine ⟨fun d hd => ?_, ?_⟩
  · rcases List.mem_cons.mp hd with e | e
    · subst e; exact hw
    · exact h.1 d e
  · simp [hl, h.2]

theorem isWhileLabel_indented (pre : String) (l : List Char)
    (hpre : pre.data.head? = some ' ') : isWhileLabel (pre.data ++ l) = false := by
  cases hp : pre.data with
  | nil => rw [hp] at hpre; simp at hpre
  | cons x xs =>
    rw [hp] at hpre
    simp only [List.head?_cons, Option.some.injEq] at hpre
    subst hpre
    have : "while_".data = 'w' :: "hile_".data := rfl
    simp [isWhileLabel, this, List.isPrefixOf]

theorem chunk_indented (pre mid post : String) (hpre : Char.ofNat 10 ∉ pre.data)
    (hhead : pre.data.head? = some ' ') (hmid : Char.ofNat 10 ∉ mid.data)
    (hpost : wfChunk post) :
    wfChunk (pre ++ mid ++ post) ∧ isWhileLabel (lineOfChunk (pre ++ mid ++ post)) = false := by
  obtain ⟨h1, h2⟩ := wfChunk_format pre mid post hpre hmid hpost
  refine ⟨h1, ?_⟩
  rw [h2, List.append_assoc]
  exact isWhileLabel_indented pre _ hhead

theorem chunk_label (n : Nat) :
    wfChunk ("while_" ++ formatInt (n : Int) ++ ":\n") ∧
      lineOfChunk ("while_" ++ formatInt (n : Int) ++ ":\n") = labelOf n ∧
      isWhileLabel (labelOf n) = true := by
  obtain ⟨h1, h2⟩ := wfChunk_format "while_" (formatInt (n : Int)) ":\n" (by decide)
    (formatInt_no_newline _) (by decide)
  refine ⟨h1, ?_, ?_⟩
  · rw [h2, formatInt_natCast]
    simp only [labelOf, String.data_append]
    rfl
  · have e : labelOf n = "while_".data ++ ((Nat.repr n).data ++ [':']) := by
      simp only [labelOf, String.data_append, List.append_assoc]
    rw [e]
    simp only [isWhileLabel, Bool.and_eq_true]
    refine ⟨?_, ?_⟩
    · rw [List.isPrefixOf_iff_prefix]; exact List.prefix_append _ _
    · rw [← List.append_assoc, List.getLast?_append]
      simp

theorem chunk_suffix (n : Nat) (post : String) (hpost : wfChunk post)
    (hlast : ∃ x, (lineOfChunk post).getLast? = some x ∧ x ≠ ':') :
    wfChunk ("while_" ++ formatInt (n : Int) ++ post) ∧
      isWhileLabel (lineOfChunk ("while_" ++ formatInt (n : Int) ++ post)) = false := by
  obtain ⟨h1, h2⟩ := wfChunk_format "while_" (formatInt (n : Int)) post (by decide)
    (formatInt_no_newline _) hpost
  refine ⟨h1, ?_⟩
  obtain ⟨x, hx, hne⟩ := hlast
  rw [h2]
  simp only [isWhileLabel, Bool.and_eq_false_iff]
  right
  rw [List.getLast?_append, hx]
  simp [hne]

theorem Good_amount (c0 c1 : String) (pre : String) (x : Int) (c3 : String)
    {cs : List String} {ids : List Nat}
    (h0 : wfChunk c0 ∧ isWhileLabel (lineOfChunk c0) = false)
    (h1 : wfChunk c1 ∧ isWhileLabel (lineOfChunk c1) = false)
    (hpre : Char.ofNat 10 ∉ pre.data ∧ pre.data.head? = some ' ')
    (h3 : wfChunk c3 ∧ isWhileLabel (lineOfChunk c3) = false)
    (h : Good cs ids) :
    Good ([c0, c1, pre ++ formatInt x ++ "\n", c3] ++ cs) ids := by
  obtain ⟨a, b⟩ := chunk_indented pre (formatInt x) "\n" hpre.1 hpre.2
    (formatInt_no_newline x) (by decide)
  exact Good_cons_plain h0.1 h0.2 (Good_cons_plain h1.1 h1.2
    (Good_cons_plain a b (Good_cons_plain h3.1 h3.2 h)))

theorem Good_amount5 (c0 c1 c2 : String) (pre : String) (x : Int) (c4 : String)
    {cs : List String} {ids : List Nat}
    (h0 : wfChunk c0 ∧ isWhileLabel (lineOfChunk c0) = false)
    (h1 : wfChunk c1 ∧ isWhileLabel (lineOfChunk c1) = false)
    (h2 : wfChunk c2 ∧ isWhileLabel (lineOfChunk c2) = false)
    (hpre : Char.ofNat 10 ∉ pre.data ∧ pre.data.head? = some ' ')
    (h4 : wfChunk c4 ∧ isWhileLabel (lineOfChunk c4) = false)
    (h : Good cs ids) :
    Good ([c0, c1, c2, pre ++ formatInt x ++ "\n", c4] ++ cs) ids := by
  obtain ⟨a, b⟩ := chunk_indented pre (formatInt x) "\n" hpre.1 hpre.2
    (formatInt_no_newline x) (by decide)
  exact Good_cons_plain h0.1 h0.2 (Good_cons_plain h1.1 h1.2 (Good_cons_plain h2.1 h2.2
    (Good_cons_plain a b (Good_cons_plain h4.1 h4.2 h))))

theorem Good_while (n : Nat) {body rest : List String} {bi ri : List Nat}
    (hb : Good body bi) (hr : Good rest ri) :
    Good (["    ; -- While -- ;\n",
      "while_" ++ formatInt (n : Int) ++ ":\n",
      "    mov rbx, [cell_pointer]\n",
      "    mov rax, [tape+rbx*8]\n",
      "    cmp rax, 0\n",
      "    jnz while_" ++ formatInt (n : Int) ++ ".not_zero\n",
      "    jmp while_" ++ formatInt (n : Int) ++ ".done\n",
      "while_" ++ formatInt (n : Int) ++ ".not_zero\n",
      "    ; -- While Begin -- ;\n"] ++ body ++
      ["    ; -- While End -- ;\n",
       "    jmp while_" ++ formatInt (n : Int) ++ "\n",
       "while_" ++ formatInt (n : Int) ++ ".done\n"] ++ rest) (n :: bi ++ ri) := by
  obtain ⟨l1, l2, l3⟩ := chunk_label n
  obtain ⟨a1, a2⟩ := chunk_indented "    jnz while_" (formatInt (n : Int)) ".not_zero\n"
    (by decide) (by decide) (formatInt_no_newline _) (by decide)
  obtain ⟨b1, b2⟩ := chunk_indented "    jmp while_" (formatInt (n : Int)) ".done\n"
    (by decide) (by decide) (formatInt_no_newline _) (by decide)
  obtain ⟨c1, c2⟩ := chunk_suffix n ".not_zero\n" (by decide) ⟨'o', by decide, by decide⟩
  obtain ⟨d1, d2⟩ := chunk_indented "    jmp while_" (formatInt (n : Int)) "\n"
    (by decide) (by decide) (formatInt_no_newline _) (by decide)
  obtain ⟨e1, e2⟩ := chunk_suffix n ".done\n" (by decide) ⟨'e', by decide, by decide⟩
  have htail : Good (["    ; -- While End -- ;\n",
       "    jmp while_" ++ formatInt (n : Int) ++ "\n",
       "while_" ++ formatInt (n : Int) ++ ".done\n"] ++ rest) ri :=
    Good_cons_plain (by decide) (by decide) (Good_cons_plain d1 d2 (Good_cons_plain e1 e2 hr))
  have hmid : Good (body ++ (["    ; -- While End -- ;\n",
       "    jmp while_" ++ formatInt (n : Int) ++ "\n",
       "while_" ++ formatInt (n : Int) ++ ".done\n"] ++ rest)) (bi ++ ri) :=
    Good_append hb htail
  have hhead : Good (["    mov rbx, [cell_pointer]\n",
      "    mov rax, [tape+rbx*8]\n",
      "    cmp rax, 0\n",
      "    jnz while_" ++ formatInt (n : Int) ++ ".not_zero\n",
      "    jmp while_" ++ formatInt (n : Int) ++ ".done\n",
      "while_" ++ formatInt (n : Int) ++ ".not_zero\n",
      "    ; -- While Begin -- ;\n"] ++ (body ++ (["    ; -- While End -- ;\n",
       "    jmp while_" ++ formatInt (n : Int) ++ "\n",
       "while_" ++ formatInt (n : Int) ++ ".done\n"] ++ rest))) (bi ++ ri) :=
    Good_cons_plain (by decide) (by decide) (Good_cons_plain (by decide) (by decide)
      (Good_cons_plain (by decide) (by decide) (Good_cons_plain a1 a2 (Good_cons_plain b1 b2
        (Good_cons_plain c1 c2 (Good_cons_plain (by decide) (by decide) hmid))))))
  have hlab : Good (("while_" ++ formatInt (n : Int) ++ ":\n") ::
      (["    mov rbx, [cell_pointer]\n",
      "    mov rax, [tape+rbx*8]\n",
      "    cmp rax, 0\n",
      "    jnz while_" ++ formatInt (n : Int) ++ ".not_zero\n",
      "    jmp while_" ++ formatInt (n : Int) ++ ".done\n",
      "while_" ++ formatInt (n : Int) ++ ".not_zero\n",
      "    ; -- While Begin -- ;\n"] ++ (body ++ (["    ; -- While End -- ;\n",
       "    jmp while_" ++ formatInt (n : Int) ++ "\n",
       "while_" ++ formatInt (n : Int) ++ ".done\n"] ++ rest)))) (n :: (bi ++ ri)) := by
    refine ⟨fun d hd => ?_, ?_⟩
    · rcases List.mem_cons.mp hd with e | e
      · subst e; exact l1
      · exact hhead.1 d e
    · rw [List.map_cons, l2, List.filter_cons_of_pos l3, hhead.2, List.map_cons]
  have := Good_cons_plain (c := "    ; -- While -- ;\n") (by decide) (by decide) hlab
  simpa [List.append_assoc] using this

mutual
theorem good_chunks : ∀ (ast : AST) (k : Nat),
    Good (chunks ast k).1 (labelIds ast k).1 ∧ (chunks ast k).2 = (labelIds ast k).2
  | .mk nodes, k => by rw [chunks, labelIds]; exact good_chunksNodes nodes k
theorem good_chunksNodes : ∀ (nodes : List ASTNode) (k : Nat),
    Good (chunksNodes nodes k).1 (labelIdsNodes nodes k).1 ∧
      (chunksNodes nodes k).2 = (labelIdsNodes nodes k).2
  | [], k => by simp [chunksNodes, labelIdsNodes, Good_nil]
  | .NextCell n :: rest, k => by
    obtain ⟨h1, h2⟩ := good_chunksNodes rest (k + 1)
    rw [chunksNodes, labelIdsNodes]
    exact ⟨Good_amount _ _ "    add rbx, " _ _ (by decide) (by decide) (by decide) (by decide) h1,
      h2⟩
  | .PreviousCell n :: rest, k => by
    obtain ⟨h1, h2⟩ := good_chunksNodes rest (k + 1)
    rw [chunksNodes, labelIdsNodes]
    exact ⟨Good_amount _ _ "    sub rbx, " _ _ (by decide) (by decide) (by decide) (by decide) h1,
      h2⟩
  | .IncrementCell n :: rest, k => by
    obtain ⟨h1, h2⟩ := good_chunksNodes rest (k + 1)
    rw [chunksNodes, labelIdsNodes]
    exact ⟨Good_amount5 _ _ _ "    add rax, " _ _ (by decide) (by decide) (by decide) (by decide)
      (by decide) h1, h2⟩
  | .DecrementCell n :: rest, k => by
    obtain ⟨h1, h2⟩ := good_chunksNodes rest (k + 1)
    rw [chunksNodes, labelIdsNodes]
    exact ⟨Good_amount5 _ _ _ "    sub rax, " _ _ (by decide) (by decide) (by decide) (by decide)
      (by decide) h1, h2⟩
  | .OutputCell n :: rest, k => by
    obtain ⟨h1, h2⟩ := good_chunksNodes rest (k + 1)
    rw [chunksNodes, labelIdsNodes]
    exact ⟨Good_cons_plain (by decide) (by decide) (Good_cons_plain (by decide) (by decide) h1),
      h2⟩
  | .InputCell n :: rest, k => by
    obtain ⟨h1, h2⟩ := good_chunksNodes rest (k + 1)
    rw [chunksNodes, labelIdsNodes]
    exact ⟨Good_cons_plain (by decide) (by decide) (Good_cons_plain (by decide) (by decide) h1),
      h2⟩
  | .IntegerLiteral v n :: rest, k => by
    rw [chunksNodes, labelIdsNodes]
    exact good_chunksNodes rest (k + 1)
  | .NodeWhile tree n :: rest, k => by
    obtain ⟨b1, b2⟩ := good_chunks tree (k + 1)
    obtain ⟨r1, r2⟩ := good_chunksNodes rest (chunks tree (k + 1)).2
    rw [chunksNodes, labelIdsNodes]
    rw [b2] at r1 r2
    simp only [b2]
    exact ⟨Good_while (k + 1) b1 r1, r2⟩
end

mutual
theorem labelIds_spec : ∀ (ast : AST) (k : Nat),
    k ≤ (labelIds ast k).2 ∧ (∀ i ∈ (labelIds ast k).1, k < i ∧ i ≤ (labelIds ast k).2) ∧
      (labelIds ast k).1.Nodup ∧ (labelIds ast k).1.length = countWhile ast
  | .mk nodes, k => by rw [labelIds, countWhile]; exact labelIdsNodes_spec nodes k
theorem labelIdsNodes_spec : ∀ (nodes : List ASTNode) (k : Nat),
    k ≤ (labelIdsNodes nodes k).2 ∧
      (∀ i ∈ (labelIdsNodes nodes k).1, k < i ∧ i ≤ (labelIdsNodes nodes k).2) ∧
      (labelIdsNodes nodes k).1.Nodup ∧
      (labelIdsNodes nodes k).1.length = countWhileNodes nodes
  | [], k => by simp [labelIdsNodes, countWhileNodes]
  | .NextCell n :: rest, k => by
    obtain ⟨h1, h2, h3, h4⟩ := labelIdsNodes_spec rest (k + 1)
    simp only [labelIdsNodes, countWhileNodes, countWhileNode]
    exact ⟨by omega, fun i hi => ⟨by have := h2 i hi; omega, (h2 i hi).2⟩, h3, by omega⟩
  | .PreviousCell n :: rest, k => by
    obtain ⟨h1, h2, h3, h4⟩ := labelIdsNodes_spec rest (k + 1)
    simp only [labelIdsNodes, countWhileNodes, countWhileNode]
    exact ⟨by omega, fun i hi => ⟨by have := h2 i hi; omega, (h2 i hi).2⟩, h3, by omega⟩
  | .IncrementCell n :: rest, k => by
    obtain ⟨h1, h2, h3, h4⟩ := labelIdsNodes_spec rest (k + 1)
    simp only [labelIdsNodes, countWhileNodes, countWhileNode]
    exact ⟨by omega, fun i hi => ⟨by have := h2 i hi; omega, (h2 i hi).2⟩, h3, by omega⟩
  | .DecrementCell n :: rest, k => by
    obtain ⟨h1, h2, h3, h4⟩ := labelIdsNodes_spec rest (k + 1)
    simp only [labelIdsNodes, countWhileNodes, countWhileNode]
    exact ⟨by omega, fun i hi => ⟨by have := h2 i hi; omega, (h2 i hi).2⟩, h3, by omega⟩
  | .OutputCell n :: rest, k => by
    obtain ⟨h1, h2, h3, h4⟩ := labelIdsNodes_spec rest (k + 1)
    simp only [labelIdsNodes, countWhileNodes, countWhileNode]
    exact ⟨by omega, fun i hi => ⟨by have := h2 i hi; omega, (h2 i hi).2⟩, h3, by omega⟩
  | .InputCell n :: rest, k => by
    obtain ⟨h1, h2, h3, h4⟩ := labelIdsNodes_spec rest (k + 1)
    simp only [labelIdsNodes, countWhileNodes, countWhileNode]
    exact ⟨by omega, fun i hi => ⟨by have := h2 i hi; omega, (h2 i hi).2⟩, h3, by omega⟩
  | .IntegerLiteral v n :: rest, k => by
    obtain ⟨h1, h2, h3, h4⟩ := labelIdsNodes_spec rest (k + 1)
    simp only [labelIdsNodes, countWhileNodes, countWhileNode]
    exact ⟨by omega, fun i hi => ⟨by have := h2 i hi; omega, (h2 i hi).2⟩, h3, by omega⟩
  | .NodeWhile tree n :: rest, k => by
    obtain ⟨b1, b2, b3, b4⟩ := labelIds_spec tree (k + 1)
    obtain ⟨r1, r2, r3, r4⟩ := labelIdsNodes_spec rest (labelIds tree (k + 1)).2
    simp only [labelIdsNodes, countWhileNodes, countWhileNode]
    refine ⟨by omega, ?_, ?_, ?_⟩
    · intro i hi
      simp only [List.cons_append, List.mem_cons, List.mem_append] at hi
      rcases hi with h | h | h
      · subst h; omega
      · have := b2 i h; omega
      · have := r2 i h; omega
    · simp only [List.cons_append, List.nodup_cons, List.mem_append, not_or]
      refine ⟨⟨fun h => ?_, fun h => ?_⟩, List.Nodup.append b3 r3 ?_⟩
      · have := b2 _ h; omega
      · have := r2 _ h; omega
      · intro i h1 h2
        have := b2 i h1; have := r2 i h2; omega
    · simp only [List.cons_append, List.length_cons, List.length_append]; omega
end

theorem labelOf_injective (a b : Nat) (h : labelOf a = labelOf b) : a = b := by
  simp only [labelOf, String.data_append] at h
  have h1 := List.append_cancel_right h
  have h2 := List.append_cancel_left h1
  exact repr_injective a b (String.ext h2)

theorem splitLines_ne_nil (t : List Char) : splitLines t ≠ [] := by
  cases t with
  | nil => simp [splitLines]
  | cons c cs =>
    simp only [splitLines]
    split_ifs
    · simp
    · split <;> simp

theorem splitLines_newline_length (t rest : List Char) :
    2 ≤ (splitLines (t ++ Char.ofNat 10 :: rest)).length := by
  induction t with
  | nil =>
    have := splitLines_ne_nil rest
    simp only [List.nil_append, splitLines, if_true, List.length_cons]
    have : 0 < (splitLines rest).length := List.length_pos.mpr this
    omega
  | cons c cs ih =>
    simp only [List.cons_append, splitLines, List.append_eq]
    split_ifs
    · simp only [List.length_cons]; omega
    · split
      · next l ls h => rw [h] at ih; simpa using ih
      · next h => exact absurd h (splitLines_ne_nil _)

theorem splitLines_complete (t rest : List Char) :
    splitLines (t ++ Char.ofNat 10 :: rest) =
      (splitLines (t ++ [Char.ofNat 10])).dropLast ++ splitLines rest := by
  induction t with
  | nil => simp [splitLines]
  | cons c cs ih =>
    have h2 := splitLines_newline_length cs []
    simp only [List.cons_append, splitLines, List.append_eq]
    by_cases hc : c = Char.ofNat 10
    · simp only [hc, if_true]
      rw [ih, List.dropLast_cons_of_ne_nil (splitLines_ne_nil _), List.cons_append]
    · simp only [hc, if_false]
      rw [ih]
      rcases hx : splitLines (cs ++ [Char.ofNat 10]) with _ | ⟨l, m⟩
      · exact absurd hx (splitLines_ne_nil _)
      · rw [hx] at h2
        have hm : m ≠ [] := by
          intro e; subst e; simp at h2
        simp only [List.dropLast_cons_of_ne_nil hm, List.cons_append]

theorem filter_splitLines_complete (p : List Char → Bool) (t rest : List Char)
    (hlast : t.getLast? = some (Char.ofNat 10)) (hp : (splitLines t).filter p = []) :
    (splitLines (t ++ rest)).filter p = (splitLines rest).filter p := by
  have ht : t = t.dropLast ++ [Char.ofNat 10] := (List.dropLast_append_getLast? _ hlast).symm
  have e : t ++ rest = t.dropLast ++ Char.ofNat 10 :: rest := by
    conv_lhs => rw [ht]
    simp
  rw [e, splitLines_complete, ← ht, List.filter_append]
  have hsub : ((splitLines t).dropLast).filter p = [] := by
    have := List.Sublist.filter p (List.dropLast_sublist (splitLines t))
    rw [hp] at this
    exact List.sublist_nil.mp this
  rw [hsub, List.nil_append]

set_option maxRecDepth 100000 in
theorem header_last : programHeader.data.getLast? = some (Char.ofNat 10) := by decide

set_option maxRecDepth 100000 in
theorem header_labels : (splitLines programHeader.data).filter isWhileLabel = [] := by decide

theorem footer_labels : (splitLines programFooter.data).filter isWhileLabel = [] := by decide

theorem Compile_eq (ast : AST) :
    Compile ast = .ok (programHeader ++ joinChunks (chunks ast 0).1 ++ programFooter) := by
  simp only [Compile, compile_eq]

theorem whileLabels_Compile (ast : AST) :
    whileLabels (programHeader ++ joinChunks (chunks ast 0).1 ++ programFooter) =
      (labelIds ast 0).1.map labelOf := by
  have hg := (good_chunks ast 0).1
  unfold whileLabels
  rw [String.append_assoc, String.data_append,
    filter_splitLines_complete _ _ _ header_last header_labels, String.data_append,
    splitLines_join _ hg.1, List.filter_append, hg.2, footer_labels]
  simp

theorem wrapInt64_of_range (x : Int) (h0 : -(2 : Int) ^ 63 ≤ x) (h1 : x < (2 : Int) ^ 63) :
    wrapInt64 x = x := by
  unfold wrapInt64
  rw [Int.emod_eq_of_lt (by omega) (by omega)]
  omega

theorem Compile_repeatNode (c : Nat) (hc : isRepeatable c) (n : Nat) (hn : n < 2 ^ 63) :
    Compile (.mk [repeatNode c ((n : Int) - 1)]) =
      .ok (programHeader ++ amountBlock c (Nat.repr n) ++ programFooter) := by
  have hw : wrapInt64 ((n : Int) - 1 + 1) = (n : Int) := by
    rw [show (n : Int) - 1 + 1 = (n : Int) by ring]
    exact wrapInt64_of_range _ (by omega) (by omega)
  rw [Compile_eq]
  rcases hc with h | h | h | h <;> subst h <;>
    simp only [repeatNode, chunks, chunksNodes, joinChunks, amountBlock, hw, formatInt_natCast,
      String.append_assoc, String.append_empty, List.cons_append, List.nil_append,
      List.append_eq, if_true, if_false, Nat.reduceEqDiff]

theorem parseSource_replicate (T : RangeTables) (N : Nat) (c : Nat) (fuel : Nat)
    (hN : 1 ≤ N) (hc : isRepeatable c) (hf : N < fuel) :
    parseSource T fuel (List.replicate N c) =
      .ok (.ok (.mk [repeatNode c ((N : Int) - 1)], -1)) := by
  obtain ⟨n, rfl⟩ : ∃ n, N = n + 1 := ⟨N - 1, by omega⟩
  have hpc := isSimple_isPlain c (isRepeatable_isSimple c hc)
  obtain ⟨c10, c32, c91, c93⟩ := isSimple_ne c (isRepeatable_isSimple c hc)
  have hfresh : pushChar c [] = [repeatNode c 0] := by
    rw [pushChar_nil]
    rcases hc with h | h | h | h <;> subst h <;> rfl
  have hr : ((n + 1 : Nat) : Int) - 1 = 0 + (n : Int) := by push_cast; ring
  rw [parseSource_runChars T _ fuel
    (by intro x hx; rw [List.eq_of_mem_replicate hx]; exact hpc) (by simp; omega)]
  have h := runChars_replicate c hc [] none 0 n 0 1
  simp only [List.append_nil] at h
  simp only [List.replicate_succ, runChars, c10, c32, c91, c93, if_false, hfresh]
  simp only [zero_add]
  rw [h, hr]
  rfl

/-! ## Properties of the code generator -/

/-- C9 (the emitted amount is the run length): for every `N ≥ 1` (below
`2 ^ 63`, as the length of a Go string is) and each of the four repeatable
characters, `Parse` on `N` copies of the character returns a tree on which
`Compile` returns the preamble, exactly one block of the kind of the character
with the immediate `N`, and the epilogue: `add rax, N` for `+`, `sub rax, N` for
`-`, `add rbx, N` for `>`, `sub rbx, N` for `<`. -/
theorem emitted_amount (T : RangeTables) (N : Nat) (c : Nat) (fuel : Nat)
    (hN : 1 ≤ N) (hb : N < 2 ^ 63) (hc : isRepeatable c) (hf : N < fuel) :
    ∃ ast, parseSource T fuel (List.replicate N c) = .ok (.ok (ast, -1)) ∧
      Compile ast = .ok (programHeader ++ amountBlock c (Nat.repr N) ++ programFooter) := by
  refine ⟨_, parseSource_replicate T N c fuel hN hc hf, ?_⟩
  have hw : wrapInt64 ((N : Int) - 1 + 1) = (N : Int) := by
    rw [show (N : Int) - 1 + 1 = (N : Int) by ring]
    exact wrapInt64_of_range _ (by omega) (by omega)
  rw [Compile_eq]
  rcases hc with h | h | h | h <;> subst h <;>
    simp only [repeatNode, chunks, chunksNodes, joinChunks, amountBlock, hw, formatInt_natCast,
      String.append_assoc, String.append_empty, List.cons_append, List.nil_append,
      List.append_eq, if_true, if_false, Nat.reduceEqDiff]

/-- Witness of `emitted_amount`: the source `+++` gives `add rax, 3`. -/
theorem emitted_amount_witness :
    ∃ ast, parseSource latin1Tables 4 [43, 43, 43] = .ok (.ok (ast, -1)) ∧
      Compile ast = .ok (programHeader ++
        ("    ; -- Increment -- ;\n" ++ "    mov rbx, [cell_pointer]\n" ++
          "    mov rax, [tape+rbx*8]\n" ++ ("    add rax, " ++ "3" ++ "\n") ++
          "    mov [tape+rbx*8], rax\n") ++ programFooter) :=
  emitted_amount latin1Tables 3 43 4 (by decide) (by decide) (by unfold isRepeatable; decide)
    (by decide)

/-! ## The decoder of runes and the lexer inside a comment -/

theorem first_spec (s0 : Nat) :
    (first s0 = (1, 0, 0) ∧ s0 < 128) ∨ (first s0 = (0, 0, 0) ∧ 128 ≤ s0) ∨
      (∃ sz lo hi, first s0 = (sz, lo, hi) ∧ 2 ≤ sz ∧ sz ≤ 4 ∧ 128 ≤ lo ∧ hi ≤ 191 ∧
        (sz = 2 → 194 ≤ s0 ∧ s0 < 224) ∧
        (sz = 3 → 224 ≤ s0 ∧ s0 < 240 ∧ (s0 = 224 → lo = 160)) ∧
        (sz = 4 → 240 ≤ s0 ∧ s0 ≤ 244 ∧ (s0 = 240 → lo = 144))) := by
  unfold first
  by_cases h1 : s0 < 0x80
  · left; rw [if_pos h1]; exact ⟨rfl, h1⟩
  rw [if_neg h1]
  by_cases h2 : s0 < 0xC2
  · right; left; rw [if_pos h2]; exact ⟨rfl, by omega⟩
  rw [if_neg h2]
  by_cases hb : 0xF4 < s0
  · right; left
    rw [if_neg (by omega), if_neg (by omega), if_neg (by omega), if_neg (by omega),
      if_neg (by omega), if_neg (by omega), if_neg (by omega), if_neg (by omega)]
    exact ⟨rfl, by omega⟩
  right; right
  by_cases h3 : s0 < 0xE0
  · rw [if_pos h3]
    exact ⟨2, 0x80, 0xBF, rfl, by omega, by omega, by omega, by omega, fun _ => by omega,
      fun h => by omega, fun h => by omega⟩
  rw [if_neg h3]
  by_cases h4 : s0 = 0xE0
  · rw [if_pos h4]
    exact ⟨3, 0xA0, 0xBF, rfl, by omega, by omega, by omega, by omega, fun h => by omega,
      fun _ => ⟨by omega, by omega, fun _ => rfl⟩, fun h => by omega⟩
  rw [if_neg h4]
  by_cases h5 : s0 < 0xED
  · rw [if_pos h5]
    exact ⟨3, 0x80, 0xBF, rfl, by omega, by omega, by omega, by omega, fun h => by omega,
      fun _ => ⟨by omega, by omega, fun h => by omega⟩, fun h => by omega⟩
  rw [if_neg h5]
  by_cases h6 : s0 = 0xED
  · rw [if_pos h6]
    exact ⟨3, 0x80, 0x9F, rfl, by omega, by omega, by omega, by omega, fun h => by omega,
      fun _ => ⟨by omega, by omega, fun h => by omega⟩, fun h => by omega⟩
  rw [if_neg h6]
  by_cases h7 : s0 < 0xF0
  · rw [if_pos h7]
    exact ⟨3, 0x80, 0xBF, rfl, by omega, by omega, by omega, by omega, fun h => by omega,
      fun _ => ⟨by omega, by omega, fun h => by omega⟩, fun h => by omega⟩
  rw [if_neg h7]
  by_cases h8 : s0 = 0xF0
  · rw [if_pos h8]
    exact ⟨4, 0x90, 0xBF, rfl, by omega, by omega, by omega, by omega, fun h => by omega,
      fun h => by omega, fun _ => ⟨by omega, by omega, fun _ => rfl⟩⟩
  rw [if_neg h8]
  by_cases h9 : s0 < 0xF4
  · rw [if_pos h9]
    exact ⟨4, 0x80, 0xBF, rfl, by omega, by omega, by omega, by omega, fun h => by omega,
      fun h => by omega, fun _ => ⟨by omega, by omega, fun h => by omega⟩⟩
  rw [if_neg h9]
  by_cases h10 : s0 = 0xF4
  · rw [if_pos h10]
    exact ⟨4, 0x80, 0x8F, rfl, by omega, by omega, by omega, by omega, fun h => by omega,
      fun h => by omega, fun _ => ⟨by omega, by omega, fun h => by omega⟩⟩
  omega

/-- What `DecodeRuneInString` returns on a text that is not empty: an ASCII
byte, or the error rune with width one, or a rune above 127 whose bytes after
the first are all continuation bytes. -/
theorem DecodeRuneInString_cons (s0 : Nat) (t : List Nat) :
    (DecodeRuneInString (s0 :: t) = (s0, 1) ∧ s0 < 128) ∨
      (DecodeRuneInString (s0 :: t) = (RuneError, 1) ∧ 128 ≤ s0) ∨
      (∃ v sz, DecodeRuneInString (s0 :: t) = (v, sz) ∧ 128 ≤ s0 ∧ 128 ≤ v ∧ 2 ≤ sz ∧
        sz ≤ (s0 :: t).length ∧ ∀ k, 1 ≤ k → k < sz → 128 ≤ (s0 :: t).getD k 0) := by
  rcases first_spec s0 with ⟨h, h1⟩ | ⟨h, h1⟩ | ⟨sz, lo, hi, h, h2, h4, hlo, hhi, c2, c3, c4⟩
  · left; simp [DecodeRuneInString, h, h1]
  · right; left; simp [DecodeRuneInString, h, h1]
  · right
    have hsz : sz = 2 ∨ sz = 3 ∨ sz = 4 := by omega
    have hd : DecodeRuneInString (s0 :: t) =
        if (s0 :: t).length < sz then (RuneError, 1)
        else if (s0 :: t).getD 1 0 < lo ∨ hi < (s0 :: t).getD 1 0 then (RuneError, 1)
        else if sz ≤ 2 then ((s0 % 32) * 64 + (s0 :: t).getD 1 0 % 64, 2)
        else if (s0 :: t).getD 2 0 < 0x80 ∨ 0xBF < (s0 :: t).getD 2 0 then (RuneError, 1)
        else if sz ≤ 3 then
          ((s0 % 16) * 4096 + ((s0 :: t).getD 1 0 % 64) * 64 + (s0 :: t).getD 2 0 % 64, 3)
        else if (s0 :: t).getD 3 0 < 0x80 ∨ 0xBF < (s0 :: t).getD 3 0 then (RuneError, 1)
        else ((s0 % 8) * 262144 + ((s0 :: t).getD 1 0 % 64) * 4096 +
          ((s0 :: t).getD 2 0 % 64) * 64 + (s0 :: t).getD 3 0 % 64, 4) := by
      rcases hsz with e | e | e <;> subst e <;> simp only [DecodeRuneInString, h]
    have h128 : 128 ≤ s0 := by rcases hsz with e | e | e <;> subst e <;> omega
    rw [hd]
    split_ifs with a1 a2 a3 a4 a5 a6
    · left; exact ⟨rfl, h128⟩
    · left; exact ⟨rfl, h128⟩
    · right
      have e : sz = 2 := by omega
      refine ⟨_, 2, rfl, h128, ?_, le_refl _, by omega, ?_⟩
      · have := c2 e; omega
      · intro k k1 k2
        have : k = 1 := by omega
        subst this; omega
    · left; exact ⟨rfl, h128⟩
    · right
      have e : sz = 3 := by omega
      refine ⟨_, 3, rfl, h128, ?_, by omega, by omega, ?_⟩
      · have := c3 e; omega
      · intro k k1 k2
        have : k = 1 ∨ k = 2 := by omega
        rcases this with e | e <;> subst e <;> omega
    · left; exact ⟨rfl, h128⟩
    · right
      have e : sz = 4 := by omega
      refine ⟨_, 4, rfl, h128, ?_, by omega, by omega, ?_⟩
      · have := c4 e; omega
      · intro k k1 k2
        have : k = 1 ∨ k = 2 ∨ k = 3 := by omega
        rcases this with e | e | e <;> subst e <;> omega

theorem getD_append_left_cons (b0 : Nat) (bt rest : List Nat) (k : Nat) (hk : k = (b0 :: bt).length) :
    (b0 :: (bt ++ rest)).getD k 0 = rest.headD 0 := by
  subst hk
  have : b0 :: (bt ++ rest) = (b0 :: bt) ++ rest := rfl
  rw [this, List.getD_eq_getElem?_getD, List.getElem?_append_right (le_refl _)]
  cases rest <;> simp

/-- Reading a rune inside a comment: the rune is not a newline, and its bytes
are bytes of the comment. -/
theorem ReadRune_in_body (r0 : Reader) (pre body rest : List Nat)
    (hs : r0.s = pre ++ body ++ rest) (hi : r0.i = pre.length) (hne : body ≠ [])
    (hb : 10 ∉ body) (hr : rest = [] ∨ ∃ r, rest = 10 :: r) :
    ∃ v sz, v ≠ 10 ∧ 1 ≤ sz ∧ sz ≤ body.length ∧
      r0.ReadRune = (.ok (v, sz), { s := r0.s, i := r0.i + sz, prevRune := r0.i }) := by
  obtain ⟨b0, bt, rfl⟩ : ∃ b0 bt, body = b0 :: bt := by
    cases body with
    | nil => exact absurd rfl hne
    | cons b0 bt => exact ⟨b0, bt, rfl⟩
  have hb0 : b0 ≠ 10 := fun h => hb (by simp [h])
  have hs1 : r0.s = pre ++ b0 :: (bt ++ rest) := by simp [hs]
  have hlen : ¬ (r0.i ≥ r0.s.length) := by rw [hs1, hi]; simp
  have hget : r0.s.getD r0.i 0 = b0 := by rw [hs1, hi]; exact getD_append_cons pre b0 _
  have hdrop : r0.s.drop r0.i = b0 :: (bt ++ rest) := by rw [hs1, hi]; simp
  by_cases h128 : b0 < 128
  · exact ⟨b0, 1, hb0, le_refl _, by simp, ReadRune_ascii r0 pre _ b0 hs1 hi h128⟩
  · have hrr : r0.ReadRune = (.ok (DecodeRuneInString (b0 :: (bt ++ rest))),
        { s := r0.s, i := r0.i + (DecodeRuneInString (b0 :: (bt ++ rest))).2,
          prevRune := r0.i }) := by
      unfold Reader.ReadRune
      rw [if_neg hlen]
      simp only [hget, h128, if_false, hdrop]
    rcases DecodeRuneInString_cons b0 (bt ++ rest) with ⟨_, h⟩ | ⟨h, _⟩ | ⟨v, sz, h, _, hv, h2, hle, hk⟩
    · exact absurd h h128
    · rw [h] at hrr
      exact ⟨RuneError, 1, by decide, le_refl _, by simp, hrr⟩
    · rw [h] at hrr
      refine ⟨v, sz, by omega, by omega, ?_, hrr⟩
      by_contra hcon
      have hk1 := hk (b0 :: bt).length (by simp) (by omega)
      rw [getD_append_left_cons b0 bt rest _ rfl] at hk1
      rcases hr with e | ⟨r, e⟩
      · subst e; simp at hk1
      · subst e; simp at hk1

theorem backup_after_read (p : Position) (s : List Nat) (j i : Nat) (hj : 0 < j) :
    backup ⟨p, ⟨s, j, (i : Int)⟩⟩ = .ok ⟨⟨p.Line, p.Column - 1⟩, ⟨s, i, -1⟩⟩ := by
  have h1 : ¬ (j ≤ 0) := by omega
  have h2 : ¬ ((i : Int) < 0) := by omega
  simp [backup, Reader.UnreadRune, h1, h2]

theorem lexToken_comment :
    ∀ (n : Nat) (body pre rest : List Nat) (L : Lexer) (literal : List Nat) (fuel : Nat),
      body.length ≤ n → L.Reader.s = pre ++ body ++ rest → L.Reader.i = pre.length →
      10 ∉ body → (rest = [] ∨ ∃ r, rest = 10 :: r) → body.length < fuel →
      ∃ (k : Int) (lit : List Nat), lexToken commentFunction fuel L literal =
        .ok (lit, ⟨⟨L.Position.Line, L.Position.Column + k⟩,
          ⟨L.Reader.s, pre.length + body.length, -1⟩⟩) := by
  intro n
  induction n with
  | zero =>
    intro body pre rest L literal fuel hn hs hi hb hr hf
    have hbody : body = [] := List.length_eq_zero.mp (Nat.le_zero.mp hn)
    subst hbody
    obtain ⟨fuel, rfl⟩ : ∃ k, fuel = k + 1 := ⟨fuel - 1, by omega⟩
    simp only [List.append_nil] at hs
    rcases hr with e | ⟨r, e⟩
    · subst e
      have hlen : L.Reader.s.length ≤ L.Reader.i := by rw [hs, hi]; simp
      refine ⟨0, literal, ?_⟩
      simp only [lexToken, ReadRune_eof _ hlen, add_zero, List.length_nil, hi]
    · subst e
      refine ⟨0, literal, ?_⟩
      simp only [lexToken, ReadRune_ascii _ pre r 10 hs hi (by decide), commentFunction]
      simp [backup_after_read, hi]
  | succ n ih =>
    intro body pre rest L literal fuel hn hs hi hb hr hf
    by_cases hbody : body = []
    · subst hbody
      obtain ⟨fuel, rfl⟩ : ∃ k, fuel = k + 1 := ⟨fuel - 1, by omega⟩
      simp only [List.append_nil] at hs
      rcases hr with e | ⟨r, e⟩
      · subst e
        have hlen : L.Reader.s.length ≤ L.Reader.i := by rw [hs, hi]; simp
        refine ⟨0, literal, ?_⟩
        simp only [lexToken, ReadRune_eof _ hlen, add_zero, List.length_nil, hi]
      · subst e
        refine ⟨0, literal, ?_⟩
        simp only [lexToken, ReadRune_ascii _ pre r 10 hs hi (by decide), commentFunction]
        simp [backup_after_read, hi]
    · obtain ⟨fuel, rfl⟩ : ∃ k, fuel = k + 1 := ⟨fuel - 1, by omega⟩
      obtain ⟨v, sz, hv, h1, h2, hrr⟩ := ReadRune_in_body L.Reader pre body rest hs hi hbody hb hr
      have hsplit : body = body.take sz ++ body.drop sz := (List.take_append_drop sz body).symm
      have hdl : (body.drop sz).length = body.length - sz := List.length_drop sz body
      have htl : (body.take sz).length = sz := by rw [List.length_take]; omega
      obtain ⟨k, lit, hk⟩ := ih (body.drop sz) (pre ++ body.take sz) rest
        ⟨⟨L.Position.Line, L.Position.Column + 1⟩, ⟨L.Reader.s, L.Reader.i + sz, L.Reader.i⟩⟩
        (literal ++ [v]) fuel (by omega)
        (by
          show L.Reader.s = pre ++ body.take sz ++ body.drop sz ++ rest
          rw [List.append_assoc pre, ← hsplit]; exact hs)
        (by simp [hi, htl])
        (fun h => hb (List.mem_of_mem_drop h)) hr (by omega)
      refine ⟨1 + k, lit, ?_⟩
      simp only [lexToken, hrr, commentFunction, hv, ne_eq, not_false_eq_true, decide_True]
      rw [hk]
      simp only [List.length_append, htl, hdl]
      have e1 : pre.length + sz + (body.length - sz) = pre.length + body.length := by omega
      rw [e1, add_assoc]

/-- What `ReadRune` does: at the end of the string it returns `io.EOF`;
otherwise it returns a rune and its width, the width being at least one and
within the string, and a rune below 128 is the byte read. -/
theorem ReadRune_cases (r : Reader) :
    (r.s.length ≤ r.i ∧ r.ReadRune = (.error .EOF, { r with prevRune := -1 })) ∨
      (r.i < r.s.length ∧ ∃ v sz, 1 ≤ sz ∧ r.i + sz ≤ r.s.length ∧
        r.ReadRune = (.ok (v, sz), { s := r.s, i := r.i + sz, prevRune := r.i }) ∧
        (v < 128 → sz = 1 ∧ r.s.getD r.i 0 = v)) := by
  by_cases h : r.s.length ≤ r.i
  · left; exact ⟨h, ReadRune_eof r h⟩
  · right
    have hlt : r.i < r.s.length := by omega
    refine ⟨hlt, ?_⟩
    have hdrop : r.s.drop r.i = r.s.getD r.i 0 :: r.s.drop (r.i + 1) := by
      rw [List.getD_eq_getElem _ _ hlt]
      exact List.drop_eq_getElem_cons hlt
    have hdl : (r.s.drop r.i).length = r.s.length - r.i := List.length_drop _ _
    by_cases hc : r.s.getD r.i 0 < 128
    · refine ⟨r.s.getD r.i 0, 1, le_refl _, by omega, ?_, fun _ => ⟨rfl, rfl⟩⟩
      unfold Reader.ReadRune
      rw [if_neg (by omega)]
      simp only [hc, if_true]
    · have hrr : r.ReadRune = (.ok (DecodeRuneInString (r.s.drop r.i)),
          { s := r.s, i := r.i + (DecodeRuneInString (r.s.drop r.i)).2, prevRune := r.i }) := by
        unfold Reader.ReadRune
        rw [if_neg (by omega)]
        simp only [hc, if_false]
      rw [hdrop] at hrr hdl
      rcases DecodeRuneInString_cons (r.s.getD r.i 0) (r.s.drop (r.i + 1)) with
        ⟨_, h1⟩ | ⟨h1, _⟩ | ⟨v, sz, h1, _, hv, h2, hle, _⟩
      · exact absurd h1 hc
      · rw [h1] at hrr
        exact ⟨RuneError, 1, le_refl _, by omega, hrr, fun hv => by
          simp [RuneError] at hv⟩
      · rw [h1] at hrr
        exact ⟨v, sz, by omega, by omega, hrr, fun hlt => by omega⟩

/-- In word mode the function given to `lexToken` leaves the reader as it found
it, when the rune it is asked about was read at index one or later. -/
theorem wordFunction_stable (T : RangeTables) (r0 : Reader) (v sz : Nat) (r1 : Reader)
    (h1 : 1 ≤ r0.i) (hr : r0.ReadRune = (.ok (v, sz), r1)) :
    ∃ b, wordFunction T r1 v = .ok (b, r1) := by
  rcases ReadRune_cases r0 with ⟨_, h⟩ | ⟨hlt, v1, sz1, hsz, hle, h, hascii⟩
  · rw [h] at hr; simp at hr
  · rw [h] at hr
    simp only [Prod.mk.injEq, Except.ok.injEq] at hr
    obtain ⟨⟨hv, hs⟩, hr1⟩ := hr
    subst hv hs hr1
    unfold wordFunction
    rw [tokensIndex_singleton]
    by_cases hsym : v1 = 62 ∨ v1 = 60 ∨ v1 = 43 ∨ v1 = 45 ∨ v1 = 46 ∨ v1 = 44 ∨ v1 = 91 ∨ v1 = 93
    · have hv128 : v1 < 128 := by omega
      obtain ⟨hsz1, hget⟩ := hascii hv128
      subst hsz1
      have hsome : ∃ t, (if v1 = 62 then some NEXT_CELL else if v1 = 60 then some PREVIOUS_CELL
          else if v1 = 43 then some INCREMENT_CELL else if v1 = 45 then some DECREMENT_CELL
          else if v1 = 46 then some OUTPUT_CELL else if v1 = 44 then some INPUT_CELL
          else if v1 = 91 then some BRACKET_OPEN else if v1 = 93 then some BRACKET_CLOSE
          else none) = some t := by
        split_ifs <;> first | exact ⟨_, rfl⟩ | omega
      obtain ⟨t, ht⟩ := hsome
      rw [ht]
      simp only []
      -- the reader after seeking two bytes back
      have hseek : Reader.Seek { s := r0.s, i := r0.i + 1, prevRune := (r0.i : Int) } (-2) =
          { s := r0.s, i := r0.i - 1, prevRune := -1 } := by
        unfold Reader.Seek
        simp only []
        rw [if_neg (by push_cast; omega)]
        congr 1
        omega
      rw [hseek]
      -- the rune found there has width one, because the next byte is the symbol
      have hprev : ∃ p, Reader.ReadRune { s := r0.s, i := r0.i - 1, prevRune := -1 } =
          (.ok (p, 1), { s := r0.s, i := r0.i, prevRune := ((r0.i - 1 : Nat) : Int) }) := by
        rcases ReadRune_cases { s := r0.s, i := r0.i - 1, prevRune := -1 } with
          ⟨hh, _⟩ | ⟨_, p, psz, hp1, hp2, hp, hpa⟩
        · simp only [] at hh; omega
        · simp only [] at hp hp2 hpa
          by_cases hps : psz = 1
          · subst hps
            refine ⟨p, ?_⟩
            rw [hp, show r0.i - 1 + 1 = r0.i by omega]
          · exfalso
            -- a wider rune would need a continuation byte where the symbol stands
            have hdrop : r0.s.drop (r0.i - 1) =
                r0.s.getD (r0.i - 1) 0 :: r0.s.drop (r0.i - 1 + 1) := by
              rw [List.getD_eq_getElem _ _ (by omega : r0.i - 1 < r0.s.length)]
              exact List.drop_eq_getElem_cons (by omega)
            have hnext : (r0.s.getD (r0.i - 1) 0 :: r0.s.drop (r0.i - 1 + 1)).getD 1 0 = v1 := by
              rw [← hget]
              simp only [List.getD_cons_succ]
              rw [List.getD_eq_getElem?_getD, List.getD_eq_getElem?_getD, List.getElem?_drop]
              congr 2
              omega
            have hread : Reader.ReadRune { s := r0.s, i := r0.i - 1, prevRune := -1 } =
                (if r0.s.getD (r0.i - 1) 0 < 128 then
                  (.ok (r0.s.getD (r0.i - 1) 0, 1),
                    { s := r0.s, i := r0.i - 1 + 1, prevRune := ((r0.i - 1 : Nat) : Int) })
                else
                  (.ok (DecodeRuneInString (r0.s.drop (r0.i - 1))),
                    { s := r0.s, i := r0.i - 1 + (DecodeRuneInString (r0.s.drop (r0.i - 1))).2,
                      prevRune := ((r0.i - 1 : Nat) : Int) })) := by
              unfold Reader.ReadRune
              rw [if_neg (by simp only []; omega)]
            rw [hread] at hp
            split_ifs at hp with hb
            · simp only [Prod.mk.injEq, Except.ok.injEq] at hp
              omega
            · rw [hdrop] at hp
              rcases DecodeRuneInString_cons (r0.s.getD (r0.i - 1) 0)
                  (r0.s.drop (r0.i - 1 + 1)) with
                ⟨_, q⟩ | ⟨q, _⟩ | ⟨w, wsz, q, _, _, q2, _, qk⟩
              · exact hb q
              · rw [q] at hp
                simp only [Prod.mk.injEq, Except.ok.injEq] at hp
                omega
              · have := qk 1 (le_refl _) (by omega)
                rw [hnext] at this
                omega
      obtain ⟨p, hp⟩ := hprev
      rw [hp]
      simp only []
      have hagain : Reader.ReadRune
          { s := r0.s, i := r0.i, prevRune := ((r0.i - 1 : Nat) : Int) } =
          (.ok (v1, 1), { s := r0.s, i := r0.i + 1, prevRune := (r0.i : Int) }) := by
        unfold Reader.ReadRune
        rw [if_neg (by simp only []; omega)]
        simp only [hget, hv128, if_true]
      rw [hagain]
      exact ⟨_, rfl⟩
    · have hnone : (if v1 = 62 then some NEXT_CELL else if v1 = 60 then some PREVIOUS_CELL
          else if v1 = 43 then some INCREMENT_CELL else if v1 = 45 then some DECREMENT_CELL
          else if v1 = 46 then some OUTPUT_CELL else if v1 = 44 then some INPUT_CELL
          else if v1 = 91 then some BRACKET_OPEN else if v1 = 93 then some BRACKET_CLOSE
          else none) = none := by
        simp only [not_or] at hsym
        obtain ⟨a1, a2, a3, a4, a5, a6, a7, a8⟩ := hsym
        simp only [a1, a2, a3, a4, a5, a6, a7, a8, if_false]
      rw [hnone]
      exact ⟨_, rfl⟩

theorem Stable_comment : Stable commentFunction 0 :=
  fun _ _ _ _ _ _ => ⟨_, rfl⟩

theorem Stable_digit (T : RangeTables) : Stable (digitFunction T) 0 :=
  fun _ _ _ _ _ _ => ⟨_, rfl⟩

theorem Stable_word (T : RangeTables) : Stable (wordFunction T) 1 :=
  fun r0 v sz r1 h1 hr => wordFunction_stable T r0 v sz r1 h1 hr

/-- `lexToken` returns, whatever the fuel above the bytes left: it stops at the
end of the string or on the first rune that its function refuses, which it
unreads. -/
theorem lexToken_total (f : Reader → Nat → Outcome (Bool × Reader)) (jmin : Nat)
    (hf : Stable f jmin) :
    ∀ (n : Nat) (L : Lexer) (lit : List Nat),
      L.Reader.s.length - L.Reader.i ≤ n → jmin ≤ L.Reader.i →
      ∃ (lit1 : List Nat) (c1 : Int) (i1 : Nat), L.Reader.i ≤ i1 ∧
        (i1 ≤ L.Reader.s.length ∨ i1 = L.Reader.i) ∧
        ∀ fuel, n < fuel → lexToken f fuel L lit =
          .ok (lit1, ⟨⟨L.Position.Line, c1⟩, ⟨L.Reader.s, i1, -1⟩⟩) := by
  intro n
  induction n with
  | zero =>
    intro L lit hn _
    rcases ReadRune_cases L.Reader with ⟨_, h⟩ | ⟨hlt, _⟩
    · refine ⟨lit, L.Position.Column, L.Reader.i, le_refl _, Or.inr rfl, ?_⟩
      intro fuel hfu
      obtain ⟨k, rfl⟩ : ∃ k, fuel = k + 1 := ⟨fuel - 1, by omega⟩
      simp only [lexToken, h]
    · omega
  | succ n ih =>
    intro L lit hn hj
    rcases ReadRune_cases L.Reader with ⟨_, h⟩ | ⟨hlt, v, sz, hsz, hle, h, _⟩
    · refine ⟨lit, L.Position.Column, L.Reader.i, le_refl _, Or.inr rfl, ?_⟩
      intro fuel hfu
      obtain ⟨k, rfl⟩ : ∃ k, fuel = k + 1 := ⟨fuel - 1, by omega⟩
      simp only [lexToken, h]
    · obtain ⟨b, hb⟩ := hf L.Reader v sz _ hj h
      cases b with
      | true =>
        obtain ⟨lit1, c1, i1, g1, g2, g3⟩ := ih
          ⟨⟨L.Position.Line, L.Position.Column + 1⟩,
            ⟨L.Reader.s, L.Reader.i + sz, L.Reader.i⟩⟩ (lit ++ [v])
          (by simp only []; omega) (by simp only []; omega)
        simp only [] at g1 g2 g3
        refine ⟨lit1, c1, i1, by omega, by omega, ?_⟩
        intro fuel hfu
        obtain ⟨k, rfl⟩ : ∃ k, fuel = k + 1 := ⟨fuel - 1, by omega⟩
        simp only [lexToken, h, hb]
        exact g3 k (by omega)
      | false =>
        refine ⟨lit, L.Position.Column + 1 - 1, L.Reader.i, le_refl _, Or.inr rfl, ?_⟩
        intro fuel hfu
        obtain ⟨k, rfl⟩ : ∃ k, fuel = k + 1 := ⟨fuel - 1, by omega⟩
        simp only [lexToken, h, hb]
        rw [backup_after_read _ _ _ _ (by omega)]

theorem tokensIndex_getD_range (v : Nat) :
    0 ≤ (tokensIndex [v]).getD 0 ∧ (tokensIndex [v]).getD 0 ≤ 9 := by
  rw [tokensIndex_singleton]
  split_ifs <;>
    simp [NEXT_CELL, PREVIOUS_CELL, INCREMENT_CELL, DECREMENT_CELL, OUTPUT_CELL, INPUT_CELL,
      BRACKET_OPEN, BRACKET_CLOSE]

theorem ReadRune_prevRune (s : List Nat) (i : Nat) (p q : Int) :
    Reader.ReadRune { s := s, i := i, prevRune := p } =
      Reader.ReadRune { s := s, i := i, prevRune := q } := by
  simp [Reader.ReadRune]

/-- `Lex` returns a token, whatever the fuel above the bytes left; the token is
one of the ten kinds, and a token other than `EOF` has moved the reader on. -/
theorem lexLoop_total (T : RangeTables) :
    ∀ (n : Nat) (L : Lexer), L.Reader.s.length - L.Reader.i ≤ n →
      ∃ (p : Position) (t : Token) (sym : List Nat) (L1 : Lexer),
        (∀ fuel, n < fuel → lexLoop T fuel L = .ok ((p, t, sym), L1)) ∧
        L1.Reader.s = L.Reader.s ∧ L.Reader.i ≤ L1.Reader.i ∧
        (t ≠ EOF → L.Reader.i < L1.Reader.i ∧ L1.Reader.i ≤ L.Reader.s.length) ∧
        (0 ≤ t ∧ t ≤ 9) := by
  intro n
  induction n with
  | zero =>
    intro L hn
    rcases ReadRune_cases L.Reader with ⟨_, h⟩ | ⟨hlt, _⟩
    · refine ⟨L.Position, EOF, [10], ⟨L.Position, ⟨L.Reader.s, L.Reader.i, -1⟩⟩, ?_, rfl,
        le_refl _, fun h => absurd rfl h, by decide⟩
      intro fuel hfu
      obtain ⟨k, rfl⟩ : ∃ k, fuel = k + 1 := ⟨fuel - 1, by omega⟩
      simp only [lexLoop, h]
    · omega
  | succ n ih =>
    intro L hn
    rcases ReadRune_cases L.Reader with ⟨_, h⟩ | ⟨hlt, v, sz, hsz, hle, h, _⟩
    · refine ⟨L.Position, EOF, [10], ⟨L.Position, ⟨L.Reader.s, L.Reader.i, -1⟩⟩, ?_, rfl,
        le_refl _, fun h => absurd rfl h, by decide⟩
      intro fuel hfu
      obtain ⟨k, rfl⟩ : ∃ k, fuel = k + 1 := ⟨fuel - 1, by omega⟩
      simp only [lexLoop, h]
    · -- going on with the loop from a lexer further in the same string
      have step : ∀ (L2 : Lexer), L2.Reader.s = L.Reader.s → L.Reader.i < L2.Reader.i →
          ∃ (p : Position) (t : Token) (sym : List Nat) (L1 : Lexer),
            (∀ fuel, n < fuel → lexLoop T fuel L2 = .ok ((p, t, sym), L1)) ∧
            L1.Reader.s = L.Reader.s ∧ L.Reader.i ≤ L1.Reader.i ∧
            (t ≠ EOF → L.Reader.i < L1.Reader.i ∧ L1.Reader.i ≤ L.Reader.s.length) ∧
            (0 ≤ t ∧ t ≤ 9) := by
        intro L2 hs2 hi2
        obtain ⟨p, t, sym, L1, g1, g2, g3, g4, g5⟩ := ih L2 (by rw [hs2]; omega)
        refine ⟨p, t, sym, L1, g1, by rw [g2, hs2], by omega, ?_, g5⟩
        intro ht
        have := g4 ht
        rw [hs2] at this
        omega
      -- what is left to do once the loop goes on after one more turn
      have finish : ∀ (L2 : Lexer),
          (∀ fuel, lexLoop T (fuel + 1) L = lexLoop T fuel L2) →
          L2.Reader.s = L.Reader.s → L.Reader.i < L2.Reader.i →
          ∃ (p : Position) (t : Token) (sym : List Nat) (L1 : Lexer),
            (∀ fuel, n + 1 < fuel → lexLoop T fuel L = .ok ((p, t, sym), L1)) ∧
            L1.Reader.s = L.Reader.s ∧ L.Reader.i ≤ L1.Reader.i ∧
            (t ≠ EOF → L.Reader.i < L1.Reader.i ∧ L1.Reader.i ≤ L.Reader.s.length) ∧
            (0 ≤ t ∧ t ≤ 9) := by
        intro L2 hgo hs2 hi2
        obtain ⟨p, t, sym, L1, g1, g2, g3, g4, g5⟩ := step L2 hs2 hi2
        refine ⟨p, t, sym, L1, ?_, g2, g3, g4, g5⟩
        intro fuel hfu
        obtain ⟨k, rfl⟩ : ∃ k, fuel = k + 1 := ⟨fuel - 1, by omega⟩
        rw [hgo k]
        exact g1 k (by omega)
      by_cases h10 : v = 10
      · refine finish (resetPosition ⟨⟨L.Position.Line, L.Position.Column + 1⟩,
          ⟨L.Reader.s, L.Reader.i + sz, L.Reader.i⟩⟩) ?_ rfl
          (by simp only [resetPosition]; omega)
        intro fuel
        simp only [lexLoop, h, h10, if_true]
      by_cases h35 : v = 35
      · obtain ⟨lit1, c1, i1, g1, g2, g3⟩ := lexToken_total commentFunction 0 Stable_comment
          (L.Reader.s.length - (L.Reader.i + sz))
          ⟨⟨L.Position.Line, L.Position.Column + 1⟩, ⟨L.Reader.s, L.Reader.i + sz, L.Reader.i⟩⟩
          [] (le_refl _) (Nat.zero_le _)
        simp only [] at g1 g2 g3
        refine finish ⟨⟨L.Position.Line, c1⟩, ⟨L.Reader.s, i1, -1⟩⟩ ?_ rfl
          (by simp only []; omega)
        intro fuel
        simp only [lexLoop, h, h10, h35, if_true, if_false]
        rw [if_neg (by decide)]
        rw [g3 (L.Reader.s.length + 1) (by omega)]
      by_cases hsym : v = 62 ∨ v = 60 ∨ v = 43 ∨ v = 45 ∨ v = 46 ∨ v = 44 ∨ v = 91 ∨ v = 93
      · refine ⟨⟨L.Position.Line, L.Position.Column + 1⟩, (tokensIndex [v]).getD 0, [v],
          ⟨⟨L.Position.Line, L.Position.Column + 1⟩, ⟨L.Reader.s, L.Reader.i + sz, L.Reader.i⟩⟩,
          ?_, rfl, by simp only []; omega, fun _ => by simp only []; omega,
          tokensIndex_getD_range v⟩
        intro fuel hfu
        obtain ⟨k, rfl⟩ : ∃ k, fuel = k + 1 := ⟨fuel - 1, by omega⟩
        simp only [lexLoop, h, h10, h35, hsym, if_true, if_false]
      by_cases hspace : IsSpace T v = true
      · refine finish ⟨⟨L.Position.Line, L.Position.Column + 1⟩,
          ⟨L.Reader.s, L.Reader.i + sz, L.Reader.i⟩⟩ ?_ rfl (by simp only []; omega)
        intro fuel
        simp only [lexLoop, h, h10, h35, hsym, hspace, if_true, if_false]
      by_cases hdigit : IsDigit T v = true
      · -- the digit is unread and read again by `lexToken`, which accepts it
        have hread : Reader.ReadRune { s := L.Reader.s, i := L.Reader.i, prevRune := -1 } =
            (.ok (v, sz), { s := L.Reader.s, i := L.Reader.i + sz, prevRune := L.Reader.i }) := by
          rw [ReadRune_prevRune _ _ _ L.Reader.prevRune]; exact h
        obtain ⟨lit1, c1, i1, g1, g2, g3⟩ := lexToken_total (digitFunction T) 0 (Stable_digit T)
          (L.Reader.s.length - (L.Reader.i + sz))
          ⟨⟨L.Position.Line, L.Position.Column + 1 - 1 + 1⟩,
            ⟨L.Reader.s, L.Reader.i + sz, L.Reader.i⟩⟩
          ([] ++ [v]) (le_refl _) (Nat.zero_le _)
        simp only [] at g1 g2 g3
        refine ⟨⟨L.Position.Line, c1⟩, NUMBER, lit1,
          ⟨⟨L.Position.Line, c1⟩, ⟨L.Reader.s, i1, -1⟩⟩, ?_, rfl, by simp only []; omega,
          fun _ => by simp only []; omega, by decide⟩
        have e : lexToken (digitFunction T) (L.Reader.s.length + 1)
            ⟨⟨L.Position.Line, L.Position.Column + 1 - 1⟩, ⟨L.Reader.s, L.Reader.i, -1⟩⟩ [] =
            .ok (lit1, ⟨⟨L.Position.Line, c1⟩, ⟨L.Reader.s, i1, -1⟩⟩) := by
          rw [lexToken]
          simp only [hread, digitFunction, hdigit]
          exact g3 _ (by omega)
        intro fuel hfu
        obtain ⟨k, rfl⟩ : ∃ k, fuel = k + 1 := ⟨fuel - 1, by omega⟩
        simp only [lexLoop, h, h10, h35, hsym, hspace, hdigit, if_true, if_false,
          Bool.false_eq_true]
        rw [backup_after_read _ _ _ _ (by omega)]
        simp only [e]
      by_cases hletter : IsLetter T v = true
      · obtain ⟨lit1, c1, i1, g1, g2, g3⟩ := lexToken_total (wordFunction T) 1 (Stable_word T)
          (L.Reader.s.length - (L.Reader.i + sz))
          ⟨⟨L.Position.Line, L.Position.Column + 1⟩, ⟨L.Reader.s, L.Reader.i + sz, L.Reader.i⟩⟩
          [] (le_refl _) (by simp only []; omega)
        simp only [] at g1 g2 g3
        refine finish ⟨⟨L.Position.Line, c1⟩, ⟨L.Reader.s, i1, -1⟩⟩ ?_ rfl
          (by simp only []; omega)
        intro fuel
        simp only [lexLoop, h, h10, h35, hsym, hspace, hdigit, hletter, if_true, if_false,
          Bool.false_eq_true]
        rw [g3 (L.Reader.s.length + 1) (by omega)]
      · refine finish ⟨⟨L.Position.Line, L.Position.Column + 1⟩,
          ⟨L.Reader.s, L.Reader.i + sz, L.Reader.i⟩⟩ ?_ rfl (by simp only []; omega)
        intro fuel
        simp only [lexLoop, h, h10, h35, hsym, hspace, hdigit, hletter, if_true, if_false,
          Bool.false_eq_true]

/-- `Lex` returns a token from every lexer. -/
theorem Lex_total (T : RangeTables) (L : Lexer) :
    ∃ (p : Position) (t : Token) (sym : List Nat) (L1 : Lexer),
      Lex T L = .ok ((p, t, sym), L1) ∧ L1.Reader.s = L.Reader.s ∧
      L.Reader.i ≤ L1.Reader.i ∧
      (t ≠ EOF → L.Reader.i < L1.Reader.i ∧ L1.Reader.i ≤ L.Reader.s.length) ∧
      (0 ≤ t ∧ t ≤ 9) := by
  obtain ⟨p, t, sym, L1, g1, g2⟩ := lexLoop_total T (L.Reader.s.length - L.Reader.i) L (le_refl _)
  exact ⟨p, t, sym, L1, g1 _ (by omega), g2⟩

/-- The loop of `Lex` with any fuel above the bytes left is `Lex`. -/
theorem lexLoop_eq_Lex (T : RangeTables) (L : Lexer) (fuel : Nat)
    (hf : L.Reader.s.length - L.Reader.i < fuel) : lexLoop T fuel L = Lex T L := by
  obtain ⟨p, t, sym, L1, g1, _⟩ := lexLoop_total T (L.Reader.s.length - L.Reader.i) L (le_refl _)
  rw [Lex, g1 fuel hf, g1 _ (by omega)]

/-! ## Properties of the lexer -/

/-- C10, as amended: when the scanning loop of `Lex` reads a `#`, no token comes
from the characters between the `#` and the next newline or the end of input:
at the end of input the call returns `EOF` on the same line, and at a newline
the call returns what `Lex` returns from the character after the newline, in
column 0 of the next line. -/
theorem comment_hides_line (T : RangeTables) (L : Lexer) (pre body rest : List Nat)
    (hs : L.Reader.s = pre ++ 35 :: body ++ rest) (hi : L.Reader.i = pre.length)
    (hb : 10 ∉ body) :
    (rest = [] → ∃ column L1,
        Lex T L = .ok (({ Line := L.Position.Line, Column := column }, EOF, [10]), L1)) ∧
      (∀ rest1, rest = 10 :: rest1 →
        Lex T L = Lex T
          ⟨⟨L.Position.Line + 1, 0⟩,
            ⟨L.Reader.s, pre.length + body.length + 2,
              ((pre.length + body.length + 1 : Nat) : Int)⟩⟩) := by
  have hs1 : L.Reader.s = pre ++ 35 :: (body ++ rest) := by simpa using hs
  have hlen : L.Reader.s.length = pre.length + 1 + body.length + rest.length := by
    rw [hs1]; simp; omega
  have key : ∀ (hr : rest = [] ∨ ∃ r, rest = 10 :: r), ∃ (k : Int),
      Lex T L = lexLoop T L.Reader.s.length
        ⟨⟨L.Position.Line, L.Position.Column + 1 + k⟩,
          ⟨L.Reader.s, pre.length + 1 + body.length, -1⟩⟩ := by
    intro hr
    obtain ⟨k, lit, hk⟩ := lexToken_comment body.length body (pre ++ [35]) rest
      ⟨⟨L.Position.Line, L.Position.Column + 1⟩, ⟨L.Reader.s, L.Reader.i + 1, L.Reader.i⟩⟩ []
      (L.Reader.s.length + 1) (le_refl _) (by simp [hs]) (by simp [hi]) hb hr (by omega)
    refine ⟨k, ?_⟩
    simp only [Lex, lexLoop, ReadRune_ascii _ pre _ 35 hs1 hi (by decide), if_true]
    rw [hk]
    simp only [List.length_append, List.length_singleton]
    rw [if_neg (by decide)]
  constructor
  · intro hr
    obtain ⟨k, hk⟩ := key (Or.inl hr)
    subst hr
    obtain ⟨m, hm⟩ : ∃ m, L.Reader.s.length = m + 1 := ⟨L.Reader.s.length - 1, by omega⟩
    rw [hk, hm]
    refine ⟨L.Position.Column + 1 + k,
      ⟨⟨L.Position.Line, L.Position.Column + 1 + k⟩,
        ⟨L.Reader.s, pre.length + 1 + body.length, -1⟩⟩, ?_⟩
    rw [lexLoop, ReadRune_eof ⟨L.Reader.s, pre.length + 1 + body.length, -1⟩
      (by simp [hlen])]
  · intro rest1 hr
    obtain ⟨k, hk⟩ := key (Or.inr ⟨rest1, hr⟩)
    subst hr
    obtain ⟨m, hm⟩ : ∃ m, L.Reader.s.length = m + 1 := ⟨L.Reader.s.length - 1, by omega⟩
    rw [hk, hm]
    have hs2 : L.Reader.s = (pre ++ 35 :: body) ++ 10 :: rest1 := by simp [hs1]
    rw [lexLoop, ReadRune_ascii ⟨L.Reader.s, pre.length + 1 + body.length, -1⟩
      (pre ++ 35 :: body) rest1 10 hs2 (by simp; omega) (by decide)]
    simp only [if_true, resetPosition]
    have e1 : pre.length + 1 + body.length + 1 = pre.length + body.length + 2 := by omega
    have e2 : ((pre.length + 1 + body.length : Nat) : Int) =
        ((pre.length + body.length + 1 : Nat) : Int) := by push_cast; ring
    rw [e1, e2]
    exact lexLoop_eq_Lex T _ m (by simp only [List.length_cons] at hlen ⊢; omega)

/-- Witness of `comment_hides_line`: the lexer after the first character of
`+#+`, newline, `-`. -/
theorem comment_hides_line_witness :
    (([10, 45] : List Nat) = [] → ∃ column L1,
        Lex latin1Tables ⟨⟨0, 1⟩, ⟨[43, 35, 43, 10, 45], 1, 0⟩⟩ =
          .ok (({ Line := 0, Column := column }, EOF, [10]), L1)) ∧
      (∀ rest1, ([10, 45] : List Nat) = 10 :: rest1 →
        Lex latin1Tables ⟨⟨0, 1⟩, ⟨[43, 35, 43, 10, 45], 1, 0⟩⟩ =
          Lex latin1Tables ⟨⟨1, 0⟩, ⟨[43, 35, 43, 10, 45], 4, 3⟩⟩) :=
  comment_hides_line latin1Tables ⟨⟨0, 1⟩, ⟨[43, 35, 43, 10, 45], 1, 0⟩⟩ [43] [43] [10, 45]
    rfl rfl (by decide)

/-- Counterexample to C10 as stated: in the source `a#+` the `#` is read in word
mode, and the `+` after it is returned as a token (line 1, column 3). -/
theorem comment_inside_word_counterexample :
    tokens latin1Tables [97, 35, 43] =
      .ok [({ Line := 0, Column := 3 }, INCREMENT_CELL, [43]),
        ({ Line := 0, Column := 3 }, EOF, [10])] := by
  decide

/-- C5 at the failing input: in the source `é>` (bytes 195, 169, 62) the letter
`é` opens a word, but the `>` right after it is returned as a token: the lexer
seeks two bytes back, into the middle of `é`, and reads the error rune, which is
not a letter.  After letters of one byte, as in `move>`, the `>` is discarded,
and after `é`, a space and `>` the `>` is returned, as the claim says. -/
theorem absorption_fails_after_wide_letter (T : RangeTables) :
    tokens T [195, 169, 62] =
        .ok [({ Line := 0, Column := 2 }, NEXT_CELL, [62]),
          ({ Line := 0, Column := 2 }, EOF, [10])] ∧
      tokens T [109, 111, 118, 101, 62] = .ok [({ Line := 0, Column := 5 }, EOF, [10])] ∧
      tokens T [195, 169, 32, 62] =
        .ok [({ Line := 0, Column := 3 }, NEXT_CELL, [62]),
          ({ Line := 0, Column := 3 }, EOF, [10])] := by
  have hL := T.Letter_RuneError
  refine ⟨?_, ?_, ?_⟩ <;>
    simp [tokens, lexAll, Lex, lexLoop, lexToken, wordFunction, NewLexer, NewReader,
      Reader.ReadRune, Reader.Seek, Reader.UnreadRune, backup, DecodeRuneInString, first,
      IsSpace, IsDigit, IsLetter, latin1Letter, MaxLatin1, RuneError, tokensIndex_singleton,
      hL, EOF, NEXT_CELL]

/-! ## The counter of the code generator and the pre-order walk -/

theorem whileAt_append (a b : List ASTNode) (k : Nat) :
    whileAt k (a ++ b) = whileAt k a ++ whileAt (k + a.length) b := by
  induction a generalizing k with
  | nil => simp [whileAt]
  | cons x a ih =>
    simp only [List.cons_append, List.append_eq, whileAt, ih, List.length_cons]
    rw [show k + (a.length + 1) = k + 1 + a.length by omega]
    split <;> simp

mutual
theorem preorder_length : ∀ (ast : AST), (preorder ast).length = countNodes ast
  | .mk nodes => by rw [preorder, countNodes]; exact preorderNodes_length nodes
theorem preorderNodes_length : ∀ (nodes : List ASTNode),
    (preorderNodes nodes).length = countNodesList nodes
  | [] => by simp [preorderNodes, countNodesList]
  | .NodeWhile tree n :: rest => by
    simp only [preorderNodes, preorderNode, countNodesList, countNode, List.length_append,
      List.length_cons, preorder_length tree, preorderNodes_length rest]
    omega
  | .IntegerLiteral v n :: rest => by
    simp only [preorderNodes, preorderNode, countNodesList, countNode, List.length_append,
      List.length_cons, List.length_nil, preorderNodes_length rest, Nat.add_comm]
  | .NextCell n :: rest => by
    simp only [preorderNodes, preorderNode, countNodesList, countNode, List.length_append,
      List.length_cons, List.length_nil, preorderNodes_length rest, Nat.add_comm]
  | .PreviousCell n :: rest => by
    simp only [preorderNodes, preorderNode, countNodesList, countNode, List.length_append,
      List.length_cons, List.length_nil, preorderNodes_length rest, Nat.add_comm]
  | .IncrementCell n :: rest => by
    simp only [preorderNodes, preorderNode, countNodesList, countNode, List.length_append,
      List.length_cons, List.length_nil, preorderNodes_length rest, Nat.add_comm]
  | .DecrementCell n :: rest => by
    simp only [preorderNodes, preorderNode, countNodesList, countNode, List.length_append,
      List.length_cons, List.length_nil, preorderNodes_length rest, Nat.add_comm]
  | .OutputCell n :: rest => by
    simp only [preorderNodes, preorderNode, countNodesList, countNode, List.length_append,
      List.length_cons, List.length_nil, preorderNodes_length rest, Nat.add_comm]
  | .InputCell n :: rest => by
    simp only [preorderNodes, preorderNode, countNodesList, countNode, List.length_append,
      List.length_cons, List.length_nil, preorderNodes_length rest, Nat.add_comm]
end

mutual
theorem labelIds_preorder : ∀ (ast : AST) (k : Nat),
    (labelIds ast k).1 = whileAt (k + 1) (preorder ast) ∧
      (labelIds ast k).2 = k + countNodes ast
  | .mk nodes, k => by rw [labelIds, preorder, countNodes]; exact labelIdsNodes_preorder nodes k
theorem labelIdsNodes_preorder : ∀ (nodes : List ASTNode) (k : Nat),
    (labelIdsNodes nodes k).1 = whileAt (k + 1) (preorderNodes nodes) ∧
      (labelIdsNodes nodes k).2 = k + countNodesList nodes
  | [], k => by simp [labelIdsNodes, preorderNodes, whileAt, countNodesList]
  | .NodeWhile tree n :: rest, k => by
    obtain ⟨h1, h2⟩ := labelIds_preorder tree (k + 1)
    obtain ⟨h3, h4⟩ := labelIdsNodes_preorder rest (labelIds tree (k + 1)).2
    rw [labelIdsNodes, h3, h4, h1, h2]
    simp only [preorderNodes, preorderNode, countNodesList, countNode, List.cons_append,
      List.append_eq, whileAt, isWhileNode, if_true, whileAt_append, preorder_length]
    refine ⟨?_, by omega⟩
    rw [show k + 1 + countNodes tree + 1 = k + 1 + 1 + countNodes tree by omega]
  | .IntegerLiteral v n :: rest, k => by
    obtain ⟨h3, h4⟩ := labelIdsNodes_preorder rest (k + 1)
    rw [labelIdsNodes, h3, h4]
    simp only [preorderNodes, preorderNode, countNodesList, countNode, List.cons_append,
      List.nil_append, whileAt, isWhileNode]
    exact ⟨by simp, by omega⟩
  | .NextCell n :: rest, k => by
    obtain ⟨h3, h4⟩ := labelIdsNodes_preorder rest (k + 1)
    rw [labelIdsNodes, h3, h4]
    simp only [preorderNodes, preorderNode, countNodesList, countNode, List.cons_append,
      List.nil_append, whileAt, isWhileNode]
    exact ⟨by simp, by omega⟩
  | .PreviousCell n :: rest, k => by
    obtain ⟨h3, h4⟩ := labelIdsNodes_preorder rest (k + 1)
    rw [labelIdsNodes, h3, h4]
    simp only [preorderNodes, preorderNode, countNodesList, countNode, List.cons_append,
      List.nil_append, whileAt, isWhileNode]
    exact ⟨by simp, by omega⟩
  | .IncrementCell n :: rest, k => by
    obtain ⟨h3, h4⟩ := labelIdsNodes_preorder rest (k + 1)
    rw [labelIdsNodes, h3, h4]
    simp only [preorderNodes, preorderNode, countNodesList, countNode, List.cons_append,
      List.nil_append, whileAt, isWhileNode]
    exact ⟨by simp, by omega⟩
  | .DecrementCell n :: rest, k => by
    obtain ⟨h3, h4⟩ := labelIdsNodes_preorder rest (k + 1)
    rw [labelIdsNodes, h3, h4]
    simp only [preorderNodes, preorderNode, countNodesList, countNode, List.cons_append,
      List.nil_append, whileAt, isWhileNode]
    exact ⟨by simp, by omega⟩
  | .OutputCell n :: rest, k => by
    obtain ⟨h3, h4⟩ := labelIdsNodes_preorder rest (k + 1)
    rw [labelIdsNodes, h3, h4]
    simp only [preorderNodes, preorderNode, countNodesList, countNode, List.cons_append,
      List.nil_append, whileAt, isWhileNode]
    exact ⟨by simp, by omega⟩
  | .InputCell n :: rest, k => by
    obtain ⟨h3, h4⟩ := labelIdsNodes_preorder rest (k + 1)
    rw [labelIdsNodes, h3, h4]
    simp only [preorderNodes, preorderNode, countNodesList, countNode, List.cons_append,
      List.nil_append, whileAt, isWhileNode]
    exact ⟨by simp, by omega⟩
end


/-- C16 (the counter advances once per node): from every counter `k` and buffer,
`compile` returns the counter `k` plus the number of nodes of the tree at all
depths, integer literals and while nodes included; under `Compile` the label
lines `while_<id>:` of the text are those of the 1-based positions of the while
nodes in the pre-order walk of the tree; the tree of `+++[>+<-]` gives the one
label `while_2`. -/
theorem counter_once_per_node (T : RangeTables) (ast : AST) (k : Nat) (instructions : String) :
    (∃ text, compile ast k instructions = .ok (text, k + countNodes ast)) ∧
      (∃ text, Compile ast = .ok text ∧
        whileLabels text = (whilePositions ast).map labelOf) ∧
      (∃ tree text, parseSource T 10 [43, 43, 43, 91, 62, 43, 60, 45, 93] =
          .ok (.ok (tree, -1)) ∧
        Compile tree = .ok text ∧ whileLabels text = ["while_2:".data]) := by
  refine ⟨⟨instructions ++ joinChunks (chunks ast k).1, ?_⟩, ⟨_, Compile_eq ast, ?_⟩, ?_⟩
  · rw [compile_eq, (good_chunks ast k).2, (labelIds_preorder ast k).2]
  · rw [whileLabels_Compile, (labelIds_preorder ast 0).1]
    rfl
  · have hp := parseSource_runChars T [43, 43, 43, 91, 62, 43, 60, 45, 93] 10 (by decide)
      (by decide)
    have hr : runChars [43, 43, 43, 91, 62, 43, 60, 45, 93] 0 0 [] none [] =
        .ok (.mk [.IncrementCell ⟨2, NODE_INCREMENT_CELL⟩,
          .NodeWhile (.mk [.NextCell ⟨0, NODE_NEXT_CELL⟩, .IncrementCell ⟨0, NODE_INCREMENT_CELL⟩,
            .PreviousCell ⟨0, NODE_PREVIOUS_CELL⟩, .DecrementCell ⟨0, NODE_DECREMENT_CELL⟩])
            ⟨0, NODE_WHILE⟩], -1) := by
      rfl
    rw [hr] at hp
    refine ⟨_, _, hp, Compile_eq _, ?_⟩
    rw [whileLabels_Compile]
    decide

/-! ## The frame of the text of `Compile` -/

theorem chunksNodes_append (a b : List ASTNode) (k : Nat) :
    chunksNodes (a ++ b) k =
      ((chunksNodes a k).1 ++ (chunksNodes b (chunksNodes a k).2).1,
        (chunksNodes b (chunksNodes a k).2).2) := by
  induction a generalizing k with
  | nil => simp [chunksNodes]
  | cons x a ih =>
    cases x <;>
      simp only [List.cons_append, List.append_eq, chunksNodes, ih, List.append_assoc,
        List.nil_append]

theorem bodyLine_prefix (pre t : List Char) (hlen : 10 ≤ pre.length) (h : bodyLine pre) :
    bodyLine (pre ++ t) := by
  have h0 : (pre ++ t).head? = pre.head? := by
    cases pre with
    | nil => simp at hlen
    | cons x xs => rfl
  have h9 : (pre ++ t).get? 9 = pre.get? 9 := by
    simp only [List.get?_eq_getElem?]
    exact List.getElem?_append_left (by omega)
  unfold bodyLine at h ⊢
  rw [h0, h9]
  exact h

theorem bodyLine_format (pre mid post : String) (hpre : Char.ofNat 10 ∉ pre.data)
    (hmid : Char.ofNat 10 ∉ mid.data) (hpost : wfChunk post) (hlen : 10 ≤ pre.data.length)
    (h : bodyLine pre.data) : bodyLine (lineOfChunk (pre ++ mid ++ post)) := by
  rw [(wfChunk_format pre mid post hpre hmid hpost).2, List.append_assoc]
  exact bodyLine_prefix _ _ hlen h

theorem bodyLine_label (mid post : String) (hmid : Char.ofNat 10 ∉ mid.data)
    (hpost : wfChunk post) : bodyLine (lineOfChunk ("while_" ++ mid ++ post)) := by
  rw [(wfChunk_format "while_" mid post (by decide) hmid hpost).2, List.append_assoc]
  exact Or.inl rfl

mutual
theorem bodyLine_chunks : ∀ (ast : AST) (k : Nat),
    ∀ c ∈ (chunks ast k).1, bodyLine (lineOfChunk c)
  | .mk nodes, k => by rw [chunks]; exact bodyLine_chunksNodes nodes k
theorem bodyLine_chunksNodes : ∀ (nodes : List ASTNode) (k : Nat),
    ∀ c ∈ (chunksNodes nodes k).1, bodyLine (lineOfChunk c)
  | [], k => by simp [chunksNodes]
  | .NextCell n :: rest, k => by
    rw [chunksNodes]
    refine List.forall_mem_append.mpr ⟨?_, bodyLine_chunksNodes rest (k + 1)⟩
    intro c hc
    simp only [List.mem_cons, List.mem_singleton, List.not_mem_nil, or_false] at hc
    rcases hc with rfl | rfl | rfl | rfl
    · decide
    · decide
    · exact bodyLine_format _ _ _ (by decide) (formatInt_no_newline _) (by decide) (by decide)
        (by decide)
    · decide
  | .PreviousCell n :: rest, k => by
    rw [chunksNodes]
    refine List.forall_mem_append.mpr ⟨?_, bodyLine_chunksNodes rest (k + 1)⟩
    intro c hc
    simp only [List.mem_cons, List.mem_singleton, List.not_mem_nil, or_false] at hc
    rcases hc with rfl | rfl | rfl | rfl
    · decide
    · decide
    · exact bodyLine_format _ _ _ (by decide) (formatInt_no_newline _) (by decide) (by decide)
        (by decide)
    · decide
  | .IncrementCell n :: rest, k => by
    rw [chunksNodes]
    refine List.forall_mem_append.mpr ⟨?_, bodyLine_chunksNodes rest (k + 1)⟩
    intro c hc
    simp only [List.mem_cons, List.mem_singleton, List.not_mem_nil, or_false] at hc
    rcases hc with rfl | rfl | rfl | rfl | rfl
    · decide
    · decide
    · decide
    · exact bodyLine_format _ _ _ (by decide) (formatInt_no_newline _) (by decide) (by decide)
        (by decide)
    · decide
  | .DecrementCell n :: rest, k => by
    rw [chunksNodes]
    refine List.forall_mem_append.mpr ⟨?_, bodyLine_chunksNodes rest (k + 1)⟩
    intro c hc
    simp only [List.mem_cons, List.mem_singleton, List.not_mem_nil, or_false] at hc
    rcases hc with rfl | rfl | rfl | rfl | rfl
    · decide
    · decide
    · decide
    · exact bodyLine_format _ _ _ (by decide) (formatInt_no_newline _) (by decide) (by decide)
        (by decide)
    · decide
  | .OutputCell n :: rest, k => by
    rw [chunksNodes]
    refine List.forall_mem_append.mpr ⟨?_, bodyLine_chunksNodes rest (k + 1)⟩
    intro c hc
    simp only [List.mem_cons, List.mem_singleton, List.not_mem_nil, or_false] at hc
    rcases hc with rfl | rfl <;> decide
  | .InputCell n :: rest, k => by
    rw [chunksNodes]
    refine List.forall_mem_append.mpr ⟨?_, bodyLine_chunksNodes rest (k + 1)⟩
    intro c hc
    simp only [List.mem_cons, List.mem_singleton, List.not_mem_nil, or_false] at hc
    rcases hc with rfl | rfl <;> decide
  | .IntegerLiteral v n :: rest, k => by
    rw [chunksNodes]
    exact bodyLine_chunksNodes rest (k + 1)
  | .NodeWhile tree n :: rest, k => by
    rw [chunksNodes]
    refine List.forall_mem_append.mpr ⟨List.forall_mem_append.mpr
      ⟨List.forall_mem_append.mpr ⟨?_, bodyLine_chunks tree (k + 1)⟩, ?_⟩,
      bodyLine_chunksNodes rest _⟩
    · intro c hc
      simp only [List.mem_cons, List.mem_singleton, List.not_mem_nil, or_false] at hc
      rcases hc with rfl | rfl | rfl | rfl | rfl | rfl | rfl | rfl | rfl
      · decide
      · exact bodyLine_label _ _ (formatInt_no_newline _) (by decide)
      · decide
      · decide
      · decide
      · exact bodyLine_format _ _ _ (by decide) (formatInt_no_newline _) (by decide)
          (by decide) (by decide)
      · exact bodyLine_format _ _ _ (by decide) (formatInt_no_newline _) (by decide)
          (by decide) (by decide)
      · exact bodyLine_label _ _ (formatInt_no_newline _) (by decide)
      · decide
    · intro c hc
      simp only [List.mem_cons, List.mem_singleton, List.not_mem_nil, or_false] at hc
      rcases hc with rfl | rfl | rfl
      · decide
      · exact bodyLine_format _ _ _ (by decide) (formatInt_no_newline _) (by decide)
          (by decide) (by decide)
      · exact bodyLine_label _ _ (formatInt_no_newline _) (by decide)
end

theorem splitLines_append_of_last (t rest : List Char)
    (hlast : t.getLast? = some (Char.ofNat 10)) :
    splitLines (t ++ rest) = (splitLines t).dropLast ++ splitLines rest := by
  have ht : t = t.dropLast ++ [Char.ofNat 10] := (List.dropLast_append_getLast? _ hlast).symm
  have e : t ++ rest = t.dropLast ++ Char.ofNat 10 :: rest := by
    conv_lhs => rw [ht]
    simp
  rw [e, splitLines_complete, ← ht]

theorem lines_Compile (ast : AST) :
    splitLines (programHeader ++ joinChunks (chunks ast 0).1 ++ programFooter).data =
      (splitLines programHeader.data).dropLast ++
        ((chunks ast 0).1.map lineOfChunk ++ splitLines programFooter.data) := by
  rw [String.append_assoc, String.data_append, splitLines_append_of_last _ _ header_last,
    String.data_append, splitLines_join _ (good_chunks ast 0).1.1]

theorem count_body_zero (ast : AST) (l : List Char) (hl : ¬ bodyLine l) :
    ((chunks ast 0).1.map lineOfChunk).count l = 0 := by
  rw [List.count_eq_zero]
  intro hmem
  obtain ⟨c, hc, rfl⟩ := List.mem_map.mp hmem
  exact hl (bodyLine_chunks ast 0 c hc)

set_option maxRecDepth 100000 in
theorem header_entry_count :
    ((splitLines programHeader.data).dropLast).count entryLine = 1 ∧
      ((splitLines programHeader.data).dropLast).count exitLine = 0 := by decide

theorem footer_exit_count :
    (splitLines programFooter.data).count entryLine = 0 ∧
      (splitLines programFooter.data).count exitLine = 1 := by decide

/-- C14 (fixed frame): for every tree, `Compile` returns the preamble, then the
text that `compile` writes for the nodes from the counter 0, then the epilogue;
the text of a sequence of nodes is the text of its first part followed by the
text of the rest; the entry line `_start:` of the preamble and the line that
opens the exit sequence of the epilogue each occur exactly once among the lines
of the text; for the empty tree the text is the preamble followed by the
epilogue. -/
theorem fixed_frame (ast : AST) :
    (∃ body k, compile ast 0 "" = .ok (body, k) ∧
      Compile ast = .ok (programHeader ++ body ++ programFooter) ∧
      (splitLines (programHeader ++ body ++ programFooter).data).count entryLine = 1 ∧
      (splitLines (programHeader ++ body ++ programFooter).data).count exitLine = 1) ∧
      (∀ (a b : List ASTNode) (k : Nat), ∃ ta ka tb kb,
        compile (.mk a) k "" = .ok (ta, ka) ∧ compile (.mk b) ka "" = .ok (tb, kb) ∧
        compile (.mk (a ++ b)) k "" = .ok (ta ++ tb, kb)) ∧
      Compile (.mk []) = .ok (programHeader ++ programFooter) := by
  refine ⟨⟨joinChunks (chunks ast 0).1, (chunks ast 0).2, ?_, Compile_eq ast, ?_, ?_⟩, ?_, ?_⟩
  · rw [compile_eq, String.empty_append]
  · rw [lines_Compile, List.count_append, List.count_append, header_entry_count.1,
      count_body_zero ast _ (by decide), footer_exit_count.1]
  · rw [lines_Compile, List.count_append, List.count_append, header_entry_count.2,
      count_body_zero ast _ (by decide), footer_exit_count.2]
  · intro a b k
    refine ⟨_, _, _, _, compile_eq _ _ _, compile_eq _ _ _, ?_⟩
    rw [compile_eq]
    simp only [chunks, chunksNodes_append, joinChunks_append, String.empty_append]
  · rw [Compile_eq]
    simp [chunks, chunksNodes, joinChunks]

/-! ## Every run of the lexer and the parser -/

theorem lexCalls_total (T : RangeTables) (n : Nat) : ∀ (L : Lexer),
    ∃ toks L1, lexCalls T n L = .ok (toks, L1) ∧ toks.length = n ∧
      L1.Reader.s = L.Reader.s ∧ (∀ tok ∈ toks, 0 ≤ tok.2.1 ∧ tok.2.1 ≤ 9) := by
  induction n with
  | zero => intro L; exact ⟨[], L, rfl, rfl, rfl, by simp⟩
  | succ n ih =>
    intro L
    obtain ⟨p, t, sym, L1, h1, h2, _, _, h5⟩ := Lex_total T L
    obtain ⟨toks, L2, g1, g2, g3, g4⟩ := ih L1
    refine ⟨(p, t, sym) :: toks, L2, ?_, by simp [g2], by rw [g3, h2], ?_⟩
    · simp only [lexCalls, h1, g1]
    · intro tok htok
      rcases List.mem_cons.mp htok with h | h
      · subst h; exact h5
      · exact g4 tok h

/-- C19 (the fatal paths of the lexer are unreachable): from every lexer state
`Lex` returns a token within its fuel, with no panic; so for every input,
bytes above 127 and ill-formed sequences included, every sequence of `n` calls
from the fresh lexer returns `n` tokens, each of a kind from `EOF` to
`BRACKET_CLOSE`, and leaves the input as it was. -/
theorem lexer_never_panics (T : RangeTables) :
    (∀ L : Lexer, ∃ tok L1, Lex T L = .ok (tok, L1) ∧ L1.Reader.s = L.Reader.s ∧
        L.Reader.i ≤ L1.Reader.i) ∧
      (∀ (input : List Nat) (n : Nat), ∃ toks L1,
        lexCalls T n (NewLexer input) = .ok (toks, L1) ∧ toks.length = n ∧
        L1.Reader.s = input ∧ (∀ tok ∈ toks, 0 ≤ tok.2.1 ∧ tok.2.1 ≤ 9)) := by
  constructor
  · intro L
    obtain ⟨p, t, sym, L1, h1, h2, h3, _, _⟩ := Lex_total T L
    exact ⟨(p, t, sym), L1, h1, h2, h3⟩
  · intro input n
    exact lexCalls_total T n (NewLexer input)

/-- Every lexer state has its stream of tokens, no longer than the bytes left,
with kinds from `NUMBER` to `BRACKET_CLOSE`. -/
theorem stream_exists (T : RangeTables) : ∀ (n : Nat) (L : Lexer),
    L.Reader.s.length - L.Reader.i ≤ n →
    ∃ ts, Stream T L ts ∧ ts.length ≤ L.Reader.s.length - L.Reader.i ∧
      (∀ tok ∈ ts, 1 ≤ tok.2.1 ∧ tok.2.1 ≤ 9) := by
  intro n
  induction n with
  | zero =>
    intro L hn
    obtain ⟨p, t, sym, L1, h1, _, _, h4, _⟩ := Lex_total T L
    by_cases ht : t = EOF
    · subst ht; exact ⟨[], Stream.eof h1, by simp, by simp⟩
    · have := h4 ht; omega
  | succ n ih =>
    intro L hn
    obtain ⟨p, t, sym, L1, h1, h2, _, h4, h5⟩ := Lex_total T L
    by_cases ht : t = EOF
    · subst ht; exact ⟨[], Stream.eof h1, by simp, by simp⟩
    · obtain ⟨g1, g2⟩ := h4 ht
      have hlen : L1.Reader.s.length = L.Reader.s.length := by rw [h2]
      obtain ⟨ts, s1, s2, s3⟩ := ih L1 (by omega)
      refine ⟨(p, t, sym) :: ts, Stream.cons h1 ht s1, ?_, ?_⟩
      · simp only [List.length_cons]; omega
      · intro tok htok
        rcases List.mem_cons.mp htok with h | h
        · subst h
          have h0 : (0 : Int) ≤ t := h5.1
          have hne : t ≠ (0 : Int) := ht
          have h1 : (1 : Int) ≤ t := by
            have := Int.add_one_le_of_lt (lt_of_le_of_ne h0 (Ne.symm hne))
            simpa using this
          exact ⟨h1, h5.2⟩
        · exact s3 tok h

/-- A call of `Parse` on a fresh lexer, with fuel above the length of the
source, returns what the stack machine returns on the stream of the source. -/
theorem Parse_run (T : RangeTables) (source : List Nat) (fuel : Nat)
    (bt : Option ReflectType) (hf : source.length < fuel) :
    ∃ ts L1, Stream T (NewLexer source) ts ∧ ts.length ≤ source.length ∧
      (∀ tok ∈ ts, 1 ≤ tok.2.1 ∧ tok.2.1 ≤ 9) ∧
      Parse T fuel (NewLexer source) bt = .ok ((run ts [] bt []).1, L1) := by
  obtain ⟨ts, s1, s2, s3⟩ := stream_exists T _ (NewLexer source) (le_refl _)
  have hl : ts.length ≤ source.length := by
    simp only [NewLexer, NewReader] at s2; omega
  obtain ⟨L1, h1, _⟩ := parseLoop_run T _ ts (NewLexer source) fuel bt [] (le_refl _) s1
    (by omega)
  exact ⟨ts, L1, s1, hl, s3, h1⟩
theorem action_handled (p : Position) (t : Int) (sym : List Nat) (nodes : List ASTNode)
    (h1 : 1 ≤ t) (h9 : t ≤ 9) (e : ParseError) (h : action p t sym nodes = .fail e) :
    e.handled := by
  have ht : t = 1 ∨ t = 2 ∨ t = 3 ∨ t = 4 ∨ t = 5 ∨ t = 6 ∨ t = 7 ∨ t = 8 ∨ t = 9 := by omega
  unfold action at h
  cases hf : foldRepeat t nodes with
  | some n1 => rw [hf] at h; simp at h
  | none =>
    rw [hf] at h
    rcases ht with rfl | rfl | rfl | rfl | rfl | rfl | rfl | rfl | rfl
    · cases ha : Atoi sym with
      | some v => simp [ha, BRACKET_OPEN, BRACKET_CLOSE, NUMBER] at h
      | none =>
        simp [ha, BRACKET_OPEN, BRACKET_CLOSE, NUMBER] at h
        subst h
        trivial
    all_goals
      simp [BRACKET_OPEN, BRACKET_CLOSE, NUMBER, NEXT_CELL, PREVIOUS_CELL, INCREMENT_CELL,
        DECREMENT_CELL, INPUT_CELL, OUTPUT_CELL] at h

theorem run_handled : ∀ (ts : List Tok) (stack : List Frame) (bt : Option ReflectType)
    (nodes : List ASTNode), (∀ tok ∈ ts, 1 ≤ tok.2.1 ∧ tok.2.1 ≤ 9) →
    ∀ e, (run ts stack bt nodes).1 = .error e → e.handled := by
  intro ts
  induction ts with
  | nil =>
    intro stack bt nodes _ e he
    cases stack with
    | nil => simp [run] at he
    | cons f fs => simp only [run, Except.error.injEq] at he; subst he; trivial
  | cons tok ts ih =>
    intro stack bt nodes hk e he
    obtain ⟨p, t, sym⟩ := tok
    have hts : ∀ tok ∈ ts, 1 ≤ tok.2.1 ∧ tok.2.1 ≤ 9 :=
      fun tok h => hk tok (List.mem_cons_of_mem _ h)
    have ht := hk (p, t, sym) (List.mem_cons_self _ _)
    simp only [run] at he
    cases ha : action p t sym nodes with
    | goOn n1 => rw [ha] at he; exact ih _ _ _ hts e he
    | enter => rw [ha] at he; exact ih _ _ _ hts e he
    | leave =>
      rw [ha] at he
      cases stack with
      | nil =>
        simp only [] at he
        split_ifs at he
        simp only [Except.error.injEq] at he; subst he; trivial
      | cons f fs => exact ih _ _ _ hts e he
    | fail e1 =>
      rw [ha] at he
      simp only [Except.error.injEq] at he
      subst he
      exact action_handled p t sym nodes ht.1 ht.2 _ ha

/-- C20 (the error of the default branch is unreachable): for every source and
every block type, `Parse` on the fresh lexer, with fuel above the length of the
source, returns a result, and when the result is an error it is the error of an
unmatched `[`, of an unmatched `]` or of an invalid number, never
`encountered unhandled token`; so it is for the top-level call of `main`. -/
theorem unhandled_token_unreachable (T : RangeTables) (source : List Nat) (fuel : Nat)
    (bt : Option ReflectType) (hf : source.length < fuel) :
    (∃ r L1, Parse T fuel (NewLexer source) bt = .ok (r, L1) ∧
      ∀ e, r = .error e →
        (∃ l c, e = .unmatchedOpen l c) ∨ (∃ l c, e = .unmatchedClose l c) ∨
          (∃ sym l c, e = .invalidNumber sym l c)) ∧
      (∃ r, parseSource T fuel source = .ok r ∧
        ∀ tok l c, r ≠ .error (.unhandledToken tok l c)) := by
  have key : ∀ bt1, ∃ r L1, Parse T fuel (NewLexer source) bt1 = .ok (r, L1) ∧
      ∀ e, r = .error e → e.handled := by
    intro bt1
    obtain ⟨ts, L1, _, _, h3, h4⟩ := Parse_run T source fuel bt1 hf
    exact ⟨_, L1, h4, fun e he => run_handled ts [] bt1 [] h3 e he⟩
  constructor
  · obtain ⟨r, L1, h1, h2⟩ := key bt
    refine ⟨r, L1, h1, ?_⟩
    intro e he
    have := h2 e he
    cases e with
    | unmatchedOpen l c => exact Or.inl ⟨l, c, rfl⟩
    | unmatchedClose l c => exact Or.inr (Or.inl ⟨l, c, rfl⟩)
    | invalidNumber sym l c => exact Or.inr (Or.inr ⟨sym, l, c, rfl⟩)
    | unhandledToken tok l c => exact absurd this id
  · obtain ⟨r, L1, h1, h2⟩ := key none
    refine ⟨r, ?_, ?_⟩
    · simp only [parseSource, h1]
    · intro tok l c he
      exact h2 _ he

/-- Witness of `unhandled_token_unreachable`: the source `+]`, whose error is
the one of the unmatched `]`. -/
theorem unhandled_token_unreachable_witness :
    (∃ r L1, Parse latin1Tables 3 (NewLexer [43, 93]) none = .ok (r, L1) ∧
      ∀ e, r = .error e →
        (∃ l c, e = .unmatchedOpen l c) ∨ (∃ l c, e = .unmatchedClose l c) ∨
          (∃ sym l c, e = .invalidNumber sym l c)) ∧
      (∃ r, parseSource latin1Tables 3 [43, 93] = .ok r ∧
        ∀ tok l c, r ≠ .error (.unhandledToken tok l c)) :=
  unhandled_token_unreachable latin1Tables [43, 93] 3 none (by decide)

/-! ## The run-length form of the trees of `Parse` -/

theorem noAdjacent_iff (l : List ASTNode) :
    noAdjacent l = true ↔ List.Chain' (fun a b => foldable a b = false) l := by
  induction l with
  | nil => simp [noAdjacent]
  | cons a l ih =>
    cases l with
    | nil => simp [noAdjacent]
    | cons b rest =>
      rw [noAdjacent, List.chain'_cons, ← ih]
      simp

theorem canonicalNodes_append (a b : List ASTNode) :
    canonicalNodes (a ++ b) = (canonicalNodes a && canonicalNodes b) := by
  induction a with
  | nil => simp [canonicalNodes]
  | cons x a ih => simp [canonicalNodes, ih, Bool.and_assoc]

theorem Inv_nil : Inv [] := ⟨rfl, rfl⟩

theorem Inv_snoc (nodes : List ASTNode) (x : ASTNode) (h : Inv nodes)
    (hx : canonicalNode x = true)
    (hl : ∀ l, nodes.getLast? = some l → foldable l x = false) : Inv (nodes ++ [x]) := by
  obtain ⟨h1, h2⟩ := h
  refine ⟨?_, ?_⟩
  · rw [noAdjacent_iff] at h1 ⊢
    rw [List.chain'_append]
    refine ⟨h1, List.chain'_singleton _, ?_⟩
    intro a ha b hb
    simp only [List.head?_cons, Option.mem_def, Option.some.injEq] at hb
    subst hb
    exact hl a ha
  · rw [canonicalNodes_append, h2]
    simp [canonicalNodes, hx]

theorem TypeOf_nodeIncrementer (ty : ReflectType) (x : ASTNode) :
    TypeOf (nodeIncrementer ty x) = TypeOf x := by
  cases x <;> rfl

theorem canonicalNode_of_repeatable (x : ASTNode)
    (h : (repeatableTokens (TypeOf x)).isSome = true) : canonicalNode x = true := by
  cases x <;> simp [TypeOf, repeatableTokens] at h <;> rfl

theorem repeatable_of_types (t : Token) (ty : ReflectType)
    (h : nodesTokensTypes t = some ty) :
    repeatableTokens ty = some (nodeIncrementer ty) := by
  unfold nodesTokensTypes at h
  split_ifs at h <;> simp only [Option.some.injEq] at h <;> subst h <;> rfl

theorem Inv_fold (t : Token) (nodes n1 : List ASTNode) (h : Inv nodes)
    (hf : foldRepeat t nodes = some n1) : Inv n1 := by
  rcases List.eq_nil_or_concat nodes with h0 | ⟨init, last, h0⟩
  · subst h0; rw [foldRepeat_nil] at hf; simp at hf
  · subst h0
    rw [List.concat_eq_append] at h hf
    rw [foldRepeat_snoc] at hf
    cases hty : nodesTokensTypes t with
    | none => rw [hty] at hf; simp at hf
    | some ty =>
      rw [hty] at hf
      simp only [repeatable_of_types t ty hty] at hf
      split_ifs at hf with hlast
      simp only [Option.some.injEq] at hf
      subst hf
      obtain ⟨h1, h2⟩ := h
      have hrep : (repeatableTokens (TypeOf (nodeIncrementer ty last))).isSome = true := by
        rw [TypeOf_nodeIncrementer, hlast, repeatable_of_types t ty hty]; rfl
      refine ⟨?_, ?_⟩
      · rw [noAdjacent_iff] at h1 ⊢
        rw [List.chain'_append] at h1 ⊢
        refine ⟨h1.1, List.chain'_singleton _, ?_⟩
        intro a ha b hb
        simp only [List.head?_cons, Option.mem_def, Option.some.injEq] at hb
        subst hb
        have := h1.2.2 a ha last (by simp)
        simpa [foldable, TypeOf_nodeIncrementer] using this
      · rw [canonicalNodes_append] at h2 ⊢
        simp only [Bool.and_eq_true] at h2 ⊢
        exact ⟨h2.1, by simp [canonicalNodes, canonicalNode_of_repeatable _ hrep]⟩
theorem foldable_of_none (t : Token) (nodes : List ASTNode) (x l : ASTNode)
    (hf : foldRepeat t nodes = none) (hl : nodes.getLast? = some l)
    (hx : ∀ ty, nodesTokensTypes t = some ty → TypeOf x = ty)
    (hn : nodesTokensTypes t = none → repeatableTokens (TypeOf x) = none) :
    foldable l x = false := by
  rcases List.eq_nil_or_concat nodes with h0 | ⟨init, last, h0⟩
  · subst h0; simp at hl
  · subst h0
    rw [List.concat_eq_append] at hf hl
    simp at hl
    subst hl
    rw [foldRepeat_snoc] at hf
    cases hty : nodesTokensTypes t with
    | none =>
      have := hn hty
      unfold foldable
      by_cases he : TypeOf last = TypeOf x
      · rw [he, this]; simp
      · simp [he]
    | some ty =>
      rw [hty] at hf
      simp only [repeatable_of_types t ty hty] at hf
      split_ifs at hf with hlast
      unfold foldable
      rw [hx ty hty]
      simp [hlast]

theorem Inv_action (p : Position) (t : Token) (sym : List Nat) (nodes n1 : List ASTNode)
    (h : Inv nodes) (ha : action p t sym nodes = .goOn n1) : Inv n1 := by
  unfold action at ha
  cases hf : foldRepeat t nodes with
  | some n2 =>
    rw [hf] at ha
    simp only [Action.goOn.injEq] at ha
    subst ha
    exact Inv_fold t nodes _ h hf
  | none =>
    rw [hf] at ha
    simp only [] at ha
    split_ifs at ha with h8 h9 h1 h2 h3 h4 h5 h7 h6
    · cases hat : Atoi sym with
      | none => rw [hat] at ha; simp at ha
      | some v =>
        rw [hat] at ha
        simp only [Action.goOn.injEq] at ha
        subst ha
        refine Inv_snoc _ _ h rfl (fun l hl => foldable_of_none t nodes _ l hf hl ?_ ?_)
        · intro ty hty; subst h1; simp [nodesTokensTypes, NUMBER, NEXT_CELL, PREVIOUS_CELL,
            INCREMENT_CELL, DECREMENT_CELL] at hty
        · intro _; rfl
    all_goals
      simp only [Action.goOn.injEq] at ha
      subst ha
      refine Inv_snoc _ _ h rfl (fun l hl => foldable_of_none t nodes _ l hf hl ?_ ?_)
    · intro ty hty; subst h2; simp [nodesTokensTypes] at hty; subst hty; rfl
    · intro hty; subst h2; simp [nodesTokensTypes] at hty
    · intro ty hty; subst h3
      simp [nodesTokensTypes, NEXT_CELL, PREVIOUS_CELL] at hty; subst hty; rfl
    · intro hty; subst h3; simp [nodesTokensTypes, NEXT_CELL, PREVIOUS_CELL] at hty
    · intro ty hty; subst h4
      simp [nodesTokensTypes, NEXT_CELL, PREVIOUS_CELL, INCREMENT_CELL] at hty; subst hty; rfl
    · intro hty; subst h4
      simp [nodesTokensTypes, NEXT_CELL, PREVIOUS_CELL, INCREMENT_CELL] at hty
    · intro ty hty; subst h5
      simp [nodesTokensTypes, NEXT_CELL, PREVIOUS_CELL, INCREMENT_CELL, DECREMENT_CELL] at hty
      subst hty; rfl
    · intro hty; subst h5
      simp [nodesTokensTypes, NEXT_CELL, PREVIOUS_CELL, INCREMENT_CELL, DECREMENT_CELL] at hty
    · intro ty hty; subst h7
      simp [nodesTokensTypes, NEXT_CELL, PREVIOUS_CELL, INCREMENT_CELL, DECREMENT_CELL,
        INPUT_CELL] at hty
    · intro _; rfl
    · intro ty hty; subst h6
      simp [nodesTokensTypes, NEXT_CELL, PREVIOUS_CELL, INCREMENT_CELL, DECREMENT_CELL,
        OUTPUT_CELL] at hty
    · intro _; rfl
theorem run_canonical : ∀ (ts : List Tok) (stack : List Frame) (bt : Option ReflectType)
    (nodes : List ASTNode), Inv nodes → (∀ f ∈ stack, Inv f.nodes) →
    ∀ tree tok, (run ts stack bt nodes).1 = .ok (tree, tok) → canonical tree = true := by
  intro ts
  induction ts with
  | nil =>
    intro stack bt nodes hn hs tree tok he
    cases stack with
    | nil =>
      simp only [run, Except.ok.injEq, Prod.mk.injEq] at he
      obtain ⟨he, _⟩ := he
      subst he
      simp only [canonical, Bool.and_eq_true]
      exact hn
    | cons f fs => simp [run] at he
  | cons tk ts ih =>
    intro stack bt nodes hn hs tree tok he
    obtain ⟨p, t, sym⟩ := tk
    simp only [run] at he
    cases ha : action p t sym nodes with
    | goOn n1 => rw [ha] at he; exact ih _ _ _ (Inv_action p t sym nodes n1 hn ha) hs _ _ he
    | enter =>
      rw [ha] at he
      refine ih _ _ _ Inv_nil ?_ _ _ he
      intro f hf
      rcases List.mem_cons.mp hf with h | h
      · subst h; exact hn
      · exact hs f h
    | leave =>
      rw [ha] at he
      cases stack with
      | nil =>
        simp only [] at he
        split_ifs at he
        simp only [Except.ok.injEq, Prod.mk.injEq] at he
        obtain ⟨he, _⟩ := he
        subst he
        simp only [canonical, Bool.and_eq_true]
        exact hn
      | cons f fs =>
        refine ih _ _ _ ?_ (fun g hg => hs g (List.mem_cons_of_mem _ hg)) _ _ he
        refine Inv_snoc _ _ (hs f (List.mem_cons_self _ _)) ?_ ?_
        · simp only [canonicalNode, canonical, Bool.and_eq_true, decide_eq_true_eq]
          exact ⟨trivial, hn⟩
        · intro l _
          have hw : TypeOf (ASTNode.NodeWhile (AST.mk nodes) ⟨0, NODE_WHILE⟩) =
              .PtrNodeWhile := rfl
          unfold foldable
          rw [hw]
          by_cases he : TypeOf l = .PtrNodeWhile
          · rw [he]; rfl
          · simp [he]
    | fail e1 => rw [ha] at he; simp at he

theorem runChars_single (c : Nat) (hc : c = 46 ∨ c = 44) :
    ∀ (N : Nat) (nodes : List ASTNode) (line column : Int),
      runChars (List.replicate N c) line column [] none nodes =
        .ok (.mk (nodes ++ List.replicate N (freshNode c)), -1) := by
  have hs : isSimple c := by unfold isSimple; omega
  obtain ⟨n10, n32, n91, n93⟩ := isSimple_ne c hs
  have hp : ∀ nodes, pushChar c nodes = nodes ++ [freshNode c] := by
    intro nodes
    unfold pushChar
    rw [foldRepeat_of_types_none _ _ (by rcases hc with h | h <;> subst h <;> decide)]
  intro N
  induction N with
  | zero => intro nodes line column; simp [runChars]
  | succ N ih =>
    intro nodes line column
    simp only [List.replicate_succ, runChars, n10, n32, n91, n93, if_false]
    rw [hp, ih, List.append_assoc]
    rfl

/-- C15 (run-length form): for every source and every block type, `Parse` on
the fresh lexer, with fuel above the length of the source, returns a result, and
when the result is a tree it is in run-length form at every depth: no two
adjacent nodes of a sequence are of the same repeatable kind, and every output,
input, integer-literal and while node has the repeat count 0. For every `N`, `N`
characters `.` give `N` output nodes and `N` characters `,` give `N` input
nodes. The source `+[+]+` gives three nodes, the `+` of the body folded with
neither of its neighbours. -/
theorem run_length_form (T : RangeTables) (source : List Nat) (fuel : Nat)
    (bt : Option ReflectType) (hf : source.length < fuel) :
    (∃ r L1, Parse T fuel (NewLexer source) bt = .ok (r, L1) ∧
      ∀ tree tok, r = .ok (tree, tok) → canonical tree = true) ∧
      (∀ N : Nat, N < fuel →
        parseSource T fuel (List.replicate N 46) =
          .ok (.ok (.mk (List.replicate N
            (.OutputCell { Repeat := 0, NodeType := NODE_OUTPUT_CELL })), -1)) ∧
        parseSource T fuel (List.replicate N 44) =
          .ok (.ok (.mk (List.replicate N
            (.InputCell { Repeat := 0, NodeType := NODE_INPUT_CELL })), -1))) ∧
      parseSource T 6 [43, 91, 43, 93, 43] =
        .ok (.ok (.mk [.IncrementCell { Repeat := 0, NodeType := NODE_INCREMENT_CELL },
          .NodeWhile (.mk [.IncrementCell { Repeat := 0, NodeType := NODE_INCREMENT_CELL }])
            { Repeat := 0, NodeType := NODE_WHILE },
          .IncrementCell { Repeat := 0, NodeType := NODE_INCREMENT_CELL }], -1)) := by
  refine ⟨?_, ?_, ?_⟩
  · obtain ⟨ts, L1, _, _, _, h4⟩ := Parse_run T source fuel bt hf
    exact ⟨_, L1, h4, fun tree tok he => run_canonical ts [] bt [] Inv_nil (by simp) tree tok he⟩
  · intro N hN
    constructor
    · rw [parseSource_runChars T _ fuel
        (by intro x hx; rw [List.eq_of_mem_replicate hx]; decide) (by simpa using hN),
        runChars_single 46 (Or.inl rfl)]
      rfl
    · rw [parseSource_runChars T _ fuel
        (by intro x hx; rw [List.eq_of_mem_replicate hx]; decide) (by simpa using hN),
        runChars_single 44 (Or.inr rfl)]
      rfl
  · rw [parseSource_runChars T _ 6 (by decide) (by decide)]
    rfl

/-- Witness of `run_length_form`: the source `++[--]..`. -/
theorem run_length_form_witness :
    (∃ r L1, Parse latin1Tables 9 (NewLexer [43, 43, 91, 45, 45, 93, 46, 46]) none =
        .ok (r, L1) ∧
      ∀ tree tok, r = .ok (tree, tok) → canonical tree = true) ∧
      (∀ N : Nat, N < 9 →
        parseSource latin1Tables 9 (List.replicate N 46) =
          .ok (.ok (.mk (List.replicate N
            (.OutputCell { Repeat := 0, NodeType := NODE_OUTPUT_CELL })), -1)) ∧
        parseSource latin1Tables 9 (List.replicate N 44) =
          .ok (.ok (.mk (List.replicate N
            (.InputCell { Repeat := 0, NodeType := NODE_INPUT_CELL })), -1))) ∧
      parseSource latin1Tables 6 [43, 91, 43, 93, 43] =
        .ok (.ok (.mk [.IncrementCell { Repeat := 0, NodeType := NODE_INCREMENT_CELL },
          .NodeWhile (.mk [.IncrementCell { Repeat := 0, NodeType := NODE_INCREMENT_CELL }])
            { Repeat := 0, NodeType := NODE_WHILE },
          .IncrementCell { Repeat := 0, NodeType := NODE_INCREMENT_CELL }], -1)) :=
  run_length_form latin1Tables [43, 43, 91, 45, 45, 93, 46, 46] 9 none (by decide)

/-! ## Number literals -/

theorem IsDigit_ascii (T : RangeTables) (d : Nat) (h : 48 ≤ d ∧ d ≤ 57) :
    IsDigit T d = true := by
  have h1 : d ≤ MaxLatin1 := by unfold MaxLatin1; omega
  simp [IsDigit, h1, h.1, h.2]

theorem lexToken_digits (T : RangeTables) :
    ∀ (body pre : List Nat) (L : Lexer) (literal : List Nat) (fuel : Nat),
      L.Reader.s = pre ++ body → L.Reader.i = pre.length →
      (∀ d ∈ body, 48 ≤ d ∧ d ≤ 57) → body.length < fuel →
      lexToken (digitFunction T) fuel L literal =
        .ok (literal ++ body, ⟨⟨L.Position.Line, L.Position.Column + (body.length : Int)⟩,
          ⟨L.Reader.s, pre.length + body.length, -1⟩⟩) := by
  intro body
  induction body with
  | nil =>
    intro pre L literal fuel hs hi _ hf
    obtain ⟨fuel, rfl⟩ : ∃ k, fuel = k + 1 := ⟨fuel - 1, by omega⟩
    have hlen : L.Reader.s.length ≤ L.Reader.i := by rw [hs, hi]; simp
    simp only [lexToken, ReadRune_eof _ hlen, List.append_nil, List.length_nil, Nat.cast_zero,
      add_zero, hi]
  | cons d body ih =>
    intro pre L literal fuel hs hi hd hf
    obtain ⟨fuel, rfl⟩ : ∃ k, fuel = k + 1 := ⟨fuel - 1, by omega⟩
    have hd0 := hd d (List.mem_cons_self _ _)
    have h := ih (pre ++ [d])
      ⟨⟨L.Position.Line, L.Position.Column + 1⟩, ⟨L.Reader.s, L.Reader.i + 1, L.Reader.i⟩⟩
      (literal ++ [d]) fuel (by simp [hs]) (by simp [hi])
      (fun x hx => hd x (List.mem_cons_of_mem _ hx))
      (by simp only [List.length_cons] at hf; omega)
    simp only [lexToken, ReadRune_ascii _ pre body d hs hi (by omega), digitFunction,
      IsDigit_ascii T d hd0]
    rw [h]
    simp only [List.append_assoc, List.singleton_append, List.length_append,
      List.length_singleton, List.length_cons, Nat.cast_add, Nat.cast_one]
    simp only [List.length_nil, zero_add, add_assoc, add_comm 1 (body.length : Int),
      add_comm 1 body.length]
theorem Lex_digits (T : RangeTables) (d : Nat) (body pre : List Nat) (L : Lexer)
    (hs : L.Reader.s = pre ++ d :: body) (hi : L.Reader.i = pre.length)
    (hd : ∀ x ∈ d :: body, 48 ≤ x ∧ x ≤ 57) :
    Lex T L = .ok ((⟨L.Position.Line, L.Position.Column + ((d :: body).length : Int)⟩, NUMBER,
        d :: body),
      ⟨⟨L.Position.Line, L.Position.Column + ((d :: body).length : Int)⟩,
        ⟨L.Reader.s, pre.length + (d :: body).length, -1⟩⟩) := by
  have hd0 := hd d (List.mem_cons_self _ _)
  have h10 : d ≠ 10 := by omega
  have h35 : d ≠ 35 := by omega
  have hsym : ¬ (d = 62 ∨ d = 60 ∨ d = 43 ∨ d = 45 ∨ d = 46 ∨ d = 44 ∨ d = 91 ∨ d = 93) := by
    omega
  have hsp : IsSpace T d = false := by
    have h1 : d ≤ MaxLatin1 := by unfold MaxLatin1; omega
    simp only [IsSpace, h1, if_true, decide_eq_false_iff_not]
    omega
  have hlt := lexToken_digits T (d :: body) pre
    ⟨⟨L.Position.Line, L.Position.Column + 1 - 1⟩, ⟨L.Reader.s, L.Reader.i, -1⟩⟩ []
    (L.Reader.s.length + 1) hs hi hd (by rw [hs]; simp; omega)
  simp only [Lex, lexLoop, ReadRune_ascii _ pre body d hs hi (by omega), h10, h35, hsym, hsp,
    IsDigit_ascii T d hd0, if_false, if_true, Bool.false_eq_true]
  rw [show (L.Reader.i + 1 : Nat) = L.Reader.i + 1 from rfl]
  rw [backup_after_read _ _ (L.Reader.i + 1) L.Reader.i (by omega)]
  simp only [hlt, List.nil_append]
  simp
theorem Atoi_digits (ds : List Nat) (hne : ds ≠ []) (hd : ∀ x ∈ ds, 48 ≤ x ∧ x ≤ 57) :
    Atoi ds = if decimalValue ds < 2 ^ 63 then some ((decimalValue ds : Nat) : Int) else none := by
  obtain ⟨d, rest, rfl⟩ : ∃ d rest, ds = d :: rest := by
    cases ds with
    | nil => exact absurd rfl hne
    | cons d rest => exact ⟨d, rest, rfl⟩
  have hd0 := hd d (List.mem_cons_self _ _)
  have h45 : ¬ (d = 45) := by omega
  have h43 : ¬ (d = 43) := by omega
  have hall : (d :: rest).all (fun x => decide (48 ≤ x ∧ x ≤ 57)) = true := by
    rw [List.all_eq_true]
    intro x hx
    simpa using hd x hx
  unfold Atoi
  simp only [List.head?_cons, Option.some.injEq, h45, h43, or_self, if_false, hall,
    decide_False, Bool.false_eq_true, not_true_eq_false, or_false, reduceCtorEq]
  have hv : (List.foldl (fun acc x => acc * 10 + (x - 48)) 0 (d :: rest)) =
      decimalValue (d :: rest) := rfl
  rw [hv]
  by_cases hlt : decimalValue (d :: rest) < 2 ^ 63
  · have h1 : -(2 : Int) ^ 63 ≤ ((decimalValue (d :: rest) : Nat) : Int) := by
      have : (0 : Int) ≤ ((decimalValue (d :: rest) : Nat) : Int) := Int.natCast_nonneg _
      omega
    have h2 : ((decimalValue (d :: rest) : Nat) : Int) < (2 : Int) ^ 63 := by
      have : ((2 ^ 63 : Nat) : Int) = (2 : Int) ^ 63 := by norm_num
      omega
    rw [if_pos ⟨h1, h2⟩, if_pos hlt]
  · have h2 : ¬ ((decimalValue (d :: rest) : Nat) : Int) < (2 : Int) ^ 63 := by
      have : ((2 ^ 63 : Nat) : Int) = (2 : Int) ^ 63 := by norm_num
      omega
    rw [if_neg (fun h => h2 h.2), if_neg hlt]

theorem Lex_at_end (T : RangeTables) (L : Lexer) (h : L.Reader.s.length ≤ L.Reader.i) :
    Lex T L = .ok ((L.Position, EOF, [10]), ⟨L.Position, ⟨L.Reader.s, L.Reader.i, -1⟩⟩) := by
  simp only [Lex, lexLoop, ReadRune_eof _ h]

theorem parseSource_digits (T : RangeTables) (ds : List Nat) (fuel : Nat) (hne : ds ≠ [])
    (hd : ∀ x ∈ ds, 48 ≤ x ∧ x ≤ 57) (hf : ds.length < fuel) :
    parseSource T fuel ds =
      .ok (if decimalValue ds < 2 ^ 63 then
          .ok (.mk [.IntegerLiteral ((decimalValue ds : Nat) : Int)
            { Repeat := 0, NodeType := NODE_INTEGER_LITERAL }], -1)
        else .error (.invalidNumber ds 1 (ds.length : Int))) := by
  obtain ⟨d, rest, rfl⟩ : ∃ d rest, ds = d :: rest := by
    cases ds with
    | nil => exact absurd rfl hne
    | cons d rest => exact ⟨d, rest, rfl⟩
  have h1 := Lex_digits T d rest [] (NewLexer (d :: rest)) rfl rfl hd
  have h2 := Lex_at_end T
    ⟨⟨(NewLexer (d :: rest)).Position.Line,
        (NewLexer (d :: rest)).Position.Column + ((d :: rest).length : Int)⟩,
      ⟨(NewLexer (d :: rest)).Reader.s, ([] : List Nat).length + (d :: rest).length, -1⟩⟩
    (by simp [NewLexer, NewReader])
  have hst : Stream T (NewLexer (d :: rest))
      [(⟨0, 0 + ((d :: rest).length : Int)⟩, NUMBER, d :: rest)] :=
    Stream.cons h1 (by decide) (Stream.eof h2)
  obtain ⟨L1, hp, _⟩ := parseLoop_run T _ _ (NewLexer (d :: rest)) fuel none [] (le_refl _) hst
    (by simp only [List.length_singleton]; simp only [List.length_cons] at hf; omega)
  simp only [parseSource, Parse, hp]
  have n8 : ¬ (NUMBER = BRACKET_OPEN) := by decide
  have n9 : ¬ (NUMBER = BRACKET_CLOSE) := by decide
  by_cases hlt : decimalValue (d :: rest) < 2 ^ 63
  · have ha : Atoi (d :: rest) = some ((decimalValue (d :: rest) : Nat) : Int) := by
      rw [Atoi_digits _ hne hd, if_pos hlt]
    have hact : action ⟨0, 0 + ((d :: rest).length : Int)⟩ NUMBER (d :: rest) [] =
        .goOn [.IntegerLiteral ((decimalValue (d :: rest) : Nat) : Int)
          { Repeat := 0, NodeType := NODE_INTEGER_LITERAL }] := by
      rw [action, foldRepeat_nil]
      simp only [n8, n9, if_false, if_true, ha, List.nil_append]
    rw [if_pos hlt]
    simp only [run, hact]
  · have ha : Atoi (d :: rest) = none := by
      rw [Atoi_digits _ hne hd, if_neg hlt]
    have hact : action ⟨0, 0 + ((d :: rest).length : Int)⟩ NUMBER (d :: rest) [] =
        .fail (.invalidNumber (d :: rest) 1 ((d :: rest).length : Int)) := by
      rw [action, foldRepeat_nil]
      simp only [n8, n9, if_false, if_true, ha, zero_add]
    rw [if_neg hlt]
    simp only [run, hact]

/-- C13, as amended: for every source that is a non-empty run of ASCII decimal
digits, of any length, top-level `Parse` returns a result; when the number that
the digits denote is below `2 ^ 63` the result is a tree with exactly one
integer-literal node, whose value is that number, and when the number is
`2 ^ 63` or more the result is the error `encountered invalid number` for the
literal. -/
theorem digit_literal_parses (T : RangeTables) (ds : List Nat) (fuel : Nat) (hne : ds ≠ [])
    (hd : ∀ x ∈ ds, 48 ≤ x ∧ x ≤ 57) (hf : ds.length < fuel) :
    ∃ r, parseSource T fuel ds = .ok r ∧
      (decimalValue ds < 2 ^ 63 →
        r = .ok (.mk [.IntegerLiteral ((decimalValue ds : Nat) : Int)
          { Repeat := 0, NodeType := NODE_INTEGER_LITERAL }], -1)) ∧
      (2 ^ 63 ≤ decimalValue ds →
        ∃ line column, r = .error (.invalidNumber ds line column)) := by
  refine ⟨_, parseSource_digits T ds fuel hne hd hf, ?_, ?_⟩
  · intro h; rw [if_pos h]
  · intro h; rw [if_neg (by omega)]; exact ⟨_, _, rfl⟩

/-- Witness of `digit_literal_parses`: the source `42`. -/
theorem digit_literal_parses_witness :
    ∃ r, parseSource latin1Tables 3 [52, 50] = .ok r ∧
      (decimalValue [52, 50] < 2 ^ 63 →
        r = .ok (.mk [.IntegerLiteral ((decimalValue [52, 50] : Nat) : Int)
          { Repeat := 0, NodeType := NODE_INTEGER_LITERAL }], -1)) ∧
      (2 ^ 63 ≤ decimalValue [52, 50] →
        ∃ line column, r = .error (.invalidNumber [52, 50] line column)) :=
  digit_literal_parses latin1Tables [52, 50] 3 (by decide) (by decide) (by decide)

/-- Counterexample to C13 as stated: the source `9223372036854775808`, nineteen
digits that denote `2 ^ 63`, is one literal of the lexer, and top-level `Parse`
returns no tree but the error `encountered invalid number` at `1:19`. -/
theorem digit_literal_overflow_counterexample :
    parseSource latin1Tables 20
        [57, 50, 50, 51, 51, 55, 50, 48, 51, 54, 56, 53, 52, 55, 55, 53, 56, 48, 56] =
      .ok (.error (.invalidNumber
        [57, 50, 50, 51, 51, 55, 50, 48, 51, 54, 56, 53, 52, 55, 55, 53, 56, 48, 56] 1 19)) := by
  rw [parseSource_digits latin1Tables _ 20 (by decide) (by decide) (by decide),
    if_neg (by decide)]
  rfl

/-! ## Word mode -/

theorem wordFunction_plain (T : RangeTables) (r : Reader) (v : Nat) (hv : ¬ isCommand v) :
    wordFunction T r v = .ok (decide (v ≠ 10), r) := by
  unfold isCommand at hv
  unfold wordFunction
  rw [tokensIndex_singleton]
  have h1 : ¬ v = 62 := fun h => hv (by omega)
  have h2 : ¬ v = 60 := fun h => hv (by omega)
  have h3 : ¬ v = 43 := fun h => hv (by omega)
  have h4 : ¬ v = 45 := fun h => hv (by omega)
  have h5 : ¬ v = 46 := fun h => hv (by omega)
  have h6 : ¬ v = 44 := fun h => hv (by omega)
  have h7 : ¬ v = 91 := fun h => hv (by omega)
  have h8 : ¬ v = 93 := fun h => hv (by omega)
  simp only [h1, h2, h3, h4, h5, h6, h7, h8, if_false]

/-- The rune read at the head of a text without command bytes is no command
character. -/
theorem ReadRune_not_command (r0 : Reader) (pre body rest : List Nat) (v sz : Nat)
    (r1 : Reader) (hs : r0.s = pre ++ body ++ rest) (hi : r0.i = pre.length)
    (hne : body ≠ []) (hb : ∀ c ∈ body, c ≠ 10 ∧ ¬ isCommand c)
    (hr : r0.ReadRune = (.ok (v, sz), r1)) : ¬ isCommand v := by
  intro hc
  obtain ⟨b0, bt, rfl⟩ : ∃ b0 bt, body = b0 :: bt := by
    cases body with
    | nil => exact absurd rfl hne
    | cons b0 bt => exact ⟨b0, bt, rfl⟩
  have hs1 : r0.s = pre ++ b0 :: (bt ++ rest) := by simp [hs]
  have hget : r0.s.getD r0.i 0 = b0 := by rw [hs1, hi]; exact getD_append_cons pre b0 _
  rcases ReadRune_cases r0 with ⟨_, h⟩ | ⟨_, v1, sz1, _, _, h, hascii⟩
  · rw [h] at hr; simp at hr
  · rw [h] at hr
    simp only [Prod.mk.injEq, Except.ok.injEq] at hr
    obtain ⟨⟨hv, _⟩, _⟩ := hr
    subst hv
    have hv128 : v1 < 128 := by unfold isCommand at hc; omega
    have := (hascii hv128).2
    rw [hget] at this
    subst this
    exact (hb b0 (List.mem_cons_self _ _)).2 hc

theorem lexToken_word (T : RangeTables) :
    ∀ (n : Nat) (body pre rest : List Nat) (L : Lexer) (literal : List Nat) (fuel : Nat),
      body.length ≤ n → L.Reader.s = pre ++ body ++ rest → L.Reader.i = pre.length →
      (∀ c ∈ body, c ≠ 10 ∧ ¬ isCommand c) → (rest = [] ∨ ∃ r, rest = 10 :: r) →
      body.length < fuel →
      ∃ (k : Int) (lit : List Nat), lexToken (wordFunction T) fuel L literal =
        .ok (lit, ⟨⟨L.Position.Line, L.Position.Column + k⟩,
          ⟨L.Reader.s, pre.length + body.length, -1⟩⟩) := by
  have hend : ∀ (pre rest : List Nat) (L : Lexer) (literal : List Nat) (fuel : Nat),
      L.Reader.s = pre ++ rest → L.Reader.i = pre.length →
      (rest = [] ∨ ∃ r, rest = 10 :: r) →
      ∃ (k : Int) (lit : List Nat), lexToken (wordFunction T) (fuel + 1) L literal =
        .ok (lit, ⟨⟨L.Position.Line, L.Position.Column + k⟩,
          ⟨L.Reader.s, pre.length + ([] : List Nat).length, -1⟩⟩) := by
    intro pre rest L literal fuel hs hi hr
    rcases hr with e | ⟨r, e⟩
    · subst e
      have hlen : L.Reader.s.length ≤ L.Reader.i := by rw [hs, hi]; simp
      refine ⟨0, literal, ?_⟩
      simp only [lexToken, ReadRune_eof _ hlen, add_zero, List.length_nil, hi]
    · subst e
      refine ⟨0, literal, ?_⟩
      simp only [lexToken, ReadRune_ascii _ pre r 10 hs hi (by decide),
        wordFunction_plain T _ 10 (by decide)]
      simp [backup_after_read, hi]
  intro n
  induction n with
  | zero =>
    intro body pre rest L literal fuel hn hs hi hb hr hf
    have hbody : body = [] := List.length_eq_zero.mp (Nat.le_zero.mp hn)
    subst hbody
    obtain ⟨fuel, rfl⟩ : ∃ k, fuel = k + 1 := ⟨fuel - 1, by omega⟩
    simp only [List.append_nil] at hs
    exact hend pre rest L literal fuel hs hi hr
  | succ n ih =>
    intro body pre rest L literal fuel hn hs hi hb hr hf
    obtain ⟨fuel, rfl⟩ : ∃ k, fuel = k + 1 := ⟨fuel - 1, by omega⟩
    by_cases hbody : body = []
    · subst hbody
      simp only [List.append_nil] at hs
      exact hend pre rest L literal fuel hs hi hr
    · have hb10 : 10 ∉ body := fun h => (hb 10 h).1 rfl
      obtain ⟨v, sz, hv, h1, h2, hrr⟩ :=
        ReadRune_in_body L.Reader pre body rest hs hi hbody hb10 hr
      have hnc := ReadRune_not_command L.Reader pre body rest v sz _ hs hi hbody hb hrr
      have hsplit : body = body.take sz ++ body.drop sz := (List.take_append_drop sz body).symm
      have hdl : (body.drop sz).length = body.length - sz := List.length_drop sz body
      have htl : (body.take sz).length = sz := by rw [List.length_take]; omega
      obtain ⟨k, lit, hk⟩ := ih (body.drop sz) (pre ++ body.take sz) rest
        ⟨⟨L.Position.Line, L.Position.Column + 1⟩, ⟨L.Reader.s, L.Reader.i + sz, L.Reader.i⟩⟩
        (literal ++ [v]) fuel (by omega)
        (by
          show L.Reader.s = pre ++ body.take sz ++ body.drop sz ++ rest
          rw [List.append_assoc pre, ← hsplit]; exact hs)
        (by simp [hi, htl])
        (fun c h => hb c (List.mem_of_mem_drop h)) hr (by omega)
      refine ⟨1 + k, lit, ?_⟩
      simp only [lexToken, hrr, wordFunction_plain T _ v hnc, hv, ne_eq, not_false_eq_true,
        decide_True]
      rw [hk]
      simp only [List.length_append, htl, hdl]
      have e1 : pre.length + sz + (body.length - sz) = pre.length + body.length := by omega
      rw [e1, add_assoc]
theorem letter_not_special (T : RangeTables) (v : Nat) (h : IsLetter T v = true) :
    v ≠ 10 ∧ v ≠ 35 ∧ ¬ isCommand v := by
  unfold isCommand
  by_cases h1 : v ≤ MaxLatin1
  · simp only [IsLetter, h1, if_true, latin1Letter, decide_eq_true_eq] at h
    omega
  · unfold MaxLatin1 at h1
    omega

/-- The scanning loop of `Lex` on a letter: the word is read, and the loop goes
on after it. -/
theorem Lex_word (T : RangeTables) (L : Lexer) (pre body rest : List Nat) (v sz : Nat)
    (R1 : Reader) (hs : L.Reader.s = pre ++ body ++ rest) (hi : L.Reader.i = pre.length)
    (hne : body ≠ []) (hb : ∀ c ∈ body, c ≠ 10 ∧ ¬ isCommand c)
    (hr : rest = [] ∨ ∃ r, rest = 10 :: r)
    (hread : L.Reader.ReadRune = (.ok (v, sz), R1)) (hl : IsLetter T v = true)
    (hsp : IsSpace T v = false) (hdg : IsDigit T v = false) :
    ∃ column : Int, Lex T L =
      Lex T ⟨⟨L.Position.Line, column⟩, ⟨L.Reader.s, pre.length + body.length, -1⟩⟩ := by
  have hb10 : 10 ∉ body := fun h => (hb 10 h).1 rfl
  obtain ⟨v1, sz1, _, h1, h2, hrr⟩ := ReadRune_in_body L.Reader pre body rest hs hi hne hb10 hr
  rw [hrr] at hread
  simp only [Prod.mk.injEq, Except.ok.injEq] at hread
  obtain ⟨⟨e1, e2⟩, _⟩ := hread
  subst e1 e2
  obtain ⟨n10, n35, ncmd⟩ := letter_not_special T v1 hl
  have hsplit : body = body.take sz1 ++ body.drop sz1 := (List.take_append_drop sz1 body).symm
  have hdl : (body.drop sz1).length = body.length - sz1 := List.length_drop sz1 body
  have htl : (body.take sz1).length = sz1 := by rw [List.length_take]; omega
  have hlen : L.Reader.s.length = pre.length + body.length + rest.length := by
    rw [hs, List.length_append, List.length_append]
  obtain ⟨k, lit, hk⟩ := lexToken_word T _ (body.drop sz1) (pre ++ body.take sz1) rest
    ⟨⟨L.Position.Line, L.Position.Column + 1⟩, ⟨L.Reader.s, L.Reader.i + sz1, L.Reader.i⟩⟩
    [] (L.Reader.s.length + 1) (le_refl _)
    (by
      show L.Reader.s = pre ++ body.take sz1 ++ body.drop sz1 ++ rest
      rw [List.append_assoc pre, ← hsplit]; exact hs)
    (by simp [hi, htl]) (fun c h => hb c (List.mem_of_mem_drop h)) hr (by omega)
  refine ⟨L.Position.Column + 1 + k, ?_⟩
  unfold isCommand at ncmd
  have e1 : pre.length + sz1 + (body.length - sz1) = pre.length + body.length := by omega
  simp only [List.length_append, htl, hdl, e1] at hk
  have hL : Lex T L = lexLoop T L.Reader.s.length
      ⟨⟨L.Position.Line, L.Position.Column + 1 + k⟩,
        ⟨L.Reader.s, pre.length + body.length, -1⟩⟩ := by
    simp only [Lex, lexLoop, hrr, n10, n35, ncmd, hsp, hdg, hl, if_false, if_true,
      Bool.false_eq_true]
    rw [hk]
  rw [hL]
  have : 0 < body.length := List.length_pos.mpr hne
  exact lexLoop_eq_Lex T _ _ (by simp only []; omega)

/-- Counterexample to C11 as stated: the source `ab12` gives no `NUMBER` token,
only `EOF`, the digits being read as part of the word, while the source `12`
gives the token `NUMBER` with the literal `12`. -/
theorem word_absorbs_digits_counterexample :
    tokens latin1Tables [97, 98, 49, 50] = .ok [({ Line := 0, Column := 4 }, EOF, [10])] ∧
      tokens latin1Tables [49, 50] =
        .ok [({ Line := 0, Column := 2 }, NUMBER, [49, 50]),
          ({ Line := 0, Column := 2 }, EOF, [10])] := by
  constructor <;> decide

/-! ## The routine `print_cell` -/

set_option maxRecDepth 100000 in
/-- The instructions `printCell` are the code lines of the routine `print_cell`
of the preamble. -/
theorem printCell_text :
    routineLines "print_cell:" (codeLines programHeader) =
      printCell.map (fun i => i.text.data) := by
  decide
theorem setAl_low (rax al : Nat) : setAl rax al % 256 = al % 256 := by
  unfold setAl
  omega

theorem sub64_low (v : Nat) : (sub64 (wrap64 v) 48 % 256 + 48) % 256 = v % 256 := by
  unfold sub64 wrap64
  norm_num
  split_ifs <;> omega

theorem sub64_zero (v : Nat) (h : sub64 (sub64 (wrap64 v) 48) 10 = 0) : v % 256 = 58 := by
  unfold sub64 wrap64 at h
  norm_num at h
  split_ifs at h <;> omega

/-- The run of `print_cell` from the label `.is_not_linefeed`: the byte
written is `al + '0'`. -/
theorem printCell_tail (m : Machine) (fuel : Nat) :
    (execAsm printCell (fuel + 10) 9 m).map (fun m1 => m1.out) =
      some (m.out ++ [setAl m.rax (m.rax % 256 + 48) % 256]) := by
  rfl

/-- The run of `print_cell` from the label `.is_linefeed`: nothing jumps over
the block `.is_not_linefeed`, so the run goes through it. -/
theorem printCell_linefeed (m : Machine) (fuel : Nat) :
    (execAsm printCell (fuel + 13) 6 m).map (fun m1 => m1.out) =
      (execAsm printCell (fuel + 10) 9
        { m with rax := setAl m.rax 0x0A, printBuffer := setAl m.rax 0x0A % 256 }).map
        (fun m1 => m1.out) := by
  rfl

/-- The run of `print_cell` from the jump to `.is_not_linefeed`. -/
theorem printCell_jump (m : Machine) (fuel : Nat) :
    execAsm printCell (fuel + 1) 5 m = execAsm printCell fuel 9 m := by
  rfl

theorem execAsm_apply (code : List Asm) (fuel pc : Nat) (m : Machine) (i : Asm) (m1 : Machine)
    (hget : code.get? pc = some i) (ha : i.apply m = some m1) :
    execAsm code (fuel + 1) pc m = execAsm code fuel (pc + 1) m1 := by
  rw [execAsm, hget]
  cases i <;> simp_all [Asm.apply]

theorem execAsm_je (code : List Asm) (fuel pc : Nat) (m : Machine) (target : String) (k : Nat)
    (hget : code.get? pc = some (.je target)) (hk : findLabel code target = some k) :
    execAsm code (fuel + 1) pc m =
      if m.zf then execAsm code fuel k m else execAsm code fuel (pc + 1) m := by
  rw [execAsm, hget]
  simp only [hk]

theorem printCell_run (m : Machine) :
    printCellOutput m = some [m.tape (wrap64 m.cellPointer) % 256] := by
  unfold printCellOutput
  have hl : printCell.length + 1 = 20 := rfl
  have s0 := execAsm_apply printCell 19 0 { m with out := [] } .movRbxCellPointer
    { m with out := [], rbx := wrap64 m.cellPointer } rfl rfl
  have s1 := execAsm_apply printCell 18 1 { m with out := [], rbx := wrap64 m.cellPointer }
    .movRaxTape
    { m with out := [], rbx := wrap64 m.cellPointer,
             rax := wrap64 (m.tape (wrap64 m.cellPointer)) } rfl rfl
  have s2 := execAsm_apply printCell 17 2
    { m with out := [], rbx := wrap64 m.cellPointer,
             rax := wrap64 (m.tape (wrap64 m.cellPointer)) }
    (.subRax 48)
    { m with out := [], rbx := wrap64 m.cellPointer,
             rax := sub64 (wrap64 (m.tape (wrap64 m.cellPointer))) 48,
             zf := Nat.beq (sub64 (wrap64 (m.tape (wrap64 m.cellPointer))) 48) 0 } rfl rfl
  have s3 := execAsm_apply printCell 16 3
    { m with out := [], rbx := wrap64 m.cellPointer,
             rax := sub64 (wrap64 (m.tape (wrap64 m.cellPointer))) 48,
             zf := Nat.beq (sub64 (wrap64 (m.tape (wrap64 m.cellPointer))) 48) 0 }
    (.cmpRax 10)
    { m with out := [], rbx := wrap64 m.cellPointer,
             rax := sub64 (wrap64 (m.tape (wrap64 m.cellPointer))) 48,
             zf := Nat.beq (sub64 (sub64 (wrap64 (m.tape (wrap64 m.cellPointer))) 48) 10) 0 }
    rfl rfl
  have s4 := execAsm_je printCell 15 4
    { m with out := [], rbx := wrap64 m.cellPointer,
             rax := sub64 (wrap64 (m.tape (wrap64 m.cellPointer))) 48,
             zf := Nat.beq (sub64 (sub64 (wrap64 (m.tape (wrap64 m.cellPointer))) 48) 10) 0 }
    ".is_linefeed" 6 rfl (by decide)
  rw [hl, s0, s1, s2, s3, s4]
  split_ifs with h
  · simp only [Nat.beq_eq] at h
    rw [printCell_linefeed _ 2, printCell_tail _ 2]
    simp only [List.nil_append, setAl_low, Option.some.injEq, List.cons.injEq, and_true]
    rw [sub64_zero _ h]
  · rw [printCell_jump _ 14, printCell_tail _ 4]
    simp only [List.nil_append, setAl_low, Option.some.injEq, List.cons.injEq, and_true]
    exact sub64_low _

/-- C12 at the failing value: the instructions `printCell` are the code lines of
the routine `print_cell` of the preamble, and on every machine the routine
writes exactly one byte to standard output, the low-order byte of the current
tape cell; so it is when the cell holds 58: the block `.is_linefeed` puts the
linefeed in `al`, but no jump follows it, the run falls through the block
`.is_not_linefeed`, which adds `'0'` to `al`, and the byte written is 58, not
the linefeed 10. -/
theorem print_cell_writes_low_byte :
    routineLines "print_cell:" (codeLines programHeader) =
        printCell.map (fun i => i.text.data) ∧
      (∀ m : Machine, printCellOutput m = some [m.tape (wrap64 m.cellPointer) % 256]) ∧
      (∀ m : Machine, printCellOutput { m with tape := fun _ => 58 } = some [58]) ∧
      (∀ m : Machine, printCellOutput { m with tape := fun _ => 65 } = some [65]) :=
  ⟨printCell_text, printCell_run, fun m => printCell_run { m with tape := fun _ => 58 },
    fun m => printCell_run { m with tape := fun _ => 65 }⟩

/-! ## Skipped characters -/

/-- What `ReadRune` reads at the head of the rest of the input: the rune that
`DecodeRuneInString` finds there; a rune below 128 is the byte read, and the
bytes of any other rune are all 128 or more. -/
theorem ReadRune_rest (r : Reader) (pre : List Nat) (b : Nat) (bs : List Nat)
    (hs : r.s = pre ++ b :: bs) (hi : r.i = pre.length) :
    r.ReadRune = (.ok (DecodeRuneInString (b :: bs)),
        { s := r.s, i := r.i + (DecodeRuneInString (b :: bs)).2, prevRune := r.i }) ∧
      1 ≤ (DecodeRuneInString (b :: bs)).2 ∧
      (DecodeRuneInString (b :: bs)).2 ≤ (b :: bs).length ∧
      (((DecodeRuneInString (b :: bs)).1 < 128 ∧ (DecodeRuneInString (b :: bs)).2 = 1 ∧
          b = (DecodeRuneInString (b :: bs)).1) ∨
        (128 ≤ (DecodeRuneInString (b :: bs)).1 ∧
          ∀ x ∈ (b :: bs).take (DecodeRuneInString (b :: bs)).2, 128 ≤ x)) := by
  have hlen : ¬ (r.i ≥ r.s.length) := by rw [hs, hi]; simp
  have hget : r.s.getD r.i 0 = b := by rw [hs, hi]; exact getD_append_cons pre b bs
  have hdrop : r.s.drop r.i = b :: bs := by rw [hs, hi]; exact List.drop_left' rfl
  have hrr : r.ReadRune = if b < 128 then
        (.ok (b, 1), { s := r.s, i := r.i + 1, prevRune := r.i })
      else (.ok (DecodeRuneInString (b :: bs)),
        { s := r.s, i := r.i + (DecodeRuneInString (b :: bs)).2, prevRune := r.i }) := by
    unfold Reader.ReadRune
    rw [if_neg hlen]
    simp only [hget, hdrop]
  rcases DecodeRuneInString_cons b bs with ⟨h1, h2⟩ | ⟨h1, h2⟩ | ⟨v, sz, h1, h2, hv, hsz, hle, hk⟩
  · rw [hrr, if_pos h2, h1]
    exact ⟨rfl, le_refl _, by simp, Or.inl ⟨h2, rfl, rfl⟩⟩
  · rw [hrr, if_neg (by omega), h1]
    refine ⟨rfl, le_refl _, by simp, Or.inr ⟨by simp [RuneError], ?_⟩⟩
    intro x hx
    simp only [List.take_succ_cons, List.take_zero, List.mem_singleton] at hx
    omega
  · rw [hrr, if_neg (by omega), h1]
    refine ⟨rfl, by simp only []; omega, hle, Or.inr ⟨hv, ?_⟩⟩
    intro x hx
    simp only [] at hx
    obtain ⟨k, hk1, hk2⟩ := List.mem_iff_getElem.mp hx
    rw [List.length_take] at hk1
    rw [List.getElem_take] at hk2
    by_cases hk0 : k = 0
    · subst hk0
      simp only [List.getElem_cons_zero] at hk2
      omega
    · have := hk k (by omega) (by omega)
      rw [List.getD_eq_getElem _ _ (by omega)] at this
      omega
theorem commandsOnly_append (a b : List Nat) :
    commandsOnly (a ++ b) = commandsOnly a ++ commandsOnly b := by
  simp [commandsOnly]

theorem commandsOnly_high (l : List Nat) (h : ∀ x ∈ l, 128 ≤ x) : commandsOnly l = [] := by
  unfold commandsOnly
  rw [List.filter_eq_nil_iff]
  intro x hx
  have := h x hx
  simp only [decide_eq_true_eq]
  unfold isCommand
  omega

theorem stream_skipped (T : RangeTables) :
    ∀ (n : Nat) (rest pre : List Nat) (L : Lexer),
      rest.length ≤ n → L.Reader.s = pre ++ rest → L.Reader.i = pre.length →
      noWordsAux T n rest = true →
      ∃ ts, Stream T L ts ∧
        ts.map Tok.kind = (commandsOnly rest).map (fun c => (commandToken c, [c])) := by
  intro n
  induction n with
  | zero =>
    intro rest pre L hn hs hi _
    have : rest = [] := List.length_eq_zero.mp (Nat.le_zero.mp hn)
    subst this
    exact ⟨[], Stream.eof (Lex_at_end T L (by rw [hs, hi]; simp)), by simp [commandsOnly]⟩
  | succ n ih =>
    intro rest pre L hn hs hi hw
    cases rest with
    | nil =>
      exact ⟨[], Stream.eof (Lex_at_end T L (by rw [hs, hi]; simp)), by simp [commandsOnly]⟩
    | cons b bs =>
      obtain ⟨hrr, hsz1, hsz2, hbytes⟩ := ReadRune_rest L.Reader pre b bs hs hi
      simp only [noWordsAux, Bool.and_eq_true, Bool.not_eq_true', decide_eq_true_eq] at hw
      obtain ⟨⟨⟨hl, hd⟩, h35⟩, hrest⟩ := hw
      obtain ⟨v, sz, hdec⟩ : ∃ v sz, DecodeRuneInString (b :: bs) = (v, sz) := ⟨_, _, rfl⟩
      rw [hdec] at hrr hsz1 hsz2 hbytes hl hd h35 hrest
      simp only [] at hrr hsz1 hsz2 hbytes hl hd h35 hrest
      have hsplit : b :: bs = (b :: bs).take sz ++ (b :: bs).drop sz :=
        (List.take_append_drop _ _).symm
      have htl : ((b :: bs).take sz).length = sz := by rw [List.length_take]; omega
      have hdl : ((b :: bs).drop sz).length = (b :: bs).length - sz := List.length_drop _ _
      have hs1 : L.Reader.s = (pre ++ (b :: bs).take sz) ++ (b :: bs).drop sz := by
        rw [List.append_assoc, ← hsplit]; exact hs
      have hlenS : L.Reader.s.length = pre.length + (b :: bs).length := by rw [hs]; simp
      have next : ∀ p : Position, ∃ ts,
          Stream T ⟨p, ⟨L.Reader.s, L.Reader.i + sz, L.Reader.i⟩⟩ ts ∧
            ts.map Tok.kind =
              (commandsOnly ((b :: bs).drop sz)).map (fun c => (commandToken c, [c])) :=
        fun p => ih ((b :: bs).drop sz) (pre ++ (b :: bs).take sz)
          ⟨p, ⟨L.Reader.s, L.Reader.i + sz, L.Reader.i⟩⟩
          (by simp only [List.length_cons] at hn hdl ⊢; omega) hs1 (by simp [hi, htl]) hrest
      by_cases hcmd : isCommand v
      · have hv128 : v < 128 := by unfold isCommand at hcmd; omega
        rcases hbytes with ⟨_, hsz1', hb⟩ | ⟨h128, _⟩
        · subst hsz1' hb
          obtain ⟨ts, st, hk⟩ := next ⟨L.Position.Line, L.Position.Column + 1⟩
          have h10 : b ≠ 10 := by unfold isCommand at hcmd; omega
          have hLex : Lex T L = .ok ((⟨L.Position.Line, L.Position.Column + 1⟩,
              commandToken b, [b]),
              ⟨⟨L.Position.Line, L.Position.Column + 1⟩,
                ⟨L.Reader.s, L.Reader.i + 1, L.Reader.i⟩⟩) := by
            unfold isCommand at hcmd
            simp only [Lex, lexLoop, hrr, h10, h35, hcmd, if_true, if_false]
            rfl
          refine ⟨_ :: ts, Stream.cons hLex (commandToken_ne_EOF b hcmd) st, ?_⟩
          simp only [List.drop_succ_cons, List.drop_zero] at hk
          simp only [List.map_cons, hk, Tok.kind, commandsOnly, List.filter_cons, hcmd,
            decide_True, if_true]
        · omega
      · have hskip : commandsOnly ((b :: bs).take sz) = [] := by
          rcases hbytes with ⟨_, hsz1', hb⟩ | ⟨_, hhigh⟩
          · subst hsz1' hb
            simp [commandsOnly, hcmd]
          · exact commandsOnly_high _ hhigh
        have hco : commandsOnly (b :: bs) = commandsOnly ((b :: bs).drop sz) := by
          conv_lhs => rw [hsplit]
          rw [commandsOnly_append, hskip, List.nil_append]
        have hfuel : ∀ p : Position, lexLoop T L.Reader.s.length
            ⟨p, ⟨L.Reader.s, L.Reader.i + sz, L.Reader.i⟩⟩ =
            Lex T ⟨p, ⟨L.Reader.s, L.Reader.i + sz, L.Reader.i⟩⟩ :=
          fun p => lexLoop_eq_Lex T _ _ (by simp only []; omega)
        unfold isCommand at hcmd
        by_cases h10 : v = 10
        · obtain ⟨ts, st, hk⟩ := next ⟨L.Position.Line + 1, 0⟩
          refine ⟨ts, Stream.of_Lex_eq ?_ st, by rw [hk, hco]⟩
          rw [← hfuel]
          simp only [Lex, lexLoop, hrr, h10, if_true, resetPosition]
        · obtain ⟨ts, st, hk⟩ := next ⟨L.Position.Line, L.Position.Column + 1⟩
          refine ⟨ts, Stream.of_Lex_eq ?_ st, by rw [hk, hco]⟩
          rw [← hfuel]
          cases hsp : IsSpace T v <;>
            simp only [Lex, lexLoop, hrr, h10, h35, hcmd, hsp, hd, hl, if_true, if_false,
              Bool.false_eq_true]
/-- The turn of the loop of `Parse` does not depend on the position of the
token, but for the position that an error reports. -/
theorem action_position (p1 p2 : Position) (t : Token) (sym : List Nat) (nodes : List ASTNode) :
    (∀ n, action p1 t sym nodes = .goOn n → action p2 t sym nodes = .goOn n) ∧
      (action p1 t sym nodes = .enter → action p2 t sym nodes = .enter) ∧
      (action p1 t sym nodes = .leave → action p2 t sym nodes = .leave) ∧
      (∀ e, action p1 t sym nodes = .fail e → ∃ e1, action p2 t sym nodes = .fail e1) := by
  unfold action
  cases foldRepeat t nodes with
  | some n1 => simp
  | none =>
    simp only []
    by_cases h8 : t = BRACKET_OPEN
    · simp only [if_pos h8]; simp
    simp only [if_neg h8]
    by_cases h9 : t = BRACKET_CLOSE
    · simp only [if_pos h9]; simp
    simp only [if_neg h9]
    by_cases h1 : t = NUMBER
    · simp only [if_pos h1]
      cases Atoi sym <;> simp
    simp only [if_neg h1]
    by_cases h2 : t = NEXT_CELL
    · simp only [if_pos h2]; simp
    simp only [if_neg h2]
    by_cases h3 : t = PREVIOUS_CELL
    · simp only [if_pos h3]; simp
    simp only [if_neg h3]
    by_cases h4 : t = INCREMENT_CELL
    · simp only [if_pos h4]; simp
    simp only [if_neg h4]
    by_cases h5 : t = DECREMENT_CELL
    · simp only [if_pos h5]; simp
    simp only [if_neg h5]
    by_cases h7 : t = INPUT_CELL
    · simp only [if_pos h7]; simp
    simp only [if_neg h7]
    by_cases h6 : t = OUTPUT_CELL
    · simp only [if_pos h6]; simp
    simp only [if_neg h6]
    simp

theorem run_position : ∀ (ts1 ts2 : List Tok) (st1 st2 : List Frame)
    (bt : Option ReflectType) (nodes : List ASTNode),
    ts1.map Tok.kind = ts2.map Tok.kind → st1.map Frame.nodes = st2.map Frame.nodes →
    sameParse (run ts1 st1 bt nodes).1 (run ts2 st2 bt nodes).1 := by
  intro ts1
  induction ts1 with
  | nil =>
    intro ts2 st1 st2 bt nodes hk hst
    have h2 : ts2 = [] := by simpa using hk.symm
    subst h2
    cases st1 with
    | nil =>
      have : st2 = [] := by simpa using hst.symm
      subst this
      simp [run, sameParse]
    | cons f1 st1 =>
      cases st2 with
      | nil => simp at hst
      | cons f2 st2 => simp [run, sameParse]
  | cons tk1 ts1 ih =>
    intro ts2 st1 st2 bt nodes hk hst
    cases ts2 with
    | nil => simp at hk
    | cons tk2 ts2 =>
      obtain ⟨p1, t, sym⟩ := tk1
      obtain ⟨p2, t2, sym2⟩ := tk2
      simp only [List.map_cons, List.cons.injEq, Tok.kind, Prod.mk.injEq] at hk
      obtain ⟨⟨ht, hsym⟩, hk⟩ := hk
      subst ht hsym
      have ha := action_position p1 p2 t sym nodes
      simp only [run]
      cases h1 : action p1 t sym nodes with
      | goOn n1 =>
        rw [ha.1 n1 h1]
        exact ih ts2 st1 st2 bt n1 hk hst
      | enter =>
        rw [ha.2.1 h1]
        exact ih ts2 _ _ bt [] hk (by simp [hst])
      | leave =>
        rw [ha.2.2.1 h1]
        cases st1 with
        | nil =>
          have : st2 = [] := by simpa using hst.symm
          subst this
          simp only []
          split_ifs <;> simp [sameParse]
        | cons f1 st1 =>
          cases st2 with
          | nil => simp at hst
          | cons f2 st2 =>
            simp only [List.map_cons, List.cons.injEq] at hst
            simp only [hst.1]
            exact ih ts2 st1 st2 bt _ hk hst.2
      | fail e1 =>
        obtain ⟨e2, ha⟩ := ha.2.2.2 e1 h1
        rw [ha]
        simp [sameParse]

theorem plainTokens_kind (cs : List Nat) : ∀ (line column : Int), (∀ x ∈ cs, isCommand x) →
    (plainTokens cs line column).map Tok.kind = cs.map (fun c => (commandToken c, [c])) := by
  induction cs with
  | nil => intro line column _; simp [plainTokens]
  | cons c cs ih =>
    intro line column h
    have hc := h c (List.mem_cons_self _ _)
    have h10 : c ≠ 10 := by unfold isCommand at hc; omega
    have h32 : c ≠ 32 := by unfold isCommand at hc; omega
    simp only [plainTokens, h10, h32, if_false, List.map_cons, Tok.kind,
      ih _ _ (fun x hx => h x (List.mem_cons_of_mem _ hx))]

theorem commandsOnly_isCommand (source : List Nat) : ∀ c ∈ commandsOnly source, isCommand c := by
  intro c hc
  unfold commandsOnly at hc
  simpa using (List.mem_filter.mp hc).2

theorem commandsOnly_length (source : List Nat) :
    (commandsOnly source).length ≤ source.length :=
  List.length_filter_le _ _

/-- C17 (skipped characters do not change the parse): for every source whose
runes hold no letter, no digit and no `#`, top-level `Parse` returns a result on
the source and on the source with every character other than the eight command
characters removed, and the two results agree: both are the same tree (with the
same last token), or both are errors.  The source `+`, space, newline, space,
`+` gives one increment node with the repeat count 1. -/
theorem skipped_characters (T : RangeTables) (source : List Nat) (fuel : Nat)
    (hw : noWords T source = true) (hf : source.length < fuel) :
    (∃ r1 r2, parseSource T fuel source = .ok r1 ∧
        parseSource T fuel (commandsOnly source) = .ok r2 ∧ sameParse r1 r2) ∧
      parseSource T 6 [43, 32, 10, 32, 43] =
        .ok (.ok (.mk [.IncrementCell { Repeat := 1, NodeType := NODE_INCREMENT_CELL }], -1)) := by
  constructor
  · obtain ⟨ts, st, hk⟩ := stream_skipped T source.length source [] (NewLexer source)
      (le_refl _) rfl rfl hw
    have hcl := commandsOnly_length source
    have hlen : ts.length = (commandsOnly source).length := by
      have := congrArg List.length hk
      simpa using this
    obtain ⟨L1, h1, _⟩ := parseLoop_run T _ ts (NewLexer source) fuel none [] (le_refl _) st
      (by omega)
    have hp : ∀ c ∈ commandsOnly source, isPlain c :=
      fun c hc => Or.inl (commandsOnly_isCommand source c hc)
    have st2 : Stream T (NewLexer (commandsOnly source)) (plainTokens (commandsOnly source) 0 0) :=
      stream_plain T (commandsOnly source) [] (NewLexer (commandsOnly source)) rfl rfl hp
    have hl2 := plainTokens_length (commandsOnly source) 0 0
    obtain ⟨L2, h2, _⟩ := parseLoop_run T _ _ (NewLexer (commandsOnly source)) fuel none []
      (le_refl _) st2 (by omega)
    refine ⟨(run ts [] none []).1, (run (plainTokens (commandsOnly source) 0 0) [] none []).1,
      by simp only [parseSource, Parse, h1], by simp only [parseSource, Parse, h2], ?_⟩
    exact run_position ts _ [] [] none []
      (hk.trans (plainTokens_kind _ _ _ (commandsOnly_isCommand source)).symm) rfl
  · rw [parseSource_runChars T _ 6 (by decide) (by decide)]
    rfl

/-- Witness of `skipped_characters`: the source `+`, tab, `×`, `[`, newline,
`-`, `]` (the `×` in two bytes), whose command characters are `+[-]`. -/
theorem skipped_characters_witness :
    (∃ r1 r2, parseSource latin1Tables 9 [43, 9, 195, 151, 91, 10, 45, 93] = .ok r1 ∧
        parseSource latin1Tables 9 (commandsOnly [43, 9, 195, 151, 91, 10, 45, 93]) = .ok r2 ∧
        sameParse r1 r2) ∧
      parseSource latin1Tables 6 [43, 32, 10, 32, 43] =
        .ok (.ok (.mk [.IncrementCell { Repeat := 1, NodeType := NODE_INCREMENT_CELL }], -1)) :=
  skipped_characters latin1Tables [43, 9, 195, 151, 91, 10, 45, 93] 9 (by decide) (by decide)

/-! ## Word mode after letters of one byte -/

/-- In word mode, on a command character that follows a byte below 128, the
function given to `lexToken` answers whether that byte is a letter, and leaves
the reader as it found it. -/
theorem wordFunction_after_ascii (T : RangeTables) (s pre : List Nat) (p c : Nat)
    (rest : List Nat) (hs : s = pre ++ p :: c :: rest) (hp : p < 128) (hc : isCommand c) :
    wordFunction T ⟨s, pre.length + 2, ((pre.length + 1 : Nat) : Int)⟩ c =
      .ok (IsLetter T p, ⟨s, pre.length + 2, ((pre.length + 1 : Nat) : Int)⟩) := by
  have hc128 : c < 128 := by unfold isCommand at hc; omega
  have hsome : ∃ t, tokensIndex [c] = some t := by
    rw [tokensIndex_singleton]
    unfold isCommand at hc
    split_ifs <;> first | exact ⟨_, rfl⟩ | omega
  obtain ⟨t, ht⟩ := hsome
  have hseek : Reader.Seek ⟨s, pre.length + 2, ((pre.length + 1 : Nat) : Int)⟩ (-2) =
      ⟨s, pre.length, -1⟩ := by
    unfold Reader.Seek
    simp only []
    rw [if_neg (by push_cast; omega)]
    congr 1
    push_cast
    omega
  have hs2 : s = (pre ++ [p]) ++ c :: rest := by simp [hs]
  have h1 := ReadRune_ascii ⟨s, pre.length, -1⟩ pre (c :: rest) p hs rfl hp
  have h2 := ReadRune_ascii ⟨s, pre.length + 1, (pre.length : Int)⟩ (pre ++ [p]) rest c hs2
    (by simp) hc128
  unfold wordFunction
  rw [ht]
  simp only [hseek, h1, h2]
theorem ascii_letter_facts (T : RangeTables) (a : Nat) (h : a < 128 ∧ IsLetter T a = true) :
    a ≠ 10 ∧ a ≠ 35 ∧ ¬ isCommand a ∧ IsSpace T a = false ∧ IsDigit T a = false := by
  obtain ⟨h1, h2⟩ := h
  obtain ⟨n10, n35, ncmd⟩ := letter_not_special T a h2
  have hl : a ≤ MaxLatin1 := by unfold MaxLatin1; omega
  simp only [IsLetter, hl, if_true, latin1Letter, decide_eq_true_eq] at h2
  refine ⟨n10, n35, ncmd, ?_, ?_⟩
  · simp only [IsSpace, hl, if_true, decide_eq_false_iff_not]; omega
  · simp only [IsDigit, hl, if_true, decide_eq_false_iff_not]; omega

theorem command_not_letter (T : RangeTables) (c : Nat) (hc : isCommand c) :
    IsLetter T c = false := by
  cases h : IsLetter T c with
  | false => rfl
  | true => exact absurd hc (letter_not_special T c h).2.2

/-- Word mode after letters of one byte: the letters and the first command
character are read into the word, and the second command character is left for
the next scan. -/
theorem lexToken_letters (T : RangeTables) :
    ∀ (body pre : List Nat) (p c1 c2 : Nat) (s : List Nat) (line column : Int) (pr : Int)
      (literal : List Nat) (fuel : Nat),
      s = pre ++ p :: body ++ [c1, c2] →
      (p < 128 ∧ IsLetter T p = true) → (∀ x ∈ body, x < 128 ∧ IsLetter T x = true) →
      isCommand c1 → isCommand c2 → body.length + 2 < fuel →
      ∃ lit1, lexToken (wordFunction T) fuel ⟨⟨line, column⟩, ⟨s, pre.length + 1, pr⟩⟩ literal =
        .ok (lit1, ⟨⟨line, column + (body.length : Int) + 1⟩,
          ⟨s, pre.length + body.length + 2, -1⟩⟩) := by
  intro body
  induction body with
  | nil =>
    intro pre p c1 c2 s line column pr literal fuel hs hp _ hc1 hc2 hf
    obtain ⟨fuel, rfl⟩ : ∃ k, fuel = k + 2 := ⟨fuel - 2, by simp at hf; omega⟩
    have hc1' : c1 < 128 := by unfold isCommand at hc1; omega
    have hc2' : c2 < 128 := by unfold isCommand at hc2; omega
    have hs0 : s = pre ++ p :: c1 :: [c2] := by simpa using hs
    have hs1 : s = (pre ++ [p]) ++ c1 :: [c2] := by simp [hs0]
    have hs2 : s = (pre ++ [p, c1]) ++ c2 :: [] := by simp [hs0]
    have hs3 : s = (pre ++ [p]) ++ c1 :: c2 :: [] := hs1
    have r1 := ReadRune_ascii ⟨s, pre.length + 1, pr⟩ (pre ++ [p]) [c2] c1 hs1 (by simp) hc1'
    have r2 := ReadRune_ascii ⟨s, pre.length + 1 + 1, ((pre.length + 1 : Nat) : Int)⟩
      (pre ++ [p, c1]) [] c2 hs2 (by simp) hc2'
    have w1 := wordFunction_after_ascii T s pre p c1 [c2] hs0 hp.1 hc1
    have w2 := wordFunction_after_ascii T s (pre ++ [p]) c1 c2 [] hs3 hc1' hc2
    simp only [List.length_append, List.length_singleton] at w2
    refine ⟨literal ++ [c1], ?_⟩
    simp only [lexToken, r1, w1, hp.2, r2]
    rw [show pre.length + 1 + 1 + 1 = pre.length + 1 + 2 from rfl, w2,
      command_not_letter T c1 hc1]
    simp only []
    rw [backup_after_read _ _ (pre.length + 1 + 2) (pre.length + 1 + 1) (by omega)]
    simp
  | cons b body ih =>
    intro pre p c1 c2 s line column pr literal fuel hs hp hb hc1 hc2 hf
    obtain ⟨fuel, rfl⟩ : ∃ k, fuel = k + 1 := ⟨fuel - 1, by omega⟩
    have hb0 := hb b (List.mem_cons_self _ _)
    obtain ⟨n10, _, ncmd, _, _⟩ := ascii_letter_facts T b hb0
    have hs1 : s = (pre ++ [p]) ++ b :: (body ++ [c1, c2]) := by simp [hs]
    have hs2 : s = (pre ++ [p]) ++ b :: body ++ [c1, c2] := by simp [hs]
    have r1 := ReadRune_ascii ⟨s, pre.length + 1, pr⟩ (pre ++ [p]) (body ++ [c1, c2]) b hs1
      (by simp) hb0.1
    obtain ⟨lit1, h⟩ := ih (pre ++ [p]) b c1 c2 s line (column + 1)
      ((pre.length + 1 : Nat) : Int) (literal ++ [b]) fuel hs2 hb0
      (fun x hx => hb x (List.mem_cons_of_mem _ hx)) hc1 hc2
      (by simp only [List.length_cons] at hf; omega)
    simp only [List.length_append, List.length_singleton] at h
    refine ⟨lit1, ?_⟩
    simp only [lexToken, r1, wordFunction_plain T _ b ncmd, n10, ne_eq, not_false_eq_true,
      decide_True]
    rw [h]
    simp only [List.length_cons, Nat.cast_add, Nat.cast_one]
    rw [show column + 1 + (body.length : Int) + 1 = column + ((body.length : Int) + 1) + 1 by
        ring,
      show pre.length + 1 + body.length + 2 = pre.length + (body.length + 1) + 2 by omega]
/-- After a run of letters of one byte, of two command characters the first is
read into the word and the second is the only token before `EOF`. -/
theorem tokens_letters_commands (T : RangeTables) (a : Nat) (w : List Nat) (c1 c2 : Nat)
    (ha : a < 128 ∧ IsLetter T a = true) (hw : ∀ x ∈ w, x < 128 ∧ IsLetter T x = true)
    (hc1 : isCommand c1) (hc2 : isCommand c2) :
    tokens T (a :: w ++ [c1, c2]) =
      .ok [(⟨0, (w.length : Int) + 3⟩, commandToken c2, [c2]),
        (⟨0, (w.length : Int) + 3⟩, EOF, [10])] := by
  obtain ⟨n10, n35, ncmd, hsp, hdg⟩ := ascii_letter_facts T a ha
  have hc2' : c2 < 128 := by unfold isCommand at hc2; omega
  have hc10 : c2 ≠ 10 := by unfold isCommand at hc2; omega
  have hc35 : c2 ≠ 35 := by unfold isCommand at hc2; omega
  have hlen : (a :: w ++ [c1, c2]).length = w.length + 2 + 1 := by simp
  have r0 := ReadRune_ascii (NewLexer (a :: w ++ [c1, c2])).Reader [] (w ++ [c1, c2]) a rfl rfl
    ha.1
  obtain ⟨lit1, hlt⟩ := lexToken_letters T w [] a c1 c2 (a :: w ++ [c1, c2]) 0 (0 + 1) 0 []
    ((a :: w ++ [c1, c2]).length + 1) rfl ha hw hc1 hc2 (by rw [hlen]; omega)
  have hs2 : a :: w ++ [c1, c2] = (a :: w ++ [c1]) ++ c2 :: [] := by simp
  have r2 := ReadRune_ascii ⟨a :: w ++ [c1, c2], ([] : List Nat).length + w.length + 2, -1⟩
    (a :: w ++ [c1]) [] c2 hs2 (by simp) hc2'
  have hLex1 : Lex T (NewLexer (a :: w ++ [c1, c2])) =
      .ok ((⟨0, (w.length : Int) + 3⟩, commandToken c2, [c2]),
        ⟨⟨0, (w.length : Int) + 3⟩,
          ⟨a :: w ++ [c1, c2], w.length + 3, ((w.length + 2 : Nat) : Int)⟩⟩) := by
    unfold isCommand at ncmd hc2
    have e : (NewLexer (a :: w ++ [c1, c2])).Reader.s = a :: w ++ [c1, c2] := rfl
    simp only [Lex, lexLoop, r0, n10, n35, ncmd, hsp, hdg, ha.2, if_true, if_false,
      Bool.false_eq_true, e]
    have e1 : ([] : List Nat).length + 1 = (NewLexer (a :: w ++ [c1, c2])).Reader.i + 1 := rfl
    have e2 : (0 : Int) = (((NewLexer (a :: w ++ [c1, c2])).Reader.i : Nat) : Int) := rfl
    have e3 : (NewLexer (a :: w ++ [c1, c2])).Position.Line = 0 := rfl
    have e4 : (NewLexer (a :: w ++ [c1, c2])).Position.Column = 0 := rfl
    rw [e3, e4, ← e1, ← e2, hlt]
    simp only [hlen, lexLoop, r2, hc10, hc35, hc2, if_true, if_false, commandToken]
    simp
    ring
  have hLex2 := Lex_at_end T ⟨⟨0, (w.length : Int) + 3⟩,
    ⟨a :: w ++ [c1, c2], w.length + 3, ((w.length + 2 : Nat) : Int)⟩⟩ (by simp)
  have hne := commandToken_ne_EOF c2 hc2
  simp only [tokens, hlen, lexAll, hLex1, hne, if_false, hLex2, if_true]

/-- C18 at the failing input: in the source `é>+` (bytes 195, 169, 62, 43) the
letter `é` opens a word, but the `>` right after it is not discarded: the lexer
seeks two bytes back, into the middle of `é`, reads the error rune, which is
not a letter, and returns the `>` and then the `+` as tokens.  After letters of
one byte the claim holds: for every non-empty run of such letters and all
command characters `c1` and `c2`, the first is discarded and the second is the
only token before `EOF`, as in `ab>+`. -/
theorem second_command_after_wide_letter (T : RangeTables) :
    tokens T [195, 169, 62, 43] =
        .ok [({ Line := 0, Column := 2 }, NEXT_CELL, [62]),
          ({ Line := 0, Column := 3 }, INCREMENT_CELL, [43]),
          ({ Line := 0, Column := 3 }, EOF, [10])] ∧
      tokens T [97, 98, 62, 43] =
        .ok [({ Line := 0, Column := 4 }, INCREMENT_CELL, [43]),
          ({ Line := 0, Column := 4 }, EOF, [10])] ∧
      (∀ (a : Nat) (w : List Nat) (c1 c2 : Nat),
        (a < 128 ∧ IsLetter T a = true) → (∀ x ∈ w, x < 128 ∧ IsLetter T x = true) →
        isCommand c1 → isCommand c2 →
        tokens T (a :: w ++ [c1, c2]) =
          .ok [(⟨0, (w.length : Int) + 3⟩, commandToken c2, [c2]),
            (⟨0, (w.length : Int) + 3⟩, EOF, [10])]) := by
  have hL := T.Letter_RuneError
  refine ⟨?_, ?_, fun a w c1 c2 ha hw hc1 hc2 => tokens_letters_commands T a w c1 c2 ha hw hc1 hc2⟩ <;>
    simp [tokens, lexAll, Lex, lexLoop, lexToken, wordFunction, NewLexer, NewReader,
      Reader.ReadRune, Reader.Seek, Reader.UnreadRune, backup, DecodeRuneInString, first,
      IsSpace, IsDigit, IsLetter, latin1Letter, MaxLatin1, RuneError, tokensIndex_singleton,
      hL, EOF, NEXT_CELL, INCREMENT_CELL]

/-! ## All the labels of the loops -/

theorem isLoopLabel_indented (pre : String) (l : List Char)
    (hpre : pre.data.head? = some ' ') : isLoopLabel (pre.data ++ l) = false := by
  cases hp : pre.data with
  | nil => rw [hp] at hpre; simp at hpre
  | cons x xs =>
    rw [hp] at hpre
    simp only [List.head?_cons, Option.some.injEq] at hpre
    subst hpre
    have : "while_".data = 'w' :: "hile_".data := rfl
    simp [isLoopLabel, this, List.isPrefixOf]

theorem loop_indented (pre mid post : String) (hpre : Char.ofNat 10 ∉ pre.data)
    (hhead : pre.data.head? = some ' ') (hmid : Char.ofNat 10 ∉ mid.data)
    (hpost : wfChunk post) : isLoopLabel (lineOfChunk (pre ++ mid ++ post)) = false := by
  rw [(wfChunk_format pre mid post hpre hmid hpost).2, List.append_assoc]
  exact isLoopLabel_indented pre _ hhead

theorem loop_label (n : Nat) (post : String) (hpost : wfChunk post) :
    lineOfChunk ("while_" ++ formatInt (n : Int) ++ post) =
        "while_".data ++ (Nat.repr n).data ++ lineOfChunk post ∧
      isLoopLabel (lineOfChunk ("while_" ++ formatInt (n : Int) ++ post)) = true := by
  have h := (wfChunk_format "while_" (formatInt (n : Int)) post (by decide)
    (formatInt_no_newline _) hpost).2
  rw [formatInt_natCast] at h
  refine ⟨by rw [formatInt_natCast]; exact h, ?_⟩
  rw [formatInt_natCast, h, List.append_assoc]
  unfold isLoopLabel
  rw [List.isPrefixOf_iff_prefix]
  exact List.prefix_append _ _

theorem filter_loop_plain (cs : List String)
    (h : ∀ c ∈ cs, isLoopLabel (lineOfChunk c) = false) :
    (cs.map lineOfChunk).filter isLoopLabel = [] := by
  rw [List.filter_eq_nil_iff]
  intro l hl
  obtain ⟨c, hc, rfl⟩ := List.mem_map.mp hl
  simp [h c hc]

theorem filter_loop_amount (c0 c1 : String) (pre : String) (x : Int) (c3 : String)
    (h0 : isLoopLabel (lineOfChunk c0) = false) (h1 : isLoopLabel (lineOfChunk c1) = false)
    (hpre : Char.ofNat 10 ∉ pre.data ∧ pre.data.head? = some ' ')
    (h3 : isLoopLabel (lineOfChunk c3) = false) :
    ([c0, c1, pre ++ formatInt x ++ "\n", c3].map lineOfChunk).filter isLoopLabel = [] := by
  apply filter_loop_plain
  intro c hc
  simp only [List.mem_cons, List.mem_singleton, List.not_mem_nil, or_false] at hc
  rcases hc with rfl | rfl | rfl | rfl
  · exact h0
  · exact h1
  · exact loop_indented pre _ _ hpre.1 hpre.2 (formatInt_no_newline x) (by decide)
  · exact h3

theorem filter_loop_amount5 (c0 c1 c2 : String) (pre : String) (x : Int) (c4 : String)
    (h0 : isLoopLabel (lineOfChunk c0) = false) (h1 : isLoopLabel (lineOfChunk c1) = false)
    (h2 : isLoopLabel (lineOfChunk c2) = false)
    (hpre : Char.ofNat 10 ∉ pre.data ∧ pre.data.head? = some ' ')
    (h4 : isLoopLabel (lineOfChunk c4) = false) :
    ([c0, c1, c2, pre ++ formatInt x ++ "\n", c4].map lineOfChunk).filter isLoopLabel = [] := by
  apply filter_loop_plain
  intro c hc
  simp only [List.mem_cons, List.mem_singleton, List.not_mem_nil, or_false] at hc
  rcases hc with rfl | rfl | rfl | rfl | rfl
  · exact h0
  · exact h1
  · exact h2
  · exact loop_indented pre _ _ hpre.1 hpre.2 (formatInt_no_newline x) (by decide)
  · exact h4

theorem filter_loop_head (n : Nat) :
    ((["    ; -- While -- ;\n",
      "while_" ++ formatInt (n : Int) ++ ":\n",
      "    mov rbx, [cell_pointer]\n",
      "    mov rax, [tape+rbx*8]\n",
      "    cmp rax, 0\n",
      "    jnz while_" ++ formatInt (n : Int) ++ ".not_zero\n",
      "    jmp while_" ++ formatInt (n : Int) ++ ".done\n",
      "while_" ++ formatInt (n : Int) ++ ".not_zero\n",
      "    ; -- While Begin -- ;\n"] : List String).map lineOfChunk).filter isLoopLabel =
      [labelOf n, notZeroOf n] := by
  obtain ⟨l1, l2⟩ := loop_label n ":\n" (by decide)
  obtain ⟨m1, m2⟩ := loop_label n ".not_zero\n" (by decide)
  have a := loop_indented "    jnz while_" (formatInt (n : Int)) ".not_zero\n"
    (by decide) (by decide) (formatInt_no_newline _) (by decide)
  have b := loop_indented "    jmp while_" (formatInt (n : Int)) ".done\n"
    (by decide) (by decide) (formatInt_no_newline _) (by decide)
  have p0 : isLoopLabel (lineOfChunk "    ; -- While -- ;\n") = false := by decide
  have p1 : isLoopLabel (lineOfChunk "    mov rbx, [cell_pointer]\n") = false := by decide
  have p2 : isLoopLabel (lineOfChunk "    mov rax, [tape+rbx*8]\n") = false := by decide
  have p3 : isLoopLabel (lineOfChunk "    cmp rax, 0\n") = false := by decide
  have p4 : isLoopLabel (lineOfChunk "    ; -- While Begin -- ;\n") = false := by decide
  have e1 : labelOf n = "while_".data ++ (Nat.repr n).data ++ lineOfChunk ":\n" := by
    simp only [labelOf, String.data_append]; rfl
  have e2 : notZeroOf n = "while_".data ++ (Nat.repr n).data ++ lineOfChunk ".not_zero\n" := by
    simp only [notZeroOf, String.data_append]; rfl
  rw [e1, e2, ← l1, ← m1]
  simp only [List.map_cons, List.map_nil, List.filter_cons, List.filter_nil, p0, p1, p2, p3, p4,
    a, b, l2, m2, if_true, if_false, Bool.false_eq_true]

theorem filter_loop_tail (n : Nat) :
    ((["    ; -- While End -- ;\n",
       "    jmp while_" ++ formatInt (n : Int) ++ "\n",
       "while_" ++ formatInt (n : Int) ++ ".done\n"] : List String).map lineOfChunk).filter
        isLoopLabel = [doneOf n] := by
  obtain ⟨l1, l2⟩ := loop_label n ".done\n" (by decide)
  have a := loop_indented "    jmp while_" (formatInt (n : Int)) "\n"
    (by decide) (by decide) (formatInt_no_newline _) (by decide)
  have p0 : isLoopLabel (lineOfChunk "    ; -- While End -- ;\n") = false := by decide
  have e1 : doneOf n = "while_".data ++ (Nat.repr n).data ++ lineOfChunk ".done\n" := by
    simp only [doneOf, String.data_append]; rfl
  rw [e1, ← l1]
  simp only [List.map_cons, List.map_nil, List.filter_cons, List.filter_nil, p0, a, l2, if_true,
    if_false, Bool.false_eq_true]

mutual
theorem loopLines_chunks : ∀ (ast : AST) (k : Nat),
    ((chunks ast k).1.map lineOfChunk).filter isLoopLabel = loopLines ast k
  | .mk nodes, k => by rw [chunks, loopLines]; exact loopLines_chunksNodes nodes k
theorem loopLines_chunksNodes : ∀ (nodes : List ASTNode) (k : Nat),
    ((chunksNodes nodes k).1.map lineOfChunk).filter isLoopLabel = loopLinesNodes nodes k
  | [], k => by simp [chunksNodes, loopLinesNodes]
  | .NextCell n :: rest, k => by
    rw [chunksNodes, loopLinesNodes, List.map_append, List.filter_append,
      filter_loop_amount _ _ "    add rbx, " _ _ (by decide) (by decide) (by decide) (by decide),
      List.nil_append]
    exact loopLines_chunksNodes rest (k + 1)
  | .PreviousCell n :: rest, k => by
    rw [chunksNodes, loopLinesNodes, List.map_append, List.filter_append,
      filter_loop_amount _ _ "    sub rbx, " _ _ (by decide) (by decide) (by decide) (by decide),
      List.nil_append]
    exact loopLines_chunksNodes rest (k + 1)
  | .IncrementCell n :: rest, k => by
    rw [chunksNodes, loopLinesNodes, List.map_append, List.filter_append,
      filter_loop_amount5 _ _ _ "    add rax, " _ _ (by decide) (by decide) (by decide)
        (by decide) (by decide),
      List.nil_append]
    exact loopLines_chunksNodes rest (k + 1)
  | .DecrementCell n :: rest, k => by
    rw [chunksNodes, loopLinesNodes, List.map_append, List.filter_append,
      filter_loop_amount5 _ _ _ "    sub rax, " _ _ (by decide) (by decide) (by decide)
        (by decide) (by decide),
      List.nil_append]
    exact loopLines_chunksNodes rest (k + 1)
  | .OutputCell n :: rest, k => by
    rw [chunksNodes, loopLinesNodes, List.map_append, List.filter_append,
      filter_loop_plain _ (by decide), List.nil_append]
    exact loopLines_chunksNodes rest (k + 1)
  | .InputCell n :: rest, k => by
    rw [chunksNodes, loopLinesNodes, List.map_append, List.filter_append,
      filter_loop_plain _ (by decide), List.nil_append]
    exact loopLines_chunksNodes rest (k + 1)
  | .IntegerLiteral v n :: rest, k => by
    rw [chunksNodes, loopLinesNodes]
    exact loopLines_chunksNodes rest (k + 1)
  | .NodeWhile tree n :: rest, k => by
    rw [chunksNodes, loopLinesNodes]
    simp only [List.map_append, List.filter_append, filter_loop_head, filter_loop_tail,
      loopLines_chunks tree (k + 1), (good_chunks tree (k + 1)).2,
      loopLines_chunksNodes rest (labelIds tree (k + 1)).2]
end

theorem notZeroOf_injective (a b : Nat) (h : notZeroOf a = notZeroOf b) : a = b := by
  simp only [notZeroOf, String.data_append] at h
  have h1 := List.append_cancel_right h
  have h2 := List.append_cancel_left h1
  exact repr_injective a b (String.ext h2)

theorem doneOf_injective (a b : Nat) (h : doneOf a = doneOf b) : a = b := by
  simp only [doneOf, String.data_append] at h
  have h1 := List.append_cancel_right h
  have h2 := List.append_cancel_left h1
  exact repr_injective a b (String.ext h2)

theorem labelOf_last (n : Nat) : (labelOf n).getLast? = some ':' := by
  simp only [labelOf, String.data_append]
  rw [List.getLast?_append]
  rfl

theorem notZeroOf_last (n : Nat) : (notZeroOf n).getLast? = some 'o' := by
  simp only [notZeroOf, String.data_append]
  rw [List.getLast?_append]
  rfl

theorem doneOf_last (n : Nat) : (doneOf n).getLast? = some 'e' := by
  simp only [doneOf, String.data_append]
  rw [List.getLast?_append]
  rfl

theorem loopForms_nodup (ids : List Nat) (h : ids.Nodup) :
    (ids.map labelOf ++ ids.map notZeroOf ++ ids.map doneOf).Nodup := by
  have h1 : (ids.map labelOf).Nodup := List.Nodup.map (fun a b e => labelOf_injective a b e) h
  have h2 : (ids.map notZeroOf).Nodup :=
    List.Nodup.map (fun a b e => notZeroOf_injective a b e) h
  have h3 : (ids.map doneOf).Nodup := List.Nodup.map (fun a b e => doneOf_injective a b e) h
  rw [List.nodup_append, List.nodup_append]
  refine ⟨⟨h1, h2, ?_⟩, h3, ?_⟩
  · intro l hl hl2
    obtain ⟨a, _, rfl⟩ := List.mem_map.mp hl
    obtain ⟨b, _, e⟩ := List.mem_map.mp hl2
    have := labelOf_last a
    rw [← e, notZeroOf_last] at this
    exact absurd this (by decide)
  · intro l hl hl2
    obtain ⟨b, _, e⟩ := List.mem_map.mp hl2
    rcases List.mem_append.mp hl with hl | hl
    · obtain ⟨a, _, rfl⟩ := List.mem_map.mp hl
      have := labelOf_last a
      rw [← e, doneOf_last] at this
      exact absurd this (by decide)
    · obtain ⟨a, _, rfl⟩ := List.mem_map.mp hl
      have := notZeroOf_last a
      rw [← e, doneOf_last] at this
      exact absurd this (by decide)

theorem perm_shuffle {α : Type} [DecidableEq α] (l nz d : α) (Eb Nb Db Er Nr Dr : List α) :
    ([l, nz] ++ (Eb ++ Nb ++ Db) ++ [d] ++ (Er ++ Nr ++ Dr)).Perm
      ((l :: (Eb ++ Er)) ++ (nz :: (Nb ++ Nr)) ++ (d :: (Db ++ Dr))) := by
  rw [List.perm_iff_count]
  intro a
  simp only [List.count_append, List.count_cons, List.count_nil, List.cons_append,
    List.nil_append]
  omega

mutual
theorem loopLines_perm : ∀ (ast : AST) (k : Nat),
    (loopLines ast k).Perm ((labelIds ast k).1.map labelOf ++
      (labelIds ast k).1.map notZeroOf ++ (labelIds ast k).1.map doneOf)
  | .mk nodes, k => by rw [loopLines, labelIds]; exact loopLinesNodes_perm nodes k
theorem loopLinesNodes_perm : ∀ (nodes : List ASTNode) (k : Nat),
    (loopLinesNodes nodes k).Perm ((labelIdsNodes nodes k).1.map labelOf ++
      (labelIdsNodes nodes k).1.map notZeroOf ++ (labelIdsNodes nodes k).1.map doneOf)
  | [], k => by simp [loopLinesNodes, labelIdsNodes]
  | .NextCell n :: rest, k => by
    rw [loopLinesNodes, labelIdsNodes]; exact loopLinesNodes_perm rest (k + 1)
  | .PreviousCell n :: rest, k => by
    rw [loopLinesNodes, labelIdsNodes]; exact loopLinesNodes_perm rest (k + 1)
  | .IncrementCell n :: rest, k => by
    rw [loopLinesNodes, labelIdsNodes]; exact loopLinesNodes_perm rest (k + 1)
  | .DecrementCell n :: rest, k => by
    rw [loopLinesNodes, labelIdsNodes]; exact loopLinesNodes_perm rest (k + 1)
  | .OutputCell n :: rest, k => by
    rw [loopLinesNodes, labelIdsNodes]; exact loopLinesNodes_perm rest (k + 1)
  | .InputCell n :: rest, k => by
    rw [loopLinesNodes, labelIdsNodes]; exact loopLinesNodes_perm rest (k + 1)
  | .IntegerLiteral v n :: rest, k => by
    rw [loopLinesNodes, labelIdsNodes]; exact loopLinesNodes_perm rest (k + 1)
  | .NodeWhile tree n :: rest, k => by
    have h1 := loopLines_perm tree (k + 1)
    have h2 := loopLinesNodes_perm rest (labelIds tree (k + 1)).2
    rw [loopLinesNodes, labelIdsNodes]
    simp only [List.map_cons, List.map_append]
    exact (((h1.append_left _).append_right _).append h2).trans (perm_shuffle _ _ _ _ _ _ _ _ _)
end

set_option maxRecDepth 100000 in
theorem header_loopLabels : (splitLines programHeader.data).filter isLoopLabel = [] := by decide

theorem footer_loopLabels : (splitLines programFooter.data).filter isLoopLabel = [] := by decide

theorem loopLabels_Compile (ast : AST) :
    loopLabels (programHeader ++ joinChunks (chunks ast 0).1 ++ programFooter) =
      loopLines ast 0 := by
  have hg := (good_chunks ast 0).1
  unfold loopLabels
  rw [String.append_assoc, String.data_append,
    filter_splitLines_complete _ _ _ header_last header_loopLabels, String.data_append,
    splitLines_join _ hg.1, List.filter_append, loopLines_chunks, footer_loopLabels]
  simp

/-- C4 (label uniqueness): for every tree, `Compile` returns a text and there is
a list `ids` of pairwise distinct identifiers, as many as the while nodes of the
tree at all depths, such that the lines `while_<id>:` of the text are those of
`ids`, and ALL the lines of the whole text that begin with `while_` (the three
labels `while_<id>:`, `while_<id>.not_zero` and `while_<id>.done` of every loop,
header and footer included) are, in some order, exactly these three labels of
each identifier of `ids`; these lines are pairwise distinct, three per while
node. -/
theorem label_uniqueness (ast : AST) :
    ∃ (text : String) (ids : List Nat), Compile ast = .ok text ∧
      whileLabels text = ids.map labelOf ∧ ids.Nodup ∧
      (whileLabels text).Nodup ∧ (whileLabels text).length = countWhile ast ∧
      ids.length = countWhile ast ∧
      (loopLabels text).Perm (ids.map labelOf ++ ids.map notZeroOf ++ ids.map doneOf) ∧
      (loopLabels text).Nodup ∧ (loopLabels text).length = 3 * countWhile ast := by
  obtain ⟨_, _, h3, h4⟩ := labelIds_spec ast 0
  have hp := loopLines_perm ast 0
  rw [← loopLabels_Compile] at hp
  refine ⟨_, (labelIds ast 0).1, Compile_eq ast, whileLabels_Compile ast, h3, ?_, ?_, h4, hp,
    ?_, ?_⟩
  · rw [whileLabels_Compile]
    exact List.Nodup.map (fun a b h => labelOf_injective a b h) h3
  · rw [whileLabels_Compile, List.length_map, h4]
  · exact (List.Perm.nodup_iff hp).mpr (loopForms_nodup _ h3)
  · rw [List.Perm.length_eq hp]
    simp only [List.length_append, List.length_map, h4]
    omega

/-! ## `compile` on Go values -/

mutual
theorem compileGo_cases : ∀ (ast : GoAST) (k : Nat) (i : String),
    (readsNil ast = true ∧ compileGo ast k i = .panic nilDereference) ∨
      (readsNil ast = false ∧ ∃ r, compileGo ast k i = .ok (.ok r))
  | .nil, k, i => by simp [readsNil, compileGo]
  | .ptr nodes, k, i => by
    simp only [readsNil, compileGo]
    exact compileGoNodes_cases nodes k i
theorem compileGoNodes_cases : ∀ (nodes : List GoNode) (k : Nat) (i : String),
    (readsNilNodes nodes = true ∧ compileGoNodes nodes k i = .panic nilDereference) ∨
      (readsNilNodes nodes = false ∧ ∃ r, compileGoNodes nodes k i = .ok (.ok r))
  | [], k, i => by simp [readsNilNodes, compileGoNodes]
  | .NextCell n :: rest, k, i => by
    simp only [readsNilNodes, compileGoNodes]; exact compileGoNodes_cases rest _ _
  | .PreviousCell n :: rest, k, i => by
    simp only [readsNilNodes, compileGoNodes]; exact compileGoNodes_cases rest _ _
  | .IncrementCell n :: rest, k, i => by
    simp only [readsNilNodes, compileGoNodes]; exact compileGoNodes_cases rest _ _
  | .DecrementCell n :: rest, k, i => by
    simp only [readsNilNodes, compileGoNodes]; exact compileGoNodes_cases rest _ _
  | .OutputCell n :: rest, k, i => by
    simp only [readsNilNodes, compileGoNodes]; exact compileGoNodes_cases rest _ _
  | .InputCell n :: rest, k, i => by
    simp only [readsNilNodes, compileGoNodes]; exact compileGoNodes_cases rest _ _
  | .IntegerLiteral v n :: rest, k, i => by
    simp only [readsNilNodes, compileGoNodes]; exact compileGoNodes_cases rest _ _
  | .nilInterface :: rest, k, i => by
    simp only [readsNilNodes, compileGoNodes]; exact compileGoNodes_cases rest _ _
  | .otherType :: rest, k, i => by
    simp only [readsNilNodes, compileGoNodes]; exact compileGoNodes_cases rest _ _
  | .nilPtr .PtrOutputCell :: rest, k, i => by
    simp only [readsNilNodes, compileGoNodes]; exact compileGoNodes_cases rest _ _
  | .nilPtr .PtrInputCell :: rest, k, i => by
    simp only [readsNilNodes, compileGoNodes]; exact compileGoNodes_cases rest _ _
  | .nilPtr .PtrIntegerLiteral :: rest, k, i => by
    simp only [readsNilNodes, compileGoNodes]; exact compileGoNodes_cases rest _ _
  | .nilPtr .PtrNextCell :: rest, k, i => by simp [readsNilNodes, compileGoNodes]
  | .nilPtr .PtrPreviousCell :: rest, k, i => by simp [readsNilNodes, compileGoNodes]
  | .nilPtr .PtrIncrementCell :: rest, k, i => by simp [readsNilNodes, compileGoNodes]
  | .nilPtr .PtrDecrementCell :: rest, k, i => by simp [readsNilNodes, compileGoNodes]
  | .nilPtr .PtrNodeWhile :: rest, k, i => by simp [readsNilNodes, compileGoNodes]
  | .NodeWhile tree n :: rest, k, i => by
    rcases compileGo_cases tree (k + 1) "" with ⟨h1, h2⟩ | ⟨h1, ⟨bytes, k2⟩, h2⟩
    · left
      simp only [readsNilNodes, compileGoNodes, h1, h2, Bool.true_or, and_self]
    · simp only [readsNilNodes, compileGoNodes, h1, h2, Bool.false_or]
      exact compileGoNodes_cases rest _ _
end

theorem CompileGo_cases (ast : GoAST) :
    (readsNil ast = true ∧ CompileGo ast = .panic nilDereference) ∨
      (readsNil ast = false ∧ ∃ text, CompileGo ast = .ok (.ok text)) := by
  rcases compileGo_cases ast 0 programHeader with ⟨h1, h2⟩ | ⟨h1, ⟨t, k⟩, h2⟩
  · left; exact ⟨h1, by simp only [CompileGo, h2]⟩
  · right; exact ⟨h1, t ++ programFooter, by simp only [CompileGo, h2]⟩

mutual
theorem compileGo_goOfAST : ∀ (t : AST) (k : Nat) (i : String),
    compileGo (goOfAST t) k i = .ok (compile t k i)
  | .mk nodes, k, i => by
    simp only [goOfAST, compileGo, compile]; exact compileGoNodes_goOfNodes nodes k i
theorem compileGoNodes_goOfNodes : ∀ (nodes : List ASTNode) (k : Nat) (i : String),
    compileGoNodes (goOfNodes nodes) k i = .ok (compileNodes nodes k i)
  | [], k, i => by simp only [goOfNodes, compileGoNodes, compileNodes]
  | .NextCell n :: rest, k, i => by
    simp only [goOfNodes, compileGoNodes, compileNodes]
    exact compileGoNodes_goOfNodes rest _ _
  | .PreviousCell n :: rest, k, i => by
    simp only [goOfNodes, compileGoNodes, compileNodes]
    exact compileGoNodes_goOfNodes rest _ _
  | .IncrementCell n :: rest, k, i => by
    simp only [goOfNodes, compileGoNodes, compileNodes]
    exact compileGoNodes_goOfNodes rest _ _
  | .DecrementCell n :: rest, k, i => by
    simp only [goOfNodes, compileGoNodes, compileNodes]
    exact compileGoNodes_goOfNodes rest _ _
  | .OutputCell n :: rest, k, i => by
    simp only [goOfNodes, compileGoNodes, compileNodes]
    exact compileGoNodes_goOfNodes rest _ _
  | .InputCell n :: rest, k, i => by
    simp only [goOfNodes, compileGoNodes, compileNodes]
    exact compileGoNodes_goOfNodes rest _ _
  | .IntegerLiteral v n :: rest, k, i => by
    simp only [goOfNodes, compileGoNodes, compileNodes]
    exact compileGoNodes_goOfNodes rest _ _
  | .NodeWhile tree n :: rest, k, i => by
    simp only [goOfNodes, compileGoNodes, compileNodes, compileGo_goOfAST tree (k + 1) "",
      compile_eq]
    exact compileGoNodes_goOfNodes rest _ _
end

theorem CompileGo_goOfAST (t : AST) : CompileGo (goOfAST t) = .ok (Compile t) := by
  simp only [CompileGo, Compile, compileGo_goOfAST, compile_eq]

/-- C8 (code generation has no failure mode of its own, on trees without a nil
pointer that is read): for every Go value `ast` of type `*AST`, `Compile` never
returns an error, so the error of the while block is never built; when `compile`
reads through no nil pointer (`readsNil ast = false`) `Compile` returns a text
and a nil error, and so does `compile` from every counter and buffer; when it
does, `Compile` panics with the nil dereference of Go; and the value of every
tree whose pointers are non-nil, as `Parse` builds them, reads through no nil
pointer and compiles to the text of `Compile` on that tree. -/
theorem compile_never_fails (ast : GoAST) :
    (∀ e, CompileGo ast ≠ .ok (.error e)) ∧
      (∀ offset instructions e, compileGo ast offset instructions ≠ .ok (.error e)) ∧
      (readsNil ast = false →
        (∃ text, CompileGo ast = .ok (.ok text)) ∧
          ∀ offset instructions, ∃ r, compileGo ast offset instructions = .ok (.ok r)) ∧
      (readsNil ast = true → CompileGo ast = .panic nilDereference) ∧
      (∀ t : AST, ast = goOfAST t →
        readsNil ast = false ∧ ∃ text, Compile t = .ok text ∧ CompileGo ast = .ok (.ok text)) := by
  refine ⟨?_, ?_, ?_, ?_, ?_⟩
  · intro e he
    rcases CompileGo_cases ast with ⟨_, h⟩ | ⟨_, _, h⟩ <;> rw [h] at he <;> simp at he
  · intro k i e he
    rcases compileGo_cases ast k i with ⟨_, h⟩ | ⟨_, _, h⟩ <;> rw [h] at he <;> simp at he
  · intro hn
    refine ⟨?_, fun k i => ?_⟩
    · rcases CompileGo_cases ast with ⟨h, _⟩ | ⟨_, h⟩
      · rw [hn] at h; exact absurd h (by decide)
      · exact h
    · rcases compileGo_cases ast k i with ⟨h, _⟩ | ⟨_, h⟩
      · rw [hn] at h; exact absurd h (by decide)
      · exact h
  · intro hn
    rcases CompileGo_cases ast with ⟨_, h⟩ | ⟨h, _⟩
    · exact h
    · rw [hn] at h; exact absurd h (by decide)
  · intro t ht
    subst ht
    have hc := CompileGo_goOfAST t
    rw [Compile_eq] at hc
    refine ⟨?_, _, Compile_eq t, hc⟩
    rcases CompileGo_cases (goOfAST t) with ⟨_, h⟩ | ⟨h, _⟩
    · rw [hc] at h; simp at h
    · exact h

/-- Witness for C8: the tree of the source `[+]`, a while node around one
increment, reads through no nil pointer and compiles to a text; and the same
tree with a nil pointer of type `*IncrementCell` in the loop panics. -/
theorem compile_never_fails_witness :
    (readsNil (.ptr [.NodeWhile (.ptr [.IncrementCell ⟨0, NODE_INCREMENT_CELL⟩])
        ⟨0, NODE_WHILE⟩]) = false ∧
      ∃ text, CompileGo (.ptr [.NodeWhile (.ptr [.IncrementCell ⟨0, NODE_INCREMENT_CELL⟩])
          ⟨0, NODE_WHILE⟩]) = .ok (.ok text)) ∧
      (readsNil (.ptr [.NodeWhile (.ptr [.nilPtr .PtrIncrementCell]) ⟨0, NODE_WHILE⟩]) = true ∧
        CompileGo (.ptr [.NodeWhile (.ptr [.nilPtr .PtrIncrementCell]) ⟨0, NODE_WHILE⟩]) =
          .panic nilDereference) :=
  ⟨⟨by decide, ((compile_never_fails _).2.2.1 (by decide)).1⟩,
    ⟨by decide, (compile_never_fails _).2.2.2.1 (by decide)⟩⟩

/-- Counterexample for C8 as stated for every AST: on a while node whose `Tree`
is nil, on a nil `*AST`, and on a node that is a nil pointer of type `*NextCell`,
`Compile` returns neither a text nor an error: it panics. -/
theorem compile_nil_tree_counterexample :
    CompileGo (.ptr [.NodeWhile .nil ⟨0, NODE_WHILE⟩]) = .panic nilDereference ∧
      CompileGo .nil = .panic nilDereference ∧
      CompileGo (.ptr [.nilPtr .PtrNextCell]) = .panic nilDereference ∧
      (∀ text, CompileGo (.ptr [.NodeWhile .nil ⟨0, NODE_WHILE⟩]) ≠ .ok (.ok text)) := by
  refine ⟨rfl, rfl, rfl, ?_⟩
  intro text h
  have : CompileGo (.ptr [.NodeWhile .nil ⟨0, NODE_WHILE⟩]) = .panic nilDereference := rfl
  rw [this] at h
  simp at h

/-! ## Where a word ends -/

/-- In word mode, on a command character, the function given to `lexToken`
answers whether the rune read two bytes back is a letter, and leaves the reader
as it found it. -/
theorem wordFunction_after (T : RangeTables) (s pre : List Nat) (p c : Nat)
    (rest : List Nat) (hs : s = pre ++ p :: c :: rest) (hc : isCommand c) :
    wordFunction T ⟨s, pre.length + 2, ((pre.length + 1 : Nat) : Int)⟩ c =
      .ok (IsLetter T (previousRune p), ⟨s, pre.length + 2, ((pre.length + 1 : Nat) : Int)⟩) := by
  by_cases hp : p < 128
  · rw [wordFunction_after_ascii T s pre p c rest hs hp hc, previousRune, if_pos hp]
  · have hc128 : c < 128 := by unfold isCommand at hc; omega
    have hsome : ∃ t, tokensIndex [c] = some t := by
      rw [tokensIndex_singleton]
      unfold isCommand at hc
      split_ifs <;> first | exact ⟨_, rfl⟩ | omega
    obtain ⟨t, ht⟩ := hsome
    have hseek : Reader.Seek ⟨s, pre.length + 2, ((pre.length + 1 : Nat) : Int)⟩ (-2) =
        ⟨s, pre.length, -1⟩ := by
      unfold Reader.Seek
      simp only []
      rw [if_neg (by push_cast; omega)]
      congr 1
      push_cast
      omega
    have hs2 : s = (pre ++ [p]) ++ c :: rest := by simp [hs]
    have hdec : DecodeRuneInString (p :: c :: rest) = (RuneError, 1) := by
      rcases DecodeRuneInString_cons p (c :: rest) with ⟨_, h⟩ | ⟨h, _⟩ | ⟨v, sz, _, _, _, h2, _, hk⟩
      · exact absurd h hp
      · exact h
      · have := hk 1 (le_refl _) (by omega)
        simp only [List.getD_cons_succ, List.getD_cons_zero] at this
        omega
    have h1 := (ReadRune_rest ⟨s, pre.length, -1⟩ pre p (c :: rest) hs rfl).1
    rw [hdec] at h1
    have h2 := ReadRune_ascii ⟨s, pre.length + 1, (pre.length : Int)⟩ (pre ++ [p]) rest c hs2
      (by simp) hc128
    unfold wordFunction
    rw [ht]
    simp only [hseek, h1, h2, previousRune, if_neg hp]

theorem wordBytes_high (T : RangeTables) (l : List Nat) :
    ∀ (p q : Nat) (r : List Nat), (∀ x ∈ l ++ [q], 128 ≤ x) →
      wordBytes T p (l ++ q :: r) = l.length + 1 + wordBytes T q r := by
  have hgo : ∀ p x, 128 ≤ x → wordGoesOn T p x = true := by
    intro p x hx
    have : ¬ isCommand x := by unfold isCommand; omega
    simp only [wordGoesOn, this, if_false, decide_eq_true_eq]
    omega
  induction l with
  | nil =>
    intro p q r h
    simp only [List.nil_append, wordBytes, hgo p q (h q (by simp)), if_true, List.length_nil]
    omega
  | cons a l ih =>
    intro p q r h
    have ha := h a (by simp)
    simp only [List.cons_append, wordBytes, hgo p a ha, if_true, List.length_cons,
      List.append_eq]
    rw [ih a q r (fun x hx => h x (by simp only [List.cons_append, List.mem_cons]; right; exact hx))]
    omega

theorem lexToken_go (f : Reader → Nat → Outcome (Bool × Reader)) (fuel : Nat) (p : Position)
    (s : List Nat) (i : Nat) (pr : Int) (literal : List Nat) (v sz : Nat)
    (hrr : Reader.ReadRune ⟨s, i, pr⟩ = (.ok (v, sz), ⟨s, i + sz, (i : Int)⟩))
    (hf : f ⟨s, i + sz, (i : Int)⟩ v = .ok (true, ⟨s, i + sz, (i : Int)⟩)) :
    lexToken f (fuel + 1) ⟨p, ⟨s, i, pr⟩⟩ literal =
      lexToken f fuel ⟨⟨p.Line, p.Column + 1⟩, ⟨s, i + sz, (i : Int)⟩⟩ (literal ++ [v]) := by
  simp only [lexToken, hrr, hf]

theorem lexToken_stop (f : Reader → Nat → Outcome (Bool × Reader)) (fuel : Nat) (p : Position)
    (s : List Nat) (i : Nat) (pr : Int) (literal : List Nat) (v sz : Nat) (hsz : 1 ≤ sz)
    (hrr : Reader.ReadRune ⟨s, i, pr⟩ = (.ok (v, sz), ⟨s, i + sz, (i : Int)⟩))
    (hf : f ⟨s, i + sz, (i : Int)⟩ v = .ok (false, ⟨s, i + sz, (i : Int)⟩)) :
    lexToken f (fuel + 1) ⟨p, ⟨s, i, pr⟩⟩ literal =
      .ok (literal, ⟨⟨p.Line, p.Column + 1 - 1⟩, ⟨s, i, -1⟩⟩) := by
  simp only [lexToken, hrr, hf]
  rw [backup_after_read _ s (i + sz) i (by omega)]

/-- Word mode reads the bytes counted by `wordBytes` and stops there. -/
theorem lexToken_wordBytes (T : RangeTables) :
    ∀ (n : Nat) (rest pre : List Nat) (p : Nat) (pos : Position) (s : List Nat) (pr : Int)
      (literal : List Nat) (fuel : Nat),
      rest.length ≤ n → s = pre ++ p :: rest → rest.length < fuel →
      ∃ (k : Int) (lit : List Nat),
        lexToken (wordFunction T) fuel ⟨pos, ⟨s, pre.length + 1, pr⟩⟩ literal =
          .ok (lit, ⟨⟨pos.Line, pos.Column + k⟩,
            ⟨s, pre.length + 1 + wordBytes T p rest, -1⟩⟩) := by
  intro n
  induction n with
  | zero =>
    intro rest pre p pos s pr literal fuel hn hs hf
    have : rest = [] := List.length_eq_zero.mp (Nat.le_zero.mp hn)
    subst this
    obtain ⟨fuel, rfl⟩ : ∃ k, fuel = k + 1 := ⟨fuel - 1, by omega⟩
    refine ⟨0, literal, ?_⟩
    simp only [lexToken, ReadRune_eof ⟨s, pre.length + 1, pr⟩ (by rw [hs]; simp), wordBytes,
      add_zero]
  | succ n ih =>
    intro rest pre p pos s pr literal fuel hn hs hf
    obtain ⟨fuel, rfl⟩ : ∃ k, fuel = k + 1 := ⟨fuel - 1, by omega⟩
    cases rest with
    | nil =>
      refine ⟨0, literal, ?_⟩
      simp only [lexToken, ReadRune_eof ⟨s, pre.length + 1, pr⟩ (by rw [hs]; simp), wordBytes,
        add_zero]
    | cons b bs =>
      have hs1 : s = (pre ++ [p]) ++ b :: bs := by simp [hs]
      have hi1 : pre.length + 1 = (pre ++ [p]).length := by simp
      obtain ⟨hrr, hsz1, hsz2, hbytes⟩ :=
        ReadRune_rest ⟨s, pre.length + 1, pr⟩ (pre ++ [p]) b bs hs1 hi1
      obtain ⟨v, sz, hdec⟩ : ∃ v sz, DecodeRuneInString (b :: bs) = (v, sz) := ⟨_, _, rfl⟩
      rw [hdec] at hrr hsz1 hsz2 hbytes
      simp only [] at hrr hsz1 hsz2 hbytes
      simp only [List.length_cons] at hn hf hsz2
      rcases hbytes with ⟨hv, hsz, hb⟩ | ⟨hv, hhigh⟩
      · subst hsz hb
        have hnext : ∀ (pos1 : Position) (lit1 : List Nat), ∃ (k : Int) (lit : List Nat),
            lexToken (wordFunction T) fuel
              ⟨pos1, ⟨s, pre.length + 1 + 1, ((pre.length + 1 : Nat) : Int)⟩⟩ lit1 =
              .ok (lit, ⟨⟨pos1.Line, pos1.Column + k⟩,
                ⟨s, pre.length + 1 + (wordBytes T b bs + 1), -1⟩⟩) := by
          intro pos1 lit1
          obtain ⟨k, lit, hk⟩ := ih bs (pre ++ [p]) b pos1 s ((pre.length + 1 : Nat) : Int) lit1
            fuel (by omega) hs1 (by omega)
          refine ⟨k, lit, ?_⟩
          simp only [List.length_append, List.length_singleton] at hk
          rw [hk]
          congr 4
          omega
        by_cases hcmd : isCommand b
        · have hwf := wordFunction_after T s pre p b bs hs hcmd
          cases hl : IsLetter T (previousRune p) with
          | false =>
            rw [hl] at hwf
            refine ⟨0, literal, ?_⟩
            rw [lexToken_stop (wordFunction T) fuel pos s (pre.length + 1) pr literal b 1
              (le_refl _) hrr hwf]
            simp only [wordBytes, wordGoesOn, hcmd, if_true, hl, Bool.false_eq_true, if_false,
              add_zero]
            rw [show pos.Column + 1 - 1 = pos.Column by omega]
          | true =>
            rw [hl] at hwf
            obtain ⟨k, lit, hk⟩ := hnext ⟨pos.Line, pos.Column + 1⟩ (literal ++ [b])
            refine ⟨1 + k, lit, ?_⟩
            rw [lexToken_go (wordFunction T) fuel pos s (pre.length + 1) pr literal b 1 hrr hwf,
              hk]
            simp only [wordBytes, wordGoesOn, hcmd, if_true, hl, add_assoc]
        · have hwf := wordFunction_plain T
            ⟨s, pre.length + 1 + 1, ((pre.length + 1 : Nat) : Int)⟩ b hcmd
          by_cases h10 : b = 10
          · subst h10
            refine ⟨0, literal, ?_⟩
            have hwf2 : wordFunction T ⟨s, pre.length + 1 + 1, ((pre.length + 1 : Nat) : Int)⟩ 10 =
                .ok (false, ⟨s, pre.length + 1 + 1, ((pre.length + 1 : Nat) : Int)⟩) := by
              rw [hwf]; simp
            rw [lexToken_stop (wordFunction T) fuel pos s (pre.length + 1) pr literal 10 1
              (le_refl _) hrr hwf2]
            simp only [wordBytes, wordGoesOn, hcmd, if_false, ne_eq, not_true_eq_false,
              decide_False, Bool.false_eq_true, add_zero]
            rw [show pos.Column + 1 - 1 = pos.Column by omega]
          · have hwf2 : wordFunction T ⟨s, pre.length + 1 + 1, ((pre.length + 1 : Nat) : Int)⟩ b =
                .ok (true, ⟨s, pre.length + 1 + 1, ((pre.length + 1 : Nat) : Int)⟩) := by
              rw [hwf]; simp [h10]
            obtain ⟨k, lit, hk⟩ := hnext ⟨pos.Line, pos.Column + 1⟩ (literal ++ [b])
            refine ⟨1 + k, lit, ?_⟩
            rw [lexToken_go (wordFunction T) fuel pos s (pre.length + 1) pr literal b 1 hrr hwf2,
              hk]
            simp only [wordBytes, wordGoesOn, hcmd, if_false, h10, ne_eq, not_false_eq_true,
              decide_True, if_true, add_assoc]
      · have hcmd : ¬ isCommand v := by unfold isCommand; omega
        have h10 : v ≠ 10 := by omega
        have hwf := wordFunction_plain T
          ⟨s, pre.length + 1 + sz, ((pre.length + 1 : Nat) : Int)⟩ v hcmd
        have hwf2 : wordFunction T ⟨s, pre.length + 1 + sz, ((pre.length + 1 : Nat) : Int)⟩ v =
            .ok (true, ⟨s, pre.length + 1 + sz, ((pre.length + 1 : Nat) : Int)⟩) := by
          rw [hwf]; simp [h10]
        have htl : ((b :: bs).take sz).length = sz := by
          rw [List.length_take, List.length_cons]; omega
        have hne : (b :: bs).take sz ≠ [] := by
          intro h; rw [h] at htl; simp at htl; omega
        obtain ⟨init, q, hiq⟩ : ∃ init q, (b :: bs).take sz = init ++ [q] :=
          ⟨_, _, (List.dropLast_append_getLast hne).symm⟩
        have hil : init.length + 1 = sz := by rw [← htl, hiq]; simp
        have hsplit : b :: bs = init ++ q :: (b :: bs).drop sz := by
          have := (List.take_append_drop sz (b :: bs)).symm
          rw [hiq] at this
          simpa using this
        have hdl : ((b :: bs).drop sz).length = bs.length + 1 - sz := by
          rw [List.length_drop, List.length_cons]
        have hs2 : s = (pre ++ p :: init) ++ q :: (b :: bs).drop sz := by
          rw [hs]
          conv_lhs => rw [hsplit]
          simp
        obtain ⟨k, lit, hk⟩ := ih ((b :: bs).drop sz) (pre ++ p :: init) q
          ⟨pos.Line, pos.Column + 1⟩ s ((pre.length + 1 : Nat) : Int) (literal ++ [v]) fuel
          (by omega) hs2 (by omega)
        refine ⟨1 + k, lit, ?_⟩
        rw [lexToken_go (wordFunction T) fuel pos s (pre.length + 1) pr literal v sz hrr hwf2]
        have e1 : (pre ++ p :: init).length + 1 = pre.length + 1 + sz := by
          simp only [List.length_append, List.length_cons]; omega
        rw [e1] at hk
        rw [hk]
        have e2 : wordBytes T p (b :: bs) = sz + wordBytes T q ((b :: bs).drop sz) := by
          conv_lhs => rw [hsplit]
          rw [wordBytes_high T init p q _ (by rw [← hiq]; exact hhigh), hil]
        rw [e2]
        simp only [add_assoc]

/-- The scanning loop of `Lex` on a letter: the word is read up to the byte
where `wordBytes` stops, and the call returns what `Lex` returns from there. -/
theorem Lex_wordBytes (T : RangeTables) (pos : Position) (s pre : List Nat) (pr : Int)
    (b : Nat) (bs : List Nat) (v sz : Nat) (hs : s = pre ++ b :: bs)
    (hdec : DecodeRuneInString (b :: bs) = (v, sz)) (hl : IsLetter T v = true)
    (hsp : IsSpace T v = false) (hdg : IsDigit T v = false) :
    ∃ k : Int, Lex T ⟨pos, ⟨s, pre.length, pr⟩⟩ =
      Lex T ⟨⟨pos.Line, pos.Column + k⟩,
        ⟨s, pre.length + sz + wordBytes T ((b :: bs).getD (sz - 1) 0) ((b :: bs).drop sz),
          -1⟩⟩ := by
  obtain ⟨hrr, hsz1, hsz2, _⟩ := ReadRune_rest ⟨s, pre.length, pr⟩ pre b bs hs rfl
  rw [hdec] at hrr hsz1 hsz2
  simp only [] at hrr hsz1 hsz2
  obtain ⟨n10, n35, ncmd⟩ := letter_not_special T v hl
  have htl : ((b :: bs).take sz).length = sz := by rw [List.length_take]; omega
  have hne : (b :: bs).take sz ≠ [] := by
    intro h; rw [h] at htl; simp at htl; omega
  obtain ⟨init, q, hiq⟩ : ∃ init q, (b :: bs).take sz = init ++ [q] :=
    ⟨_, _, (List.dropLast_append_getLast hne).symm⟩
  have hil : init.length + 1 = sz := by rw [← htl, hiq]; simp
  have hsplit : b :: bs = init ++ q :: (b :: bs).drop sz := by
    have := (List.take_append_drop sz (b :: bs)).symm
    rw [hiq] at this
    simpa using this
  have hq : (b :: bs).getD (sz - 1) 0 = q := by
    conv_lhs => rw [hsplit]
    have : sz - 1 = init.length := by omega
    rw [this]
    exact getD_append_cons init q _
  have hs2 : s = (pre ++ init) ++ q :: (b :: bs).drop sz := by
    rw [hs]
    conv_lhs => rw [hsplit]
    simp
  have hlenS : s.length = pre.length + (b :: bs).length := by rw [hs]; simp
  have hdl : ((b :: bs).drop sz).length = (b :: bs).length - sz := List.length_drop _ _
  obtain ⟨k, lit, hk⟩ := lexToken_wordBytes T _ ((b :: bs).drop sz) (pre ++ init) q
    ⟨pos.Line, pos.Column + 1⟩ s ((pre.length : Nat) : Int) [] (s.length + 1) (le_refl _) hs2
    (by omega)
  have e1 : (pre ++ init).length + 1 = pre.length + sz := by
    simp only [List.length_append]; omega
  rw [e1] at hk
  refine ⟨1 + k, ?_⟩
  rw [hq]
  unfold isCommand at ncmd
  have hL : Lex T ⟨pos, ⟨s, pre.length, pr⟩⟩ = lexLoop T s.length
      ⟨⟨pos.Line, pos.Column + 1 + k⟩,
        ⟨s, pre.length + sz + wordBytes T q ((b :: bs).drop sz), -1⟩⟩ := by
    simp only [Lex, lexLoop, hrr, n10, n35, ncmd, hsp, hdg, hl, if_false, if_true,
      Bool.false_eq_true]
    rw [hk]
  rw [hL, add_assoc]
  exact lexLoop_eq_Lex T _ _ (by simp only []; omega)

/-! ## The lexer depends on the rest of the input only -/

theorem drop_decompose (S : List Nat) (I : Nat) (b : Nat) (bs : List Nat)
    (h : S.drop I = b :: bs) : S = S.take I ++ b :: bs ∧ (S.take I).length = I := by
  have hlt : I < S.length := by
    by_contra hc
    rw [List.drop_of_length_le (by omega)] at h
    simp at h
  refine ⟨by rw [← h, List.take_append_drop], ?_⟩
  rw [List.length_take]
  omega

theorem ReadRune_drop (S : List Nat) (I : Nat) (pr : Int) (b : Nat) (bs : List Nat)
    (h : S.drop I = b :: bs) :
    Reader.ReadRune ⟨S, I, pr⟩ = (.ok (DecodeRuneInString (b :: bs)),
        ⟨S, I + (DecodeRuneInString (b :: bs)).2, (I : Int)⟩) ∧
      1 ≤ (DecodeRuneInString (b :: bs)).2 ∧
      (DecodeRuneInString (b :: bs)).2 ≤ (b :: bs).length ∧
      S.drop (I + (DecodeRuneInString (b :: bs)).2) =
        (b :: bs).drop (DecodeRuneInString (b :: bs)).2 := by
  obtain ⟨h1, h2⟩ := drop_decompose S I b bs h
  obtain ⟨hrr, hsz1, hsz2, _⟩ := ReadRune_rest ⟨S, I, pr⟩ (S.take I) b bs h1 h2.symm
  refine ⟨hrr, hsz1, hsz2, ?_⟩
  rw [← h, List.drop_drop, add_comm]

theorem drop_nil_length (S : List Nat) (I : Nat) (h : S.drop I = []) : S.length ≤ I := by
  have := congrArg List.length h
  rw [List.length_drop] at this
  simp only [List.length_nil] at this
  omega

/-- The loop of `lexToken`, for a function that does not use the reader, reads
a literal and a number of bytes that depend on the rest of the input only. -/
theorem lexToken_suffix (f : Reader → Nat → Outcome (Bool × Reader)) (g : Nat → Bool)
    (hf : ∀ r v, f r v = .ok (g v, r)) :
    ∀ (n : Nat) (rest : List Nat), rest.length ≤ n →
      ∃ (w : List Nat) (d : Nat), d ≤ rest.length ∧
        ∀ (S : List Nat) (I : Nat) (pos : Position) (pr : Int) (literal : List Nat) (fuel : Nat),
          S.drop I = rest → rest.length < fuel →
          ∃ (k : Int) (q : Int), lexToken f fuel ⟨pos, ⟨S, I, pr⟩⟩ literal =
            .ok (literal ++ w, ⟨⟨pos.Line, pos.Column + k⟩, ⟨S, I + d, q⟩⟩) := by
  intro n
  induction n with
  | zero =>
    intro rest hn
    have : rest = [] := List.length_eq_zero.mp (Nat.le_zero.mp hn)
    subst this
    refine ⟨[], 0, le_refl _, ?_⟩
    intro S I pos pr literal fuel hd hfu
    obtain ⟨fuel, rfl⟩ : ∃ k, fuel = k + 1 := ⟨fuel - 1, by omega⟩
    refine ⟨0, -1, ?_⟩
    simp only [lexToken, ReadRune_eof ⟨S, I, pr⟩ (drop_nil_length S I hd), List.append_nil,
      add_zero]
  | succ n ih =>
    intro rest hn
    cases rest with
    | nil =>
      refine ⟨[], 0, le_refl _, ?_⟩
      intro S I pos pr literal fuel hd hfu
      obtain ⟨fuel, rfl⟩ : ∃ k, fuel = k + 1 := ⟨fuel - 1, by omega⟩
      refine ⟨0, -1, ?_⟩
      simp only [lexToken, ReadRune_eof ⟨S, I, pr⟩ (drop_nil_length S I hd), List.append_nil,
        add_zero]
    | cons b bs =>
      obtain ⟨v, sz, hdec⟩ : ∃ v sz, DecodeRuneInString (b :: bs) = (v, sz) := ⟨_, _, rfl⟩
      cases hg : g v with
      | false =>
        refine ⟨[], 0, Nat.zero_le _, ?_⟩
        intro S I pos pr literal fuel hd hfu
        obtain ⟨fuel, rfl⟩ : ∃ k, fuel = k + 1 := ⟨fuel - 1, by omega⟩
        obtain ⟨hrr, hsz1, hsz2, hdd⟩ := ReadRune_drop S I pr b bs hd
        rw [hdec] at hrr hsz1 hsz2 hdd
        simp only [] at hrr hsz1 hsz2 hdd
        refine ⟨1 - 1, -1, ?_⟩
        have hfv : f ⟨S, I + sz, (I : Int)⟩ v = .ok (false, ⟨S, I + sz, (I : Int)⟩) := by
          rw [hf, hg]
        rw [lexToken_stop f fuel pos S I pr literal v sz hsz1 hrr hfv]
        simp only [List.append_nil, add_zero, add_sub_assoc]
      | true =>
        have hsz := (ReadRune_drop (b :: bs) 0 (-1) b bs rfl).2
        rw [hdec] at hsz
        simp only [] at hsz
        obtain ⟨hsz1, hsz2, _⟩ := hsz
        have hdl : ((b :: bs).drop sz).length = (b :: bs).length - sz := List.length_drop _ _
        simp only [List.length_cons] at hn hsz2 hdl
        obtain ⟨w, d, hd1, hw⟩ := ih ((b :: bs).drop sz) (by omega)
        refine ⟨v :: w, sz + d, by simp only [List.length_cons]; omega, ?_⟩
        intro S I pos pr literal fuel hd hfu
        obtain ⟨fuel, rfl⟩ : ∃ k, fuel = k + 1 := ⟨fuel - 1, by omega⟩
        obtain ⟨hrr, _, _, hdd⟩ := ReadRune_drop S I pr b bs hd
        rw [hdec] at hrr hdd
        simp only [] at hrr hdd
        have hfv : f ⟨S, I + sz, (I : Int)⟩ v = .ok (true, ⟨S, I + sz, (I : Int)⟩) := by
          rw [hf, hg]
        simp only [List.length_cons] at hfu
        obtain ⟨k, q, hk⟩ := hw S (I + sz) ⟨pos.Line, pos.Column + 1⟩ (I : Int) (literal ++ [v])
          fuel hdd (by omega)
        refine ⟨1 + k, q, ?_⟩
        rw [lexToken_go f fuel pos S I pr literal v sz hrr hfv, hk]
        simp only [List.append_assoc, List.singleton_append, add_assoc]

theorem wordBytes_le (T : RangeTables) (r : List Nat) : ∀ p, wordBytes T p r ≤ r.length := by
  induction r with
  | nil => intro p; simp [wordBytes]
  | cons c r ih =>
    intro p
    simp only [wordBytes, List.length_cons]
    split_ifs
    · have := ih c; omega
    · omega

/-- The token that `Lex` returns, its literal and the number of bytes read depend
on the rest of the input only, not on what was read before nor on the
position. -/
theorem Lex_suffix (T : RangeTables) :
    ∀ (n : Nat) (rest : List Nat), rest.length ≤ n →
      ∃ (t : Token) (sym : List Nat) (d : Nat), d ≤ rest.length ∧ (t ≠ EOF → 0 < d) ∧
        ∀ (S : List Nat) (I : Nat) (pos : Position) (pr : Int), S.drop I = rest →
          ∃ (p P : Position) (q : Int),
            Lex T ⟨pos, ⟨S, I, pr⟩⟩ = .ok ((p, t, sym), ⟨P, ⟨S, I + d, q⟩⟩) := by
  have hend : ∃ (t : Token) (sym : List Nat) (d : Nat), d ≤ ([] : List Nat).length ∧
      (t ≠ EOF → 0 < d) ∧
      ∀ (S : List Nat) (I : Nat) (pos : Position) (pr : Int), S.drop I = [] →
        ∃ (p P : Position) (q : Int),
          Lex T ⟨pos, ⟨S, I, pr⟩⟩ = .ok ((p, t, sym), ⟨P, ⟨S, I + d, q⟩⟩) := by
    refine ⟨EOF, [10], 0, le_refl _, fun h => absurd rfl h, ?_⟩
    intro S I pos pr hd
    exact ⟨pos, pos, -1, Lex_at_end T ⟨pos, ⟨S, I, pr⟩⟩ (drop_nil_length S I hd)⟩
  intro n
  induction n with
  | zero =>
    intro rest hn
    have : rest = [] := List.length_eq_zero.mp (Nat.le_zero.mp hn)
    subst this
    exact hend
  | succ n ih =>
    intro rest hn
    cases rest with
    | nil => exact hend
    | cons b bs =>
      obtain ⟨v, sz, hdec⟩ : ∃ v sz, DecodeRuneInString (b :: bs) = (v, sz) := ⟨_, _, rfl⟩
      have hsz := (ReadRune_drop (b :: bs) 0 (-1) b bs rfl).2
      rw [hdec] at hsz
      simp only [] at hsz
      obtain ⟨hsz1, hsz2, _⟩ := hsz
      -- what `ReadRune` does in every reader whose rest is `b :: bs`
      have hread : ∀ (S : List Nat) (I : Nat) (pr : Int), S.drop I = b :: bs →
          Reader.ReadRune ⟨S, I, pr⟩ = (.ok (v, sz), ⟨S, I + sz, (I : Int)⟩) ∧
            S.drop (I + sz) = (b :: bs).drop sz ∧ 0 < S.length := by
        intro S I pr hd
        obtain ⟨hrr, _, _, hdd⟩ := ReadRune_drop S I pr b bs hd
        rw [hdec] at hrr hdd
        refine ⟨hrr, hdd, ?_⟩
        have := (drop_decompose S I b bs hd).1
        rw [this]
        simp
      -- a branch that goes on scanning `d0` bytes further
      have hcont : ∀ d0, 1 ≤ d0 → d0 ≤ (b :: bs).length →
          (∀ (S : List Nat) (I : Nat) (pos : Position) (pr : Int), S.drop I = b :: bs →
            ∃ (pos1 : Position) (q1 : Int),
              Lex T ⟨pos, ⟨S, I, pr⟩⟩ = Lex T ⟨pos1, ⟨S, I + d0, q1⟩⟩) →
          ∃ (t : Token) (sym : List Nat) (d : Nat), d ≤ (b :: bs).length ∧
            (t ≠ EOF → 0 < d) ∧
            ∀ (S : List Nat) (I : Nat) (pos : Position) (pr : Int), S.drop I = b :: bs →
              ∃ (p P : Position) (q : Int),
                Lex T ⟨pos, ⟨S, I, pr⟩⟩ = .ok ((p, t, sym), ⟨P, ⟨S, I + d, q⟩⟩) := by
        intro d0 h1 h2 hstep
        have hdl : ((b :: bs).drop d0).length = (b :: bs).length - d0 := List.length_drop _ _
        simp only [List.length_cons] at hn h2 hdl
        obtain ⟨t, sym, d, hd1, hd2, hall⟩ := ih ((b :: bs).drop d0) (by omega)
        refine ⟨t, sym, d0 + d, by simp only [List.length_cons]; omega, fun _ => by omega, ?_⟩
        intro S I pos pr hd
        obtain ⟨pos1, q1, e⟩ := hstep S I pos pr hd
        obtain ⟨p, P, q, e2⟩ := hall S (I + d0) pos1 q1 (by rw [← hd, List.drop_drop, add_comm])
        exact ⟨p, P, q, by rw [e, e2, add_assoc]⟩
      have hloop : ∀ (S : List Nat) (I d0 : Nat) (pos1 : Position) (q1 : Int), 0 < S.length →
          1 ≤ d0 → lexLoop T S.length ⟨pos1, ⟨S, I + d0, q1⟩⟩ = Lex T ⟨pos1, ⟨S, I + d0, q1⟩⟩ :=
        fun S I d0 pos1 q1 h0 h1 => lexLoop_eq_Lex T _ _ (by simp only []; omega)
      by_cases h10 : v = 10
      · refine hcont sz hsz1 hsz2 ?_
        intro S I pos pr hd
        obtain ⟨hrr, _, h0⟩ := hread S I pr hd
        refine ⟨⟨pos.Line + 1, 0⟩, (I : Int), ?_⟩
        rw [← hloop S I sz _ _ h0 hsz1]
        simp only [Lex, lexLoop, hrr, h10, if_true, resetPosition]
      by_cases h35 : v = 35
      · have hdl : ((b :: bs).drop sz).length = (b :: bs).length - sz := List.length_drop _ _
        obtain ⟨w, dc, hdc, hw⟩ := lexToken_suffix commentFunction (fun v => decide (v ≠ 10))
          (fun r v => rfl) _ ((b :: bs).drop sz) (le_refl _)
        refine hcont (sz + dc) (by omega) (by omega) ?_
        intro S I pos pr hd
        obtain ⟨hrr, hdd, h0⟩ := hread S I pr hd
        obtain ⟨k, q, hk⟩ := hw S (I + sz) ⟨pos.Line, pos.Column + 1⟩ (I : Int) []
          (S.length + 1) hdd (by
            have := congrArg List.length hdd
            rw [List.length_drop] at this
            omega)
        refine ⟨⟨pos.Line, pos.Column + 1 + k⟩, q, ?_⟩
        rw [← hloop S I (sz + dc) _ _ h0 (by omega)]
        subst h35
        simp only [Lex, lexLoop, hrr, show ¬ ((35 : Nat) = 10) from by decide, if_true, if_false]
        rw [hk]
        simp only [add_assoc]
      by_cases hcmd : v = 62 ∨ v = 60 ∨ v = 43 ∨ v = 45 ∨ v = 46 ∨ v = 44 ∨ v = 91 ∨ v = 93
      · refine ⟨(tokensIndex [v]).getD 0, [v], sz, hsz2, fun _ => by omega, ?_⟩
        intro S I pos pr hd
        obtain ⟨hrr, _, _⟩ := hread S I pr hd
        refine ⟨⟨pos.Line, pos.Column + 1⟩, ⟨pos.Line, pos.Column + 1⟩, (I : Int), ?_⟩
        simp only [Lex, lexLoop, hrr, h10, h35, hcmd, if_true, if_false]
      cases hsp : IsSpace T v with
      | true =>
        refine hcont sz hsz1 hsz2 ?_
        intro S I pos pr hd
        obtain ⟨hrr, _, h0⟩ := hread S I pr hd
        refine ⟨⟨pos.Line, pos.Column + 1⟩, (I : Int), ?_⟩
        rw [← hloop S I sz _ _ h0 hsz1]
        simp only [Lex, lexLoop, hrr, h10, h35, hcmd, hsp, if_true, if_false]
      | false =>
        cases hdg : IsDigit T v with
        | true =>
          have hdl : ((b :: bs).drop sz).length = (b :: bs).length - sz := List.length_drop _ _
          obtain ⟨w, dd, hdd1, hw⟩ := lexToken_suffix (digitFunction T) (IsDigit T)
            (fun r v => rfl) _ ((b :: bs).drop sz) (le_refl _)
          refine ⟨NUMBER, [v] ++ w, sz + dd, by omega, fun _ => by omega, ?_⟩
          intro S I pos pr hd
          obtain ⟨hrr, hdd, h0⟩ := hread S I pr hd
          have hrr2 := (hread S I (-1) hd).1
          have hlen : ((b :: bs).drop sz).length < S.length := by
            have := congrArg List.length hdd
            rw [List.length_drop] at this
            omega
          obtain ⟨k, q, hk⟩ := hw S (I + sz) ⟨pos.Line, pos.Column + 1 - 1 + 1⟩ (I : Int) [v]
            S.length hdd hlen
          refine ⟨⟨pos.Line, pos.Column + 1 - 1 + 1 + k⟩, ⟨pos.Line, pos.Column + 1 - 1 + 1 + k⟩,
            q, ?_⟩
          simp only [Lex, lexLoop, hrr, h10, h35, hcmd, hsp, hdg, if_true, if_false,
            Bool.false_eq_true]
          rw [backup_after_read _ S (I + sz) I (by omega)]
          simp only []
          rw [lexToken_go (digitFunction T) S.length _ S I (-1) [] v sz hrr2
            (by simp only [digitFunction, hdg])]
          simp only [List.nil_append]
          rw [hk]
          simp only [add_assoc]
        | false =>
          cases hl : IsLetter T v with
          | true =>
            have hwl := wordBytes_le T ((b :: bs).drop sz) ((b :: bs).getD (sz - 1) 0)
            have hdl : ((b :: bs).drop sz).length = (b :: bs).length - sz := List.length_drop _ _
            refine hcont (sz + wordBytes T ((b :: bs).getD (sz - 1) 0) ((b :: bs).drop sz))
              (by omega) (by omega) ?_
            intro S I pos pr hd
            obtain ⟨h1, h2⟩ := drop_decompose S I b bs hd
            obtain ⟨k, hk⟩ := Lex_wordBytes T pos S (S.take I) pr b bs v sz h1 hdec hl hsp hdg
            rw [h2, add_assoc] at hk
            exact ⟨_, _, hk⟩
          | false =>
            refine hcont sz hsz1 hsz2 ?_
            intro S I pos pr hd
            obtain ⟨hrr, _, h0⟩ := hread S I pr hd
            refine ⟨⟨pos.Line, pos.Column + 1⟩, (I : Int), ?_⟩
            rw [← hloop S I sz _ _ h0 hsz1]
            simp only [Lex, lexLoop, hrr, h10, h35, hcmd, hsp, hdg, hl, if_true, if_false,
              Bool.false_eq_true]

/-- The kinds and the literals of the tokens that `Lex` returns up to the end of
input depend on the rest of the input only. -/
theorem lexAll_suffix (T : RangeTables) :
    ∀ (n : Nat) (rest : List Nat), rest.length ≤ n →
      ∃ ks : List (Token × List Nat),
        ∀ (S : List Nat) (I : Nat) (pos : Position) (pr : Int) (fuel : Nat),
          S.drop I = rest → rest.length < fuel →
          ∃ ts, lexAll T fuel ⟨pos, ⟨S, I, pr⟩⟩ = .ok ts ∧ ts.map Tok.kind = ks := by
  have hstop : ∀ (rest : List Nat) (t : Token) (sym : List Nat) (d : Nat), t = EOF →
      (∀ (S : List Nat) (I : Nat) (pos : Position) (pr : Int), S.drop I = rest →
        ∃ (p P : Position) (q : Int),
          Lex T ⟨pos, ⟨S, I, pr⟩⟩ = .ok ((p, t, sym), ⟨P, ⟨S, I + d, q⟩⟩)) →
      ∃ ks : List (Token × List Nat),
        ∀ (S : List Nat) (I : Nat) (pos : Position) (pr : Int) (fuel : Nat),
          S.drop I = rest → rest.length < fuel →
          ∃ ts, lexAll T fuel ⟨pos, ⟨S, I, pr⟩⟩ = .ok ts ∧ ts.map Tok.kind = ks := by
    intro rest t sym d ht hall
    refine ⟨[(t, sym)], ?_⟩
    intro S I pos pr fuel hd hfu
    obtain ⟨fuel, rfl⟩ : ∃ k, fuel = k + 1 := ⟨fuel - 1, by omega⟩
    obtain ⟨p, P, q, hLex⟩ := hall S I pos pr hd
    refine ⟨[(p, t, sym)], ?_, rfl⟩
    simp only [lexAll, hLex, ht, if_true]
  intro n
  induction n with
  | zero =>
    intro rest hn
    obtain ⟨t, sym, d, hd1, hd2, hall⟩ := Lex_suffix T _ rest (le_refl _)
    by_cases ht : t = EOF
    · exact hstop rest t sym d ht hall
    · have := hd2 ht
      omega
  | succ n ih =>
    intro rest hn
    obtain ⟨t, sym, d, hd1, hd2, hall⟩ := Lex_suffix T _ rest (le_refl _)
    by_cases ht : t = EOF
    · exact hstop rest t sym d ht hall
    · have hd0 := hd2 ht
      have hdl : (rest.drop d).length = rest.length - d := List.length_drop _ _
      obtain ⟨ks, hks⟩ := ih (rest.drop d) (by omega)
      refine ⟨(t, sym) :: ks, ?_⟩
      intro S I pos pr fuel hd hfu
      obtain ⟨fuel, rfl⟩ : ∃ k, fuel = k + 1 := ⟨fuel - 1, by omega⟩
      obtain ⟨p, P, q, hLex⟩ := hall S I pos pr hd
      obtain ⟨ts, h1, h2⟩ := hks S (I + d) P q fuel (by rw [← hd, List.drop_drop, add_comm])
        (by omega)
      refine ⟨(p, t, sym) :: ts, ?_, ?_⟩
      · simp only [lexAll, hLex, ht, if_false, h1]
      · simp only [List.map_cons, h2, Tok.kind]

theorem lexAll_congr (T : RangeTables) (fuel : Nat) (L L1 : Lexer) (h : Lex T L = Lex T L1) :
    lexAll T (fuel + 1) L = lexAll T (fuel + 1) L1 := by
  simp only [lexAll, h]

/-- The scanning loop of `Lex` passes over a run of skipped bytes. -/
theorem Lex_skipped (T : RangeTables) (g : List Nat) :
    ∀ (tail S : List Nat) (I : Nat) (pos : Position) (pr : Int), S.drop I = g ++ tail →
      (∀ x ∈ g, skippedByte T x = true) →
      ∃ (pos1 : Position) (q1 : Int),
        Lex T ⟨pos, ⟨S, I, pr⟩⟩ = Lex T ⟨pos1, ⟨S, I + g.length, q1⟩⟩ := by
  induction g with
  | nil =>
    intro tail S I pos pr _ _
    exact ⟨pos, pr, rfl⟩
  | cons c g ih =>
    intro tail S I pos pr hd hg
    have hc := hg c (List.mem_cons_self _ _)
    simp only [skippedByte, Bool.and_eq_true, decide_eq_true_eq, Bool.not_eq_true',
      decide_eq_false_iff_not] at hc
    obtain ⟨⟨⟨⟨⟨h128, h10⟩, h35⟩, hcmd⟩, hdg⟩, hl⟩ := hc
    have hd1 : S.drop I = c :: (g ++ tail) := hd
    obtain ⟨h1, h2⟩ := drop_decompose S I c (g ++ tail) hd1
    have hrr := ReadRune_ascii ⟨S, I, pr⟩ (S.take I) (g ++ tail) c h1 h2.symm h128
    simp only [] at hrr
    have hd2 : S.drop (I + 1) = g ++ tail := by
      rw [← List.drop_drop, hd1]
      rfl
    have h0 : 0 < S.length := by rw [h1]; simp
    obtain ⟨pos1, q1, e⟩ := ih tail S (I + 1) ⟨pos.Line, pos.Column + 1⟩ (I : Int) hd2
      (fun x hx => hg x (List.mem_cons_of_mem _ hx))
    refine ⟨pos1, q1, ?_⟩
    have e3 : I + (c :: g).length = I + 1 + g.length := by
      simp only [List.length_cons]; omega
    rw [e3, ← e,
      ← lexLoop_eq_Lex T ⟨⟨pos.Line, pos.Column + 1⟩, ⟨S, I + 1, (I : Int)⟩⟩ S.length
        (by simp only []; omega)]
    unfold isCommand at hcmd
    cases hsp : IsSpace T c <;>
      simp only [Lex, lexLoop, hrr, h10, h35, hcmd, hsp, hdg, hl, if_true, if_false,
        Bool.false_eq_true]

theorem wordBytes_stop (T : RangeTables) (rest : List Nat) :
    ∀ (p c : Nat) (tail : List Nat), rest.drop (wordBytes T p rest) = c :: tail →
      wordGoesOn T ((p :: rest).getD (wordBytes T p rest) 0) c = false := by
  induction rest with
  | nil => intro p c tail h; simp [wordBytes] at h
  | cons a r ih =>
    intro p c tail h
    cases hg : wordGoesOn T p a with
    | false =>
      simp only [wordBytes, hg, Bool.false_eq_true, if_false, List.drop_zero,
        List.cons.injEq] at h ⊢
      obtain ⟨rfl, _⟩ := h
      simpa using hg
    | true =>
      simp only [wordBytes, hg, if_true, List.drop_succ_cons, List.getD_cons_succ] at h ⊢
      exact ih a c tail h

theorem wordBytes_go (T : RangeTables) (rest : List Nat) :
    ∀ (p j : Nat), j < wordBytes T p rest →
      wordGoesOn T ((p :: rest).getD j 0) (rest.getD j 0) = true := by
  induction rest with
  | nil => intro p j h; simp [wordBytes] at h
  | cons a r ih =>
    intro p j h
    cases hg : wordGoesOn T p a with
    | false => simp [wordBytes, hg] at h
    | true =>
      simp only [wordBytes, hg, if_true] at h
      cases j with
      | zero => simpa using hg
      | succ j =>
        simp only [List.getD_cons_succ]
        exact ih a j (by omega)

theorem wordBytes_ge (T : RangeTables) (rest : List Nat) :
    ∀ (p n : Nat), n ≤ rest.length →
      (∀ j, j < n → rest.getD j 0 ≠ 10 ∧ ¬ isCommand (rest.getD j 0)) →
      n ≤ wordBytes T p rest := by
  induction rest with
  | nil =>
    intro p n hn _
    simp only [List.length_nil] at hn
    omega
  | cons a r ih =>
    intro p n hn h
    cases n with
    | zero => exact Nat.zero_le _
    | succ n =>
      have h0 := h 0 (by omega)
      simp only [List.getD_cons_zero] at h0
      have hg : wordGoesOn T p a = true := by
        simp only [wordGoesOn, h0.2, if_false, decide_eq_true_eq]
        exact h0.1
      simp only [wordBytes, hg, if_true]
      have := ih a n (by simpa using hn) (fun j hj => by
        have := h (j + 1) (by omega)
        simpa using this)
      omega

theorem getD_drop_add (l : List Nat) (a j : Nat) : (l.drop a).getD j 0 = l.getD (a + j) 0 := by
  simp [List.getD_eq_getElem?_getD, List.getElem?_drop]

/-- C11, as amended: a word is more than a run of letters.  For every source
that begins with a letter, the word that `Lex` reads and discards is the first
`wordEnd` bytes of the source: after the letter, word mode goes on over every
byte that is not a newline and not a command character, and over a command
character when the byte before it is a letter of one byte; it ends before the
first newline, before the first command character that does not follow such a
letter, or at the end of input.  Lexing the source gives tokens of the same
kinds and literals as lexing what follows the word; the same holds for lexing
the source from any byte of the word on, when the bytes from there to the end of
the word are bytes that `Lex` passes over (spaces, punctuation other than `#`),
so that there the letters change nothing.  The word holds every beginning of the
source that has no newline and no command character, a run of letters for one.
The range tables are a parameter, so that the letter is no space and no digit is
a hypothesis. -/
theorem word_ends_at_newline_or_command (T : RangeTables) (src : List Nat) (hne : src ≠ [])
    (hl : IsLetter T (DecodeRuneInString src).1 = true)
    (hsp : IsSpace T (DecodeRuneInString src).1 = false)
    (hdg : IsDigit T (DecodeRuneInString src).1 = false) :
    (∃ ts1 ts2, tokens T src = .ok ts1 ∧ tokens T (src.drop (wordEnd T src)) = .ok ts2 ∧
        ts1.map Tok.kind = ts2.map Tok.kind ∧
        ∀ m, m ≤ wordEnd T src →
          (∀ x ∈ (src.drop m).take (wordEnd T src - m), skippedByte T x = true) →
          ∃ ts3, tokens T (src.drop m) = .ok ts3 ∧ ts3.map Tok.kind = ts1.map Tok.kind) ∧
      (DecodeRuneInString src).2 ≤ wordEnd T src ∧ wordEnd T src ≤ src.length ∧
      (∀ n, n ≤ src.length → (∀ j, j < n → src.getD j 0 ≠ 10 ∧ ¬ isCommand (src.getD j 0)) →
        n ≤ wordEnd T src) ∧
      (∀ j, (DecodeRuneInString src).2 ≤ j → j < wordEnd T src →
        wordGoesOn T (src.getD (j - 1) 0) (src.getD j 0) = true) ∧
      (∀ c tail, src.drop (wordEnd T src) = c :: tail →
        wordGoesOn T (src.getD (wordEnd T src - 1) 0) c = false) := by
  obtain ⟨b, bs, rfl⟩ : ∃ b bs, src = b :: bs := by
    cases src with
    | nil => exact absurd rfl hne
    | cons b bs => exact ⟨b, bs, rfl⟩
  obtain ⟨v, sz, hdec⟩ : ∃ v sz, DecodeRuneInString (b :: bs) = (v, sz) := ⟨_, _, rfl⟩
  have hsz := (ReadRune_drop (b :: bs) 0 (-1) b bs rfl).2
  rw [hdec] at hsz hl hsp hdg
  simp only [] at hsz hl hsp hdg
  obtain ⟨hsz1, hsz2, _⟩ := hsz
  have hwl := wordBytes_le T ((b :: bs).drop sz) ((b :: bs).getD (sz - 1) 0)
  have hdl : ((b :: bs).drop sz).length = (b :: bs).length - sz := List.length_drop _ _
  have he : wordEnd T (b :: bs) =
      sz + wordBytes T ((b :: bs).getD (sz - 1) 0) ((b :: bs).drop sz) := by
    simp only [wordEnd, hdec]
  have hele : wordEnd T (b :: bs) ≤ (b :: bs).length := by rw [he]; omega
  have hdle : ((b :: bs).drop (wordEnd T (b :: bs))).length = (b :: bs).length -
      wordEnd T (b :: bs) := List.length_drop _ _
  have hprev : (b :: bs).drop (sz - 1) = (b :: bs).getD (sz - 1) 0 :: (b :: bs).drop sz := by
    have hlt : sz - 1 < (b :: bs).length := by omega
    rw [List.getD_eq_getElem _ _ hlt, List.drop_eq_getElem_cons hlt]
    congr 2
    omega
  rw [hdec]
  simp only []
  refine ⟨?_, by omega, hele, ?_, ?_, ?_⟩
  · obtain ⟨k, hk⟩ := Lex_wordBytes T ⟨0, 0⟩ (b :: bs) [] (-1) b bs v sz rfl hdec hl hsp hdg
    simp only [List.length_nil, Nat.zero_add] at hk
    rw [← he] at hk
    obtain ⟨ks, hks⟩ := lexAll_suffix T _ ((b :: bs).drop (wordEnd T (b :: bs))) (le_refl _)
    obtain ⟨ts1, h1, k1⟩ := hks (b :: bs) (wordEnd T (b :: bs)) ⟨0, 0 + k⟩ (-1)
      ((b :: bs).length + 1) rfl (by omega)
    obtain ⟨ts2, h2, k2⟩ := hks ((b :: bs).drop (wordEnd T (b :: bs))) 0 ⟨0, 0⟩ (-1)
      (((b :: bs).drop (wordEnd T (b :: bs))).length + 1) rfl (by omega)
    have t1 : tokens T (b :: bs) = .ok ts1 := by
      rw [← h1]
      exact lexAll_congr T _ _ _ hk
    refine ⟨ts1, ts2, t1, h2, k1.trans k2.symm, ?_⟩
    intro m hm hg
    have hsplit : (b :: bs).drop m = ((b :: bs).drop m).take (wordEnd T (b :: bs) - m) ++
        (b :: bs).drop (wordEnd T (b :: bs)) := by
      conv_lhs => rw [← List.take_append_drop (wordEnd T (b :: bs) - m) ((b :: bs).drop m)]
      rw [List.drop_drop]
      congr 2
      omega
    have hgl : (((b :: bs).drop m).take (wordEnd T (b :: bs) - m)).length =
        wordEnd T (b :: bs) - m := by
      rw [List.length_take, List.length_drop]
      omega
    obtain ⟨pos1, q1, e⟩ := Lex_skipped T _ ((b :: bs).drop (wordEnd T (b :: bs)))
      ((b :: bs).drop m) 0 ⟨0, 0⟩ (-1) hsplit hg
    have hdm : ((b :: bs).drop m).length = (b :: bs).length - m := List.length_drop _ _
    obtain ⟨ts3, h3, k3⟩ := hks ((b :: bs).drop m)
      (0 + (((b :: bs).drop m).take (wordEnd T (b :: bs) - m)).length) pos1 q1
      (((b :: bs).drop m).length + 1)
      (by
        rw [zero_add, hgl, List.drop_drop]
        congr 1
        omega)
      (by omega)
    refine ⟨ts3, ?_, k3.trans k1.symm⟩
    rw [← h3]
    exact lexAll_congr T _ _ _ e
  · intro n hn hb
    rw [he]
    by_cases hns : n ≤ sz
    · omega
    · have := wordBytes_ge T ((b :: bs).drop sz) ((b :: bs).getD (sz - 1) 0) (n - sz)
        (by omega) (fun j hj => by
          rw [getD_drop_add]
          exact hb (sz + j) (by omega))
      omega
  · intro j hj1 hj2
    rw [he] at hj2
    have := wordBytes_go T ((b :: bs).drop sz) ((b :: bs).getD (sz - 1) 0) (j - sz) (by omega)
    rw [← hprev, getD_drop_add, getD_drop_add] at this
    rw [show sz - 1 + (j - sz) = j - 1 by omega, show sz + (j - sz) = j by omega] at this
    exact this
  · intro c tail hd
    rw [he] at hd ⊢
    rw [← List.drop_drop] at hd
    have := wordBytes_stop T ((b :: bs).drop sz) ((b :: bs).getD (sz - 1) 0) c tail hd
    rw [← hprev, getD_drop_add] at this
    rw [show sz + wordBytes T ((b :: bs).getD (sz - 1) 0) ((b :: bs).drop sz) - 1 =
      sz - 1 + wordBytes T ((b :: bs).getD (sz - 1) 0) ((b :: bs).drop sz) by omega]
    exact this

/-- Witness of `word_ends_at_newline_or_command`: the source `ab +1`.  The word
is `ab` and the space, three bytes; the `+` ends it, because the byte before it
is no letter; the tokens are `+`, `NUMBER` with the literal `1` and `EOF`, those
of `+1` and also those of the source without `ab`. -/
theorem word_ends_at_newline_or_command_witness :
    (([97, 98, 32, 43, 49] : List Nat) ≠ [] ∧
      IsLetter latin1Tables (DecodeRuneInString [97, 98, 32, 43, 49]).1 = true ∧
      IsSpace latin1Tables (DecodeRuneInString [97, 98, 32, 43, 49]).1 = false ∧
      IsDigit latin1Tables (DecodeRuneInString [97, 98, 32, 43, 49]).1 = false) ∧
      ((∃ ts1 ts2, tokens latin1Tables [97, 98, 32, 43, 49] = .ok ts1 ∧
          tokens latin1Tables
            (([97, 98, 32, 43, 49] : List Nat).drop (wordEnd latin1Tables [97, 98, 32, 43, 49])) =
              .ok ts2 ∧
          ts1.map Tok.kind = ts2.map Tok.kind ∧
          ∀ m, m ≤ wordEnd latin1Tables [97, 98, 32, 43, 49] →
            (∀ x ∈ (([97, 98, 32, 43, 49] : List Nat).drop m).take
                (wordEnd latin1Tables [97, 98, 32, 43, 49] - m),
              skippedByte latin1Tables x = true) →
            ∃ ts3, tokens latin1Tables (([97, 98, 32, 43, 49] : List Nat).drop m) = .ok ts3 ∧
              ts3.map Tok.kind = ts1.map Tok.kind) ∧
        (DecodeRuneInString [97, 98, 32, 43, 49]).2 ≤ wordEnd latin1Tables [97, 98, 32, 43, 49] ∧
        wordEnd latin1Tables [97, 98, 32, 43, 49] ≤ ([97, 98, 32, 43, 49] : List Nat).length ∧
        (∀ n, n ≤ ([97, 98, 32, 43, 49] : List Nat).length →
          (∀ j, j < n → ([97, 98, 32, 43, 49] : List Nat).getD j 0 ≠ 10 ∧
            ¬ isCommand (([97, 98, 32, 43, 49] : List Nat).getD j 0)) →
          n ≤ wordEnd latin1Tables [97, 98, 32, 43, 49]) ∧
        (∀ j, (DecodeRuneInString [97, 98, 32, 43, 49]).2 ≤ j →
          j < wordEnd latin1Tables [97, 98, 32, 43, 49] →
          wordGoesOn latin1Tables (([97, 98, 32, 43, 49] : List Nat).getD (j - 1) 0)
            (([97, 98, 32, 43, 49] : List Nat).getD j 0) = true) ∧
        (∀ c tail,
          ([97, 98, 32, 43, 49] : List Nat).drop (wordEnd latin1Tables [97, 98, 32, 43, 49]) =
            c :: tail →
          wordGoesOn latin1Tables
            (([97, 98, 32, 43, 49] : List Nat).getD
              (wordEnd latin1Tables [97, 98, 32, 43, 49] - 1) 0) c = false)) ∧
      wordEnd latin1Tables [97, 98, 32, 43, 49] = 3 ∧
      (∀ x ∈ (([97, 98, 32, 43, 49] : List Nat).drop 2).take (3 - 2),
        skippedByte latin1Tables x = true) ∧
      tokens latin1Tables [97, 98, 32, 43, 49] =
        .ok [({ Line := 0, Column := 4 }, INCREMENT_CELL, [43]),
          ({ Line := 0, Column := 5 }, NUMBER, [49]), ({ Line := 0, Column := 5 }, EOF, [10])] ∧
      tokens latin1Tables [32, 43, 49] =
        .ok [({ Line := 0, Column := 2 }, INCREMENT_CELL, [43]),
          ({ Line := 0, Column := 3 }, NUMBER, [49]), ({ Line := 0, Column := 3 }, EOF, [10])] ∧
      tokens latin1Tables [43, 49] =
        .ok [({ Line := 0, Column := 1 }, INCREMENT_CELL, [43]),
          ({ Line := 0, Column := 2 }, NUMBER, [49]), ({ Line := 0, Column := 2 }, EOF, [10])] :=
  ⟨⟨by decide, by decide, by decide, by decide⟩,
    word_ends_at_newline_or_command latin1Tables [97, 98, 32, 43, 49] (by decide) (by decide)
      (by decide) (by decide),
    by decide, by decide, by decide, by decide, by decide⟩

end Bf
